import Mathlib

/-!
# MultiContactGraph: a shallow embedding

Verification development for `src/src/MultiContactGraph.cpp`.

* `std::set<int32_t>` is an ascending duplicate-free `List Int` (the order in
  which a `std::set` is iterated).
* `sparse_hash_map<K,V>` is an association list `List (K × V)`; `emplace`
  never overwrites, `erase` drops the key, lookups return the first binding.
* A member function that mutates the graph returns an `Outcome`: the graph it
  leaves behind, also when it throws.
* The `while (not q.empty())` loop of the alt-component search binds references
  to `q.front()` and pops the queue before it reads them. `bfs_loop` is the
  loop with the popped entry held by value; `bfs_loop_ref` is the loop as the
  program runs it, in which the reads go through the references after the
  `std::deque` has freed a block of 64 entries. The two agree while no alts set
  has more than 65 members (`bfs_loop_ref_eq_of_small`). `get_alt_component`,
  `add_alt`, `set_partition` and `Reachable` are built on the first,
  `get_alt_component_ref`, `add_alt_ref`, `set_partition_ref` and
  `Reachable_ref` on the second. Both loops run with `bfs_fuel`, a bound that is
  proved never to be reached.
* Scores are `double` in the source. The contribution of an edge is an integer
  that a `double` holds exactly; a sum of contributions is accumulated with
  `double_add`, which rounds to the nearest `double`, ties to even.
* `get_max_id` returns the signed field `max_id` as a `size_t`.
* A loop over a hash map runs over the association list in list order; where
  the order could matter the statement is made for every order.
* `std::sort` is a parameter of `for_each_edge_in_order_of_weight`, constrained
  by its contract `SortsBy`; `insertion_sort` is one function that meets it.
* The single-alt `ContactGraph` of `src/src/ContactGraph.cpp` is modelled next
  to `MultiContactGraph`, with the member functions its properties need.
* The random search takes the values of `uniform_distribution(rng)` from a
  function `uniform : Nat → Nat`, the `k`-th value drawn.
* A file is the list of its characters. The lookups of `IncrementalIdMap`, the
  parser `std::stoi` and the formatting of an integer by `operator<<` are
  parameters of the CSV functions.
* The steps of `main` in `src/src/executable/solve_maxcut.cpp` that prepare the
  graph are `solve_maxcut_prepare`.
-/

namespace gfase

/-! ## Containers -/

/-- Insertion into a `std::set<int32_t>` (`emplace`/`insert`). -/
def set_emplace (x : Int) : List Int → List Int
  | [] => [x]
  | y :: ys =>
    if x < y then x :: y :: ys
    else if x = y then y :: ys
    else y :: set_emplace x ys

/-- Removal from a `std::set<int32_t>` (`erase` by value). -/
def set_erase (x : Int) (s : List Int) : List Int :=
  s.filter (fun y => decide (y ≠ x))

/-- The output of `std::set_intersection` on two sets. -/
def set_intersection (a b : List Int) : List Int :=
  a.filter (fun x => decide (x ∈ b))

/-- The set filled by `std::set_union` through a `std::inserter`. -/
def set_union (a b : List Int) : List Int :=
  (a ++ b).foldl (fun s x => set_emplace x s) []

/-- Lookup in a hash map (`find` / `count` / `at`). -/
def map_find {K V : Type} [DecidableEq K] (k : K) : List (K × V) → Option V
  | [] => none
  | (k', v) :: m => if k' = k then some v else map_find k m

/-- Insertion into a hash map that keeps an existing binding (`emplace`). -/
def map_emplace {K V : Type} [DecidableEq K] (k : K) (v : V) (m : List (K × V)) :
    List (K × V) :=
  match map_find k m with
  | some _ => m
  | none => m ++ [(k, v)]

/-- Removal of a key from a hash map (`erase`). -/
def map_erase {K V : Type} [DecidableEq K] (k : K) (m : List (K × V)) : List (K × V) :=
  m.filter (fun p => decide (p.1 ≠ k))

/-- In-place update of the value bound to a key (writes through a reference
obtained from `at` or `find`). -/
def map_update {K V : Type} [DecidableEq K] (k : K) (f : V → V) (m : List (K × V)) :
    List (K × V) :=
  m.map (fun p => if p.1 = k then (p.1, f p.2) else p)

/-- Two's complement wrap of an integer to `bits` bits. -/
def wrap (bits : Nat) (x : Int) : Int :=
  (x + 2 ^ (bits - 1)) % 2 ^ bits - 2 ^ (bits - 1)

/-! ## Data model -/

/-- The pair of sides of an alt component. -/
abbrev alt_component_t := List Int × List Int

/-- Payload of the non-bipartite failure. -/
structure NonBipartiteEdgeException where
  component_a : alt_component_t
  component_b : alt_component_t
  a : Int
  b : Int
  conflicts_0 : List Int
  conflicts_1 : List Int
deriving DecidableEq, Repr

/-- The throw sites of `MultiContactGraph.cpp`, `ContactGraph.cpp` and
`solve_maxcut.cpp`, one constructor per message; `out_of_range` is a failed
`at`, `get_id_failed` and `stoi_failed` are the failures of the two library
calls of the CSV loader. -/
inductive Error where
  | component_non_bipartite
  | nonexistent_id_while_iterating (id : Int)
  | nonexistent_id_while_iterating_side (current_id : Int)
  | add_edge_nonexistent_node (a b : Int)
  | non_bipartite (e : NonBipartiteEdgeException)
  | add_alt_nonexistent_node (a b : Int)
  | add_alt_to_itself (b : Int)
  | update_coverage_nonexistent_node (id : Int)
  | update_length_nonexistent_node (id : Int)
  | neighbors_of_unknown_id (id : Int)
  | neighbor_node_not_found (id : Int)
  | partition_outside_range
  | alt_nodes_in_same_partition (id alt_id : Int)
  | partition_of_nonexistent_node (id : Int)
  | set_partition_unknown_id (id : Int)
  | zero_partition_for_bubble (id : Int)
  | out_of_range
  | too_many_delimiters
  | get_id_failed
  | stoi_failed
  | alt_of_unknown_id (id : Int)
  | no_inter_contig_contacts
deriving DecidableEq, Repr

/-- A node record (`class MultiNode`); `MultiNode(partition)` leaves both sets
empty and zeroes coverage and length. -/
structure MultiNode where
  neighbors : List Int
  coverage : Int
  length : Int
  alts : List Int
  partition : Int
deriving DecidableEq, Repr

/-- The constructor `MultiNode::MultiNode(int8_t partition)`. -/
def MultiNode.mk_partition (partition : Int) : MultiNode :=
  { neighbors := [], coverage := 0, length := 0, alts := [], partition := partition }

/-- The method `MultiNode::has_alt`. -/
def MultiNode.has_alt (n : MultiNode) : Bool := !n.alts.isEmpty

/-- The state of a `MultiContactGraph`. -/
structure MultiContactGraph where
  edge_weights : List ((Int × Int) × Int)
  nodes : List (Int × MultiNode)
  max_id : Int
deriving DecidableEq, Repr

/-- The default constructor `MultiContactGraph()`. -/
def MultiContactGraph.empty : MultiContactGraph :=
  { edge_weights := [], nodes := [], max_id := -1 }

/-- Result of a const member function. -/
inductive Result (α : Type) where
  | ok (v : α)
  | threw (e : Error)
  | out_of_fuel
deriving DecidableEq, Repr

/-- Result of a mutating member function, with the graph it leaves behind. -/
inductive Outcome where
  | returned (g : MultiContactGraph)
  | threw (e : Error) (g : MultiContactGraph)
  | out_of_fuel
deriving DecidableEq, Repr

/-- Sequencing of statements: continue only after a normal return. -/
def Outcome.andThen (o : Outcome) (f : MultiContactGraph → Outcome) : Outcome :=
  match o with
  | .returned g => f g
  | .threw e g => .threw e g
  | .out_of_fuel => .out_of_fuel

/-- A range-based `for` loop whose body mutates the graph. -/
def for_each {α : Type} (body : MultiContactGraph → α → Outcome) :
    List α → MultiContactGraph → Outcome
  | [], g => .returned g
  | x :: xs, g => (body g x).andThen (for_each body xs)

/-- The free function `edge(a,b)` of `ContactGraph.cpp`. -/
def edge (a b : Int) : Int × Int := (min a b, max a b)

/-- A write through `nodes.at(id)`: throws `out_of_range` when `id` is absent. -/
def nodes_at (g : MultiContactGraph) (id : Int) (f : MultiNode → MultiNode) : Outcome :=
  match map_find id g.nodes with
  | none => .threw .out_of_range g
  | some _ => .returned { g with nodes := map_update id f g.nodes }

/-! ## Alt components -/

/-- The method `MultiContactGraph::assert_component_is_valid`. -/
def assert_component_is_valid (component : alt_component_t) : Result Unit :=
  if (set_intersection component.1 component.2).isEmpty then .ok ()
  else .threw .component_non_bipartite

/-- The `while (not q.empty())` loop of `get_alt_component`, unrolled at most
`fuel` times: the front entry is read and popped, the node is put on the side
of its parity, and its alts that are on neither side yet are enqueued (also
when they are already waiting in the queue). `id` is the start node, named by
the error message. The popped entry is held by value here: `current_id` and
`distance` are what the entry held when it was popped. The source binds them
as references to `q.front()` and pops before it reads them; `bfs_loop_ref` is
the loop with the reads through these references. -/
def bfs_loop (nodes : List (Int × MultiNode)) (id : Int) :
    Nat → List (Int × Nat) → alt_component_t → Result alt_component_t
  | _, [], component => .ok component
  | 0, _ :: _, _ => .out_of_fuel
  | fuel + 1, (current_id, distance) :: q, component =>
    match map_find current_id nodes with
    | none => .threw (.nonexistent_id_while_iterating id)
    | some node =>
      let component1 : alt_component_t :=
        if distance % 2 = 0 then (set_emplace current_id component.1, component.2)
        else (component.1, set_emplace current_id component.2)
      let unseen := node.alts.filter
        (fun alt_id => !(decide (alt_id ∈ component1.1) || decide (alt_id ∈ component1.2)))
      bfs_loop nodes id fuel (q ++ unseen.map (fun alt_id => (alt_id, distance + 1))) component1

/-- Number of loop iterations granted to the search; `bfs_loop` never uses
them up (see `bfs_loop_fuel_sufficient`). -/
def bfs_fuel (nodes : List (Int × MultiNode)) : Nat :=
  ((nodes.map (fun p => p.2.alts.length)).sum + 1) ^ (2 * nodes.length) + 1

/-- The method `MultiContactGraph::get_alt_component` with the loop `bfs_loop`,
in which the popped entry is held by value; `get_alt_component_ref` is the
method as the program runs it. -/
def get_alt_component (g : MultiContactGraph) (id : Int) (validate : Bool) :
    Result alt_component_t :=
  match bfs_loop g.nodes id (bfs_fuel g.nodes) [(id, 0)] ([], []) with
  | .ok component =>
    if validate then
      match assert_component_is_valid component with
      | .ok _ => .ok component
      | .threw e => .threw e
      | .out_of_fuel => .out_of_fuel
    else .ok component
  | .threw e => .threw e
  | .out_of_fuel => .out_of_fuel

/-! ## Nodes and edges -/

/-- The method `MultiContactGraph::has_node`. -/
def has_node (g : MultiContactGraph) (id : Int) : Bool :=
  (map_find id g.nodes).isSome

/-- The method `MultiContactGraph::insert_edge` (private). -/
def insert_edge (g : MultiContactGraph) (a b weight : Int) : Outcome :=
  (nodes_at { g with edge_weights := map_emplace (edge a b) weight g.edge_weights } a
      (fun n => { n with neighbors := set_emplace b n.neighbors })).andThen
    (fun g1 => nodes_at g1 b (fun n => { n with neighbors := set_emplace a n.neighbors }))

/-- The method `MultiContactGraph::try_insert_edge(a, b, weight)`. -/
def try_insert_edge (g : MultiContactGraph) (a b weight : Int) : Outcome :=
  if (map_find a g.nodes).isNone || (map_find b g.nodes).isNone then
    .threw (.add_edge_nonexistent_node a b) g
  else
    match map_find (edge a b) g.edge_weights with
    | none => insert_edge g a b weight
    | some _ => .returned g

/-- The method `MultiContactGraph::try_insert_edge(a, b)`. -/
def try_insert_edge2 (g : MultiContactGraph) (a b : Int) : Outcome :=
  if (map_find a g.nodes).isNone || (map_find b g.nodes).isNone then
    .threw (.add_edge_nonexistent_node a b) g
  else
    match map_find (edge a b) g.edge_weights with
    | none => insert_edge g a b 0
    | some _ => .returned g

/-- The method `MultiContactGraph::get_edge_weight`. -/
def get_edge_weight (g : MultiContactGraph) (a b : Int) : Int :=
  match map_find (edge a b) g.edge_weights with
  | some weight => weight
  | none => 0

/-- The method `MultiContactGraph::increment_edge_weight`; the sum is a 32-bit
value. -/
def increment_edge_weight (g : MultiContactGraph) (a b value : Int) : Outcome :=
  if (map_find a g.nodes).isNone || (map_find b g.nodes).isNone then
    .threw (.add_edge_nonexistent_node a b) g
  else
    match map_find (edge a b) g.edge_weights with
    | some _ =>
      .returned { g with
        edge_weights := map_update (edge a b) (fun w => wrap 32 (w + value)) g.edge_weights }
    | none => .returned g

/-- The method `MultiContactGraph::increment_coverage`; the sum is a 64-bit
value. -/
def increment_coverage (g : MultiContactGraph) (id value : Int) : Outcome :=
  if (map_find id g.nodes).isNone then .threw (.update_coverage_nonexistent_node id) g
  else nodes_at g id (fun n => { n with coverage := wrap 64 (n.coverage + value) })

/-- The method `MultiContactGraph::set_node_coverage`. -/
def set_node_coverage (g : MultiContactGraph) (id value : Int) : Outcome :=
  if (map_find id g.nodes).isNone then .threw (.update_coverage_nonexistent_node id) g
  else nodes_at g id (fun n => { n with coverage := value })

/-- The method `MultiContactGraph::set_node_length`. -/
def set_node_length (g : MultiContactGraph) (id length : Int) : Outcome :=
  if (map_find id g.nodes).isNone then .threw (.update_length_nonexistent_node id) g
  else nodes_at g id (fun n => { n with length := length })

/-- The method `MultiContactGraph::remove_edge`. -/
def remove_edge (g : MultiContactGraph) (a b : Int) : Outcome :=
  match map_find (edge a b) g.edge_weights with
  | some _ =>
    (nodes_at { g with edge_weights := map_erase (edge a b) g.edge_weights } a
        (fun n => { n with neighbors := set_erase b n.neighbors })).andThen
      (fun g1 => nodes_at g1 b (fun n => { n with neighbors := set_erase a n.neighbors }))
  | none => .returned g

/-- The neighbours handed to the visitor of
`MultiContactGraph::for_each_node_neighbor(id, f)`, in visiting order. -/
def visit_neighbors (g : MultiContactGraph) (id : Int) :
    List Int → Result (List (Int × MultiNode))
  | [] => .ok []
  | id_other :: rest =>
    match map_find id_other g.nodes with
    | none => .threw (.neighbor_node_not_found id)
    | some node_other =>
      match visit_neighbors g id rest with
      | .ok visited => .ok ((id_other, node_other) :: visited)
      | .threw e => .threw e
      | .out_of_fuel => .out_of_fuel

/-- The method `MultiContactGraph::for_each_node_neighbor` with the visitor
that receives the neighbour's record. -/
def for_each_node_neighbor (g : MultiContactGraph) (id : Int) :
    Result (List (Int × MultiNode)) :=
  match map_find id g.nodes with
  | none => .threw (.neighbors_of_unknown_id id)
  | some node => visit_neighbors g id node.neighbors

/-- Update of `max_id` shared by the four node insertions. -/
def raise_max_id (g : MultiContactGraph) (id : Int) : MultiContactGraph :=
  if id > g.max_id then { g with max_id := id } else g

/-- The method `MultiContactGraph::insert_node(id, partition)`. -/
def insert_node_partition (g : MultiContactGraph) (id partition : Int) : Outcome :=
  if partition < -1 ∨ partition > 1 then .threw .partition_outside_range g
  else
    .returned (raise_max_id
      { g with nodes := map_emplace id (MultiNode.mk_partition partition) g.nodes } id)

/-- The method `MultiContactGraph::insert_node(id)`. -/
def insert_node (g : MultiContactGraph) (id : Int) : Outcome :=
  .returned (raise_max_id
    { g with nodes := map_emplace id (MultiNode.mk_partition 0) g.nodes } id)

/-- The method `MultiContactGraph::try_insert_node(id)`. -/
def try_insert_node (g : MultiContactGraph) (id : Int) : Outcome :=
  .returned (raise_max_id
    (if (map_find id g.nodes).isNone then
      { g with nodes := map_emplace id (MultiNode.mk_partition 0) g.nodes }
     else g) id)

/-- The method `MultiContactGraph::try_insert_node(id, partition)`. -/
def try_insert_node_partition (g : MultiContactGraph) (id partition : Int) : Outcome :=
  .returned (raise_max_id
    (if (map_find id g.nodes).isNone then
      { g with nodes := map_emplace id (MultiNode.mk_partition partition) g.nodes }
     else g) id)

/-- The method `MultiContactGraph::get_max_id`: the signed field `max_id` is
returned as a `size_t`, so the -1 of an empty graph reads as `2 ^ 64 - 1`. -/
def get_max_id (g : MultiContactGraph) : Int := g.max_id % 2 ^ 64

/-! ## Alts -/

/-- The method `MultiContactGraph::components_are_compatible`. -/
def components_are_compatible (component_a component_b : alt_component_t) : Bool :=
  (set_intersection component_a.1 component_b.1).isEmpty
    && (set_intersection component_a.2 component_b.2).isEmpty

/-- The method `MultiContactGraph::merge_components`. -/
def merge_components (component_a component_b : alt_component_t) : alt_component_t :=
  (set_union component_a.1 component_b.2, set_union component_a.2 component_b.1)

/-- The constructor `NonBipartiteEdgeException(c_a, c_b, a, b)`. -/
def NonBipartiteEdgeException.make (c_a c_b : alt_component_t) (a b : Int) :
    NonBipartiteEdgeException :=
  { component_a := c_a, component_b := c_b, a := a, b := b,
    conflicts_0 := set_intersection c_a.1 c_b.1,
    conflicts_1 := set_intersection c_a.2 c_b.2 }

/-- The nested loops `for i < size, for j in i+1 .. size: remove_edge` of
`add_alt(component, component, remove_weights)`. -/
def remove_component_edges : List Int → MultiContactGraph → Outcome
  | [], g => .returned g
  | id_a :: rest, g =>
    (for_each (fun g1 id_b => remove_edge g1 id_a id_b) rest g).andThen
      (remove_component_edges rest)

/-- Body of the inner loop of `add_alt(component, component, remove_weights)`:
`node_b` is fetched with `at`, then the two alts sets and the two partitions
are written in the order of the source. -/
def link_alts (g : MultiContactGraph) (id_a id_b : Int) : Outcome :=
  match map_find id_b g.nodes with
  | none => .threw .out_of_range g
  | some _ =>
    let n1 := map_update id_a (fun n => { n with alts := set_emplace id_b n.alts }) g.nodes
    let n2 := map_update id_b (fun n => { n with alts := set_emplace id_a n.alts }) n1
    let n3 := map_update id_a (fun n => { n with partition := 1 }) n2
    let n4 := map_update id_b (fun n => { n with partition := -1 }) n3
    .returned { g with nodes := n4 }

/-- The method `MultiContactGraph::add_alt(component_a, component_b,
remove_weights)`. -/
def add_alt_components (g : MultiContactGraph) (a b : alt_component_t)
    (remove_weights : Bool) : Outcome :=
  if components_are_compatible a b then
    let merged_component := merge_components a b
    let id_list := merged_component.1 ++ merged_component.2
    (if remove_weights then remove_component_edges id_list g else .returned g).andThen
      (for_each
        (fun g1 id_a =>
          match map_find id_a g1.nodes with
          | none => .threw .out_of_range g1
          | some _ => for_each (fun g2 id_b => link_alts g2 id_a id_b) merged_component.2 g1)
        merged_component.1)
  else
    .threw (.non_bipartite (NonBipartiteEdgeException.make a b (-1) (-1))) g

/-- The method `MultiContactGraph::add_alt(a, b)`. It calls the component
overload with two arguments; the default of `remove_weights` is declared in a
header that is not part of the sources, so it is the parameter
`remove_weights`. The two components come from `get_alt_component`, the search
with the popped entry held by value; `add_alt_ref` takes them from the search
the program runs. -/
def add_alt (remove_weights : Bool) (g : MultiContactGraph) (a b : Int) : Outcome :=
  match map_find a g.nodes, map_find b g.nodes with
  | some node_a, some _ =>
    if a = b then .threw (.add_alt_to_itself b) g
    else if b ∈ node_a.alts then .returned g
    else
      match get_alt_component g a false with
      | .ok component_a =>
        match get_alt_component g b false with
        | .ok component_b => add_alt_components g component_a component_b remove_weights
        | .threw e => .threw e g
        | .out_of_fuel => .out_of_fuel
      | .threw e => .threw e g
      | .out_of_fuel => .out_of_fuel
  | _, _ => .threw (.add_alt_nonexistent_node a b) g

/-! ## Partitions and node removal -/

/-- The method `MultiContactGraph::set_partition(id, partition)`. The label is
stored before the zero check and before the component is computed. The
component comes from `get_alt_component`, the search with the popped entry
held by value; `set_partition_ref` takes it from the search the program
runs. -/
def set_partition (g : MultiContactGraph) (id partition : Int) : Outcome :=
  match map_find id g.nodes with
  | none => .threw (.set_partition_unknown_id id) g
  | some node =>
    let g1 : MultiContactGraph :=
      { g with nodes := map_update id (fun n => { n with partition := partition }) g.nodes }
    if node.has_alt then
      if partition = 0 then .threw (.zero_partition_for_bubble id) g1
      else
        match get_alt_component g1 id false with
        | .ok component =>
          (for_each
              (fun g2 alt_id => nodes_at g2 alt_id
                (fun n => { n with partition := wrap 8 (partition * -1) }))
              component.2 g1).andThen
            (for_each
              (fun g2 alt_id => nodes_at g2 alt_id (fun n => { n with partition := partition }))
              component.1)
        | .threw e => .threw e g1
        | .out_of_fuel => .out_of_fuel
    else .returned g1

/-- The loop of `remove_node` that looks for a larger id than `max_id`. -/
def rescan_max_id (g : MultiContactGraph) : MultiContactGraph :=
  { g with max_id := g.nodes.foldl (fun m p => if p.1 > m then p.1 else m) g.max_id }

/-- The method `MultiContactGraph::remove_node`. The loop over `n.alts` runs
over the alts the node has when the loop starts. -/
def remove_node (g : MultiContactGraph) (id : Int) : Outcome :=
  match for_each_node_neighbor g id with
  | .threw e => .threw e g
  | .out_of_fuel => .out_of_fuel
  | .ok visited =>
    let to_be_removed := visited.map (fun v => edge id v.1)
    (for_each (fun g1 e => remove_edge g1 e.1 e.2) to_be_removed g).andThen (fun g1 =>
      match map_find id g1.nodes with
      | none => .threw .out_of_range g1
      | some n =>
        (if n.has_alt then
          for_each
            (fun g2 alt_id => nodes_at g2 alt_id (fun m => { m with alts := set_erase id m.alts }))
            n.alts g1
         else .returned g1).andThen (fun g2 =>
          let g3 : MultiContactGraph := { g2 with nodes := map_erase id g2.nodes }
          .returned (if id = g3.max_id then rescan_max_id g3 else g3)))

/-! ## Specification vocabulary -/

/-- The alts set of a node; empty for an absent node. -/
def alts_of (g : MultiContactGraph) (id : Int) : List Int :=
  match map_find id g.nodes with
  | some n => n.alts
  | none => []

/-- The neighbour set of a node; empty for an absent node. -/
def neighbors_of (g : MultiContactGraph) (id : Int) : List Int :=
  match map_find id g.nodes with
  | some n => n.neighbors
  | none => []

/-- The partition label of a node, if the node is present. -/
def partition_of (g : MultiContactGraph) (id : Int) : Option Int :=
  (map_find id g.nodes).map (fun n => n.partition)

/-- The edge key `e` is stored in the edge-weight map. -/
def edge_stored (g : MultiContactGraph) (e : Int × Int) : Prop :=
  (map_find e g.edge_weights).isSome = true

/-- Two nodes are joined by a chain of alt relations. -/
def same_alt_component (g : MultiContactGraph) (a b : Int) : Prop :=
  Relation.ReflTransGen (fun x y => y ∈ alts_of g x) a b

/-- The nodes on the side of `id` in a graph whose alt components are
complete bipartite: `id` itself and the alts of its alts. -/
def on_side_of (g : MultiContactGraph) (id x : Int) : Prop :=
  x = id ∨ ∃ y, y ∈ alts_of g id ∧ x ∈ alts_of g y

/-- Structural invariants of a `MultiContactGraph`. -/
structure WellFormed (g : MultiContactGraph) : Prop where
  alts_symm : ∀ a b, b ∈ alts_of g a → a ∈ alts_of g b
  alts_irrefl : ∀ a, a ∉ alts_of g a
  alts_complete : ∀ a b c, b ∈ alts_of g a → c ∈ alts_of g b →
    ∀ d, d ∈ alts_of g a → d ∈ alts_of g c
  alts_sorted : ∀ a, (alts_of g a).Sorted (· < ·)
  edge_canonical : ∀ e, edge_stored g e → e.1 ≤ e.2
  edge_neighbors : ∀ a b, edge_stored g (edge a b) ↔ b ∈ neighbors_of g a

/-- Graphs built from the empty graph by public member functions that
returned normally, with `add_alt` and `set_partition` over the search that
holds the popped entry by value; `Reachable_ref` is the same with the two as
the program runs them. -/
inductive Reachable : MultiContactGraph → Prop where
  | empty : Reachable MultiContactGraph.empty
  | insert_node {g g1 : MultiContactGraph} (id : Int) :
      Reachable g → insert_node g id = .returned g1 → Reachable g1
  | insert_node_partition {g g1 : MultiContactGraph} (id p : Int) :
      Reachable g → insert_node_partition g id p = .returned g1 → Reachable g1
  | try_insert_node {g g1 : MultiContactGraph} (id : Int) :
      Reachable g → try_insert_node g id = .returned g1 → Reachable g1
  | try_insert_node_partition {g g1 : MultiContactGraph} (id p : Int) :
      Reachable g → try_insert_node_partition g id p = .returned g1 → Reachable g1
  | try_insert_edge {g g1 : MultiContactGraph} (a b w : Int) :
      Reachable g → try_insert_edge g a b w = .returned g1 → Reachable g1
  | try_insert_edge2 {g g1 : MultiContactGraph} (a b : Int) :
      Reachable g → try_insert_edge2 g a b = .returned g1 → Reachable g1
  | increment_edge_weight {g g1 : MultiContactGraph} (a b v : Int) :
      Reachable g → increment_edge_weight g a b v = .returned g1 → Reachable g1
  | increment_coverage {g g1 : MultiContactGraph} (id v : Int) :
      Reachable g → increment_coverage g id v = .returned g1 → Reachable g1
  | set_node_coverage {g g1 : MultiContactGraph} (id v : Int) :
      Reachable g → set_node_coverage g id v = .returned g1 → Reachable g1
  | set_node_length {g g1 : MultiContactGraph} (id v : Int) :
      Reachable g → set_node_length g id v = .returned g1 → Reachable g1
  | remove_edge {g g1 : MultiContactGraph} (a b : Int) :
      Reachable g → remove_edge g a b = .returned g1 → Reachable g1
  | remove_node {g g1 : MultiContactGraph} (id : Int) :
      Reachable g → remove_node g id = .returned g1 → Reachable g1
  | add_alt {g g1 : MultiContactGraph} (remove_weights : Bool) (a b : Int) :
      Reachable g → add_alt remove_weights g a b = .returned g1 → Reachable g1
  | set_partition {g g1 : MultiContactGraph} (id p : Int) :
      Reachable g → set_partition g id p = .returned g1 → Reachable g1

/-! ### Termination measure of the alt-component search -/

/-- A node is unseen when it is on neither side of the component so far. -/
def unseen (c : alt_component_t) (v : Int) : Bool :=
  !(decide (v ∈ c.1) || decide (v ∈ c.2))

/-- Number of node records whose id is still unseen. -/
def remaining (nodes : List (Int × MultiNode)) (c : alt_component_t) : Nat :=
  nodes.countP (fun p => unseen c p.1)

/-- Total size of the alts sets; bounds what one iteration can enqueue. -/
def alts_total (nodes : List (Int × MultiNode)) : Nat :=
  (nodes.map (fun p => p.2.alts.length)).sum

/-- Weight of a queue entry: an entry for a seen node outweighs everything it
can enqueue, an entry for an unseen node everything that can follow it once
one more node is seen. -/
def entry_weight (nodes : List (Int × MultiNode)) (c : alt_component_t) (v : Int) : Nat :=
  if unseen c v then (alts_total nodes + 1) ^ (2 * remaining nodes c)
  else (alts_total nodes + 1) ^ (2 * remaining nodes c + 1)

/-- The measure that decreases with every iteration of the search. -/
def potential (nodes : List (Int × MultiNode)) (c : alt_component_t)
    (q : List (Int × Nat)) : Nat :=
  (q.map (fun e => entry_weight nodes c e.1)).sum

/-- The component after the node popped at `distance` is put on its side. -/
def placed (c : alt_component_t) (v : Int) (distance : Nat) : alt_component_t :=
  if distance % 2 = 0 then (set_emplace v c.1, c.2) else (c.1, set_emplace v c.2)

/-- The queue entries appended by one iteration of the search. -/
def enqueued (node : MultiNode) (c : alt_component_t) (distance : Nat) : List (Int × Nat) :=
  (node.alts.filter (fun alt_id => unseen c alt_id)).map (fun alt_id => (alt_id, distance + 1))

/-- The graphs `g0` and `g` have the same nodes, alts sets, neighbour sets and
edge map: they differ at most in labels, coverage, length and `max_id`. -/
def same_links (g0 g : MultiContactGraph) : Prop :=
  (∀ x, alts_of g x = alts_of g0 x) ∧ (∀ x, neighbors_of g x = neighbors_of g0 x) ∧
    (∀ x, (map_find x g.nodes).isSome = (map_find x g0.nodes).isSome) ∧
    g.edge_weights = g0.edge_weights

/-- Loop invariant of the alt-component search from `id` in a graph whose
components are complete bipartite. -/
structure SearchInv (g : MultiContactGraph) (id : Int) (q : List (Int × Nat))
    (c : alt_component_t) : Prop where
  first_side : ∀ x, x ∈ c.1 → on_side_of g id x
  second_side : ∀ x, x ∈ c.2 → x ∈ alts_of g id
  queue_side : ∀ v d, (v, d) ∈ q →
    (d % 2 = 0 → on_side_of g id v) ∧ (¬ d % 2 = 0 → v ∈ alts_of g id)
  closed : ∀ v, (v ∈ c.1 ∨ v ∈ c.2) → ∀ y, y ∈ alts_of g v →
    (y ∈ c.1 ∨ y ∈ c.2) ∨ ∃ d, (y, d) ∈ q
  start : (id ∈ c.1 ∨ id ∈ c.2) ∨ ∃ d, (id, d) ∈ q
  first_sorted : c.1.Sorted (· < ·)
  second_sorted : c.2.Sorted (· < ·)

/-- The graph `g1` is `g` after the alt relations `R` (first side, second
side) were written by the inner loop body of `add_alt`: alts sets grew by `R`
in both directions, second-side nodes are labelled `-1`, first-side nodes `+1`,
and nothing else changed. -/
structure Linked (g g1 : MultiContactGraph) (R : Int → Int → Prop) : Prop where
  alts : ∀ x y, y ∈ alts_of g1 x ↔ y ∈ alts_of g x ∨ R x y ∨ R y x
  sorted : (∀ x, (alts_of g x).Sorted (· < ·)) → ∀ x, (alts_of g1 x).Sorted (· < ·)
  neighbors : ∀ x, neighbors_of g1 x = neighbors_of g x
  present : ∀ x, (map_find x g1.nodes).isSome = (map_find x g.nodes).isSome
  edges : g1.edge_weights = g.edge_weights
  max_id : g1.max_id = g.max_id
  second : ∀ x, (∃ y, R y x) → (map_find x g.nodes).isSome = true →
    partition_of g1 x = some (-1)
  first : ∀ x, (∃ y, R x y) → ¬ (∃ y, R y x) → (map_find x g.nodes).isSome = true →
    partition_of g1 x = some 1
  others : ∀ x, ¬ (∃ y, R x y) → ¬ (∃ y, R y x) → partition_of g1 x = partition_of g x

/-- The graph `g1` is a well-formed graph with the nodes, alts sets and labels
of `g`: what a run of `remove_edge` calls preserves. -/
def same_alts (g g1 : MultiContactGraph) : Prop :=
  WellFormed g1 ∧ (∀ x, alts_of g1 x = alts_of g x) ∧
    (∀ x, (map_find x g1.nodes).isSome = (map_find x g.nodes).isSome) ∧
    (∀ x, partition_of g1 x = partition_of g x) ∧ g1.max_id = g.max_id

/-- A node record with the given alts, neighbours and label. -/
def example_node (neighbors alts : List Int) (partition : Int) : MultiNode :=
  { neighbors := neighbors, coverage := 0, length := 0, alts := alts, partition := partition }

/-- Nodes 1, 2, 3, 4 after four calls of `insert_node`. -/
def example_nodes : MultiContactGraph :=
  { edge_weights := [],
    nodes := [(1, example_node [] [] 0), (2, example_node [] [] 0),
      (3, example_node [] [] 0), (4, example_node [] [] 0)],
    max_id := 4 }

/-- The graph `example_nodes` after `add_alt(1, 2)`. -/
def example_pair : MultiContactGraph :=
  { edge_weights := [],
    nodes := [(1, example_node [] [2] 1), (2, example_node [] [1] (-1)),
      (3, example_node [] [] 0), (4, example_node [] [] 0)],
    max_id := 4 }

/-- The graph `example_pair` after `add_alt(3, 4)`. -/
def example_pairs : MultiContactGraph :=
  { edge_weights := [],
    nodes := [(1, example_node [] [2] 1), (2, example_node [] [1] (-1)),
      (3, example_node [] [4] 1), (4, example_node [] [3] (-1))],
    max_id := 4 }

/-- The graph `example_pairs` after `add_alt(2, 3)`: one component with sides
`1, 3` and `2, 4`. -/
def example_merged : MultiContactGraph :=
  { edge_weights := [],
    nodes := [(1, example_node [] [2, 4] (-1)), (2, example_node [] [1, 3] 1),
      (3, example_node [] [2, 4] (-1)), (4, example_node [] [1, 3] 1)],
    max_id := 4 }

/-- The graph `example_merged` after `try_insert_edge` of `(3, 1, 10)`,
`(2, 4, 10)` and the self-loop `(4, 4, 2)`. -/
def example_contacts : MultiContactGraph :=
  { edge_weights := [((1, 3), 10), ((2, 4), 10), ((4, 4), 2)],
    nodes := [(1, example_node [3] [2, 4] (-1)), (2, example_node [4] [1, 3] 1),
      (3, example_node [1] [2, 4] (-1)), (4, example_node [2, 4] [1, 3] 1)],
    max_id := 4 }

/-- The inner loop of `validate_alts` for one node: every alt is fetched with
`at` and must not hold the label of the node. -/
def validate_node_alts (g : MultiContactGraph) (id : Int) (node : MultiNode) :
    List Int → Result Unit
  | [] => .ok ()
  | alt_id :: rest =>
    match map_find alt_id g.nodes with
    | none => .threw .out_of_range
    | some alt =>
      if alt.partition = node.partition then .threw (.alt_nodes_in_same_partition id alt_id)
      else validate_node_alts g id node rest

/-- The outer loop of `validate_alts` over the records of the node map. -/
def validate_alts_loop (g : MultiContactGraph) : List (Int × MultiNode) → Result Unit
  | [] => .ok ()
  | (id, node) :: rest =>
    match (if node.has_alt then validate_node_alts g id node node.alts else .ok ()) with
    | .ok _ => validate_alts_loop g rest
    | .threw e => .threw e
    | .out_of_fuel => .out_of_fuel

/-- The method `MultiContactGraph::validate_alts`. -/
def validate_alts (g : MultiContactGraph) : Result Unit :=
  validate_alts_loop g g.nodes

/-! ### Scores in `double`

The scores of `MultiContactGraph` are `double`s. Every value that occurs is an
integer: a product of two 8-bit labels and a 32-bit weight, or a sum of such
products rounded to a `double`. A `double` holds the integers `m * 2^e` with
`|m| < 2^53`; the sum of two of them is rounded to the nearest such integer,
to the one with the even `m` when two are equally near (IEEE 754 binary64,
round to nearest even, the mode the program runs in). The scores stay far
below the largest finite `double`, which would take more than `2^900` edges
to reach, so no sum becomes infinite. -/

/-- The loop of `double_ulp`: the unit is doubled until `2^53` units exceed the
magnitude `n`. -/
def double_ulp_loop : Nat → Nat → Nat → Nat
  | 0, _, u => u
  | fuel + 1, n, u => if n < 2 ^ 53 * u then u else double_ulp_loop fuel n (2 * u)

/-- The spacing of the `double`s around an integer of magnitude `n`: the least
power of two `u` with `n < 2^53 * u`. The exponent of a finite `double` is
below 1024, which bounds the number of doublings. -/
def double_ulp (n : Nat) : Nat := double_ulp_loop 1024 n 1

/-- The `double` nearest to the integer `z`, ties to the even significand. -/
def round_double (z : Int) : Int :=
  let n := z.natAbs
  let u := double_ulp n
  let q := n / u
  let r := n % u
  let m := if 2 * r < u then q else if u < 2 * r then q + 1 else if q % 2 = 0 then q else q + 1
  if z < 0 then -((m * u : Nat) : Int) else ((m * u : Nat) : Int)

/-- The sum of two `double`s that hold integers, as `score += ...` computes it. -/
def double_add (a b : Int) : Int := round_double (a + b)

/-- The method `MultiContactGraph::get_score(a, b, weight)`. The source
computes `p_a * p_b * double(weight)` in `double`; for 8-bit labels and a
32-bit weight the two products are integers of magnitude at most `2^45`,
which a `double` holds exactly, so the product is the exact integer. -/
def get_score (a b : MultiNode) (weight : Int) : Int :=
  if a.partition ≠ 0 ∧ b.partition ≠ 0 then a.partition * b.partition * weight else 0

/-- The loop of `compute_total_consistency_score` over the edge map, with the
running score, a `double`. -/
def total_score_loop (g : MultiContactGraph) : List ((Int × Int) × Int) → Int → Result Int
  | [], score => .ok score
  | (e, weight) :: rest, score =>
    if e.1 = e.2 then total_score_loop g rest score
    else
      match map_find e.1 g.nodes with
      | none => .threw .out_of_range
      | some a =>
        match map_find e.2 g.nodes with
        | none => .threw .out_of_range
        | some b => total_score_loop g rest (double_add score (get_score a b weight))

/-- The method `MultiContactGraph::compute_total_consistency_score`. -/
def compute_total_consistency_score (g : MultiContactGraph) : Result Int :=
  total_score_loop g g.edge_weights 0

/-- The loop of `for_each_node_neighbor(id, f)` with the visitor of the score
functions: the neighbour's record is fetched, a self edge is skipped, and the
score of the edge, whose weight is fetched with `at`, is added. `n` is the
record the visitor captured for `id`. -/
def neighbor_score_loop (g : MultiContactGraph) (id : Int) (n : MultiNode) :
    List Int → Int → Result Int
  | [], score => .ok score
  | id_other :: rest, score =>
    match map_find id_other g.nodes with
    | none => .threw (.neighbor_node_not_found id)
    | some n_other =>
      if id = id_other then neighbor_score_loop g id n rest score
      else
        match map_find (edge id id_other) g.edge_weights with
        | none => .threw .out_of_range
        | some weight =>
          neighbor_score_loop g id n rest (double_add score (get_score n n_other weight))

/-- The call `for_each_node_neighbor(id, f)` of the score functions. -/
def add_neighbor_scores (g : MultiContactGraph) (id : Int) (n : MultiNode) (score : Int) :
    Result Int :=
  match map_find id g.nodes with
  | none => .threw (.neighbors_of_unknown_id id)
  | some node => neighbor_score_loop g id n node.neighbors score

/-- A loop of the score functions over node ids: each record is fetched with
`at` and the scores of its edges are added. -/
def node_scores_loop (g : MultiContactGraph) : List Int → Int → Result Int
  | [], score => .ok score
  | id :: rest, score =>
    match map_find id g.nodes with
    | none => .threw .out_of_range
    | some n =>
      match add_neighbor_scores g id n score with
      | .ok score1 => node_scores_loop g rest score1
      | .threw e => .threw e
      | .out_of_fuel => .out_of_fuel

/-- The method `MultiContactGraph::compute_consistency_score(id)`: the edges of
`id`, then the edges of every alt of `id`. -/
def compute_consistency_score (g : MultiContactGraph) (id : Int) : Result Int :=
  match map_find id g.nodes with
  | none => .threw .out_of_range
  | some n =>
    match add_neighbor_scores g id n 0 with
    | .ok score => node_scores_loop g n.alts score
    | .threw e => .threw e
    | .out_of_fuel => .out_of_fuel

/-- The loop of `get_alt_components` over the records of the node map, with the
set of visited ids and the components found so far. The components come from
`get_alt_component`, the search with the popped entry held by value;
`alt_components_loop_ref` takes them from the search the program runs. -/
def alt_components_loop (g : MultiContactGraph) :
    List (Int × MultiNode) → List Int → List alt_component_t → Result (List alt_component_t)
  | [], _, alt_components => .ok alt_components
  | (n, _) :: rest, visited, alt_components =>
    if n ∈ visited then alt_components_loop g rest visited alt_components
    else
      match get_alt_component g n false with
      | .ok component =>
        alt_components_loop g rest (visited ++ component.1 ++ component.2)
          (alt_components ++ [component])
      | .threw e => .threw e
      | .out_of_fuel => .out_of_fuel

/-- The method `MultiContactGraph::get_alt_components` over the search with the
popped entry held by value. -/
def get_alt_components (g : MultiContactGraph) : Result (List alt_component_t) :=
  alt_components_loop g g.nodes [] []

/-! ## Specification vocabulary for paths, components and scores -/

/-- A chain of `n` alt relations from `a` to `b`. -/
inductive AltPath (g : MultiContactGraph) : Int → Int → Nat → Prop where
  | nil (a : Int) : AltPath g a a 0
  | snoc {a b c : Int} {n : Nat} : AltPath g a b n → c ∈ alts_of g b → AltPath g a c (n + 1)

/-- The node `x` is on one of the two sides of the component `c`. -/
def in_component (c : alt_component_t) (x : Int) : Prop := x ∈ c.1 ∨ x ∈ c.2

/-- Loop invariant of `get_alt_components`: the visited ids are the members of
the components found so far, every component found is the component of a
present node, and no two components found share a node. -/
structure ComponentsInv (g : MultiContactGraph) (visited : List Int)
    (found : List alt_component_t) : Prop where
  visited_iff : ∀ x, x ∈ visited ↔ ∃ c, c ∈ found ∧ in_component c x
  is_component : ∀ c, c ∈ found →
    ∃ n, (map_find n g.nodes).isSome = true ∧ get_alt_component g n false = .ok c
  disjoint : found.Pairwise (fun c d => ∀ x, in_component c x → ¬ in_component d x)

/-- The contribution of an edge between `a` and `b` of weight `w` in the words
of the specification: 0 when one of the two labels is 0, otherwise the product
of the two labels and the weight (0 for an absent endpoint). -/
def edge_contribution (g : MultiContactGraph) (a b w : Int) : Int :=
  match partition_of g a, partition_of g b with
  | some pa, some pb => if pa = 0 ∨ pb = 0 then 0 else pa * pb * w
  | _, _ => 0

/-- The stored edges that are not self-loops. -/
def proper_edges (g : MultiContactGraph) : List ((Int × Int) × Int) :=
  g.edge_weights.filter (fun e => decide (e.1.1 ≠ e.1.2))

/-- Representation invariants of the two hash maps and of the neighbour sets:
no key is bound twice and every neighbour set is ascending. -/
structure Canonical (g : MultiContactGraph) : Prop where
  nodes_nodup : (g.nodes.map Prod.fst).Nodup
  edges_nodup : (g.edge_weights.map Prod.fst).Nodup
  neighbors_sorted : ∀ k n, (k, n) ∈ g.nodes → n.neighbors.Sorted (· < ·)

/-- The contributions of the edges stored at node `x`, a self-loop left out:
one term for each neighbour of `x` other than `x` itself, in the order of the
neighbour set. -/
def incident_terms (g : MultiContactGraph) (x : Int) : List Int :=
  ((neighbors_of g x).filter (fun y => decide (y ≠ x))).map
    (fun y => edge_contribution g x y (get_edge_weight g x y))

/-- The running sum of the terms in `double`, starting from `score`: every
partial sum is rounded. -/
def double_sum (terms : List Int) (score : Int) : Int :=
  terms.foldl double_add score

/-- The sum of the absolute values of the terms. When it is at most `2^53`,
every partial sum is an integer that a `double` holds exactly. -/
def magnitude (terms : List Int) : Nat :=
  (terms.map Int.natAbs).sum

/-- Two graphs that differ at most in self-loops. -/
structure SameUpToLoops (g g1 : MultiContactGraph) : Prop where
  labels : ∀ x, partition_of g1 x = partition_of g x
  alts : ∀ x, alts_of g1 x = alts_of g x
  neighbors : ∀ x, (neighbors_of g1 x).filter (fun y => decide (y ≠ x)) =
    (neighbors_of g x).filter (fun y => decide (y ≠ x))
  weights : ∀ x y, x ≠ y → get_edge_weight g1 x y = get_edge_weight g x y
  edges : proper_edges g1 = proper_edges g

/-! ## Example graphs for labels and scores -/

/-- The index `node.partition + 1` into the three-entry array `colors` that
`write_bandage_csv` computes for a node. -/
def colors_index (node : MultiNode) : Int := node.partition + 1

/-- Nodes 1, 2, 3 after three calls of `insert_node`. -/
def example_three : MultiContactGraph :=
  { edge_weights := [],
    nodes := [(1, example_node [] [] 0), (2, example_node [] [] 0),
      (3, example_node [] [] 0)],
    max_id := 3 }

/-- The graph `example_three` after `add_alt(1, 2)`. -/
def example_three_pair : MultiContactGraph :=
  { edge_weights := [],
    nodes := [(1, example_node [] [2] 1), (2, example_node [] [1] (-1)),
      (3, example_node [] [] 0)],
    max_id := 3 }

/-- The graph `example_three_pair` after `set_partition(1, -128)`: the 8-bit
negation of `-128` is `-128`, so both alts hold the same label. -/
def example_overflow : MultiContactGraph :=
  { edge_weights := [],
    nodes := [(1, example_node [] [2] (-128)), (2, example_node [] [1] (-128)),
      (3, example_node [] [] 0)],
    max_id := 3 }

/-- The graph `example_overflow` after `set_partition(3, 1)`. -/
def example_overflow_labelled : MultiContactGraph :=
  { edge_weights := [],
    nodes := [(1, example_node [] [2] (-128)), (2, example_node [] [1] (-128)),
      (3, example_node [] [] 1)],
    max_id := 3 }

/-- The graph left behind by the throwing call `set_partition(2, 0)` on
`example_pair`. -/
def example_zero_label : MultiContactGraph :=
  { edge_weights := [],
    nodes := [(1, example_node [] [2] 1), (2, example_node [] [1] 0),
      (3, example_node [] [] 0), (4, example_node [] [] 0)],
    max_id := 4 }

/-- The graph `example_merged` after `try_insert_edge(4, 4, 2)`. -/
def example_self_loop : MultiContactGraph :=
  { edge_weights := [((4, 4), 2)],
    nodes := [(1, example_node [] [2, 4] (-1)), (2, example_node [] [1, 3] 1),
      (3, example_node [] [2, 4] (-1)), (4, example_node [4] [1, 3] 1)],
    max_id := 4 }


/-! ## Component predicates -/

/-- The `while (not q.empty())` loop of `of_same_component_side(id_a, id_b)`,
unrolled at most `fuel` times: the front entry is read and popped; when it is
`id_b` at an even distance the loop breaks with `true`; otherwise the node is
marked visited and its alts that are not visited are enqueued. The popped
entry is held by value here; `of_same_component_side_loop_ref` reads it
through the references of the source. -/
def of_same_component_side_loop (nodes : List (Int × MultiNode)) (id_b : Int) :
    Nat → List (Int × Nat) → List Int → Result Bool
  | _, [], _ => .ok false
  | 0, _ :: _, _ => .out_of_fuel
  | fuel + 1, (current_id, distance) :: q, visited =>
    match map_find current_id nodes with
    | none => .threw (.nonexistent_id_while_iterating_side current_id)
    | some node =>
      if distance % 2 = 0 ∧ current_id = id_b then .ok true
      else
        let visited1 := set_emplace current_id visited
        let unseen := node.alts.filter (fun alt_id => !decide (alt_id ∈ visited1))
        of_same_component_side_loop nodes id_b fuel
          (q ++ unseen.map (fun alt_id => (alt_id, distance + 1))) visited1

/-- The method `MultiContactGraph::of_same_component_side` with the popped
entry held by value. The loop runs with the iterations granted to
`get_alt_component`, which it never uses up (see
`search_until_ne_out_of_fuel`). -/
def of_same_component_side (g : MultiContactGraph) (id_a id_b : Int) : Result Bool :=
  of_same_component_side_loop g.nodes id_b (bfs_fuel g.nodes) [(id_a, 0)] []

/-- The `while (not q.empty())` loop of `of_same_component(id_a, id_b)`: as in
`of_same_component_side`, but the loop breaks with `true` at `id_b` whatever
the distance. The popped entry is held by value here;
`of_same_component_loop_ref` reads it through the references of the source. -/
def of_same_component_loop (nodes : List (Int × MultiNode)) (id_b : Int) :
    Nat → List (Int × Nat) → List Int → Result Bool
  | _, [], _ => .ok false
  | 0, _ :: _, _ => .out_of_fuel
  | fuel + 1, (current_id, distance) :: q, visited =>
    match map_find current_id nodes with
    | none => .threw (.nonexistent_id_while_iterating_side current_id)
    | some node =>
      if current_id = id_b then .ok true
      else
        let visited1 := set_emplace current_id visited
        let unseen := node.alts.filter (fun alt_id => !decide (alt_id ∈ visited1))
        of_same_component_loop nodes id_b fuel
          (q ++ unseen.map (fun alt_id => (alt_id, distance + 1))) visited1

/-- The method `MultiContactGraph::of_same_component` with the popped entry
held by value. -/
def of_same_component (g : MultiContactGraph) (id_a id_b : Int) : Result Bool :=
  of_same_component_loop g.nodes id_b (bfs_fuel g.nodes) [(id_a, 0)] []

/-- The shape the two predicate loops share: a search over alts that breaks
with `true` at the first popped entry that satisfies `stop`. -/
def search_until (nodes : List (Int × MultiNode)) (stop : Int → Nat → Bool) :
    Nat → List (Int × Nat) → List Int → Result Bool
  | _, [], _ => .ok false
  | 0, _ :: _, _ => .out_of_fuel
  | fuel + 1, (current_id, distance) :: q, visited =>
    match map_find current_id nodes with
    | none => .threw (.nonexistent_id_while_iterating_side current_id)
    | some node =>
      if stop current_id distance = true then .ok true
      else
        let visited1 := set_emplace current_id visited
        let unseen := node.alts.filter (fun alt_id => !decide (alt_id ∈ visited1))
        search_until nodes stop fuel
          (q ++ unseen.map (fun alt_id => (alt_id, distance + 1))) visited1

/-! ## Specification vocabulary for edge updates -/

/-- The fields of a node record other than its neighbour set. -/
def MultiNode.other_fields (n : MultiNode) : Int × Int × List Int × Int :=
  (n.coverage, n.length, n.alts, n.partition)

/-- The graph `g1` has the node ids and `max_id` of `g`, and every node keeps
its coverage, length, alts and label: the node store changed at most in
neighbour sets. -/
def same_but_neighbors (g g1 : MultiContactGraph) : Prop :=
  g1.max_id = g.max_id ∧
    ∀ x, (map_find x g1.nodes).map MultiNode.other_fields =
      (map_find x g.nodes).map MultiNode.other_fields

/-! ## Edges in order of weight -/

/-- The comparator that `for_each_edge_in_order_of_weight` hands to `std::sort`:
`a.second > b.second`. -/
def weight_greater (a b : (Int × Int) × Int) : Bool := decide (a.2 > b.2)

/-- The contract of `std::sort(first, last, comp)` for the comparator `comp`:
the result is a rearrangement of the range in which no element is ordered by
`comp` before an element that precedes it. The standard leaves the order of
elements that `comp` does not order unspecified. -/
def SortsBy {α : Type} (std_sort : (α → α → Bool) → List α → List α)
    (comp : α → α → Bool) : Prop :=
  ∀ l, (std_sort comp l).Perm l ∧ (std_sort comp l).Pairwise (fun a b => comp b a = false)

/-- The method `MultiContactGraph::for_each_edge_in_order_of_weight`: the
entries of the edge map are copied in iteration order, sorted by `std::sort`
with `weight_greater`, and handed to the visitor in that order. The library
function is the parameter `std_sort`; the result is the sequence of visits. -/
def for_each_edge_in_order_of_weight
    (std_sort : ((Int × Int) × Int → (Int × Int) × Int → Bool) →
      List ((Int × Int) × Int) → List ((Int × Int) × Int))
    (g : MultiContactGraph) : List ((Int × Int) × Int) :=
  std_sort weight_greater g.edge_weights

/-- Insertion of `x` into a sorted list behind the elements that `comp` orders
before it. -/
def ordered_insert {α : Type} (comp : α → α → Bool) (x : α) : List α → List α
  | [] => [x]
  | y :: ys => if comp y x = true then y :: ordered_insert comp x ys else x :: y :: ys

/-- A sorting function that meets the contract of `std::sort`: insertion sort,
which keeps elements that `comp` does not order in the order of the input. -/
def insertion_sort {α : Type} (comp : α → α → Bool) : List α → List α
  | [] => []
  | x :: xs => ordered_insert comp x (insertion_sort comp xs)

/-- Nodes 1, 2, 3 with the edges `(2, 3)` and `(1, 2)` of weight 5, inserted in
this order. -/
def example_ties : MultiContactGraph :=
  { edge_weights := [((2, 3), 5), ((1, 2), 5)],
    nodes := [(1, example_node [2] [] 0), (2, example_node [1, 3] [] 0),
      (3, example_node [2] [] 0)],
    max_id := 3 }

/-- Nodes 1, 2, 3 with the edges `(1, 2)` and `(2, 3)` of weight 5, inserted in
this order: the edge-weight map of `example_ties` in the other store order. -/
def example_ties_swapped : MultiContactGraph :=
  { edge_weights := [((1, 2), 5), ((2, 3), 5)],
    nodes := [(1, example_node [2] [] 0), (2, example_node [1, 3] [] 0),
      (3, example_node [2] [] 0)],
    max_id := 3 }

/-! ## The single-alt `ContactGraph` -/

/-- A node record (`class Node`) of `ContactGraph.cpp`; `alt` is `-1` when the
node has no alt. -/
structure Node where
  neighbors : List Int
  partition : Int
  alt : Int
deriving DecidableEq, Repr

/-- The constructor `Node::Node(int8_t partition)`. -/
def Node.mk_partition (partition : Int) : Node :=
  { neighbors := [], partition := partition, alt := -1 }

/-- The method `Node::has_alt`. -/
def Node.has_alt (n : Node) : Bool := decide (n.alt ≥ 0)

/-- The state of a `ContactGraph`. -/
structure ContactGraph where
  edge_weights : List ((Int × Int) × Int)
  nodes : List (Int × Node)
deriving DecidableEq, Repr

/-- A `ContactGraph` without nodes and edges. -/
def ContactGraph.empty : ContactGraph := { edge_weights := [], nodes := [] }

/-- How a member function of `ContactGraph` that mutates the graph ends, with
the graph it leaves behind. -/
inductive ContactOutcome where
  | returned (g : ContactGraph)
  | threw (e : Error) (g : ContactGraph)
deriving DecidableEq, Repr

/-- Sequencing of statements: continue only after a normal return. -/
def ContactOutcome.andThen (o : ContactOutcome) (f : ContactGraph → ContactOutcome) :
    ContactOutcome :=
  match o with
  | .returned g => f g
  | .threw e g => .threw e g

/-- A write through `nodes.at(id)` of a `ContactGraph`. -/
def ContactGraph.nodes_at (g : ContactGraph) (id : Int) (f : Node → Node) : ContactOutcome :=
  match map_find id g.nodes with
  | none => .threw .out_of_range g
  | some _ => .returned { g with nodes := map_update id f g.nodes }

/-- The method `ContactGraph::insert_node(id)`. -/
def ContactGraph.insert_node (g : ContactGraph) (id : Int) : ContactOutcome :=
  .returned { g with nodes := map_emplace id (Node.mk_partition 0) g.nodes }

/-- The method `ContactGraph::remove_edge`. -/
def ContactGraph.remove_edge (g : ContactGraph) (a b : Int) : ContactOutcome :=
  match map_find (edge a b) g.edge_weights with
  | some _ =>
    (ContactGraph.nodes_at { g with edge_weights := map_erase (edge a b) g.edge_weights } a
        (fun n => { n with neighbors := set_erase b n.neighbors })).andThen
      (fun g1 => ContactGraph.nodes_at g1 b
        (fun n => { n with neighbors := set_erase a n.neighbors }))
  | none => .returned g

/-- The method `ContactGraph::add_alt`: the edge between the two nodes is
removed, each becomes the alt of the other, and `a` is labelled `-1` and `b`
`+1`. -/
def ContactGraph.add_alt (g : ContactGraph) (a b : Int) : ContactOutcome :=
  if (map_find a g.nodes).isNone || (map_find b g.nodes).isNone then
    .threw (.add_alt_nonexistent_node a b) g
  else
    (ContactGraph.remove_edge g a b).andThen (fun g1 =>
      (ContactGraph.nodes_at g1 a (fun n => { n with alt := b })).andThen (fun g2 =>
        (ContactGraph.nodes_at g2 b (fun n => { n with alt := a })).andThen (fun g3 =>
          (ContactGraph.nodes_at g3 a (fun n => { n with partition := -1 })).andThen
            (fun g4 => ContactGraph.nodes_at g4 b (fun n => { n with partition := 1 })))))

/-- The method `ContactGraph::set_partition(id, partition)`: the label is
stored, and when the node has an alt the label of the alt is multiplied by
`-1` (an 8-bit value). -/
def ContactGraph.set_partition (g : ContactGraph) (id partition : Int) : ContactOutcome :=
  match map_find id g.nodes with
  | none => .threw .out_of_range g
  | some node =>
    let g1 : ContactGraph :=
      { g with nodes := map_update id (fun n => { n with partition := partition }) g.nodes }
    if node.has_alt then
      if partition = 0 then .threw (.zero_partition_for_bubble id) g1
      else
        ContactGraph.nodes_at g1 node.alt
          (fun n => { n with partition := wrap 8 (n.partition * -1) })
    else .returned g1

/-- The label of a node of a `ContactGraph`, if the node is present. -/
def ContactGraph.partition_of (g : ContactGraph) (id : Int) : Option Int :=
  (map_find id g.nodes).map (fun n => n.partition)

/-- The alt of a node of a `ContactGraph`, if the node is present and has one. -/
def ContactGraph.alt_of (g : ContactGraph) (id : Int) : Option Int :=
  match map_find id g.nodes with
  | some n => if n.has_alt then some n.alt else none
  | none => none

/-- Nodes 1 and 2 after `insert_node` twice and `add_alt(1, 2)`. -/
def example_bubble : ContactGraph :=
  { edge_weights := [],
    nodes := [(1, { neighbors := [], partition := -1, alt := 2 }),
      (2, { neighbors := [], partition := 1, alt := 1 })] }

/-! ## The shared best assignment of the search -/

/-- The pair `(best_score, best_partitions)` that the workers of
`random_phase_search` share. -/
structure SharedBest where
  best_score : Int
  best_partitions : List (Int × Int)
deriving DecidableEq, Repr

/-- The statements of `random_phase_search` between `phase_mutex.lock()` and
`phase_mutex.unlock()`, as a step on the shared pair: `total_score` is the
total score of the worker's graph and `current_partitions` is what
`get_partitions` reads from it. The `else` branch writes to the worker's graph
only. -/
def publish_or_reset (s : SharedBest) (total_score : Int)
    (current_partitions : List (Int × Int)) : SharedBest :=
  if total_score > s.best_score then
    { best_score := total_score, best_partitions := current_partitions }
  else s

/-- A sequence of passes through the gate, each with its own total score and
assignment. -/
def gate_run (s : SharedBest) (inputs : List (Int × List (Int × Int))) : SharedBest :=
  inputs.foldl (fun s i => publish_or_reset s i.1 i.2) s

/-! ## Reading and writing all labels -/

/-- The method `MultiContactGraph::get_partitions`. -/
def get_partitions (g : MultiContactGraph) : List (Int × Int) :=
  g.nodes.map (fun p => (p.1, p.2.partition))

/-- The method `MultiContactGraph::set_partitions`. -/
def set_partitions (g : MultiContactGraph) (partitions : List (Int × Int)) : Outcome :=
  for_each (fun g1 p => set_partition g1 p.1 p.2) partitions g

/-- Every label is an 8-bit value, as the type of the field says. -/
def labels_are_int8 (g : MultiContactGraph) : Prop :=
  ∀ x p, partition_of g x = some p → -128 ≤ p ∧ p ≤ 127

/-- Two alts that both hold 8-bit values hold non-zero labels that are the
8-bit negation of each other. -/
def LabelsLinked (g : MultiContactGraph) : Prop :=
  ∀ x y p q, y ∈ alts_of g x → partition_of g x = some p → partition_of g y = some q →
    -128 ≤ p → p ≤ 127 → -128 ≤ q → q ≤ 127 → p ≠ 0 ∧ q = wrap 8 (p * -1)

/-- The graph `example_merged` after `set_partition(1, 1)`: the same nodes and
alts with every label flipped. -/
def example_flipped : MultiContactGraph :=
  { edge_weights := [],
    nodes := [(1, example_node [] [2, 4] 1), (2, example_node [] [1, 3] (-1)),
      (3, example_node [] [2, 4] 1), (4, example_node [] [1, 3] (-1))],
    max_id := 4 }


/-! ## Graphs for the searches, the optimum and the sign flip -/

/-- Every id in an alts set is the id of a node of the graph. -/
def alts_present (g : MultiContactGraph) : Prop :=
  ∀ p ∈ g.nodes, ∀ y ∈ p.2.alts, has_node g y = true

/-- The graph with the partition of every node negated. -/
def negate_partitions (g : MultiContactGraph) : MultiContactGraph :=
  { g with nodes := g.nodes.map (fun p => (p.1, { p.2 with partition := -p.2.partition })) }

/-- The graph of scenario 5: nodes 1 to 4, `add_alt(1, 2)`, `add_alt(3, 4)` and
the edges (1,3,10), (2,4,10), (1,4,1), (2,3,1), with label `p` on node 1, `q`
on node 3 and the opposite labels on their alts. The calls of the scenario
build `example_optimum 1 1`. -/
def example_optimum (p q : Int) : MultiContactGraph :=
  { edge_weights := [((1, 3), 10), ((2, 4), 10), ((1, 4), 1), ((2, 3), 1)],
    nodes := [(1, example_node [3, 4] [2] p), (2, example_node [3, 4] [1] (-p)),
      (3, example_node [1, 2] [4] q), (4, example_node [1, 2] [3] (-q))],
    max_id := 4 }

/-! ## The random search over a `ContactGraph` -/

/-- Result of a const member function of `ContactGraph`. -/
inductive ContactResult (α : Type) where
  | ok (v : α)
  | threw (e : Error)
deriving DecidableEq, Repr

/-- The method `ContactGraph::insert_edge`. -/
def ContactGraph.insert_edge (g : ContactGraph) (a b weight : Int) : ContactOutcome :=
  (ContactGraph.nodes_at { g with edge_weights := map_emplace (edge a b) weight g.edge_weights }
      a (fun n => { n with neighbors := set_emplace b n.neighbors })).andThen
    (fun g1 => ContactGraph.nodes_at g1 b
      (fun n => { n with neighbors := set_emplace a n.neighbors }))

/-- The method `ContactGraph::try_insert_edge(a, b, weight)`. -/
def ContactGraph.try_insert_edge (g : ContactGraph) (a b weight : Int) : ContactOutcome :=
  if (map_find a g.nodes).isNone || (map_find b g.nodes).isNone then
    .threw (.add_edge_nonexistent_node a b) g
  else
    match map_find (edge a b) g.edge_weights with
    | none => ContactGraph.insert_edge g a b weight
    | some _ => .returned g

/-- The method `ContactGraph::has_alt(id)`. -/
def ContactGraph.has_alt (g : ContactGraph) (id : Int) : ContactResult Bool :=
  match map_find id g.nodes with
  | none => .threw .out_of_range
  | some n => .ok n.has_alt

/-- The method `ContactGraph::edge_count(id)`. -/
def ContactGraph.edge_count (g : ContactGraph) (id : Int) : ContactResult Nat :=
  match map_find id g.nodes with
  | none => .threw .out_of_range
  | some n => .ok n.neighbors.length

/-- The method `ContactGraph::size`. -/
def ContactGraph.size (g : ContactGraph) : Nat := g.nodes.length

/-- The method `ContactGraph::get_score(a, b, weight)`: the product of the two
labels and the weight, or half the weight (rounded towards zero) when one of
the labels is 0. The product `p_a * p_b * weight` is computed in `int` (the
8-bit labels are promoted, the weight is an `int32_t`) and only then widened
to the `int64_t` result, so it wraps to 32 bits: for the labels -1 and 1 and
the weight -2^31 it is -2^31 again, not 2^31. -/
def ContactGraph.get_score (a b : Node) (weight : Int) : Int :=
  if a.partition ≠ 0 ∧ b.partition ≠ 0 then wrap 32 (a.partition * b.partition * weight)
  else Int.tdiv weight 2

/-- The loop of `ContactGraph::for_each_node_neighbor(id, f)` with the visitor
of `compute_consistency_score`: the neighbour's record and the weight of the
edge are fetched with `at`, and the score of the edge is added. `n` is the
record the visitor captured for `id`. -/
def ContactGraph.neighbor_score_loop (g : ContactGraph) (id : Int) (n : Node) :
    List Int → Int → ContactResult Int
  | [], score => .ok score
  | id_other :: rest, score =>
    match map_find id_other g.nodes with
    | none => .threw .out_of_range
    | some n_other =>
      match map_find (edge id id_other) g.edge_weights with
      | none => .threw .out_of_range
      | some weight =>
        ContactGraph.neighbor_score_loop g id n rest
          (score + ContactGraph.get_score n n_other weight)

/-- The method `ContactGraph::compute_consistency_score(id)`: the edges of
`id`, then the edges of its alt when it has one. -/
def ContactGraph.compute_consistency_score (g : ContactGraph) (id : Int) : ContactResult Int :=
  match map_find id g.nodes with
  | none => .threw .out_of_range
  | some n =>
    match ContactGraph.neighbor_score_loop g id n n.neighbors 0 with
    | .threw e => .threw e
    | .ok score =>
      if n.has_alt then
        match map_find n.alt g.nodes with
        | none => .threw .out_of_range
        | some n_alt => ContactGraph.neighbor_score_loop g n.alt n_alt n_alt.neighbors score
      else .ok score

/-- The loop `for (i = 0; i < size/30 + 1; i++)` of `random_phase_search` that
perturbs the labels, over the values `i` still to run. `uniform k` is the
`k`-th value the loop takes from `uniform_distribution(rng)`, which the
distribution keeps below the number of ids: iteration `i` takes two, one for
the node `r = ids[..]` and one for its label. The second component lists the
calls `set_partition(r, p)` made so far. -/
def perturb_loop (ids : List Int) (uniform : Nat → Nat) :
    List Nat → ContactGraph → List (Int × Int) → ContactOutcome × List (Int × Int)
  | [], g, calls => (.returned g, calls)
  | i :: rest, g, calls =>
    let r := ids.getD (uniform (2 * i)) 0
    match ContactGraph.has_alt g r with
    | .threw e => (.threw e g, calls)
    | .ok has_alt =>
      let p : Int :=
        if has_alt then
          (if (uniform (2 * i + 1) : Int) % 2 = 0 then -1 else (uniform (2 * i + 1) : Int) % 2)
        else (uniform (2 * i + 1) : Int) % 3 - 1
      match ContactGraph.set_partition g r p with
      | .returned g1 => perturb_loop ids uniform rest g1 (calls ++ [(r, p)])
      | .threw e g1 => (.threw e g1, calls ++ [(r, p)])

/-- The perturb phase of one outer step of `random_phase_search`. -/
def perturb (ids : List Int) (uniform : Nat → Nat) (g : ContactGraph) :
    ContactOutcome × List (Int × Int) :=
  perturb_loop ids uniform (List.range (ContactGraph.size g / 30 + 1)) g []

/-- The number of draws in the words of the specification: `⌈size / 30⌉`. -/
def spec_perturb_draws (size : Nat) : Nat := (size + 29) / 30

/-- Every alt of a node of a `ContactGraph` is the id of a node. -/
def ContactGraph.alts_present (g : ContactGraph) : Prop :=
  ∀ p ∈ g.nodes, p.2.has_alt = true → (map_find p.2.alt g.nodes).isSome = true

/-- A `ContactGraph` of `size` nodes `0 .. size - 1` without edges and alts. -/
def example_plain (size : Nat) : ContactGraph :=
  { edge_weights := [],
    nodes := (List.range size).map (fun i => ((i : Int), Node.mk_partition 0)) }

/-- The ids of `example_plain size`, as the constructor of `ContactGraph`
collects them. -/
def example_plain_ids (size : Nat) : List Int :=
  (List.range size).map (fun i => (i : Int))

/-- How the loop over the labels of a local-maximize trial ends: with the
graph, `max_score` and `p_max`, or with an exception. -/
inductive TrialOutcome where
  | done (g : ContactGraph) (max_score p_max : Int)
  | threw (e : Error) (g : ContactGraph)
deriving DecidableEq, Repr

/-- The loop `for (int8_t p = -1; p <= 1; p++)` of a local-maximize trial on
node `n`, over the labels still to try. -/
def trial_loop (n : Int) (has_alt : Bool) :
    List Int → ContactGraph → Int → Int → TrialOutcome
  | [], g, max_score, p_max => .done g max_score p_max
  | p :: rest, g, max_score, p_max =>
    if has_alt = true ∧ p = 0 then trial_loop n has_alt rest g max_score p_max
    else
      match ContactGraph.set_partition g n p with
      | .threw e g1 => .threw e g1
      | .returned g1 =>
        match ContactGraph.compute_consistency_score g1 n with
        | .threw e => .threw e g1
        | .ok score =>
          if score > max_score then trial_loop n has_alt rest g1 score p
          else trial_loop n has_alt rest g1 max_score p_max

/-- One trial of the local-maximize loop of `random_phase_search` on the node
`n` it drew: nothing happens to a node without edges; otherwise every legal
label is tried and `set_partition(n, p_max)` is called. `max_score` starts at
the least `int64_t`. -/
def local_maximize_trial (g : ContactGraph) (n : Int) : ContactOutcome :=
  match ContactGraph.edge_count g n with
  | .threw e => .threw e g
  | .ok count =>
    if count = 0 then .returned g
    else
      match ContactGraph.has_alt g n with
      | .threw e => .threw e g
      | .ok has_alt =>
        match trial_loop n has_alt [-1, 0, 1] g (-(2 ^ 63)) 0 with
        | .threw e g1 => .threw e g1
        | .done g1 _ p_max => ContactGraph.set_partition g1 n p_max

/-- Nodes 1, 2 and 3 after `insert_node` three times, `add_alt(1, 2)`,
`try_insert_edge(1, 3, 1)`, `try_insert_edge(2, 3, 10)` and
`set_partition(3, 1)`: a bubble whose two sides are in contact with node 3. -/
def example_trial : ContactGraph :=
  { edge_weights := [((1, 3), 1), ((2, 3), 10)],
    nodes := [(1, { neighbors := [3], partition := -1, alt := 2 }),
      (2, { neighbors := [3], partition := 1, alt := 1 }),
      (3, { neighbors := [1, 2], partition := 1, alt := -1 })] }

/-- The graph `example_trial` after a local-maximize trial on node 1. -/
def example_trial_done : ContactGraph :=
  { edge_weights := [((1, 3), 1), ((2, 3), 10)],
    nodes := [(1, { neighbors := [3], partition := 1, alt := 2 }),
      (2, { neighbors := [3], partition := -1, alt := 1 }),
      (3, { neighbors := [1, 2], partition := 1, alt := -1 })] }

/-! ## The preparation of the graph in `solve_maxcut.cpp` -/

/-- The method `MultiContactGraph::has_alt(id)`. -/
def has_alt (g : MultiContactGraph) (id : Int) : Result Bool :=
  match map_find id g.nodes with
  | none => .threw (.alt_of_unknown_id id)
  | some n => .ok n.has_alt

/-- The method `MultiContactGraph::edge_count()`. -/
def edge_count (g : MultiContactGraph) : Nat := g.edge_weights.length

/-- The two lookups of `IncrementalIdMap<string>` that the CSV functions call.
The class is not among the sources, so both are parameters: `get_id` is the
lookup `int32_t(id_map.get_id(name))`, with `none` for a lookup that throws,
and `get_name` is `id_map.get_name(id)`. Text is a list of characters. -/
structure IdMap where
  get_id : List Char → Option Int
  get_name : Int → List Char

/-- The local variables of the CSV loader. -/
structure LoaderState where
  a : List Char
  b : List Char
  weight_token : List Char
  n_delimiters : Nat
  n_lines : Nat
deriving DecidableEq, Repr

/-- The local variables at the start of line number `n_lines`. -/
def LoaderState.start (n_lines : Nat) : LoaderState :=
  { a := [], b := [], weight_token := [], n_delimiters := 0, n_lines := n_lines }

/-- The body of `if (n_lines > 0)` in the CSV loader: the two names are looked
up, the weight is parsed by `stoi` (`none` when `std::stoi` throws), both nodes
are inserted if absent, and the edge is inserted if absent. -/
def load_record (id_map : IdMap) (stoi : List Char → Option Int)
    (a b weight_token : List Char) (g : MultiContactGraph) : Outcome :=
  match id_map.get_id a with
  | none => .threw .get_id_failed g
  | some id_a =>
    match id_map.get_id b with
    | none => .threw .get_id_failed g
    | some id_b =>
      match stoi weight_token with
      | none => .threw .stoi_failed g
      | some weight =>
        (try_insert_node g id_a).andThen (fun g1 =>
          (try_insert_node g1 id_b).andThen (fun g2 => try_insert_edge g2 id_a id_b weight))

/-- The loop `while (file.get(c))` of the CSV loader over the characters still
to read. Nothing is done when the characters run out. -/
def load_loop (id_map : IdMap) (stoi : List Char → Option Int) :
    List Char → LoaderState → MultiContactGraph → Outcome
  | [], _, g => .returned g
  | c :: rest, s, g =>
    if c = '\n' then
      match (if s.n_lines > 0 then load_record id_map stoi s.a s.b s.weight_token g
          else .returned g) with
      | .returned g1 => load_loop id_map stoi rest (LoaderState.start (s.n_lines + 1)) g1
      | .threw e g1 => .threw e g1
      | .out_of_fuel => .out_of_fuel
    else if c = ',' then
      load_loop id_map stoi rest { s with n_delimiters := s.n_delimiters + 1 } g
    else if s.n_delimiters = 0 then load_loop id_map stoi rest { s with a := s.a ++ [c] } g
    else if s.n_delimiters = 1 then load_loop id_map stoi rest { s with b := s.b ++ [c] } g
    else if s.n_delimiters = 2 then
      load_loop id_map stoi rest { s with weight_token := s.weight_token ++ [c] } g
    else .threw .too_many_delimiters g

/-- The constructor `MultiContactGraph(csv_path, id_map)` on the text of a
file that could be opened. -/
def MultiContactGraph.from_csv (id_map : IdMap) (stoi : List Char → Option Int)
    (text : List Char) : Outcome :=
  load_loop id_map stoi text (LoaderState.start 0) MultiContactGraph.empty

/-- An id map for the examples: the names `a`, `b`, `c` for the ids 1, 2, 3. -/
def example_id_map : IdMap :=
  { get_id := fun s =>
      if s = ['a'] then some 1 else if s = ['b'] then some 2
      else if s = ['c'] then some 3 else none,
    get_name := fun x => if x = 1 then ['a'] else if x = 2 then ['b'] else ['c'] }

/-- The value of a run of decimal digits that follows the digits worth `acc`,
up to the first character that is not a digit. -/
def decimal_value : List Char → Nat → Nat
  | [], acc => acc
  | c :: rest, acc =>
    if c.isDigit then decimal_value rest (10 * acc + (c.toNat - 48)) else acc

/-- What `std::stoi` yields on the tokens of the examples: an optional minus
sign and decimal digits are read, and a token without a leading digit is
refused. -/
def decimal_stoi (s : List Char) : Option Int :=
  match s with
  | [] => none
  | '-' :: rest =>
    match rest with
    | [] => none
    | c :: _ => if c.isDigit then some (-(decimal_value rest 0 : Int)) else none
  | c :: rest => if c.isDigit then some (decimal_value (c :: rest) 0 : Int) else none

/-- The graph loaded from a contact map with the one line `a,b,5`. -/
def example_line : MultiContactGraph :=
  { edge_weights := [((1, 2), 5)],
    nodes := [(1, example_node [2] [] 0), (2, example_node [1] [] 0)],
    max_id := 2 }

/-! ## A graph whose scores leave the exact range of `double` -/

/-- The ids `lo, lo + 1, ..., lo + n - 1`. -/
def ids (lo : Int) (n : Nat) : List Int :=
  (List.range n).map (fun (i : Nat) => lo + (i : Int))

/-- The neighbour set `s` of node `k` after `try_insert_edge` of the edges
`es`, none of which was stored before. -/
def neighbors_with (k : Int) : List ((Int × Int) × Int) → List Int → List Int
  | [], s => s
  | e :: es, s =>
    neighbors_with k es
      (if e.1.2 = k then set_emplace e.1.1 (if e.1.1 = k then set_emplace e.1.2 s else s)
       else if e.1.1 = k then set_emplace e.1.2 s else s)

/-- The record of a node after `try_insert_edge` of the edges `es`. -/
def node_with (es : List ((Int × Int) × Int)) (p : Int × MultiNode) : Int × MultiNode :=
  (p.1, { p.2 with neighbors := neighbors_with p.1 es p.2.neighbors })

/-- The graph after `try_insert_edge(a, b, w)` for each entry `((a, b), w)` of
`es`, when `a < b` in each of them, no edge occurs twice, none is stored yet
and the endpoints are present: the entries go to the end of the edge map, in
their order, and each endpoint into the neighbour set of the other. -/
def with_edges (es : List ((Int × Int) × Int)) (g : MultiContactGraph) : MultiContactGraph :=
  { g with edge_weights := g.edge_weights ++ es, nodes := g.nodes.map (node_with es) }

/-! ## The searches over alts as the program runs them

The three searches `get_alt_component`, `of_same_component_side` and
`of_same_component` bind `auto& [current_id, distance] = q.front()` and call
`q.pop()` in the next statement, so the loop body reads the popped entry
through references into the storage of the `std::deque` under the queue.
`current_id` is read before anything is emplaced; `distance` is read again at
every `q.emplace(alt_id, distance + 1)`.

The deque keeps its entries, pairs of two `int32_t`, in blocks of 512 bytes,
64 entries each. Popping an entry leaves its bytes in place; popping the last
entry of a block (the entries number 63, 127, ... of the queue) also frees the
block. The next block the deque asks for, when an `emplace` fills the last
slot of its last block, is that freed block, handed back by the allocator.
The 64 entries emplaced next fill it, and the last of them lands on the slot
the references point to: from then on `distance` reads the distance of that
entry. The same iteration has to emplace more than 65 entries to read it.

`bfs_loop` and `search_until` above are the loops with the popped entry held
by value; `bfs_loop_ref` and `search_until_ref` are the loops with the entry
read through the references. The two agree when no alts set has more than 65
members (`bfs_loop_ref_eq_of_small`). -/

/-- Entries in one block of the `std::deque` under the queue: 512 bytes of
8-byte pairs. -/
def deque_block : Nat := 64

/-- The number, among all entries ever emplaced, of the entry that lands on
the slot of the entry just popped, when that pop freed a block and `pushed`
entries were emplaced before: the deque asks for a block when the entry with
the first number from `pushed` on that is 63 modulo 64 is emplaced, and the
64th entry after that one takes the last slot of the block. -/
def stale_index (pushed : Nat) : Nat :=
  pushed + (deque_block - 1 - pushed % deque_block) + deque_block

/-- The slot behind the references after `q.pop()`: `none` when the storage of
the popped entry stays untouched during the iteration, `some i` when the
`i`-th entry ever emplaced is written over it. `popped` entries were popped
before this one, `pushed` entries were emplaced so far. -/
def stale_slot (popped pushed : Nat) : Option Nat :=
  if popped % deque_block = deque_block - 1 then some (stale_index pushed) else none

/-- The `q.emplace(alt_id, distance + 1)` calls of one iteration, for the alts
that pass the test of the loop: `front` is what the references show, `index`
the number of the next entry. `distance` is read through the reference at
every call. -/
def emplace_alts (stale : Option Nat) : Int × Nat → Nat → List Int → List (Int × Nat)
  | _, _, [] => []
  | front, index, alt_id :: rest =>
    (alt_id, front.2 + 1) ::
      emplace_alts stale (if stale = some index then (alt_id, front.2 + 1) else front)
        (index + 1) rest

/-- The `while (not q.empty())` loop of `get_alt_component`, unrolled at most
`fuel` times, with the popped entry read through the references: `popped`
entries were popped and `pushed` entries emplaced so far. -/
def bfs_loop_ref (nodes : List (Int × MultiNode)) (id : Int) :
    Nat → Nat → Nat → List (Int × Nat) → alt_component_t → Result alt_component_t
  | _, _, _, [], component => .ok component
  | 0, _, _, _ :: _, _ => .out_of_fuel
  | fuel + 1, popped, pushed, (current_id, distance) :: q, component =>
    match map_find current_id nodes with
    | none => .threw (.nonexistent_id_while_iterating id)
    | some node =>
      let component1 : alt_component_t :=
        if distance % 2 = 0 then (set_emplace current_id component.1, component.2)
        else (component.1, set_emplace current_id component.2)
      let emplaced := emplace_alts (stale_slot popped pushed) (current_id, distance) pushed
        (node.alts.filter
          (fun alt_id => !(decide (alt_id ∈ component1.1) || decide (alt_id ∈ component1.2))))
      bfs_loop_ref nodes id fuel (popped + 1) (pushed + emplaced.length) (q ++ emplaced)
        component1

/-- The method `MultiContactGraph::get_alt_component` as the program runs it.
The loop runs with the iterations of `bfs_fuel`, which it never uses up (see
`bfs_loop_ref_fuel_sufficient`). -/
def get_alt_component_ref (g : MultiContactGraph) (id : Int) (validate : Bool) :
    Result alt_component_t :=
  match bfs_loop_ref g.nodes id (bfs_fuel g.nodes) 0 1 [(id, 0)] ([], []) with
  | .ok component =>
    if validate then
      match assert_component_is_valid component with
      | .ok _ => .ok component
      | .threw e => .threw e
      | .out_of_fuel => .out_of_fuel
    else .ok component
  | .threw e => .threw e
  | .out_of_fuel => .out_of_fuel

/-- The loop of `of_same_component_side(id_a, id_b)` with the popped entry read
through the references. -/
def of_same_component_side_loop_ref (nodes : List (Int × MultiNode)) (id_b : Int) :
    Nat → Nat → Nat → List (Int × Nat) → List Int → Result Bool
  | _, _, _, [], _ => .ok false
  | 0, _, _, _ :: _, _ => .out_of_fuel
  | fuel + 1, popped, pushed, (current_id, distance) :: q, visited =>
    match map_find current_id nodes with
    | none => .threw (.nonexistent_id_while_iterating_side current_id)
    | some node =>
      if distance % 2 = 0 ∧ current_id = id_b then .ok true
      else
        let visited1 := set_emplace current_id visited
        let emplaced := emplace_alts (stale_slot popped pushed) (current_id, distance) pushed
          (node.alts.filter (fun alt_id => !decide (alt_id ∈ visited1)))
        of_same_component_side_loop_ref nodes id_b fuel (popped + 1)
          (pushed + emplaced.length) (q ++ emplaced) visited1

/-- The method `MultiContactGraph::of_same_component_side` as the program runs
it. -/
def of_same_component_side_ref (g : MultiContactGraph) (id_a id_b : Int) : Result Bool :=
  of_same_component_side_loop_ref g.nodes id_b (bfs_fuel g.nodes) 0 1 [(id_a, 0)] []

/-- The loop of `of_same_component(id_a, id_b)` with the popped entry read
through the references. -/
def of_same_component_loop_ref (nodes : List (Int × MultiNode)) (id_b : Int) :
    Nat → Nat → Nat → List (Int × Nat) → List Int → Result Bool
  | _, _, _, [], _ => .ok false
  | 0, _, _, _ :: _, _ => .out_of_fuel
  | fuel + 1, popped, pushed, (current_id, distance) :: q, visited =>
    match map_find current_id nodes with
    | none => .threw (.nonexistent_id_while_iterating_side current_id)
    | some node =>
      if current_id = id_b then .ok true
      else
        let visited1 := set_emplace current_id visited
        let emplaced := emplace_alts (stale_slot popped pushed) (current_id, distance) pushed
          (node.alts.filter (fun alt_id => !decide (alt_id ∈ visited1)))
        of_same_component_loop_ref nodes id_b fuel (popped + 1)
          (pushed + emplaced.length) (q ++ emplaced) visited1

/-- The method `MultiContactGraph::of_same_component` as the program runs it. -/
def of_same_component_ref (g : MultiContactGraph) (id_a id_b : Int) : Result Bool :=
  of_same_component_loop_ref g.nodes id_b (bfs_fuel g.nodes) 0 1 [(id_a, 0)] []

/-- The shape the two predicate loops share, with the popped entry read
through the references. -/
def search_until_ref (nodes : List (Int × MultiNode)) (stop : Int → Nat → Bool) :
    Nat → Nat → Nat → List (Int × Nat) → List Int → Result Bool
  | _, _, _, [], _ => .ok false
  | 0, _, _, _ :: _, _ => .out_of_fuel
  | fuel + 1, popped, pushed, (current_id, distance) :: q, visited =>
    match map_find current_id nodes with
    | none => .threw (.nonexistent_id_while_iterating_side current_id)
    | some node =>
      if stop current_id distance = true then .ok true
      else
        let visited1 := set_emplace current_id visited
        let emplaced := emplace_alts (stale_slot popped pushed) (current_id, distance) pushed
          (node.alts.filter (fun alt_id => !decide (alt_id ∈ visited1)))
        search_until_ref nodes stop fuel (popped + 1) (pushed + emplaced.length)
          (q ++ emplaced) visited1

/-- The method `MultiContactGraph::add_alt(a, b)` as the program runs it: the
two components come from `get_alt_component_ref`. -/
def add_alt_ref (remove_weights : Bool) (g : MultiContactGraph) (a b : Int) : Outcome :=
  match map_find a g.nodes, map_find b g.nodes with
  | some node_a, some _ =>
    if a = b then .threw (.add_alt_to_itself b) g
    else if b ∈ node_a.alts then .returned g
    else
      match get_alt_component_ref g a false with
      | .ok component_a =>
        match get_alt_component_ref g b false with
        | .ok component_b => add_alt_components g component_a component_b remove_weights
        | .threw e => .threw e g
        | .out_of_fuel => .out_of_fuel
      | .threw e => .threw e g
      | .out_of_fuel => .out_of_fuel
  | _, _ => .threw (.add_alt_nonexistent_node a b) g

/-- The method `MultiContactGraph::set_partition(id, partition)` as the program
runs it: the component comes from `get_alt_component_ref`. -/
def set_partition_ref (g : MultiContactGraph) (id partition : Int) : Outcome :=
  match map_find id g.nodes with
  | none => .threw (.set_partition_unknown_id id) g
  | some node =>
    let g1 : MultiContactGraph :=
      { g with nodes := map_update id (fun n => { n with partition := partition }) g.nodes }
    if node.has_alt then
      if partition = 0 then .threw (.zero_partition_for_bubble id) g1
      else
        match get_alt_component_ref g1 id false with
        | .ok component =>
          (for_each
              (fun g2 alt_id => nodes_at g2 alt_id
                (fun n => { n with partition := wrap 8 (partition * -1) }))
              component.2 g1).andThen
            (for_each
              (fun g2 alt_id => nodes_at g2 alt_id (fun n => { n with partition := partition }))
              component.1)
        | .threw e => .threw e g1
        | .out_of_fuel => .out_of_fuel
    else .returned g1

/-- The method `MultiContactGraph::set_partitions` as the program runs it. -/
def set_partitions_ref (g : MultiContactGraph) (partitions : List (Int × Int)) : Outcome :=
  for_each (fun g1 p => set_partition_ref g1 p.1 p.2) partitions g

/-- The loop of `get_alt_components` as the program runs it. -/
def alt_components_loop_ref (g : MultiContactGraph) :
    List (Int × MultiNode) → List Int → List alt_component_t → Result (List alt_component_t)
  | [], _, alt_components => .ok alt_components
  | (n, _) :: rest, visited, alt_components =>
    if n ∈ visited then alt_components_loop_ref g rest visited alt_components
    else
      match get_alt_component_ref g n false with
      | .ok component =>
        alt_components_loop_ref g rest (visited ++ component.1 ++ component.2)
          (alt_components ++ [component])
      | .threw e => .threw e
      | .out_of_fuel => .out_of_fuel

/-- The method `MultiContactGraph::get_alt_components` as the program runs it. -/
def get_alt_components_ref (g : MultiContactGraph) : Result (List alt_component_t) :=
  alt_components_loop_ref g g.nodes [] []

/-- The entries one iteration of the search emplaces, in terms of `unseen`. -/
def enqueued_ref (popped pushed : Nat) (node : MultiNode) (c : alt_component_t) (v : Int)
    (d : Nat) : List (Int × Nat) :=
  emplace_alts (stale_slot popped pushed) (v, d) pushed
    (node.alts.filter (fun alt_id => unseen c alt_id))

/-- The graph `g1` has the nodes of `g`, in the same order, and the alts of `g`
together with the links `R`, in both directions. Every present node that `R`
links holds the label `+1` or `-1`, and the label of every other node is the
one it has in `g`. Unlike `Linked` this asks nothing of the sides of `R`: a
node may be on both. -/
structure LinkedAlts (g g1 : MultiContactGraph) (R : Int → Int → Prop) : Prop where
  alts : ∀ x y, y ∈ alts_of g1 x ↔ y ∈ alts_of g x ∨ R x y ∨ R y x
  sorted : (∀ x, (alts_of g x).Sorted (· < ·)) → ∀ x, (alts_of g1 x).Sorted (· < ·)
  present : ∀ x, (map_find x g1.nodes).isSome = (map_find x g.nodes).isSome
  keys : g1.nodes.map Prod.fst = g.nodes.map Prod.fst
  labels : ∀ x, (∃ y, R x y ∨ R y x) → (map_find x g.nodes).isSome = true →
    partition_of g1 x = some 1 ∨ partition_of g1 x = some (-1)
  others : ∀ x, ¬ (∃ y, R x y ∨ R y x) → partition_of g1 x = partition_of g x

/-- Graphs built from the empty graph by public member functions that
returned normally, with `add_alt` and `set_partition` as the program runs
them: their searches read the popped entry through the references. -/
inductive Reachable_ref : MultiContactGraph → Prop where
  | empty : Reachable_ref MultiContactGraph.empty
  | insert_node {g g1 : MultiContactGraph} (id : Int) :
      Reachable_ref g → insert_node g id = .returned g1 → Reachable_ref g1
  | insert_node_partition {g g1 : MultiContactGraph} (id p : Int) :
      Reachable_ref g → insert_node_partition g id p = .returned g1 → Reachable_ref g1
  | try_insert_node {g g1 : MultiContactGraph} (id : Int) :
      Reachable_ref g → try_insert_node g id = .returned g1 → Reachable_ref g1
  | try_insert_node_partition {g g1 : MultiContactGraph} (id p : Int) :
      Reachable_ref g → try_insert_node_partition g id p = .returned g1 → Reachable_ref g1
  | try_insert_edge {g g1 : MultiContactGraph} (a b w : Int) :
      Reachable_ref g → try_insert_edge g a b w = .returned g1 → Reachable_ref g1
  | try_insert_edge2 {g g1 : MultiContactGraph} (a b : Int) :
      Reachable_ref g → try_insert_edge2 g a b = .returned g1 → Reachable_ref g1
  | increment_edge_weight {g g1 : MultiContactGraph} (a b v : Int) :
      Reachable_ref g → increment_edge_weight g a b v = .returned g1 → Reachable_ref g1
  | increment_coverage {g g1 : MultiContactGraph} (id v : Int) :
      Reachable_ref g → increment_coverage g id v = .returned g1 → Reachable_ref g1
  | set_node_coverage {g g1 : MultiContactGraph} (id v : Int) :
      Reachable_ref g → set_node_coverage g id v = .returned g1 → Reachable_ref g1
  | set_node_length {g g1 : MultiContactGraph} (id v : Int) :
      Reachable_ref g → set_node_length g id v = .returned g1 → Reachable_ref g1
  | remove_edge {g g1 : MultiContactGraph} (a b : Int) :
      Reachable_ref g → remove_edge g a b = .returned g1 → Reachable_ref g1
  | remove_node {g g1 : MultiContactGraph} (id : Int) :
      Reachable_ref g → remove_node g id = .returned g1 → Reachable_ref g1
  | add_alt {g g1 : MultiContactGraph} (remove_weights : Bool) (a b : Int) :
      Reachable_ref g → add_alt_ref remove_weights g a b = .returned g1 → Reachable_ref g1
  | set_partition {g g1 : MultiContactGraph} (id p : Int) :
      Reachable_ref g → set_partition_ref g id p = .returned g1 → Reachable_ref g1

/-- The alt relation goes both ways: what `link_alts` and `remove_node` keep,
also when a search hands `add_alt` sides that overlap. -/
def alts_symmetric (g : MultiContactGraph) : Prop :=
  ∀ x y, y ∈ alts_of g x → x ∈ alts_of g y

/-! ### A complete bipartite alt component of 67 and 66 nodes -/

/-- The nodes 0..66 and 67..132, every node of 0..66 the alt of every node of
67..132, with the labels +1 and -1 that `add_alt` leaves. The calls
`try_insert_node` of 0..132, `add_alt(0, b)` for the nodes `b` of 67..132 and
`add_alt(a, 67)` for the nodes `a` of 1..66 build it: the first 66 calls grow
a star around node 0 and each of the others merges the single node `a` with
the component so far, and none of the searches of these calls emplaces more
than 65 entries while it visits the entry number 63 of its queue. -/
def example_wide : MultiContactGraph :=
  { edge_weights := [],
    nodes := (ids 0 67).map (fun a => (a, example_node [] (ids 67 66) 1)) ++
      (ids 67 66).map (fun b => (b, example_node [] (ids 0 67) (-1))),
    max_id := 132 }

/-- The graph `example_wide` after `try_insert_node(133)`. -/
def example_wide_plus : MultiContactGraph :=
  { edge_weights := [],
    nodes := example_wide.nodes ++ [(133, example_node [] [] 0)],
    max_id := 133 }

/-- The entries emplaced while the search from node 0 of `example_wide` visits
the `k`-th node of 67..132: that node is the entry number `1 + k` of the
queue, and `67 + 66 * k` entries were emplaced before. -/
def wide_batch (k : Nat) : List (Int × Nat) :=
  emplace_alts (stale_slot (1 + k) (67 + 66 * k)) (67 + (k : Int), 1) (67 + 66 * k) (ids 1 66)

/-- The entries emplaced while the search from node 0 of `example_wide` visits
the first `k` nodes of 67..132. -/
def wide_tail (k : Nat) : List (Int × Nat) :=
  (List.range k).flatMap wide_batch

/-! ## Container lemmas -/

theorem mem_set_emplace (x y : Int) (s : List Int) :
    y ∈ set_emplace x s ↔ y = x ∨ y ∈ s := by
  induction s with
  | nil => simp [set_emplace]
  | cons z zs ih =>
    unfold set_emplace
    split_ifs with h1 h2
    · simp
    · subst h2; simp
    · simp only [List.mem_cons, ih]; tauto

theorem sorted_set_emplace (x : Int) (s : List Int) (hs : s.Sorted (· < ·)) :
    (set_emplace x s).Sorted (· < ·) := by
  induction s with
  | nil => simp [set_emplace]
  | cons z zs ih =>
    unfold set_emplace
    have hz := List.sorted_cons.mp hs
    split_ifs with h1 h2
    · refine List.sorted_cons.mpr ⟨?_, hs⟩
      intro b hb
      rcases List.mem_cons.mp hb with rfl | hb
      · exact h1
      · exact lt_trans h1 (hz.1 b hb)
    · exact hs
    · refine List.sorted_cons.mpr ⟨?_, ih hz.2⟩
      intro b hb
      rcases (mem_set_emplace x b zs).mp hb with rfl | hb
      · omega
      · exact hz.1 b hb

theorem mem_set_erase (x y : Int) (s : List Int) :
    y ∈ set_erase x s ↔ y ∈ s ∧ y ≠ x := by
  simp [set_erase]

theorem sorted_set_erase (x : Int) (s : List Int) (hs : s.Sorted (· < ·)) :
    (set_erase x s).Sorted (· < ·) :=
  List.Pairwise.filter _ hs

theorem set_erase_of_not_mem (x : Int) (s : List Int) (h : x ∉ s) : set_erase x s = s := by
  unfold set_erase
  rw [List.filter_eq_self]
  intro a ha
  have : a ≠ x := fun e => h (e ▸ ha)
  simpa using this

theorem mem_set_intersection (a b : List Int) (x : Int) :
    x ∈ set_intersection a b ↔ x ∈ a ∧ x ∈ b := by
  simp [set_intersection]

theorem set_intersection_isEmpty (a b : List Int) :
    (set_intersection a b).isEmpty = true ↔ ∀ x, x ∈ a → x ∉ b := by
  rw [List.isEmpty_iff, List.eq_nil_iff_forall_not_mem]
  constructor
  · intro h x hx hb
    exact h x ((mem_set_intersection a b x).mpr ⟨hx, hb⟩)
  · intro h x hx
    have := (mem_set_intersection a b x).mp hx
    exact h x this.1 this.2

theorem mem_foldl_set_emplace (l : List Int) (s : List Int) (y : Int) :
    y ∈ l.foldl (fun s x => set_emplace x s) s ↔ y ∈ l ∨ y ∈ s := by
  induction l generalizing s with
  | nil => simp
  | cons z zs ih =>
    simp only [List.foldl_cons, ih, mem_set_emplace, List.mem_cons]; tauto

theorem sorted_foldl_set_emplace (l : List Int) (s : List Int) (hs : s.Sorted (· < ·)) :
    (l.foldl (fun s x => set_emplace x s) s).Sorted (· < ·) := by
  induction l generalizing s with
  | nil => simpa using hs
  | cons z zs ih => exact ih _ (sorted_set_emplace z s hs)

theorem mem_set_union (a b : List Int) (x : Int) :
    x ∈ set_union a b ↔ x ∈ a ∨ x ∈ b := by
  unfold set_union
  rw [mem_foldl_set_emplace]
  simp

theorem sorted_set_union (a b : List Int) : (set_union a b).Sorted (· < ·) :=
  sorted_foldl_set_emplace _ _ List.sorted_nil

/-- Two ascending duplicate-free lists with the same members are equal. -/
theorem sorted_ext {l1 l2 : List Int} (h1 : l1.Sorted (· < ·)) (h2 : l2.Sorted (· < ·))
    (h : ∀ x, x ∈ l1 ↔ x ∈ l2) : l1 = l2 := by
  apply List.eq_of_perm_of_sorted ((List.perm_ext_iff_of_nodup h1.nodup h2.nodup).mpr h) h1 h2

theorem map_find_emplace {K V : Type} [DecidableEq K] (k k' : K) (v : V) (m : List (K × V)) :
    map_find k' (map_emplace k v m) =
      match map_find k' m with
      | some x => some x
      | none => if k' = k then some v else none := by
  have happ : ∀ (m : List (K × V)), map_find k' (m ++ [(k, v)]) =
      match map_find k' m with
      | some x => some x
      | none => if k' = k then some v else none := by
    intro m
    induction m with
    | nil => simp [map_find, eq_comm]
    | cons p ps ih =>
      obtain ⟨pk, pv⟩ := p
      by_cases hp : pk = k'
      · simp [map_find, hp]
      · simp [map_find, hp, ih]
  unfold map_emplace
  cases hk : map_find k m with
  | none => simpa using happ m
  | some x =>
    by_cases hkk : k' = k
    · subst hkk; simp [hk]
    · cases hk' : map_find k' m <;> simp [hkk]

theorem map_erase_cons {K V : Type} [DecidableEq K] (k pk : K) (pv : V) (ps : List (K × V)) :
    map_erase k ((pk, pv) :: ps) =
      if pk = k then map_erase k ps else (pk, pv) :: map_erase k ps := by
  unfold map_erase
  by_cases hp : pk = k <;> simp [List.filter_cons, hp]

theorem map_find_erase {K V : Type} [DecidableEq K] (k k' : K) (m : List (K × V)) :
    map_find k' (map_erase k m) = if k' = k then none else map_find k' m := by
  induction m with
  | nil => simp [map_erase, map_find]
  | cons p ps ih =>
    obtain ⟨pk, pv⟩ := p
    rw [map_erase_cons]
    by_cases hp : pk = k
    · rw [if_pos hp, ih]
      by_cases hk : k' = k
      · simp [hk]
      · have : ¬ pk = k' := fun e => hk (e ▸ hp)
        simp [hk, map_find, this]
    · rw [if_neg hp]
      by_cases hk : pk = k'
      · have : ¬ k' = k := fun e => hp (hk ▸ e)
        simp [map_find, hk, this]
      · simp [map_find, hk, ih]

theorem map_update_cons {K V : Type} [DecidableEq K] (k pk : K) (pv : V) (f : V → V)
    (ps : List (K × V)) :
    map_update k f ((pk, pv) :: ps) =
      (if pk = k then (pk, f pv) else (pk, pv)) :: map_update k f ps := rfl

theorem map_find_update {K V : Type} [DecidableEq K] (k k' : K) (f : V → V)
    (m : List (K × V)) :
    map_find k' (map_update k f m) =
      if k' = k then (map_find k m).map f else map_find k' m := by
  induction m with
  | nil => simp [map_update, map_find]
  | cons p ps ih =>
    obtain ⟨pk, pv⟩ := p
    rw [map_update_cons]
    by_cases hp : pk = k
    · rw [if_pos hp]
      by_cases hk : k' = k
      · have : pk = k' := hp.trans hk.symm
        simp [map_find, hk, hp]
      · have : ¬ pk = k' := fun e => hk (e ▸ hp)
        simp [map_find, hk, this, ih]
    · rw [if_neg hp]
      by_cases hk : pk = k'
      · have : ¬ k' = k := fun e => hp (hk ▸ e)
        simp [map_find, hk, this]
      · by_cases hkk : k' = k
        · subst hkk
          simpa [map_find, hk] using ih
        · simp [map_find, hk, hkk, ih]

theorem mem_of_map_find {K V : Type} [DecidableEq K] (k : K) (v : V) (m : List (K × V))
    (h : map_find k m = some v) : (k, v) ∈ m := by
  induction m with
  | nil => simp [map_find] at h
  | cons p ps ih =>
    obtain ⟨pk, pv⟩ := p
    by_cases hp : pk = k
    · simp [map_find, hp] at h; simp [hp, h]
    · simp [map_find, hp] at h; simp [ih h]

/-! ## The alt-component search terminates -/

theorem bfs_loop_cons (nodes : List (Int × MultiNode)) (id : Int) (fuel : Nat)
    (v : Int) (d : Nat) (q : List (Int × Nat)) (c : alt_component_t) :
    bfs_loop nodes id (fuel + 1) ((v, d) :: q) c =
      match map_find v nodes with
      | none => .threw (.nonexistent_id_while_iterating id)
      | some node =>
        bfs_loop nodes id fuel (q ++ enqueued node (placed c v d) d) (placed c v d) := rfl

theorem mem_placed (c : alt_component_t) (v x : Int) (d : Nat) :
    (x ∈ (placed c v d).1 ∨ x ∈ (placed c v d).2) ↔ (x = v ∨ x ∈ c.1 ∨ x ∈ c.2) := by
  unfold placed
  split_ifs <;> simp only [mem_set_emplace] <;> tauto

theorem unseen_placed (c : alt_component_t) (v x : Int) (d : Nat) :
    unseen (placed c v d) x = (unseen c x && decide (x ≠ v)) := by
  have h := mem_placed c v x d
  rw [Bool.eq_iff_iff]
  simp only [unseen, Bool.not_eq_true', Bool.or_eq_false_iff, decide_eq_false_iff_not,
    Bool.and_eq_true, decide_eq_true_eq, ne_eq]
  tauto

theorem unseen_placed_of_seen (c : alt_component_t) (v x : Int) (d : Nat)
    (hv : unseen c v = false) : unseen (placed c v d) x = unseen c x := by
  rw [unseen_placed]
  by_cases hx : x = v
  · subst hx; simp [hv]
  · simp [hx]

theorem remaining_placed_of_seen (nodes : List (Int × MultiNode)) (c : alt_component_t)
    (v : Int) (d : Nat) (hv : unseen c v = false) :
    remaining nodes (placed c v d) = remaining nodes c := by
  unfold remaining
  congr 1
  funext p
  exact unseen_placed_of_seen c v p.1 d hv

theorem countP_lt_of_strict {α : Type} (p q : α → Bool) (l : List α)
    (hpq : ∀ x, p x = true → q x = true) (hex : ∃ x, x ∈ l ∧ q x = true ∧ p x = false) :
    l.countP p < l.countP q := by
  induction l with
  | nil => obtain ⟨x, hx, _⟩ := hex; simp at hx
  | cons a as ih =>
    have hle : as.countP p ≤ as.countP q := List.countP_mono_left (fun x _ => hpq x)
    obtain ⟨x, hx, hq, hp⟩ := hex
    rcases List.mem_cons.mp hx with rfl | hmem
    · rw [List.countP_cons_of_pos _ _ hq, List.countP_cons_of_neg _ _ (by simp [hp])]
      omega
    · have := ih ⟨x, hmem, hq, hp⟩
      by_cases hpa : p a = true
      · rw [List.countP_cons_of_pos _ _ hpa, List.countP_cons_of_pos _ _ (hpq a hpa)]
        omega
      · rw [List.countP_cons_of_neg _ _ hpa]
        by_cases hqa : q a = true
        · rw [List.countP_cons_of_pos _ _ hqa]; omega
        · rw [List.countP_cons_of_neg _ _ hqa]; omega

theorem remaining_placed_of_unseen (nodes : List (Int × MultiNode)) (c : alt_component_t)
    (v : Int) (d : Nat) (node : MultiNode) (hfind : map_find v nodes = some node)
    (hv : unseen c v = true) :
    remaining nodes (placed c v d) < remaining nodes c := by
  unfold remaining
  apply countP_lt_of_strict
  · intro p hp
    rw [unseen_placed] at hp
    simp only [Bool.and_eq_true] at hp
    exact hp.1
  · refine ⟨(v, node), mem_of_map_find v node nodes hfind, hv, ?_⟩
    rw [unseen_placed]
    simp

theorem remaining_placed_le (nodes : List (Int × MultiNode)) (c : alt_component_t)
    (v : Int) (d : Nat) : remaining nodes (placed c v d) ≤ remaining nodes c := by
  unfold remaining
  apply List.countP_mono_left
  intro p _ hp
  rw [unseen_placed] at hp
  simp only [Bool.and_eq_true] at hp
  exact hp.1

theorem alts_length_le_total (nodes : List (Int × MultiNode)) (v : Int) (node : MultiNode)
    (hfind : map_find v nodes = some node) : node.alts.length ≤ alts_total nodes := by
  unfold alts_total
  have hmem : node.alts.length ∈ nodes.map (fun p => p.2.alts.length) :=
    List.mem_map.mpr ⟨(v, node), mem_of_map_find v node nodes hfind, rfl⟩
  exact List.single_le_sum (fun x _ => Nat.zero_le x) _ hmem

theorem entry_weight_pos (nodes : List (Int × MultiNode)) (c : alt_component_t) (v : Int) :
    0 < entry_weight nodes c v := by
  unfold entry_weight
  split_ifs <;> positivity

/-- The entries that stay in the queue do not gain weight. -/
theorem entry_weight_placed_le (nodes : List (Int × MultiNode)) (c : alt_component_t)
    (v x : Int) (d : Nat) (node : MultiNode) (hfind : map_find v nodes = some node) :
    entry_weight nodes (placed c v d) x ≤ entry_weight nodes c x := by
  cases hv : unseen c v with
  | false =>
    unfold entry_weight
    rw [unseen_placed_of_seen c v x d hv, remaining_placed_of_seen nodes c v d hv]
  | true =>
    have hlt := remaining_placed_of_unseen nodes c v d node hfind hv
    have hK : 1 ≤ alts_total nodes + 1 := by omega
    unfold entry_weight
    cases hx1 : unseen (placed c v d) x with
    | true =>
      have hx : unseen c x = true := by
        rw [unseen_placed] at hx1
        simp only [Bool.and_eq_true] at hx1
        exact hx1.1
      simp only [hx, if_true]
      exact Nat.pow_le_pow_right hK (by omega)
    | false =>
      simp only [Bool.false_eq_true, if_false]
      split_ifs
      · exact Nat.pow_le_pow_right hK (by omega)
      · exact Nat.pow_le_pow_right hK (by omega)

/-- What one iteration enqueues weighs less than the entry it removes. -/
theorem enqueued_weight_lt (nodes : List (Int × MultiNode)) (c : alt_component_t)
    (v : Int) (d : Nat) (node : MultiNode) (hfind : map_find v nodes = some node) :
    potential nodes (placed c v d) (enqueued node (placed c v d) d) <
      entry_weight nodes c v := by
  have hK : 1 ≤ alts_total nodes + 1 := by omega
  have hlen : (enqueued node (placed c v d) d).length ≤ alts_total nodes := by
    unfold enqueued
    rw [List.length_map]
    exact le_trans (List.length_filter_le _ _) (alts_length_le_total nodes v node hfind)
  have hbound : potential nodes (placed c v d) (enqueued node (placed c v d) d) ≤
      (enqueued node (placed c v d) d).length *
        (alts_total nodes + 1) ^ (2 * remaining nodes (placed c v d)) := by
    unfold potential
    have h := List.sum_le_card_nsmul
      ((enqueued node (placed c v d) d).map (fun e => entry_weight nodes (placed c v d) e.1))
      ((alts_total nodes + 1) ^ (2 * remaining nodes (placed c v d))) (by
        intro w hw
        obtain ⟨e, he, rfl⟩ := List.mem_map.mp hw
        unfold enqueued at he
        obtain ⟨y, hy, rfl⟩ := List.mem_map.mp he
        have hu : unseen (placed c v d) y = true := (List.mem_filter.mp hy).2
        unfold entry_weight
        simp [hu])
    simpa using h
  have hstep : (enqueued node (placed c v d) d).length *
        (alts_total nodes + 1) ^ (2 * remaining nodes (placed c v d)) <
      (alts_total nodes + 1) ^ (2 * remaining nodes (placed c v d) + 1) := by
    rw [pow_succ, mul_comm]
    apply Nat.mul_lt_mul_of_pos_left
    · omega
    · positivity
  refine lt_of_le_of_lt hbound (lt_of_lt_of_le hstep ?_)
  unfold entry_weight
  cases hv : unseen c v with
  | false =>
    rw [remaining_placed_of_seen nodes c v d hv]
    simp
  | true =>
    have hlt := remaining_placed_of_unseen nodes c v d node hfind hv
    simp only [if_true]
    exact Nat.pow_le_pow_right hK (by omega)

theorem potential_step_lt (nodes : List (Int × MultiNode)) (c : alt_component_t)
    (v : Int) (d : Nat) (q : List (Int × Nat)) (node : MultiNode)
    (hfind : map_find v nodes = some node) :
    potential nodes (placed c v d) (q ++ enqueued node (placed c v d) d) <
      potential nodes c ((v, d) :: q) := by
  have h1 : potential nodes (placed c v d) q ≤ potential nodes c q := by
    unfold potential
    apply List.sum_le_sum
    intro e _
    exact entry_weight_placed_le nodes c v e.1 d node hfind
  have h2 := enqueued_weight_lt nodes c v d node hfind
  have happ : potential nodes (placed c v d) (q ++ enqueued node (placed c v d) d) =
      potential nodes (placed c v d) q +
        potential nodes (placed c v d) (enqueued node (placed c v d) d) := by
    unfold potential
    rw [List.map_append, List.sum_append]
  have hcons : potential nodes c ((v, d) :: q) =
      entry_weight nodes c v + potential nodes c q := by
    unfold potential
    simp
  omega

/-- With more fuel than the potential the loop does not run dry. -/
theorem bfs_loop_ne_out_of_fuel (nodes : List (Int × MultiNode)) (id : Int) :
    ∀ (fuel : Nat) (q : List (Int × Nat)) (c : alt_component_t),
      potential nodes c q < fuel → bfs_loop nodes id fuel q c ≠ .out_of_fuel := by
  intro fuel
  induction fuel with
  | zero => intro q c h; omega
  | succ fuel ih =>
    intro q c h
    match q with
    | [] => simp [bfs_loop]
    | (v, d) :: q =>
      rw [bfs_loop_cons]
      cases hfind : map_find v nodes with
      | none => simp
      | some node =>
        have := potential_step_lt nodes c v d q node hfind
        exact ih _ _ (by omega)

theorem potential_initial (nodes : List (Int × MultiNode)) (id : Int) :
    potential nodes ([], []) [(id, 0)] < bfs_fuel nodes := by
  have hr : remaining nodes ([], []) = nodes.length := by
    unfold remaining
    rw [List.countP_eq_length]
    intro p _
    simp [unseen]
  unfold potential bfs_fuel entry_weight
  simp [hr, unseen, alts_total]

/-- The fuel granted by `get_alt_component` is never used up: on every graph
the search ends by returning or by throwing. -/
theorem bfs_loop_fuel_sufficient (nodes : List (Int × MultiNode)) (id : Int) :
    bfs_loop nodes id (bfs_fuel nodes) [(id, 0)] ([], []) ≠ .out_of_fuel :=
  bfs_loop_ne_out_of_fuel nodes id _ _ _ (potential_initial nodes id)

/-! ## Reading the graph after a write -/

theorem alts_of_eq (g : MultiContactGraph) (x : Int) :
    alts_of g x = ((map_find x g.nodes).map MultiNode.alts).getD [] := by
  unfold alts_of
  cases map_find x g.nodes <;> rfl

theorem neighbors_of_eq (g : MultiContactGraph) (x : Int) :
    neighbors_of g x = ((map_find x g.nodes).map MultiNode.neighbors).getD [] := by
  unfold neighbors_of
  cases map_find x g.nodes <;> rfl

theorem has_node_of_mem_alts (g : MultiContactGraph) (x y : Int) (h : y ∈ alts_of g x) :
    ∃ n, map_find x g.nodes = some n := by
  unfold alts_of at h
  cases hx : map_find x g.nodes with
  | none => simp [hx] at h
  | some n => exact ⟨n, rfl⟩

theorem has_node_of_mem_neighbors (g : MultiContactGraph) (x y : Int)
    (h : y ∈ neighbors_of g x) : ∃ n, map_find x g.nodes = some n := by
  unfold neighbors_of at h
  cases hx : map_find x g.nodes with
  | none => simp [hx] at h
  | some n => exact ⟨n, rfl⟩

/-- A field that the update `f` leaves alone reads the same after the write. -/
theorem map_find_update_field {β : Type} (proj : MultiNode → β) (f : MultiNode → MultiNode)
    (hf : ∀ n, proj (f n) = proj n) (id x : Int) (m : List (Int × MultiNode)) :
    (map_find x (map_update id f m)).map proj = (map_find x m).map proj := by
  rw [map_find_update]
  split_ifs with h
  · subst h
    cases map_find x m <;> simp [hf]
  · rfl

/-- A new record with empty sets changes no alts set and no neighbour set. -/
theorem map_find_emplace_field {β : Type} (proj : MultiNode → List β) (v : MultiNode)
    (hv : proj v = []) (id x : Int) (m : List (Int × MultiNode)) :
    ((map_find x (map_emplace id v m)).map proj).getD [] =
      ((map_find x m).map proj).getD [] := by
  rw [map_find_emplace]
  cases map_find x m with
  | some n => rfl
  | none =>
    split_ifs
    · simp [hv]
    · rfl

theorem edge_comm (a b : Int) : edge a b = edge b a := by
  unfold edge
  rw [min_comm, max_comm]

theorem edge_le (a b : Int) : (edge a b).1 ≤ (edge a b).2 := by
  unfold edge
  exact le_trans (min_le_left a b) (le_max_left a b)

theorem edge_eq_iff (x y a b : Int) :
    edge x y = edge a b ↔ (x = a ∧ y = b) ∨ (x = b ∧ y = a) := by
  unfold edge
  rw [Prod.mk.injEq]
  constructor
  · rintro ⟨h1, h2⟩
    rcases le_total x y with hxy | hxy <;> rcases le_total a b with hab | hab <;>
      simp only [min_eq_left, min_eq_right, max_eq_left, max_eq_right, hxy, hab] at h1 h2 <;>
      omega
  · rintro (⟨rfl, rfl⟩ | ⟨rfl, rfl⟩)
    · exact ⟨rfl, rfl⟩
    · exact ⟨min_comm _ _, max_comm _ _⟩

theorem edge_of_le (e : Int × Int) (h : e.1 ≤ e.2) : edge e.1 e.2 = e := by
  unfold edge
  rw [min_eq_left h, max_eq_right h]

/-! ### Sequencing and loops -/

theorem andThen_returned (o : Outcome) (f : MultiContactGraph → Outcome)
    (g2 : MultiContactGraph) (h : o.andThen f = .returned g2) :
    ∃ g1, o = .returned g1 ∧ f g1 = .returned g2 := by
  cases o with
  | returned g1 => exact ⟨g1, rfl, h⟩
  | threw e g1 => simp [Outcome.andThen] at h
  | out_of_fuel => simp [Outcome.andThen] at h

/-- A property kept by every normally returning iteration is kept by a loop
that returns normally. -/
theorem for_each_invariant {α : Type} (P : MultiContactGraph → Prop)
    (body : MultiContactGraph → α → Outcome) (xs : List α)
    (hbody : ∀ g1 g2 x, x ∈ xs → P g1 → body g1 x = .returned g2 → P g2) :
    ∀ g g1, P g → for_each body xs g = .returned g1 → P g1 := by
  induction xs with
  | nil =>
    intro g g1 hP h
    simp only [for_each, Outcome.returned.injEq] at h
    exact h ▸ hP
  | cons x xs ih =>
    intro g g1 hP h
    obtain ⟨g2, h2, h3⟩ := andThen_returned _ _ _ h
    exact ih (fun a b y hy => hbody a b y (List.mem_cons_of_mem _ hy)) g2 g1
      (hbody g g2 x (List.mem_cons_self _ _) hP h2) h3

/-- A loop whose iterations all return normally, under a property they keep,
returns normally. -/
theorem for_each_returns {α : Type} (P : MultiContactGraph → Prop)
    (body : MultiContactGraph → α → Outcome) (xs : List α)
    (hbody : ∀ g1 x, x ∈ xs → P g1 → ∃ g2, body g1 x = .returned g2 ∧ P g2) :
    ∀ g, P g → ∃ g1, for_each body xs g = .returned g1 ∧ P g1 := by
  induction xs with
  | nil => intro g hP; exact ⟨g, rfl, hP⟩
  | cons x xs ih =>
    intro g hP
    obtain ⟨g2, h2, hP2⟩ := hbody g x (List.mem_cons_self _ _) hP
    obtain ⟨g1, h1, hP1⟩ := ih (fun a y hy => hbody a y (List.mem_cons_of_mem _ hy)) g2 hP2
    exact ⟨g1, by simp [for_each, h2, Outcome.andThen, h1], hP1⟩

theorem nodes_at_returned (g g1 : MultiContactGraph) (id : Int) (f : MultiNode → MultiNode)
    (h : nodes_at g id f = .returned g1) :
    g1 = { g with nodes := map_update id f g.nodes } ∧ ∃ n, map_find id g.nodes = some n := by
  unfold nodes_at at h
  cases hf : map_find id g.nodes with
  | none => simp [hf] at h
  | some n =>
    simp only [hf, Outcome.returned.injEq] at h
    exact ⟨h.symm, n, rfl⟩

theorem nodes_at_of_present (g : MultiContactGraph) (id : Int) (f : MultiNode → MultiNode)
    (n : MultiNode) (h : map_find id g.nodes = some n) :
    nodes_at g id f = .returned { g with nodes := map_update id f g.nodes } := by
  unfold nodes_at
  simp [h]

/-- Wellformedness only reads the alts sets, the neighbour sets and the keys
of the edge map. -/
theorem WellFormed.congr {g g1 : MultiContactGraph} (hwf : WellFormed g)
    (halts : ∀ x, alts_of g1 x = alts_of g x)
    (hnb : ∀ x y, y ∈ neighbors_of g1 x ↔ y ∈ neighbors_of g x)
    (hedge : ∀ e, edge_stored g1 e ↔ edge_stored g e) : WellFormed g1 where
  alts_symm := by
    intro a b h
    rw [halts] at h ⊢
    exact hwf.alts_symm a b h
  alts_irrefl := by
    intro a
    rw [halts]
    exact hwf.alts_irrefl a
  alts_complete := by
    intro a b c h1 h2 d h3
    rw [halts] at h1 h2 h3 ⊢
    exact hwf.alts_complete a b c h1 h2 d h3
  alts_sorted := by
    intro a
    rw [halts]
    exact hwf.alts_sorted a
  edge_canonical := by
    intro e h
    exact hwf.edge_canonical e ((hedge e).mp h)
  edge_neighbors := by
    intro a b
    rw [hedge, hnb]
    exact hwf.edge_neighbors a b

theorem wellFormed_empty : WellFormed MultiContactGraph.empty where
  alts_symm := by intro a b h; simp [alts_of, MultiContactGraph.empty, map_find] at h
  alts_irrefl := by intro a; simp [alts_of, MultiContactGraph.empty, map_find]
  alts_complete := by
    intro a b c h; simp [alts_of, MultiContactGraph.empty, map_find] at h
  alts_sorted := by intro a; simp [alts_of, MultiContactGraph.empty, map_find]
  edge_canonical := by
    intro e h; simp [edge_stored, MultiContactGraph.empty, map_find] at h
  edge_neighbors := by
    intro a b
    simp [edge_stored, neighbors_of, MultiContactGraph.empty, map_find]

/-! ## Member functions that keep the links -/

theorem same_links_refl (g : MultiContactGraph) : same_links g g :=
  ⟨fun _ => rfl, fun _ => rfl, fun _ => rfl, rfl⟩

theorem same_links_trans {g0 g1 g2 : MultiContactGraph} (h1 : same_links g0 g1)
    (h2 : same_links g1 g2) : same_links g0 g2 :=
  ⟨fun x => (h2.1 x).trans (h1.1 x), fun x => (h2.2.1 x).trans (h1.2.1 x),
    fun x => (h2.2.2.1 x).trans (h1.2.2.1 x), h2.2.2.2.trans h1.2.2.2⟩

theorem WellFormed.of_same_links {g0 g : MultiContactGraph} (hwf : WellFormed g0)
    (h : same_links g0 g) : WellFormed g :=
  hwf.congr h.1 (fun x y => by rw [h.2.1 x])
    (fun e => by unfold edge_stored; rw [h.2.2.2])

theorem same_links_of_nodes_eq (g0 g : MultiContactGraph) (hn : g.nodes = g0.nodes)
    (he : g.edge_weights = g0.edge_weights) : same_links g0 g := by
  refine ⟨fun x => ?_, fun x => ?_, fun x => ?_, he⟩
  · unfold alts_of; rw [hn]
  · unfold neighbors_of; rw [hn]
  · rw [hn]

theorem same_links_raise_max_id (g : MultiContactGraph) (id : Int) :
    same_links g (raise_max_id g id) := by
  unfold raise_max_id
  split_ifs
  · exact same_links_of_nodes_eq _ _ rfl rfl
  · exact same_links_refl g

/-- Writing fields other than the two sets keeps the links. -/
theorem same_links_update (g : MultiContactGraph) (id : Int) (f : MultiNode → MultiNode)
    (halts : ∀ n, (f n).alts = n.alts) (hnb : ∀ n, (f n).neighbors = n.neighbors) :
    same_links g { g with nodes := map_update id f g.nodes } := by
  refine ⟨fun x => ?_, fun x => ?_, fun x => ?_, rfl⟩
  · rw [alts_of_eq, alts_of_eq]
    exact congrArg (fun o => Option.getD o [])
      (map_find_update_field MultiNode.alts f halts id x g.nodes)
  · rw [neighbors_of_eq, neighbors_of_eq]
    exact congrArg (fun o => Option.getD o [])
      (map_find_update_field MultiNode.neighbors f hnb id x g.nodes)
  · show (map_find x (map_update id f g.nodes)).isSome = _
    rw [map_find_update]
    split_ifs with h
    · subst h; cases map_find x g.nodes <;> rfl
    · rfl

theorem same_links_nodes_at (g g1 : MultiContactGraph) (id : Int) (f : MultiNode → MultiNode)
    (h : nodes_at g id f = .returned g1)
    (halts : ∀ n, (f n).alts = n.alts) (hnb : ∀ n, (f n).neighbors = n.neighbors) :
    same_links g g1 := by
  obtain ⟨rfl, _⟩ := nodes_at_returned g g1 id f h
  exact same_links_update g id f halts hnb

/-- A new record keeps every alts set and neighbour set, and adds a node. -/
theorem links_emplace (g : MultiContactGraph) (id : Int) (v : MultiNode)
    (halts : v.alts = []) (hnb : v.neighbors = []) :
    (∀ x, alts_of { g with nodes := map_emplace id v g.nodes } x = alts_of g x) ∧
    (∀ x, neighbors_of { g with nodes := map_emplace id v g.nodes } x = neighbors_of g x) := by
  constructor
  · intro x
    rw [alts_of_eq, alts_of_eq]
    exact map_find_emplace_field MultiNode.alts v halts id x g.nodes
  · intro x
    rw [neighbors_of_eq, neighbors_of_eq]
    exact map_find_emplace_field MultiNode.neighbors v hnb id x g.nodes

theorem wellFormed_emplace (g : MultiContactGraph) (id p : Int) (hwf : WellFormed g) :
    WellFormed (raise_max_id
      { g with nodes := map_emplace id (MultiNode.mk_partition p) g.nodes } id) := by
  have h := links_emplace g id (MultiNode.mk_partition p) rfl rfl
  have h1 : WellFormed { g with nodes := map_emplace id (MultiNode.mk_partition p) g.nodes } :=
    hwf.congr h.1 (fun x y => by rw [h.2 x]) (fun e => Iff.rfl)
  exact h1.of_same_links (same_links_raise_max_id _ id)

theorem wellFormed_insert_node (g g1 : MultiContactGraph) (id : Int) (hwf : WellFormed g)
    (h : insert_node g id = .returned g1) : WellFormed g1 := by
  unfold insert_node at h
  simp only [Outcome.returned.injEq] at h
  exact h ▸ wellFormed_emplace g id 0 hwf

theorem wellFormed_insert_node_partition (g g1 : MultiContactGraph) (id p : Int)
    (hwf : WellFormed g) (h : insert_node_partition g id p = .returned g1) :
    WellFormed g1 := by
  unfold insert_node_partition at h
  split_ifs at h
  simp only [Outcome.returned.injEq] at h
  exact h ▸ wellFormed_emplace g id p hwf

theorem wellFormed_try_insert_node_partition (g g1 : MultiContactGraph) (id p : Int)
    (hwf : WellFormed g) (h : try_insert_node_partition g id p = .returned g1) :
    WellFormed g1 := by
  unfold try_insert_node_partition at h
  simp only [Outcome.returned.injEq] at h
  subst h
  split_ifs
  · exact wellFormed_emplace g id p hwf
  · exact hwf.of_same_links (same_links_raise_max_id _ id)

theorem wellFormed_try_insert_node (g g1 : MultiContactGraph) (id : Int)
    (hwf : WellFormed g) (h : try_insert_node g id = .returned g1) : WellFormed g1 := by
  unfold try_insert_node at h
  simp only [Outcome.returned.injEq] at h
  subst h
  split_ifs
  · exact wellFormed_emplace g id 0 hwf
  · exact hwf.of_same_links (same_links_raise_max_id _ id)

theorem same_links_increment_coverage (g g1 : MultiContactGraph) (id v : Int)
    (h : increment_coverage g id v = .returned g1) : same_links g g1 := by
  unfold increment_coverage at h
  split_ifs at h
  exact same_links_nodes_at g g1 id _ h (fun _ => rfl) (fun _ => rfl)

theorem same_links_set_node_coverage (g g1 : MultiContactGraph) (id v : Int)
    (h : set_node_coverage g id v = .returned g1) : same_links g g1 := by
  unfold set_node_coverage at h
  split_ifs at h
  exact same_links_nodes_at g g1 id _ h (fun _ => rfl) (fun _ => rfl)

theorem same_links_set_node_length (g g1 : MultiContactGraph) (id v : Int)
    (h : set_node_length g id v = .returned g1) : same_links g g1 := by
  unfold set_node_length at h
  split_ifs at h
  exact same_links_nodes_at g g1 id _ h (fun _ => rfl) (fun _ => rfl)

/-- A loop of label writes keeps the links. -/
theorem same_links_for_each_nodes_at (f : MultiNode → MultiNode)
    (xs : List Int) (g g1 : MultiContactGraph)
    (h : for_each (fun g2 x => nodes_at g2 x f) xs g = .returned g1)
    (halts : ∀ n, (f n).alts = n.alts) (hnb : ∀ n, (f n).neighbors = n.neighbors) :
    same_links g g1 :=
  for_each_invariant (fun g2 => same_links g g2) _ xs
    (fun a b x _ hP hb => same_links_trans hP (same_links_nodes_at a b x f hb halts hnb))
    g g1 (same_links_refl g) h

theorem same_links_set_partition (g g1 : MultiContactGraph) (id p : Int)
    (h : set_partition g id p = .returned g1) : same_links g g1 := by
  unfold set_partition at h
  cases hf : map_find id g.nodes with
  | none => simp [hf] at h
  | some node =>
    simp only [hf] at h
    have h0 : same_links g
        { g with nodes := map_update id (fun n => { n with partition := p }) g.nodes } :=
      same_links_update g id _ (fun _ => rfl) (fun _ => rfl)
    split_ifs at h with h1 h2
    · cases hc : get_alt_component
          { g with nodes := map_update id (fun n => { n with partition := p }) g.nodes }
          id false with
      | ok component =>
        simp only [hc] at h
        obtain ⟨g2, h3, h4⟩ := andThen_returned _ _ _ h
        exact same_links_trans h0 (same_links_trans
          (same_links_for_each_nodes_at _ _ _ _ h3 (fun _ => rfl) (fun _ => rfl))
          (same_links_for_each_nodes_at _ _ _ _ h4 (fun _ => rfl) (fun _ => rfl)))
      | threw e => simp [hc] at h
      | out_of_fuel => simp [hc] at h
    · simp only [Outcome.returned.injEq] at h
      exact h ▸ h0

theorem edge_stored_update (g : MultiContactGraph) (k e : Int × Int) (f : Int → Int) :
    edge_stored { g with edge_weights := map_update k f g.edge_weights } e ↔
      edge_stored g e := by
  unfold edge_stored
  show (map_find e (map_update k f g.edge_weights)).isSome = true ↔ _
  rw [map_find_update]
  split_ifs with h
  · subst h; cases map_find e g.edge_weights <;> simp
  · rfl

theorem wellFormed_increment_edge_weight (g g1 : MultiContactGraph) (a b v : Int)
    (hwf : WellFormed g) (h : increment_edge_weight g a b v = .returned g1) :
    WellFormed g1 := by
  unfold increment_edge_weight at h
  split_ifs at h
  cases hf : map_find (edge a b) g.edge_weights with
  | none =>
    simp only [hf, Outcome.returned.injEq] at h
    exact h ▸ hwf
  | some w =>
    simp only [hf, Outcome.returned.injEq] at h
    subst h
    exact hwf.congr (fun _ => rfl) (fun _ _ => Iff.rfl) (fun e => edge_stored_update g _ e _)

/-! ## Edge insertion and removal -/

theorem isSome_map_find_update {K V : Type} [DecidableEq K] (k x : K) (f : V → V)
    (m : List (K × V)) :
    (map_find x (map_update k f m)).isSome = (map_find x m).isSome := by
  rw [map_find_update]
  split_ifs with h
  · subst h; cases map_find x m <;> rfl
  · rfl

theorem alts_of_update (g g1 : MultiContactGraph) (id : Int) (f : MultiNode → MultiNode)
    (hn : g1.nodes = map_update id f g.nodes) (hf : ∀ n, (f n).alts = n.alts) (x : Int) :
    alts_of g1 x = alts_of g x := by
  rw [alts_of_eq, alts_of_eq, hn]
  exact congrArg (fun o => Option.getD o [])
    (map_find_update_field MultiNode.alts f hf id x g.nodes)

theorem neighbors_of_update (g g1 : MultiContactGraph) (id : Int) (f : MultiNode → MultiNode)
    (hn : g1.nodes = map_update id f g.nodes) (hf : ∀ n, (f n).neighbors = n.neighbors)
    (x : Int) : neighbors_of g1 x = neighbors_of g x := by
  rw [neighbors_of_eq, neighbors_of_eq, hn]
  exact congrArg (fun o => Option.getD o [])
    (map_find_update_field MultiNode.neighbors f hf id x g.nodes)

theorem neighbors_of_update_eq (g g1 : MultiContactGraph) (id : Int)
    (f : MultiNode → MultiNode) (s : List Int → List Int)
    (hn : g1.nodes = map_update id f g.nodes) (hf : ∀ n, (f n).neighbors = s n.neighbors)
    (hs : s [] = []) (x : Int) :
    neighbors_of g1 x = if x = id then s (neighbors_of g x) else neighbors_of g x := by
  unfold neighbors_of
  rw [hn, map_find_update]
  split_ifs with h
  · subst h
    cases map_find x g.nodes with
    | none => simp [hs]
    | some n => simp [hf]
  · rfl

theorem alts_of_update_eq (g g1 : MultiContactGraph) (id : Int)
    (f : MultiNode → MultiNode) (s : List Int → List Int)
    (hn : g1.nodes = map_update id f g.nodes) (hf : ∀ n, (f n).alts = s n.alts)
    (hs : s [] = []) (x : Int) :
    alts_of g1 x = if x = id then s (alts_of g x) else alts_of g x := by
  unfold alts_of
  rw [hn, map_find_update]
  split_ifs with h
  · subst h
    cases map_find x g.nodes with
    | none => simp [hs]
    | some n => simp [hf]
  · rfl

/-- The neighbour set of a present node after `neighbors.emplace(b)`. -/
theorem mem_neighbors_after_emplace (g g1 : MultiContactGraph) (id b : Int) (n : MultiNode)
    (hn : g1.nodes = map_update id
      (fun n => { n with neighbors := set_emplace b n.neighbors }) g.nodes)
    (hp : map_find id g.nodes = some n) (x y : Int) :
    y ∈ neighbors_of g1 x ↔ y ∈ neighbors_of g x ∨ (x = id ∧ y = b) := by
  unfold neighbors_of
  rw [hn, map_find_update]
  split_ifs with h
  · subst h
    simp only [hp, Option.map_some', mem_set_emplace]
    tauto
  · simp [h]

theorem edge_stored_emplace (g : MultiContactGraph) (k e : Int × Int) (w : Int) :
    edge_stored { g with edge_weights := map_emplace k w g.edge_weights } e ↔
      edge_stored g e ∨ e = k := by
  unfold edge_stored
  show (map_find e (map_emplace k w g.edge_weights)).isSome = true ↔ _
  rw [map_find_emplace]
  cases map_find e g.edge_weights with
  | some x => simp
  | none =>
    split_ifs with h
    · simp [h]
    · simp [h]

theorem edge_stored_erase (g : MultiContactGraph) (k e : Int × Int) :
    edge_stored { g with edge_weights := map_erase k g.edge_weights } e ↔
      edge_stored g e ∧ e ≠ k := by
  unfold edge_stored
  show (map_find e (map_erase k g.edge_weights)).isSome = true ↔ _
  rw [map_find_erase]
  split_ifs with h
  · simp [h]
  · simp [h]

/-- What `insert_edge` changes when it returns. -/
theorem insert_edge_effect (g g1 : MultiContactGraph) (a b w : Int)
    (h : insert_edge g a b w = .returned g1) :
    (∀ x, alts_of g1 x = alts_of g x) ∧
    (∀ x y, y ∈ neighbors_of g1 x ↔
      y ∈ neighbors_of g x ∨ (x = a ∧ y = b) ∨ (x = b ∧ y = a)) ∧
    (∀ e, edge_stored g1 e ↔ edge_stored g e ∨ e = edge a b) := by
  unfold insert_edge at h
  obtain ⟨g2, h2, h3⟩ := andThen_returned _ _ _ h
  obtain ⟨hg2, na, hna⟩ := nodes_at_returned _ _ _ _ h2
  obtain ⟨hg1, nb, hnb⟩ := nodes_at_returned _ _ _ _ h3
  have hn2 : g2.nodes = map_update a
      (fun n => { n with neighbors := set_emplace b n.neighbors }) g.nodes := by rw [hg2]
  have hn1 : g1.nodes = map_update b
      (fun n => { n with neighbors := set_emplace a n.neighbors }) g2.nodes := by rw [hg1]
  refine ⟨fun x => ?_, fun x y => ?_, fun e => ?_⟩
  · rw [alts_of_update g2 g1 b _ hn1 (fun _ => rfl), alts_of_update g g2 a _ hn2 (fun _ => rfl)]
  · rw [mem_neighbors_after_emplace g2 g1 b a nb hn1 hnb,
      mem_neighbors_after_emplace g g2 a b na hn2 hna]
    tauto
  · have e1 : g1.edge_weights = g2.edge_weights := by rw [hg1]
    have e2 : g2.edge_weights = map_emplace (edge a b) w g.edge_weights := by rw [hg2]
    have := edge_stored_emplace g (edge a b) e w
    unfold edge_stored at this ⊢
    rw [e1, e2]
    exact this

theorem wellFormed_insert_edge (g g1 : MultiContactGraph) (a b w : Int)
    (hwf : WellFormed g) (h : insert_edge g a b w = .returned g1) : WellFormed g1 := by
  obtain ⟨halts, hnb, hedge⟩ := insert_edge_effect g g1 a b w h
  refine ⟨?_, ?_, ?_, ?_, ?_, ?_⟩
  · intro x y hxy; rw [halts] at hxy ⊢; exact hwf.alts_symm x y hxy
  · intro x; rw [halts]; exact hwf.alts_irrefl x
  · intro x y z h1 h2 d h3
    rw [halts] at h1 h2 h3 ⊢
    exact hwf.alts_complete x y z h1 h2 d h3
  · intro x; rw [halts]; exact hwf.alts_sorted x
  · intro e he
    rcases (hedge e).mp he with he | rfl
    · exact hwf.edge_canonical e he
    · exact edge_le a b
  · intro x y
    rw [hedge, hnb, hwf.edge_neighbors, edge_eq_iff]

theorem wellFormed_try_insert_edge (g g1 : MultiContactGraph) (a b w : Int)
    (hwf : WellFormed g) (h : try_insert_edge g a b w = .returned g1) : WellFormed g1 := by
  unfold try_insert_edge at h
  split_ifs at h
  cases hf : map_find (edge a b) g.edge_weights with
  | none =>
    simp only [hf] at h
    exact wellFormed_insert_edge g g1 a b w hwf h
  | some _ =>
    simp only [hf, Outcome.returned.injEq] at h
    exact h ▸ hwf

theorem wellFormed_try_insert_edge2 (g g1 : MultiContactGraph) (a b : Int)
    (hwf : WellFormed g) (h : try_insert_edge2 g a b = .returned g1) : WellFormed g1 := by
  unfold try_insert_edge2 at h
  split_ifs at h
  cases hf : map_find (edge a b) g.edge_weights with
  | none =>
    simp only [hf] at h
    exact wellFormed_insert_edge g g1 a b 0 hwf h
  | some _ =>
    simp only [hf, Outcome.returned.injEq] at h
    exact h ▸ hwf

/-- The neighbour sets after `neighbors.erase(b)` on node `id`. -/
theorem mem_neighbors_after_erase (g g1 : MultiContactGraph) (id b : Int)
    (hn : g1.nodes = map_update id
      (fun n => { n with neighbors := set_erase b n.neighbors }) g.nodes) (x y : Int) :
    y ∈ neighbors_of g1 x ↔ y ∈ neighbors_of g x ∧ ¬ (x = id ∧ y = b) := by
  rw [neighbors_of_update_eq g g1 id _ (set_erase b) hn (fun _ => rfl) rfl]
  split_ifs with h
  · rw [mem_set_erase]; subst h; simp
  · simp [h]

/-- What `remove_edge` changes when it returns. -/
theorem remove_edge_effect (g g1 : MultiContactGraph) (a b : Int)
    (h : remove_edge g a b = .returned g1) :
    (∀ x, alts_of g1 x = alts_of g x) ∧
    (∀ x, (map_find x g1.nodes).isSome = (map_find x g.nodes).isSome) ∧
    ((edge_stored g (edge a b) ∧
      (∀ x y, y ∈ neighbors_of g1 x ↔
        y ∈ neighbors_of g x ∧ ¬ (x = a ∧ y = b) ∧ ¬ (x = b ∧ y = a)) ∧
      (∀ e, edge_stored g1 e ↔ edge_stored g e ∧ e ≠ edge a b)) ∨
     (¬ edge_stored g (edge a b) ∧ g1 = g)) := by
  unfold remove_edge at h
  cases hf : map_find (edge a b) g.edge_weights with
  | none =>
    simp only [hf, Outcome.returned.injEq] at h
    subst h
    exact ⟨fun _ => rfl, fun _ => rfl, Or.inr ⟨by simp [edge_stored, hf], rfl⟩⟩
  | some w =>
    simp only [hf] at h
    obtain ⟨g2, h2, h3⟩ := andThen_returned _ _ _ h
    obtain ⟨hg2, na, hna⟩ := nodes_at_returned _ _ _ _ h2
    obtain ⟨hg1, nb, hnb⟩ := nodes_at_returned _ _ _ _ h3
    have hn2 : g2.nodes = map_update a
        (fun n => { n with neighbors := set_erase b n.neighbors }) g.nodes := by rw [hg2]
    have hn1 : g1.nodes = map_update b
        (fun n => { n with neighbors := set_erase a n.neighbors }) g2.nodes := by rw [hg1]
    refine ⟨fun x => ?_, fun x => ?_, Or.inl ⟨by simp [edge_stored, hf], fun x y => ?_, fun e => ?_⟩⟩
    · rw [alts_of_update g2 g1 b _ hn1 (fun _ => rfl),
        alts_of_update g g2 a _ hn2 (fun _ => rfl)]
    · rw [hn1, isSome_map_find_update, hn2, isSome_map_find_update]
    · rw [mem_neighbors_after_erase g2 g1 b a hn1, mem_neighbors_after_erase g g2 a b hn2]
      tauto
    · have e1 : g1.edge_weights = g2.edge_weights := by rw [hg1]
      have e2 : g2.edge_weights = map_erase (edge a b) g.edge_weights := by rw [hg2]
      have := edge_stored_erase g (edge a b) e
      unfold edge_stored at this ⊢
      rw [e1, e2]
      exact this

theorem wellFormed_remove_edge (g g1 : MultiContactGraph) (a b : Int)
    (hwf : WellFormed g) (h : remove_edge g a b = .returned g1) : WellFormed g1 := by
  obtain ⟨halts, _, hcase⟩ := remove_edge_effect g g1 a b h
  rcases hcase with ⟨_, hnb, hedge⟩ | ⟨_, rfl⟩
  · refine ⟨?_, ?_, ?_, ?_, ?_, ?_⟩
    · intro x y hxy; rw [halts] at hxy ⊢; exact hwf.alts_symm x y hxy
    · intro x; rw [halts]; exact hwf.alts_irrefl x
    · intro x y z h1 h2 d h3
      rw [halts] at h1 h2 h3 ⊢
      exact hwf.alts_complete x y z h1 h2 d h3
    · intro x; rw [halts]; exact hwf.alts_sorted x
    · intro e he
      exact hwf.edge_canonical e ((hedge e).mp he).1
    · intro x y
      rw [hedge, hnb, hwf.edge_neighbors, ne_eq, edge_eq_iff]
      tauto
  · exact hwf

/-- In a well-formed graph `remove_edge` returns normally. -/
theorem remove_edge_returns (g : MultiContactGraph) (a b : Int) (hwf : WellFormed g) :
    ∃ g1, remove_edge g a b = .returned g1 := by
  unfold remove_edge
  cases hf : map_find (edge a b) g.edge_weights with
  | none => exact ⟨g, rfl⟩
  | some w =>
    have hs : edge_stored g (edge a b) := by simp [edge_stored, hf]
    obtain ⟨na, hna⟩ := has_node_of_mem_neighbors g a b ((hwf.edge_neighbors a b).mp hs)
    obtain ⟨nb, hnb⟩ := has_node_of_mem_neighbors g b a
      ((hwf.edge_neighbors b a).mp (edge_comm a b ▸ hs))
    simp only
    rw [nodes_at_of_present
      { g with edge_weights := map_erase (edge a b) g.edge_weights } a _ na hna]
    simp only [Outcome.andThen]
    have : (map_find b (map_update a
        (fun n => { n with neighbors := set_erase b n.neighbors }) g.nodes)).isSome = true := by
      rw [isSome_map_find_update, hnb]; rfl
    obtain ⟨nb2, hnb2⟩ := Option.isSome_iff_exists.mp this
    rw [nodes_at_of_present _ b _ nb2 hnb2]
    exact ⟨_, rfl⟩

/-! ## The search on complete bipartite components -/

theorem WellFormed.not_alt_of_side {g : MultiContactGraph} (hwf : WellFormed g) (id x : Int)
    (hx : on_side_of g id x) : x ∉ alts_of g id := by
  intro h
  rcases hx with rfl | ⟨y, hy, hxy⟩
  · exact hwf.alts_irrefl _ h
  · exact hwf.alts_irrefl x (hwf.alts_complete id y x hy hxy x h)

theorem WellFormed.alts_of_side {g : MultiContactGraph} (hwf : WellFormed g) (id v : Int)
    (hv : on_side_of g id v) : ∀ y, y ∈ alts_of g v → y ∈ alts_of g id := by
  intro y hy
  rcases hv with rfl | ⟨b, hb, hvb⟩
  · exact hy
  · exact hwf.alts_complete v b id (hwf.alts_symm b v hvb) (hwf.alts_symm id b hb) y hy

theorem WellFormed.side_of_alts {g : MultiContactGraph} (hwf : WellFormed g) (id v : Int)
    (hv : on_side_of g id v) : ∀ y, y ∈ alts_of g id → y ∈ alts_of g v := by
  intro y hy
  rcases hv with rfl | ⟨b, hb, hvb⟩
  · exact hy
  · exact hwf.alts_complete id b v hb hvb y hy

theorem alts_of_some (g : MultiContactGraph) (v : Int) (node : MultiNode)
    (h : map_find v g.nodes = some node) : alts_of g v = node.alts := by
  unfold alts_of; rw [h]

theorem neighbors_of_some (g : MultiContactGraph) (v : Int) (node : MultiNode)
    (h : map_find v g.nodes = some node) : neighbors_of g v = node.neighbors := by
  unfold neighbors_of; rw [h]

theorem mem_enqueued (node : MultiNode) (c : alt_component_t) (d : Nat) (y : Int) (k : Nat) :
    (y, k) ∈ enqueued node c d ↔ y ∈ node.alts ∧ unseen c y = true ∧ k = d + 1 := by
  unfold enqueued
  simp only [List.mem_map, List.mem_filter, Prod.mk.injEq]
  constructor
  · rintro ⟨a, ⟨ha, hu⟩, rfl, rfl⟩; exact ⟨ha, hu, rfl⟩
  · rintro ⟨ha, hu, rfl⟩; exact ⟨y, ⟨ha, hu⟩, rfl, rfl⟩

theorem unseen_eq_false_iff (c : alt_component_t) (y : Int) :
    unseen c y = false ↔ (y ∈ c.1 ∨ y ∈ c.2) := by
  unfold unseen
  simp only [Bool.not_eq_false', Bool.or_eq_true, decide_eq_true_eq]

theorem mem_placed_first (c : alt_component_t) (v x : Int) (d : Nat) :
    x ∈ (placed c v d).1 ↔ (x = v ∧ d % 2 = 0) ∨ x ∈ c.1 := by
  unfold placed
  split_ifs with h
  · simp only [mem_set_emplace]; tauto
  · simp [h]

theorem mem_placed_second (c : alt_component_t) (v x : Int) (d : Nat) :
    x ∈ (placed c v d).2 ↔ (x = v ∧ ¬ d % 2 = 0) ∨ x ∈ c.2 := by
  unfold placed
  split_ifs with h
  · simp [h]
  · simp only [mem_set_emplace]; tauto

/-- One iteration keeps the loop invariant. -/
theorem SearchInv.step {g : MultiContactGraph} (hwf : WellFormed g) {id v : Int} {d : Nat}
    {q : List (Int × Nat)} {c : alt_component_t} (node : MultiNode)
    (hnode : map_find v g.nodes = some node) (inv : SearchInv g id ((v, d) :: q) c) :
    SearchInv g id (q ++ enqueued node (placed c v d) d) (placed c v d) := by
  have hv := inv.queue_side v d (List.mem_cons_self _ _)
  have halts := alts_of_some g v node hnode
  refine ⟨?_, ?_, ?_, ?_, ?_, ?_, ?_⟩
  · intro x hx
    rcases (mem_placed_first c v x d).mp hx with ⟨rfl, hd⟩ | hx
    · exact hv.1 hd
    · exact inv.first_side x hx
  · intro x hx
    rcases (mem_placed_second c v x d).mp hx with ⟨rfl, hd⟩ | hx
    · exact hv.2 hd
    · exact inv.second_side x hx
  · intro y k hyk
    rcases List.mem_append.mp hyk with hyk | hyk
    · exact inv.queue_side y k (List.mem_cons_of_mem _ hyk)
    · obtain ⟨hy, _, rfl⟩ := (mem_enqueued node _ d y k).mp hyk
      rw [← halts] at hy
      constructor
      · intro hk
        have hd : ¬ d % 2 = 0 := by omega
        exact Or.inr ⟨v, hv.2 hd, hy⟩
      · intro hk
        have hd : d % 2 = 0 := by omega
        exact hwf.alts_of_side id v (hv.1 hd) y hy
  · intro u hu y hy
    by_cases hseen : unseen (placed c v d) y = false
    · exact Or.inl ((unseen_eq_false_iff _ y).mp hseen)
    · have hun : unseen (placed c v d) y = true := by simpa using hseen
      right
      rcases (mem_placed c v u d).mp hu with rfl | hu
      · exact ⟨d + 1, List.mem_append_right _
          ((mem_enqueued node _ d y (d + 1)).mpr ⟨halts ▸ hy, hun, rfl⟩)⟩
      · rcases inv.closed u hu y hy with hy2 | ⟨k, hk⟩
        · exact absurd ((mem_placed c v y d).mpr (Or.inr hy2))
            (fun h => by rw [(unseen_eq_false_iff _ y).mpr h] at hun; cases hun)
        · rcases List.mem_cons.mp hk with hk | hk
          · have : y = v := congrArg Prod.fst hk
            exact absurd ((mem_placed c v y d).mpr (Or.inl this))
              (fun h => by rw [(unseen_eq_false_iff _ y).mpr h] at hun; cases hun)
          · exact ⟨k, List.mem_append_left _ hk⟩
  · rcases inv.start with h | ⟨k, hk⟩
    · exact Or.inl ((mem_placed c v id d).mpr (Or.inr h))
    · rcases List.mem_cons.mp hk with hk | hk
      · have : id = v := congrArg Prod.fst hk
        exact Or.inl ((mem_placed c v id d).mpr (Or.inl this))
      · exact Or.inr ⟨k, List.mem_append_left _ hk⟩
  · unfold placed
    split_ifs
    · exact sorted_set_emplace v c.1 inv.first_sorted
    · exact inv.first_sorted
  · unfold placed
    split_ifs
    · exact inv.second_sorted
    · exact sorted_set_emplace v c.2 inv.second_sorted

/-- When the queue is empty the invariant pins the component down. -/
theorem SearchInv.final {g : MultiContactGraph} (hwf : WellFormed g) {id : Int}
    {c : alt_component_t} (inv : SearchInv g id [] c) :
    (∀ x, x ∈ c.1 ↔ on_side_of g id x) ∧ c.2 = alts_of g id ∧ c.1.Sorted (· < ·) := by
  have hclosed : ∀ v, (v ∈ c.1 ∨ v ∈ c.2) → ∀ y, y ∈ alts_of g v → (y ∈ c.1 ∨ y ∈ c.2) := by
    intro v hv y hy
    rcases inv.closed v hv y hy with h | ⟨k, hk⟩
    · exact h
    · simp at hk
  have hstart : id ∈ c.1 ∨ id ∈ c.2 := by
    rcases inv.start with h | ⟨k, hk⟩
    · exact h
    · simp at hk
  have hfirst : ∀ x, on_side_of g id x → (x ∈ c.1 ∨ x ∈ c.2) → x ∈ c.1 := by
    intro x hx hc
    rcases hc with h | h
    · exact h
    · exact absurd (inv.second_side x h) (hwf.not_alt_of_side id x hx)
  refine ⟨fun x => ⟨inv.first_side x, fun hx => ?_⟩, ?_, inv.first_sorted⟩
  · apply hfirst x hx
    rcases hx with rfl | ⟨y, hy, hxy⟩
    · exact hstart
    · exact hclosed y (hclosed id hstart y hy) x hxy
  · apply sorted_ext inv.second_sorted (hwf.alts_sorted id)
    intro x
    refine ⟨inv.second_side x, fun hx => ?_⟩
    rcases hclosed id hstart x hx with h | h
    · exact absurd hx (hwf.not_alt_of_side id x (inv.first_side x h))
    · exact h

theorem SearchInv.present {g : MultiContactGraph} (hwf : WellFormed g) {id v : Int} {d : Nat}
    {q : List (Int × Nat)} {c : alt_component_t} (n0 : MultiNode)
    (hid : map_find id g.nodes = some n0) (inv : SearchInv g id ((v, d) :: q) c) :
    ∃ node, map_find v g.nodes = some node := by
  have hv := inv.queue_side v d (List.mem_cons_self _ _)
  by_cases hd : d % 2 = 0
  · rcases hv.1 hd with rfl | ⟨y, hy, hvy⟩
    · exact ⟨n0, hid⟩
    · exact has_node_of_mem_alts g v y (hwf.alts_symm y v hvy)
  · exact has_node_of_mem_alts g v id (hwf.alts_symm id v (hv.2 hd))

/-- Under the invariant the loop cannot throw, and what it returns is the
side of `id` and the alts of `id`. -/
theorem bfs_loop_wellFormed {g : MultiContactGraph} (hwf : WellFormed g) {id : Int}
    (n0 : MultiNode) (hid : map_find id g.nodes = some n0) :
    ∀ (fuel : Nat) (q : List (Int × Nat)) (c : alt_component_t), SearchInv g id q c →
      bfs_loop g.nodes id fuel q c = .out_of_fuel ∨
      ∃ c1, bfs_loop g.nodes id fuel q c = .ok c1 ∧
        (∀ x, x ∈ c1.1 ↔ on_side_of g id x) ∧ c1.2 = alts_of g id ∧ c1.1.Sorted (· < ·) := by
  intro fuel
  induction fuel with
  | zero =>
    intro q c inv
    match q with
    | [] => exact Or.inr ⟨c, rfl, inv.final hwf⟩
    | _ :: _ => exact Or.inl rfl
  | succ fuel ih =>
    intro q c inv
    match q with
    | [] => exact Or.inr ⟨c, rfl, inv.final hwf⟩
    | (v, d) :: q =>
      obtain ⟨node, hnode⟩ := inv.present hwf n0 hid
      rw [bfs_loop_cons, hnode]
      exact ih _ _ (inv.step hwf node hnode)

theorem searchInv_initial (g : MultiContactGraph) (id : Int) :
    SearchInv g id [(id, 0)] ([], []) where
  first_side := by intro x hx; simp at hx
  second_side := by intro x hx; simp at hx
  queue_side := by
    intro v d h
    simp only [List.mem_singleton, Prod.mk.injEq] at h
    obtain ⟨rfl, rfl⟩ := h
    exact ⟨fun _ => Or.inl rfl, fun h => absurd rfl h⟩
  closed := by intro v hv; simp at hv
  start := Or.inr ⟨0, List.mem_singleton.mpr rfl⟩
  first_sorted := List.sorted_nil
  second_sorted := List.sorted_nil

/-- In a well-formed graph, the component of a present node: the first side is
the node with the alts of its alts, the second side is its alts set. -/
theorem get_alt_component_wellFormed {g : MultiContactGraph} (hwf : WellFormed g) {id : Int}
    (n0 : MultiNode) (hid : map_find id g.nodes = some n0) :
    ∃ c, get_alt_component g id false = .ok c ∧
      (∀ x, x ∈ c.1 ↔ on_side_of g id x) ∧ c.2 = alts_of g id ∧ c.1.Sorted (· < ·) := by
  rcases bfs_loop_wellFormed hwf n0 hid (bfs_fuel g.nodes) _ _ (searchInv_initial g id) with
    h | ⟨c, hc, hrest⟩
  · exact absurd h (bfs_loop_fuel_sufficient g.nodes id)
  · refine ⟨c, ?_, hrest⟩
    unfold get_alt_component
    rw [hc]
    rfl

/-! ## The linking loops of `add_alt` -/

theorem partition_of_update (g g1 : MultiContactGraph) (id : Int) (f : MultiNode → MultiNode)
    (hn : g1.nodes = map_update id f g.nodes) (hf : ∀ n, (f n).partition = n.partition)
    (x : Int) : partition_of g1 x = partition_of g x := by
  unfold partition_of
  rw [hn]
  exact map_find_update_field MultiNode.partition f hf id x g.nodes

theorem partition_of_update_const (g g1 : MultiContactGraph) (id p : Int)
    (f : MultiNode → MultiNode) (hn : g1.nodes = map_update id f g.nodes)
    (hf : ∀ n, (f n).partition = p) (x : Int) :
    partition_of g1 x =
      if x = id then (partition_of g x).map (fun _ => p) else partition_of g x := by
  unfold partition_of
  rw [hn, map_find_update]
  split_ifs with h
  · subst h
    cases map_find x g.nodes <;> simp [hf]
  · rfl

theorem partition_of_isSome (g : MultiContactGraph) (x : Int) :
    (partition_of g x).isSome = (map_find x g.nodes).isSome := by
  unfold partition_of
  cases map_find x g.nodes <;> rfl

theorem Linked.refl_of_empty (g : MultiContactGraph) (R : Int → Int → Prop)
    (hR : ∀ x y, ¬ R x y) : Linked g g R where
  alts := by intro x y; simp [hR]
  sorted := fun h => h
  neighbors := fun _ => rfl
  present := fun _ => rfl
  edges := rfl
  max_id := rfl
  second := by intro x ⟨y, hy⟩; exact absurd hy (hR y x)
  first := by intro x ⟨y, hy⟩; exact absurd hy (hR x y)
  others := fun _ _ _ => rfl

theorem Linked.congr_rel {g g1 : MultiContactGraph} {R R1 : Int → Int → Prop}
    (h : Linked g g1 R) (hR : ∀ x y, R1 x y ↔ R x y) : Linked g g1 R1 := by
  have e : R1 = R := by funext x y; exact propext (hR x y)
  rw [e]; exact h

/-- Two rounds of linking compose when no node is on the first side of one
relation and on the second side of one. -/
theorem Linked.trans {g g1 g2 : MultiContactGraph} {R1 R2 : Int → Int → Prop}
    (h1 : Linked g g1 R1) (h2 : Linked g1 g2 R2)
    (hdisj : ∀ x y z, (R1 x y ∨ R2 x y) → ¬ (R1 z x ∨ R2 z x)) :
    Linked g g2 (fun x y => R1 x y ∨ R2 x y) where
  alts := by
    intro x y
    rw [h2.alts, h1.alts]
    tauto
  sorted := fun h => h2.sorted (h1.sorted h)
  neighbors := fun x => (h2.neighbors x).trans (h1.neighbors x)
  present := fun x => (h2.present x).trans (h1.present x)
  edges := h2.edges.trans h1.edges
  max_id := h2.max_id.trans h1.max_id
  second := by
    intro x ⟨y, hy⟩ hp
    by_cases hc : ∃ z, R2 z x
    · exact h2.second x hc ((h1.present x).trans hp)
    · have hy1 : R1 y x := by
        rcases hy with hy | hy
        · exact hy
        · exact absurd ⟨y, hy⟩ hc
      have hd : ¬ ∃ z, R2 x z := by
        rintro ⟨z, hz⟩
        exact hdisj x z y (Or.inr hz) (Or.inl hy1)
      rw [h2.others x hd hc]
      exact h1.second x ⟨y, hy1⟩ hp
  first := by
    intro x ⟨y, hy⟩ hn hp
    have hc2 : ¬ ∃ z, R2 z x := fun ⟨z, hz⟩ => hn ⟨z, Or.inr hz⟩
    have hc1 : ¬ ∃ z, R1 z x := fun ⟨z, hz⟩ => hn ⟨z, Or.inl hz⟩
    by_cases hd : ∃ z, R2 x z
    · exact h2.first x hd hc2 ((h1.present x).trans hp)
    · have hy1 : R1 x y := by
        rcases hy with hy | hy
        · exact hy
        · exact absurd ⟨y, hy⟩ hd
      rw [h2.others x hd hc2]
      exact h1.first x ⟨y, hy1⟩ hc1 hp
  others := by
    intro x hd hc
    have hd1 : ¬ ∃ y, R1 x y := fun ⟨y, hy⟩ => hd ⟨y, Or.inl hy⟩
    have hd2 : ¬ ∃ y, R2 x y := fun ⟨y, hy⟩ => hd ⟨y, Or.inr hy⟩
    have hc1 : ¬ ∃ y, R1 y x := fun ⟨y, hy⟩ => hc ⟨y, Or.inl hy⟩
    have hc2 : ¬ ∃ y, R2 y x := fun ⟨y, hy⟩ => hc ⟨y, Or.inr hy⟩
    rw [h2.others x hd2 hc2, h1.others x hd1 hc1]

/-- The alts set of a present node after `alts.emplace(b)`. -/
theorem mem_alts_after_emplace (g g1 : MultiContactGraph) (id b : Int) (n : MultiNode)
    (hn : g1.nodes = map_update id (fun n => { n with alts := set_emplace b n.alts }) g.nodes)
    (hp : map_find id g.nodes = some n) (x y : Int) :
    y ∈ alts_of g1 x ↔ y ∈ alts_of g x ∨ (x = id ∧ y = b) := by
  unfold alts_of
  rw [hn, map_find_update]
  split_ifs with h
  · subst h
    simp only [hp, Option.map_some', mem_set_emplace]
    tauto
  · simp [h]

theorem sorted_alts_after_emplace (g g1 : MultiContactGraph) (id b : Int)
    (hn : g1.nodes = map_update id (fun n => { n with alts := set_emplace b n.alts }) g.nodes)
    (hs : ∀ x, (alts_of g x).Sorted (· < ·)) (x : Int) : (alts_of g1 x).Sorted (· < ·) := by
  have := hs x
  unfold alts_of at this ⊢
  rw [hn, map_find_update]
  split_ifs with h
  · subst h
    cases hx : map_find x g.nodes with
    | none => simp
    | some n =>
      rw [hx] at this
      exact sorted_set_emplace b n.alts this
  · exact this

/-- What the inner loop body of `add_alt` does when both nodes are present. -/
theorem link_alts_effect (g : MultiContactGraph) (a b : Int) (na nb : MultiNode)
    (ha : map_find a g.nodes = some na) (hb : map_find b g.nodes = some nb) :
    ∃ g1, link_alts g a b = .returned g1 ∧ Linked g g1 (fun x y => x = a ∧ y = b) := by
  let f1 : MultiNode → MultiNode := fun n => { n with alts := set_emplace b n.alts }
  let f2 : MultiNode → MultiNode := fun n => { n with alts := set_emplace a n.alts }
  let f3 : MultiNode → MultiNode := fun n => { n with partition := 1 }
  let f4 : MultiNode → MultiNode := fun n => { n with partition := -1 }
  let g1 : MultiContactGraph := { g with nodes := map_update a f1 g.nodes }
  let g2 : MultiContactGraph := { g1 with nodes := map_update b f2 g1.nodes }
  let g3 : MultiContactGraph := { g2 with nodes := map_update a f3 g2.nodes }
  let g4 : MultiContactGraph := { g3 with nodes := map_update b f4 g3.nodes }
  have e1 : g1.nodes = map_update a f1 g.nodes := rfl
  have e2 : g2.nodes = map_update b f2 g1.nodes := rfl
  have e3 : g3.nodes = map_update a f3 g2.nodes := rfl
  have e4 : g4.nodes = map_update b f4 g3.nodes := rfl
  have hp1 : ∀ x, (map_find x g1.nodes).isSome = (map_find x g.nodes).isSome :=
    fun x => isSome_map_find_update a x f1 g.nodes
  have hp2 : ∀ x, (map_find x g2.nodes).isSome = (map_find x g1.nodes).isSome :=
    fun x => isSome_map_find_update b x f2 g1.nodes
  have hp3 : ∀ x, (map_find x g3.nodes).isSome = (map_find x g2.nodes).isSome :=
    fun x => isSome_map_find_update a x f3 g2.nodes
  have hp4 : ∀ x, (map_find x g4.nodes).isSome = (map_find x g3.nodes).isSome :=
    fun x => isSome_map_find_update b x f4 g3.nodes
  have hb1 : (map_find b g1.nodes).isSome = true := by
    rw [hp1, hb]; rfl
  obtain ⟨nb1, hnb1⟩ := Option.isSome_iff_exists.mp hb1
  have hpart : ∀ x, partition_of g4 x =
      if x = b then (partition_of g x).map (fun _ => -1)
      else if x = a then (partition_of g x).map (fun _ => 1) else partition_of g x := by
    intro x
    rw [partition_of_update_const g3 g4 b (-1) f4 e4 (fun _ => rfl),
      partition_of_update_const g2 g3 a 1 f3 e3 (fun _ => rfl),
      partition_of_update g1 g2 b f2 e2 (fun _ => rfl),
      partition_of_update g g1 a f1 e1 (fun _ => rfl)]
    split_ifs <;> cases partition_of g x <;> rfl
  refine ⟨g4, ?_, ?_⟩
  · unfold link_alts
    rw [hb]
  · refine ⟨?_, ?_, ?_, ?_, rfl, rfl, ?_, ?_, ?_⟩
    · intro x y
      rw [alts_of_update g3 g4 b f4 e4 (fun _ => rfl),
        alts_of_update g2 g3 a f3 e3 (fun _ => rfl),
        mem_alts_after_emplace g1 g2 b a nb1 e2 hnb1,
        mem_alts_after_emplace g g1 a b na e1 ha]
      tauto
    · intro hs x
      rw [alts_of_update g3 g4 b f4 e4 (fun _ => rfl),
        alts_of_update g2 g3 a f3 e3 (fun _ => rfl)]
      exact sorted_alts_after_emplace g1 g2 b a e2
        (sorted_alts_after_emplace g g1 a b e1 hs) x
    · intro x
      rw [neighbors_of_update g3 g4 b f4 e4 (fun _ => rfl),
        neighbors_of_update g2 g3 a f3 e3 (fun _ => rfl),
        neighbors_of_update g1 g2 b f2 e2 (fun _ => rfl),
        neighbors_of_update g g1 a f1 e1 (fun _ => rfl)]
    · intro x
      rw [hp4, hp3, hp2, hp1]
    · rintro x ⟨y, _, rfl⟩ hp
      rw [hpart, if_pos rfl]
      have : (partition_of g x).isSome = true := by rw [partition_of_isSome]; exact hp
      obtain ⟨p, hp⟩ := Option.isSome_iff_exists.mp this
      rw [hp]; rfl
    · rintro x ⟨y, rfl, rfl⟩ hn hp
      have hxy : x ≠ y := fun e => hn ⟨x, rfl, e⟩
      rw [hpart, if_neg hxy, if_pos rfl]
      have : (partition_of g x).isSome = true := by rw [partition_of_isSome]; exact hp
      obtain ⟨p, hp⟩ := Option.isSome_iff_exists.mp this
      rw [hp]; rfl
    · intro x hd hc
      have hxb : x ≠ b := fun e => hc ⟨a, rfl, e⟩
      have hxa : x ≠ a := fun e => hd ⟨b, e, rfl⟩
      rw [hpart, if_neg hxb, if_neg hxa]

/-- The inner loop of `add_alt` for one first-side node. -/
theorem link_inner_loop (a : Int) :
    ∀ (xs : List Int) (g : MultiContactGraph), (map_find a g.nodes).isSome = true →
      (∀ x, x ∈ xs → (map_find x g.nodes).isSome = true) → a ∉ xs →
      ∃ g1, for_each (fun g2 id_b => link_alts g2 a id_b) xs g = .returned g1 ∧
        Linked g g1 (fun x y => x = a ∧ y ∈ xs) := by
  intro xs
  induction xs with
  | nil =>
    intro g _ _ _
    exact ⟨g, rfl, Linked.refl_of_empty g _ (by simp)⟩
  | cons b xs ih =>
    intro g ha hxs hax
    obtain ⟨na, hna⟩ := Option.isSome_iff_exists.mp ha
    obtain ⟨nb, hnb⟩ := Option.isSome_iff_exists.mp (hxs b (List.mem_cons_self _ _))
    obtain ⟨g1, h1, l1⟩ := link_alts_effect g a b na nb hna hnb
    obtain ⟨g2, h2, l2⟩ := ih g1 ((l1.present a).trans ha)
      (fun x hx => (l1.present x).trans (hxs x (List.mem_cons_of_mem _ hx)))
      (fun h => hax (List.mem_cons_of_mem _ h))
    refine ⟨g2, by simp [for_each, h1, Outcome.andThen, h2], ?_⟩
    refine (l1.trans l2 ?_).congr_rel ?_
    · rintro x y z hxy hzx
      have hxa : x = a := by rcases hxy with h | h <;> exact h.1
      have hxm : x ∈ b :: xs := by
        rcases hzx with h | h
        · exact h.2 ▸ List.mem_cons_self _ _
        · exact List.mem_cons_of_mem _ h.2
      exact hax (hxa ▸ hxm)
    · intro x y
      simp only [List.mem_cons]
      tauto

/-- The two nested linking loops of `add_alt`. -/
theorem link_outer_loop (m1 : List Int) :
    ∀ (xs : List Int) (g : MultiContactGraph),
      (∀ x, x ∈ xs → (map_find x g.nodes).isSome = true) →
      (∀ x, x ∈ m1 → (map_find x g.nodes).isSome = true) →
      (∀ x, x ∈ xs → x ∉ m1) →
      ∃ g1, for_each
          (fun g1 id_a =>
            match map_find id_a g1.nodes with
            | none => .threw .out_of_range g1
            | some _ => for_each (fun g2 id_b => link_alts g2 id_a id_b) m1 g1)
          xs g = .returned g1 ∧
        Linked g g1 (fun x y => x ∈ xs ∧ y ∈ m1) := by
  intro xs
  induction xs with
  | nil =>
    intro g _ _ _
    exact ⟨g, rfl, Linked.refl_of_empty g _ (by simp)⟩
  | cons a xs ih =>
    intro g hxs hm hdis
    have ha := hxs a (List.mem_cons_self _ _)
    obtain ⟨na, hna⟩ := Option.isSome_iff_exists.mp ha
    obtain ⟨g1, h1, l1⟩ := link_inner_loop a m1 g ha hm (hdis a (List.mem_cons_self _ _))
    obtain ⟨g2, h2, l2⟩ := ih g1
      (fun x hx => (l1.present x).trans (hxs x (List.mem_cons_of_mem _ hx)))
      (fun x hx => (l1.present x).trans (hm x hx))
      (fun x hx => hdis x (List.mem_cons_of_mem _ hx))
    refine ⟨g2, by simp [for_each, hna, h1, Outcome.andThen, h2], ?_⟩
    refine (l1.trans l2 ?_).congr_rel ?_
    · rintro x y z hxy hzx
      have hxm : x ∈ a :: xs := by
        rcases hxy with h | h
        · exact h.1 ▸ List.mem_cons_self _ _
        · exact List.mem_cons_of_mem _ h.1
      have hx1 : x ∈ m1 := by rcases hzx with h | h <;> exact h.2
      exact hdis x hxm hx1
    · intro x y
      simp only [List.mem_cons]
      tauto

/-! ## `add_alt` -/

theorem remove_edge_labels (g g1 : MultiContactGraph) (a b : Int)
    (h : remove_edge g a b = .returned g1) :
    (∀ x, partition_of g1 x = partition_of g x) ∧ g1.max_id = g.max_id := by
  unfold remove_edge at h
  cases hf : map_find (edge a b) g.edge_weights with
  | none =>
    simp only [hf, Outcome.returned.injEq] at h
    subst h
    exact ⟨fun _ => rfl, rfl⟩
  | some w =>
    simp only [hf] at h
    obtain ⟨g2, h2, h3⟩ := andThen_returned _ _ _ h
    obtain ⟨hg2, _⟩ := nodes_at_returned _ _ _ _ h2
    obtain ⟨hg1, _⟩ := nodes_at_returned _ _ _ _ h3
    have hn2 : g2.nodes = map_update a
        (fun n => { n with neighbors := set_erase b n.neighbors }) g.nodes := by rw [hg2]
    have hn1 : g1.nodes = map_update b
        (fun n => { n with neighbors := set_erase a n.neighbors }) g2.nodes := by rw [hg1]
    refine ⟨fun x => ?_, ?_⟩
    · rw [partition_of_update g2 g1 b _ hn1 (fun _ => rfl),
        partition_of_update g g2 a _ hn2 (fun _ => rfl)]
    · rw [hg1, hg2]

theorem same_alts_refl (g : MultiContactGraph) (hwf : WellFormed g) : same_alts g g :=
  ⟨hwf, fun _ => rfl, fun _ => rfl, fun _ => rfl, rfl⟩

theorem same_alts_remove_edge (g g1 : MultiContactGraph) (a b : Int) (h : same_alts g g1) :
    ∃ g2, remove_edge g1 a b = .returned g2 ∧ same_alts g g2 := by
  obtain ⟨g2, h2⟩ := remove_edge_returns g1 a b h.1
  obtain ⟨halts, hpres, _⟩ := remove_edge_effect g1 g2 a b h2
  obtain ⟨hpart, hmax⟩ := remove_edge_labels g1 g2 a b h2
  exact ⟨g2, h2, wellFormed_remove_edge g1 g2 a b h.1 h2,
    fun x => (halts x).trans (h.2.1 x), fun x => (hpres x).trans (h.2.2.1 x),
    fun x => (hpart x).trans (h.2.2.2.1 x), hmax.trans h.2.2.2.2⟩

/-- The edge-removal loops of `add_alt` return and keep nodes, alts and labels. -/
theorem remove_component_edges_returns (g : MultiContactGraph) :
    ∀ (ids : List Int) (g1 : MultiContactGraph), same_alts g g1 →
      ∃ g2, remove_component_edges ids g1 = .returned g2 ∧ same_alts g g2 := by
  intro ids
  induction ids with
  | nil => intro g1 h; exact ⟨g1, rfl, h⟩
  | cons a rest ih =>
    intro g1 h
    obtain ⟨g2, h2, hs2⟩ := for_each_returns (fun g2 => same_alts g g2)
      (fun g2 id_b => remove_edge g2 a id_b) rest
      (fun g2 x _ hP => same_alts_remove_edge g g2 a x hP) g1 h
    obtain ⟨g3, h3, hs3⟩ := ih g2 hs2
    exact ⟨g3, by simp [remove_component_edges, h2, Outcome.andThen, h3], hs3⟩

/-- After the linking loops the alts of a first-side node are the second side
and the alts of a second-side node are the first side. -/
theorem linked_sides {g g1 : MultiContactGraph} (m0 m1 : List Int)
    (l : Linked g g1 (fun x y => x ∈ m0 ∧ y ∈ m1))
    (h0 : ∀ x, x ∈ m0 → ∀ y, y ∈ alts_of g x → y ∈ m1)
    (h1 : ∀ x, x ∈ m1 → ∀ y, y ∈ alts_of g x → y ∈ m0)
    (hdisj : ∀ x, x ∈ m0 → x ∉ m1) :
    (∀ x y, x ∈ m0 → (y ∈ alts_of g1 x ↔ y ∈ m1)) ∧
    (∀ x y, x ∈ m1 → (y ∈ alts_of g1 x ↔ y ∈ m0)) := by
  constructor
  · intro x y hx
    rw [l.alts]
    constructor
    · rintro (h | h | h)
      · exact h0 x hx y h
      · exact h.2
      · exact absurd h.2 (hdisj x hx)
    · intro h; exact Or.inr (Or.inl ⟨hx, h⟩)
  · intro x y hx
    rw [l.alts]
    constructor
    · rintro (h | h | h)
      · exact h1 x hx y h
      · exact absurd hx (hdisj x h.1)
      · exact h.1
    · intro h; exact Or.inr (Or.inr ⟨h, hx⟩)

/-- Linking the two sides of a closed, two-sided set of nodes all-vs-all keeps
the graph well formed. -/
theorem wellFormed_linked {g g1 : MultiContactGraph} (hwf : WellFormed g) (m0 m1 : List Int)
    (l : Linked g g1 (fun x y => x ∈ m0 ∧ y ∈ m1))
    (h0 : ∀ x, x ∈ m0 → ∀ y, y ∈ alts_of g x → y ∈ m1)
    (h1 : ∀ x, x ∈ m1 → ∀ y, y ∈ alts_of g x → y ∈ m0)
    (hdisj : ∀ x, x ∈ m0 → x ∉ m1) : WellFormed g1 := by
  obtain ⟨hin0, hin1⟩ := linked_sides m0 m1 l h0 h1 hdisj
  have hout : ∀ x y, x ∉ m0 → x ∉ m1 →
      (y ∈ alts_of g1 x ↔ y ∈ alts_of g x ∧ y ∉ m0 ∧ y ∉ m1) := by
    intro x y hx0 hx1
    rw [l.alts]
    constructor
    · rintro (h | h | h)
      · refine ⟨h, fun hy => ?_, fun hy => ?_⟩
        · exact hx1 (h0 y hy x (hwf.alts_symm x y h))
        · exact hx0 (h1 y hy x (hwf.alts_symm x y h))
      · exact absurd h.1 hx0
      · exact absurd h.2 hx1
    · intro h; exact Or.inl h.1
  refine ⟨?_, ?_, ?_, ?_, ?_, ?_⟩
  · intro a b hab
    rw [l.alts] at hab ⊢
    rcases hab with h | h | h
    · exact Or.inl (hwf.alts_symm a b h)
    · exact Or.inr (Or.inr h)
    · exact Or.inr (Or.inl h)
  · intro a ha
    rw [l.alts] at ha
    rcases ha with h | h | h
    · exact hwf.alts_irrefl a h
    · exact hdisj a h.1 h.2
    · exact hdisj a h.1 h.2
  · intro a b c hab hbc d had
    by_cases ha0 : a ∈ m0
    · have hb := (hin0 a b ha0).mp hab
      have hc := (hin1 b c hb).mp hbc
      exact (hin0 c d hc).mpr ((hin0 a d ha0).mp had)
    · by_cases ha1 : a ∈ m1
      · have hb := (hin1 a b ha1).mp hab
        have hc := (hin0 b c hb).mp hbc
        exact (hin1 c d hc).mpr ((hin1 a d ha1).mp had)
      · obtain ⟨hab', hb0, hb1⟩ := (hout a b ha0 ha1).mp hab
        obtain ⟨hbc', hc0, hc1⟩ := (hout b c hb0 hb1).mp hbc
        obtain ⟨had', hd0, hd1⟩ := (hout a d ha0 ha1).mp had
        exact (hout c d hc0 hc1).mpr ⟨hwf.alts_complete a b c hab' hbc' d had', hd0, hd1⟩
  · exact l.sorted hwf.alts_sorted
  · intro e he
    unfold edge_stored at he
    rw [l.edges] at he
    exact hwf.edge_canonical e he
  · intro a b
    unfold edge_stored
    rw [l.edges, l.neighbors]
    exact hwf.edge_neighbors a b

theorem components_are_compatible_iff (a b : alt_component_t) :
    components_are_compatible a b = true ↔
      (∀ x, x ∈ a.1 → x ∉ b.1) ∧ (∀ x, x ∈ a.2 → x ∉ b.2) := by
  unfold components_are_compatible
  rw [Bool.and_eq_true, set_intersection_isEmpty, set_intersection_isEmpty]

/-- What the component overload of `add_alt` does with two compatible
components whose union is closed under alts. -/
theorem add_alt_components_effect {g : MultiContactGraph} (hwf : WellFormed g)
    (a b : alt_component_t) (remove_weights : Bool)
    (hc : components_are_compatible a b = true)
    (h0 : ∀ x, x ∈ (merge_components a b).1 →
      ∀ y, y ∈ alts_of g x → y ∈ (merge_components a b).2)
    (h1 : ∀ x, x ∈ (merge_components a b).2 →
      ∀ y, y ∈ alts_of g x → y ∈ (merge_components a b).1)
    (hdisj : ∀ x, x ∈ (merge_components a b).1 → x ∉ (merge_components a b).2)
    (hp0 : ∀ x, x ∈ (merge_components a b).1 → (map_find x g.nodes).isSome = true)
    (hp1 : ∀ x, x ∈ (merge_components a b).2 → (map_find x g.nodes).isSome = true) :
    ∃ g1 g2, add_alt_components g a b remove_weights = .returned g2 ∧ same_alts g g1 ∧
      Linked g1 g2 (fun x y => x ∈ (merge_components a b).1 ∧ y ∈ (merge_components a b).2) ∧
      WellFormed g2 ∧
      (∀ x y, x ∈ (merge_components a b).1 →
        (y ∈ alts_of g2 x ↔ y ∈ (merge_components a b).2)) ∧
      (∀ x y, x ∈ (merge_components a b).2 →
        (y ∈ alts_of g2 x ↔ y ∈ (merge_components a b).1)) := by
  have hstep1 : ∃ g1, (if remove_weights then
        remove_component_edges ((merge_components a b).1 ++ (merge_components a b).2) g
      else .returned g) = .returned g1 ∧ same_alts g g1 := by
    cases remove_weights with
    | true => exact remove_component_edges_returns g _ g (same_alts_refl g hwf)
    | false => exact ⟨g, rfl, same_alts_refl g hwf⟩
  obtain ⟨g1, hg1, hs1⟩ := hstep1
  obtain ⟨g2, hg2, l⟩ := link_outer_loop (merge_components a b).2 (merge_components a b).1 g1
    (fun x hx => (hs1.2.2.1 x).trans (hp0 x hx))
    (fun x hx => (hs1.2.2.1 x).trans (hp1 x hx)) hdisj
  have h0' : ∀ x, x ∈ (merge_components a b).1 →
      ∀ y, y ∈ alts_of g1 x → y ∈ (merge_components a b).2 := by
    intro x hx y hy
    rw [hs1.2.1] at hy
    exact h0 x hx y hy
  have h1' : ∀ x, x ∈ (merge_components a b).2 →
      ∀ y, y ∈ alts_of g1 x → y ∈ (merge_components a b).1 := by
    intro x hx y hy
    rw [hs1.2.1] at hy
    exact h1 x hx y hy
  obtain ⟨hs0, hs2⟩ := linked_sides _ _ l h0' h1' hdisj
  refine ⟨g1, g2, ?_, hs1, l, wellFormed_linked hs1.1 _ _ l h0' h1' hdisj, hs0, hs2⟩
  unfold add_alt_components
  rw [if_pos hc]
  simp only
  rw [hg1]
  exact hg2

theorem WellFormed.on_side_symm {g : MultiContactGraph} (hwf : WellFormed g) (a b : Int)
    (h : on_side_of g a b) : on_side_of g b a := by
  rcases h with rfl | ⟨y, hy, hby⟩
  · exact Or.inl rfl
  · exact Or.inr ⟨y, hwf.alts_symm y b hby, hwf.alts_symm a y hy⟩

theorem WellFormed.on_side_trans {g : MultiContactGraph} (hwf : WellFormed g) (a b c : Int)
    (hab : on_side_of g a b) (hbc : on_side_of g b c) : on_side_of g a c := by
  rcases hbc with rfl | ⟨y, hy, hcy⟩
  · exact hab
  · rcases hab with rfl | ⟨z, hz, hbz⟩
    · exact Or.inr ⟨y, hy, hcy⟩
    · exact Or.inr ⟨y, hwf.alts_of_side a b (Or.inr ⟨z, hz, hbz⟩) y hy, hcy⟩

/-- In a well-formed graph the alt component of `a` is its side and its alts. -/
theorem same_alt_component_iff {g : MultiContactGraph} (hwf : WellFormed g) (a b : Int) :
    same_alt_component g a b ↔ on_side_of g a b ∨ b ∈ alts_of g a := by
  unfold same_alt_component
  constructor
  · intro h
    induction h with
    | refl => exact Or.inl (Or.inl rfl)
    | tail _ hcb ih =>
      rcases ih with hs | ha
      · exact Or.inr (hwf.alts_of_side a _ hs _ hcb)
      · exact Or.inl (Or.inr ⟨_, ha, hcb⟩)
  · rintro ((rfl | ⟨y, hy, hby⟩) | h)
    · exact Relation.ReflTransGen.refl
    · exact Relation.ReflTransGen.tail (Relation.ReflTransGen.single hy) hby
    · exact Relation.ReflTransGen.single h

theorem present_of_on_side {g : MultiContactGraph} (hwf : WellFormed g) (a x : Int)
    (ha : (map_find a g.nodes).isSome = true) (h : on_side_of g a x) :
    (map_find x g.nodes).isSome = true := by
  rcases h with rfl | ⟨y, _, hxy⟩
  · exact ha
  · obtain ⟨n, hn⟩ := has_node_of_mem_alts g x y (hwf.alts_symm y x hxy)
    rw [hn]; rfl

theorem present_of_alt {g : MultiContactGraph} (hwf : WellFormed g) (a x : Int)
    (h : x ∈ alts_of g a) : (map_find x g.nodes).isSome = true := by
  obtain ⟨n, hn⟩ := has_node_of_mem_alts g x a (hwf.alts_symm a x h)
  rw [hn]; rfl

/-- Two components of a well-formed graph are compatible exactly when the two
start nodes are not on the same side. -/
theorem compatible_iff_not_on_side {g : MultiContactGraph} (hwf : WellFormed g) (a b : Int)
    (ca cb : alt_component_t)
    (ha1 : ∀ x, x ∈ ca.1 ↔ on_side_of g a x) (ha2 : ca.2 = alts_of g a)
    (hb1 : ∀ x, x ∈ cb.1 ↔ on_side_of g b x) (hb2 : cb.2 = alts_of g b) :
    components_are_compatible ca cb = true ↔ ¬ on_side_of g a b := by
  rw [components_are_compatible_iff]
  constructor
  · rintro ⟨h, _⟩ hs
    exact h b ((ha1 b).mpr hs) ((hb1 b).mpr (Or.inl rfl))
  · intro hn
    constructor
    · intro x hxa hxb
      exact hn (hwf.on_side_trans a x b ((ha1 x).mp hxa) (hwf.on_side_symm b x ((hb1 x).mp hxb)))
    · intro x hxa hxb
      rw [ha2] at hxa
      rw [hb2] at hxb
      exact hn (Or.inr ⟨x, hxa, hwf.alts_symm b x hxb⟩)

/-- The contract of `add_alt(a, b)` on a well-formed graph for two distinct
present nodes that are not alts of each other yet. -/
theorem add_alt_spec {g : MultiContactGraph} (hwf : WellFormed g) (remove_weights : Bool)
    (a b : Int) (na nb : MultiNode) (ha : map_find a g.nodes = some na)
    (hb : map_find b g.nodes = some nb) (hab : a ≠ b) (hnot : b ∉ alts_of g a) :
    ∃ ca cb, get_alt_component g a false = .ok ca ∧ get_alt_component g b false = .ok cb ∧
      (∀ x, x ∈ ca.1 ↔ on_side_of g a x) ∧ ca.2 = alts_of g a ∧
      (∀ x, x ∈ cb.1 ↔ on_side_of g b x) ∧ cb.2 = alts_of g b ∧
      ((components_are_compatible ca cb = true ∧
          ∃ g1 g2, add_alt remove_weights g a b = .returned g2 ∧ same_alts g g1 ∧
            Linked g1 g2
              (fun x y => x ∈ (merge_components ca cb).1 ∧ y ∈ (merge_components ca cb).2) ∧
            WellFormed g2 ∧
            (∀ x y, x ∈ (merge_components ca cb).1 →
              (y ∈ alts_of g2 x ↔ y ∈ (merge_components ca cb).2)) ∧
            (∀ x y, x ∈ (merge_components ca cb).2 →
              (y ∈ alts_of g2 x ↔ y ∈ (merge_components ca cb).1)) ∧
            (∀ x, x ∈ (merge_components ca cb).1 → x ∉ (merge_components ca cb).2)) ∨
       (components_are_compatible ca cb = false ∧
          add_alt remove_weights g a b =
            .threw (.non_bipartite (NonBipartiteEdgeException.make ca cb (-1) (-1))) g)) := by
  obtain ⟨ca, hca, ha1, ha2, _⟩ := get_alt_component_wellFormed hwf na ha
  obtain ⟨cb, hcb, hb1, hb2, _⟩ := get_alt_component_wellFormed hwf nb hb
  have hnot' : b ∉ na.alts := by rw [← alts_of_some g a na ha]; exact hnot
  have hunfold : add_alt remove_weights g a b =
      add_alt_components g ca cb remove_weights := by
    unfold add_alt
    simp only [ha, hb, if_neg hab, if_neg hnot', hca, hcb]
  refine ⟨ca, cb, hca, hcb, ha1, ha2, hb1, hb2, ?_⟩
  cases hc : components_are_compatible ca cb with
  | false =>
    right
    refine ⟨rfl, ?_⟩
    rw [hunfold]
    unfold add_alt_components
    simp [hc]
  | true =>
    left
    refine ⟨rfl, ?_⟩
    have hns : ¬ on_side_of g a b :=
      (compatible_iff_not_on_side hwf a b ca cb ha1 ha2 hb1 hb2).mp hc
    have hm0 : ∀ x, x ∈ (merge_components ca cb).1 ↔ on_side_of g a x ∨ x ∈ alts_of g b := by
      intro x
      unfold merge_components
      rw [mem_set_union, ha1, hb2]
    have hm1 : ∀ x, x ∈ (merge_components ca cb).2 ↔ x ∈ alts_of g a ∨ on_side_of g b x := by
      intro x
      unfold merge_components
      rw [mem_set_union, ha2, hb1]
    have hpa : (map_find a g.nodes).isSome = true := by rw [ha]; rfl
    have hpb : (map_find b g.nodes).isSome = true := by rw [hb]; rfl
    have hdisj : ∀ x, x ∈ (merge_components ca cb).1 → x ∉ (merge_components ca cb).2 := by
      intro x hx hx1
      rcases (hm0 x).mp hx with h | h <;> rcases (hm1 x).mp hx1 with h1 | h1
      · exact hwf.not_alt_of_side a x h h1
      · exact hns (hwf.on_side_trans a x b h (hwf.on_side_symm b x h1))
      · exact hns (Or.inr ⟨x, h1, hwf.alts_symm b x h⟩)
      · exact hwf.not_alt_of_side b x h1 h
    obtain ⟨g1, g2, h2, hs, l, hwf2, hs0, hs1⟩ :=
      add_alt_components_effect hwf ca cb remove_weights hc
      (by
        intro x hx y hy
        rw [hm1]
        rcases (hm0 x).mp hx with h | h
        · exact Or.inl (hwf.alts_of_side a x h y hy)
        · exact Or.inr (Or.inr ⟨x, h, hy⟩))
      (by
        intro x hx y hy
        rw [hm0]
        rcases (hm1 x).mp hx with h | h
        · exact Or.inl (Or.inr ⟨x, h, hy⟩)
        · exact Or.inr (hwf.alts_of_side b x h y hy))
      hdisj
      (by
        intro x hx
        rcases (hm0 x).mp hx with h | h
        · exact present_of_on_side hwf a x hpa h
        · exact present_of_alt hwf b x h)
      (by
        intro x hx
        rcases (hm1 x).mp hx with h | h
        · exact present_of_alt hwf a x h
        · exact present_of_on_side hwf b x hpb h)
    exact ⟨g1, g2, hunfold ▸ h2, hs, l, hwf2, hs0, hs1, hdisj⟩

theorem wellFormed_add_alt (g g1 : MultiContactGraph) (remove_weights : Bool) (a b : Int)
    (hwf : WellFormed g) (h : add_alt remove_weights g a b = .returned g1) :
    WellFormed g1 := by
  cases ha : map_find a g.nodes with
  | none => simp [add_alt, ha] at h
  | some na =>
    cases hb : map_find b g.nodes with
    | none => simp [add_alt, ha, hb] at h
    | some nb =>
      by_cases hab : a = b
      · simp [add_alt, ha, hb, hab] at h
      · by_cases hnot : b ∈ alts_of g a
        · have : b ∈ na.alts := by rw [← alts_of_some g a na ha]; exact hnot
          simp only [add_alt, ha, hb, if_neg hab, if_pos this, Outcome.returned.injEq] at h
          exact h ▸ hwf
        · obtain ⟨ca, cb, _, _, _, _, _, _, hcase⟩ :=
            add_alt_spec hwf remove_weights a b na nb ha hb hab hnot
          rcases hcase with ⟨_, g2, g3, h3, _, _, hwf3, _⟩ | ⟨_, ht⟩
          · rw [h3] at h
            simp only [Outcome.returned.injEq] at h
            exact h ▸ hwf3
          · rw [ht] at h
            cases h

/-! ## `remove_node` -/

theorem visit_neighbors_ok (g : MultiContactGraph) (id : Int) :
    ∀ (xs : List Int), (∀ x, x ∈ xs → (map_find x g.nodes).isSome = true) →
      ∃ visited, visit_neighbors g id xs = .ok visited ∧ visited.map Prod.fst = xs := by
  intro xs
  induction xs with
  | nil => intro _; exact ⟨[], rfl, rfl⟩
  | cons x xs ih =>
    intro h
    obtain ⟨n, hn⟩ := Option.isSome_iff_exists.mp (h x (List.mem_cons_self _ _))
    obtain ⟨visited, hv, hm⟩ := ih (fun y hy => h y (List.mem_cons_of_mem _ hy))
    refine ⟨(x, n) :: visited, ?_, by simp [hm]⟩
    simp [visit_neighbors, hn, hv]

theorem visit_neighbors_fst (g : MultiContactGraph) (id : Int) :
    ∀ (xs : List Int) (visited : List (Int × MultiNode)),
      visit_neighbors g id xs = .ok visited → visited.map Prod.fst = xs := by
  intro xs
  induction xs with
  | nil =>
    intro visited h
    simp only [visit_neighbors, Result.ok.injEq] at h
    subst h; rfl
  | cons x xs ih =>
    intro visited h
    unfold visit_neighbors at h
    cases hn : map_find x g.nodes with
    | none => simp [hn] at h
    | some n =>
      cases hv : visit_neighbors g id xs with
      | ok rest =>
        simp only [hn, hv, Result.ok.injEq] at h
        subst h
        simp [ih rest hv]
      | threw e => simp [hn, hv] at h
      | out_of_fuel => simp [hn, hv] at h

theorem WellFormed.neighbor_present {g : MultiContactGraph} (hwf : WellFormed g) (a b : Int)
    (h : b ∈ neighbors_of g a) : (map_find b g.nodes).isSome = true := by
  have hs := (hwf.edge_neighbors a b).mpr h
  rw [edge_comm] at hs
  obtain ⟨n, hn⟩ := has_node_of_mem_neighbors g b a ((hwf.edge_neighbors b a).mp hs)
  rw [hn]; rfl

/-- Removing the stored form of the edge `(id, v)` takes `v` out of the
neighbours of `id` and nothing else. -/
theorem neighbors_after_remove_incident (g g1 g2 : MultiContactGraph) (id v : Int)
    (hs : same_alts g g1)
    (h : remove_edge g1 (edge id v).1 (edge id v).2 = .returned g2) (y : Int) :
    y ∈ neighbors_of g2 id ↔ y ∈ neighbors_of g1 id ∧ y ≠ v := by
  have hcanon : edge (edge id v).1 (edge id v).2 = edge id v := edge_of_le _ (edge_le id v)
  have hends := (edge_eq_iff (edge id v).1 (edge id v).2 id v).mp hcanon
  obtain ⟨_, _, hcase⟩ := remove_edge_effect g1 g2 _ _ h
  rcases hcase with ⟨_, hnb, _⟩ | ⟨hns, rfl⟩
  · rw [hnb]
    constructor
    · rintro ⟨hy, h1, h2⟩
      refine ⟨hy, fun hyv => ?_⟩
      subst hyv
      rcases hends with ⟨e1, e2⟩ | ⟨e1, e2⟩
      · exact h1 ⟨e1.symm, e2.symm⟩
      · exact h2 ⟨e2.symm, e1.symm⟩
    · rintro ⟨hy, hyv⟩
      refine ⟨hy, fun hc => ?_, fun hc => ?_⟩
      · rcases hends with ⟨e1, e2⟩ | ⟨e1, e2⟩
        · exact hyv (hc.2.trans e2)
        · exact hyv (hc.2.trans (e2.trans (hc.1.trans e1)))
      · rcases hends with ⟨e1, e2⟩ | ⟨e1, e2⟩
        · exact hyv (hc.2.trans (e1.trans (hc.1.trans e2)))
        · exact hyv (hc.2.trans e1)
  · rw [hcanon] at hns
    constructor
    · intro hy
      refine ⟨hy, fun hyv => hns ?_⟩
      subst hyv
      exact (hs.1.edge_neighbors id y).mpr hy
    · exact fun hy => hy.1

/-- The loop of `remove_node` over the incident edges empties the neighbour
set of the node. -/
theorem remove_incident_edges (g : MultiContactGraph) (id : Int) :
    ∀ (vs : List Int) (g1 : MultiContactGraph), same_alts g g1 →
      ∃ g2, for_each (fun g3 (e : Int × Int) => remove_edge g3 e.1 e.2)
          (vs.map (fun v => edge id v)) g1 = .returned g2 ∧ same_alts g g2 ∧
        ∀ y, y ∈ neighbors_of g2 id ↔ y ∈ neighbors_of g1 id ∧ y ∉ vs := by
  intro vs
  induction vs with
  | nil => intro g1 h; exact ⟨g1, rfl, h, by simp⟩
  | cons v vs ih =>
    intro g1 hs
    obtain ⟨g2, h2, hs2⟩ := same_alts_remove_edge g g1 (edge id v).1 (edge id v).2 hs
    obtain ⟨g3, h3, hs3, hnb3⟩ := ih g2 hs2
    refine ⟨g3, by simp [for_each, h2, Outcome.andThen, h3], hs3, fun y => ?_⟩
    rw [hnb3, neighbors_after_remove_incident g g1 g2 id v hs h2, List.mem_cons]
    tauto

theorem set_erase_idem (x : Int) (s : List Int) : set_erase x (set_erase x s) = set_erase x s := by
  unfold set_erase
  rw [List.filter_filter]
  congr 1
  funext y
  simp

/-- The loop of `remove_node` that erases the node from the alts of its alts. -/
theorem erase_alt_loop (id : Int) :
    ∀ (xs : List Int) (g1 : MultiContactGraph),
      (∀ x, x ∈ xs → (map_find x g1.nodes).isSome = true) →
      ∃ g2, for_each (fun g3 alt_id =>
            nodes_at g3 alt_id (fun m => { m with alts := set_erase id m.alts })) xs g1 =
          .returned g2 ∧
        (∀ x, alts_of g2 x = if x ∈ xs then set_erase id (alts_of g1 x) else alts_of g1 x) ∧
        (∀ x, neighbors_of g2 x = neighbors_of g1 x) ∧
        (∀ x, (map_find x g2.nodes).isSome = (map_find x g1.nodes).isSome) ∧
        (∀ x, partition_of g2 x = partition_of g1 x) ∧
        g2.edge_weights = g1.edge_weights ∧ g2.max_id = g1.max_id := by
  intro xs
  induction xs with
  | nil =>
    intro g1 _
    exact ⟨g1, rfl, by simp, fun _ => rfl, fun _ => rfl, fun _ => rfl, rfl, rfl⟩
  | cons a xs ih =>
    intro g1 hp
    obtain ⟨n, hn⟩ := Option.isSome_iff_exists.mp (hp a (List.mem_cons_self _ _))
    let f : MultiNode → MultiNode := fun m => { m with alts := set_erase id m.alts }
    let g2 : MultiContactGraph := { g1 with nodes := map_update a f g1.nodes }
    have e2 : g2.nodes = map_update a f g1.nodes := rfl
    have hp2 : ∀ x, (map_find x g2.nodes).isSome = (map_find x g1.nodes).isSome :=
      fun x => isSome_map_find_update a x f g1.nodes
    obtain ⟨g3, h3, halts, hnb, hpres, hpart, hedge, hmax⟩ := ih g2
      (fun x hx => (hp2 x).trans (hp x (List.mem_cons_of_mem _ hx)))
    refine ⟨g3, ?_, fun x => ?_, fun x => ?_, fun x => ?_, fun x => ?_, ?_, ?_⟩
    · simp only [for_each]
      rw [nodes_at_of_present g1 a _ n hn]
      exact h3
    · rw [halts, alts_of_update_eq g1 g2 a f (set_erase id) e2 (fun _ => rfl) rfl]
      by_cases hxa : x = a
      · subst hxa
        by_cases hxs : x ∈ xs
        · simp [hxs, set_erase_idem]
        · simp [hxs]
      · by_cases hxs : x ∈ xs
        · simp [hxs, hxa]
        · simp [hxs, hxa]
    · rw [hnb, neighbors_of_update g1 g2 a f e2 (fun _ => rfl)]
    · rw [hpres, hp2]
    · rw [hpart, partition_of_update g1 g2 a f e2 (fun _ => rfl)]
    · rw [hedge]
    · rw [hmax]

theorem alts_of_erase_node (g g1 : MultiContactGraph) (id : Int)
    (hn : g1.nodes = map_erase id g.nodes) (x : Int) :
    alts_of g1 x = if x = id then [] else alts_of g x := by
  unfold alts_of
  rw [hn, map_find_erase]
  split_ifs <;> rfl

theorem neighbors_of_erase_node (g g1 : MultiContactGraph) (id : Int)
    (hn : g1.nodes = map_erase id g.nodes) (x : Int) :
    neighbors_of g1 x = if x = id then [] else neighbors_of g x := by
  unfold neighbors_of
  rw [hn, map_find_erase]
  split_ifs <;> rfl

theorem partition_of_erase_node (g g1 : MultiContactGraph) (id : Int)
    (hn : g1.nodes = map_erase id g.nodes) (x : Int) :
    partition_of g1 x = if x = id then none else partition_of g x := by
  unfold partition_of
  rw [hn, map_find_erase]
  split_ifs <;> rfl

theorem rescan_nodes (g : MultiContactGraph) (id : Int) :
    (if id = g.max_id then rescan_max_id g else g).nodes = g.nodes ∧
    (if id = g.max_id then rescan_max_id g else g).edge_weights = g.edge_weights := by
  split_ifs <;> exact ⟨rfl, rfl⟩

/-- The contract of `remove_node` on a well-formed graph for a present node. -/
theorem remove_node_spec {g : MultiContactGraph} (hwf : WellFormed g) (id : Int)
    (n0 : MultiNode) (hid : map_find id g.nodes = some n0) :
    ∃ g1, remove_node g id = .returned g1 ∧ WellFormed g1 ∧ map_find id g1.nodes = none ∧
      (∀ x, x ≠ id → (map_find x g1.nodes).isSome = (map_find x g.nodes).isSome) ∧
      (∀ x y, y ∈ alts_of g1 x ↔ x ≠ id ∧ y ≠ id ∧ y ∈ alts_of g x) ∧
      (∀ x, x ≠ id → partition_of g1 x = partition_of g x) := by
  have hnb0 : neighbors_of g id = n0.neighbors := neighbors_of_some g id n0 hid
  obtain ⟨visited, hv, hvm⟩ := visit_neighbors_ok g id n0.neighbors
    (fun x hx => hwf.neighbor_present id x (hnb0 ▸ hx))
  have hvisit : for_each_node_neighbor g id = .ok visited := by
    unfold for_each_node_neighbor
    rw [hid]
    exact hv
  have hmap : visited.map (fun v => edge id v.1) = n0.neighbors.map (fun v => edge id v) := by
    rw [← hvm, List.map_map]
    rfl
  obtain ⟨g1, h1, hs1, hnb1⟩ := remove_incident_edges g id n0.neighbors g (same_alts_refl g hwf)
  have hempty : ∀ y, y ∉ neighbors_of g1 id := by
    intro y hy
    have := (hnb1 y).mp hy
    rw [hnb0] at this
    exact this.2 this.1
  have hp1 : (map_find id g1.nodes).isSome = true := by rw [hs1.2.2.1, hid]; rfl
  obtain ⟨n1, hn1⟩ := Option.isSome_iff_exists.mp hp1
  have halts1 : n1.alts = alts_of g id := by
    rw [← alts_of_some g1 id n1 hn1, hs1.2.1]
  obtain ⟨g2, h2, halts2, hnb2, hpres2, hpart2, hedge2, hmax2⟩ := erase_alt_loop id n1.alts g1
    (fun x hx => by
      rw [hs1.2.2.1]
      exact present_of_alt hwf id x (halts1 ▸ hx))
  have hbranch : (if n1.has_alt then
        for_each (fun g3 alt_id =>
          nodes_at g3 alt_id (fun m => { m with alts := set_erase id m.alts })) n1.alts g1
      else .returned g1) = .returned g2 := by
    cases hh : n1.has_alt with
    | true => simpa using h2
    | false =>
      have hnil : n1.alts = [] := by
        unfold MultiNode.has_alt at hh
        simpa using hh
      rw [hnil] at h2
      simpa [for_each] using h2
  let g3 : MultiContactGraph := { g2 with nodes := map_erase id g2.nodes }
  have e3 : g3.nodes = map_erase id g2.nodes := rfl
  let g4 : MultiContactGraph := if id = g3.max_id then rescan_max_id g3 else g3
  have e4 : g4.nodes = g3.nodes := (rescan_nodes g3 id).1
  have e4e : g4.edge_weights = g3.edge_weights := (rescan_nodes g3 id).2
  have hret : remove_node g id = .returned g4 := by
    unfold remove_node
    rw [hvisit]
    simp only
    rw [hmap, h1]
    simp only [Outcome.andThen, hn1]
    rw [hbranch]
  have halts4 : ∀ x y, y ∈ alts_of g4 x ↔ x ≠ id ∧ y ≠ id ∧ y ∈ alts_of g x := by
    intro x y
    have : alts_of g4 x = alts_of g3 x := by unfold alts_of; rw [e4]
    rw [this, alts_of_erase_node g2 g3 id e3]
    by_cases hx : x = id
    · simp [hx]
    · rw [if_neg hx, halts2, hs1.2.1]
      split_ifs with hm
      · rw [mem_set_erase]; tauto
      · have hidx : id ∉ alts_of g x := fun h => hm (halts1 ▸ hwf.alts_symm x id h)
        constructor
        · intro hy
          exact ⟨hx, fun e => hidx (e ▸ hy), hy⟩
        · exact fun h => h.2.2
  have hnb4 : ∀ x, neighbors_of g4 x = if x = id then [] else neighbors_of g1 x := by
    intro x
    have : neighbors_of g4 x = neighbors_of g3 x := by unfold neighbors_of; rw [e4]
    rw [this, neighbors_of_erase_node g2 g3 id e3, hnb2]
  have hedge4 : ∀ e, edge_stored g4 e ↔ edge_stored g1 e := by
    intro e
    unfold edge_stored
    rw [e4e]
    show (map_find e g2.edge_weights).isSome = true ↔ _
    rw [hedge2]
  refine ⟨g4, hret, ⟨?_, ?_, ?_, ?_, ?_, ?_⟩, ?_, ?_, halts4, ?_⟩
  · intro a b hab
    rw [halts4] at hab ⊢
    exact ⟨hab.2.1, hab.1, hwf.alts_symm a b hab.2.2⟩
  · intro a ha
    rw [halts4] at ha
    exact hwf.alts_irrefl a ha.2.2
  · intro a b c hab hbc d had
    rw [halts4] at hab hbc had ⊢
    exact ⟨hbc.2.1, had.2.1, hwf.alts_complete a b c hab.2.2 hbc.2.2 d had.2.2⟩
  · intro a
    have : alts_of g4 a = alts_of g3 a := by unfold alts_of; rw [e4]
    rw [this, alts_of_erase_node g2 g3 id e3]
    split_ifs
    · exact List.sorted_nil
    · rw [halts2, hs1.2.1]
      split_ifs
      · exact sorted_set_erase id _ (hwf.alts_sorted a)
      · exact hwf.alts_sorted a
  · intro e he
    exact hs1.1.edge_canonical e ((hedge4 e).mp he)
  · intro a b
    rw [hedge4, hnb4, hs1.1.edge_neighbors]
    split_ifs with ha
    · subst ha
      simp [hempty b]
    · rfl
  · rw [e4, e3, map_find_erase, if_pos rfl]
  · intro x hx
    rw [e4, e3, map_find_erase, if_neg hx, hpres2, hs1.2.2.1]
  · intro x hx
    have : partition_of g4 x = partition_of g3 x := by unfold partition_of; rw [e4]
    rw [this, partition_of_erase_node g2 g3 id e3, if_neg hx, hpart2, hs1.2.2.2.1]

theorem wellFormed_remove_node (g g1 : MultiContactGraph) (id : Int)
    (hwf : WellFormed g) (h : remove_node g id = .returned g1) : WellFormed g1 := by
  cases hid : map_find id g.nodes with
  | none =>
    unfold remove_node for_each_node_neighbor at h
    simp [hid] at h
  | some n0 =>
    obtain ⟨g2, h2, hwf2, _⟩ := remove_node_spec hwf id n0 hid
    rw [h2] at h
    simp only [Outcome.returned.injEq] at h
    exact h ▸ hwf2

/-- Every reachable graph is well formed. -/
theorem Reachable.wellFormed {g : MultiContactGraph} (h : Reachable g) : WellFormed g := by
  induction h with
  | empty => exact wellFormed_empty
  | insert_node id _ h ih => exact wellFormed_insert_node _ _ id ih h
  | insert_node_partition id p _ h ih => exact wellFormed_insert_node_partition _ _ id p ih h
  | try_insert_node id _ h ih => exact wellFormed_try_insert_node _ _ id ih h
  | try_insert_node_partition id p _ h ih =>
    exact wellFormed_try_insert_node_partition _ _ id p ih h
  | try_insert_edge a b w _ h ih => exact wellFormed_try_insert_edge _ _ a b w ih h
  | try_insert_edge2 a b _ h ih => exact wellFormed_try_insert_edge2 _ _ a b ih h
  | increment_edge_weight a b v _ h ih => exact wellFormed_increment_edge_weight _ _ a b v ih h
  | increment_coverage id v _ h ih => exact ih.of_same_links (same_links_increment_coverage _ _ id v h)
  | set_node_coverage id v _ h ih => exact ih.of_same_links (same_links_set_node_coverage _ _ id v h)
  | set_node_length id v _ h ih => exact ih.of_same_links (same_links_set_node_length _ _ id v h)
  | remove_edge a b _ h ih => exact wellFormed_remove_edge _ _ a b ih h
  | remove_node id _ h ih => exact wellFormed_remove_node _ _ id ih h
  | add_alt flag a b _ h ih => exact wellFormed_add_alt _ _ flag a b ih h
  | set_partition id p _ h ih => exact ih.of_same_links (same_links_set_partition _ _ id p h)

/-! ## `add_alt` on arbitrary graphs: nothing throws after the compatibility check -/

/-- Every id the search puts in a component was found in the node map. -/
theorem bfs_loop_members_present (nodes : List (Int × MultiNode)) (id : Int) :
    ∀ (fuel : Nat) (q : List (Int × Nat)) (c c1 : alt_component_t),
      (∀ x, (x ∈ c.1 ∨ x ∈ c.2) → (map_find x nodes).isSome = true) →
      bfs_loop nodes id fuel q c = .ok c1 →
      ∀ x, (x ∈ c1.1 ∨ x ∈ c1.2) → (map_find x nodes).isSome = true := by
  intro fuel
  induction fuel with
  | zero =>
    intro q c c1 hc h
    match q with
    | [] =>
      simp only [bfs_loop, Result.ok.injEq] at h
      exact h ▸ hc
    | _ :: _ => simp [bfs_loop] at h
  | succ fuel ih =>
    intro q c c1 hc h
    match q with
    | [] =>
      simp only [bfs_loop, Result.ok.injEq] at h
      exact h ▸ hc
    | (v, d) :: q =>
      rw [bfs_loop_cons] at h
      cases hv : map_find v nodes with
      | none => simp [hv] at h
      | some node =>
        simp only [hv] at h
        refine ih _ _ c1 ?_ h
        intro x hx
        rcases (mem_placed c v x d).mp hx with rfl | hx
        · rw [hv]; rfl
        · exact hc x hx

theorem get_alt_component_members_present (g : MultiContactGraph) (id : Int)
    (validate : Bool) (c : alt_component_t) (h : get_alt_component g id validate = .ok c) :
    ∀ x, (x ∈ c.1 ∨ x ∈ c.2) → (map_find x g.nodes).isSome = true := by
  unfold get_alt_component at h
  cases hb : bfs_loop g.nodes id (bfs_fuel g.nodes) [(id, 0)] ([], []) with
  | ok c1 =>
    have hmem := bfs_loop_members_present g.nodes id _ _ _ c1 (by simp) hb
    rw [hb] at h
    cases validate with
    | false =>
      simp only [Bool.false_eq_true, if_false, Result.ok.injEq] at h
      exact h ▸ hmem
    | true =>
      simp only [if_true] at h
      cases ha : assert_component_is_valid c1 with
      | ok u =>
        simp only [ha, Result.ok.injEq] at h
        exact h ▸ hmem
      | threw e => simp [ha] at h
      | out_of_fuel => simp [ha] at h
  | threw e => simp [hb] at h
  | out_of_fuel => simp [hb] at h

theorem example_nodes_reachable : Reachable example_nodes :=
  Reachable.insert_node 4
    (Reachable.insert_node 3
      (Reachable.insert_node 2 (Reachable.insert_node 1 Reachable.empty rfl) rfl) rfl) rfl

theorem example_pair_reachable : Reachable example_pair :=
  Reachable.add_alt true 1 2 example_nodes_reachable (by decide)

theorem example_pairs_reachable : Reachable example_pairs :=
  Reachable.add_alt true 3 4 example_pair_reachable (by decide)

theorem example_merged_reachable : Reachable example_merged :=
  Reachable.add_alt true 2 3 example_pairs_reachable (by decide)

theorem has_node_iff (g : MultiContactGraph) (id : Int) :
    has_node g id = true ↔ ∃ n, map_find id g.nodes = some n := by
  unfold has_node
  exact Option.isSome_iff_exists

/-- A component with disjoint sides passes `assert_component_is_valid`. -/
theorem get_alt_component_validate (g : MultiContactGraph) (id : Int) (c : alt_component_t)
    (h : get_alt_component g id false = .ok c) (hd : ∀ x, x ∈ c.1 → x ∉ c.2)
    (validate : Bool) : get_alt_component g id validate = .ok c := by
  cases validate with
  | false => exact h
  | true =>
    unfold get_alt_component at h ⊢
    cases hb : bfs_loop g.nodes id (bfs_fuel g.nodes) [(id, 0)] ([], []) with
    | ok c1 =>
      simp only [hb, Bool.false_eq_true, if_false, Result.ok.injEq] at h
      subst h
      have : assert_component_is_valid c1 = .ok () := by
        unfold assert_component_is_valid
        rw [if_pos ((set_intersection_isEmpty c1.1 c1.2).mpr hd)]
      simp [this]
    | threw e => simp [hb] at h
    | out_of_fuel => simp [hb] at h

/-- A call of `add_alt` that returned was given two distinct present nodes. -/
theorem add_alt_returned_args (flag : Bool) (g g1 : MultiContactGraph) (a b : Int)
    (h : add_alt flag g a b = .returned g1) :
    (∃ na, map_find a g.nodes = some na) ∧ (∃ nb, map_find b g.nodes = some nb) ∧ a ≠ b := by
  unfold add_alt at h
  cases ha : map_find a g.nodes with
  | none => simp [ha] at h
  | some na =>
    cases hb : map_find b g.nodes with
    | none => simp [ha, hb] at h
    | some nb =>
      refine ⟨⟨na, rfl⟩, ⟨nb, rfl⟩, fun hab => ?_⟩
      simp [ha, hb, hab] at h

/-- The post-state of a call of `add_alt` that returned after linking. -/
theorem add_alt_returned_spec {g g1 : MultiContactGraph} (hwf : WellFormed g) (flag : Bool)
    (a b : Int) (hnot : b ∉ alts_of g a) (h : add_alt flag g a b = .returned g1) :
    ∃ ca cb g0, get_alt_component g a false = .ok ca ∧ get_alt_component g b false = .ok cb ∧
      (∀ x, x ∈ ca.1 ↔ on_side_of g a x) ∧ ca.2 = alts_of g a ∧
      (∀ x, x ∈ cb.1 ↔ on_side_of g b x) ∧ cb.2 = alts_of g b ∧
      same_alts g g0 ∧
      Linked g0 g1
        (fun x y => x ∈ (merge_components ca cb).1 ∧ y ∈ (merge_components ca cb).2) ∧
      WellFormed g1 ∧
      (∀ x y, x ∈ (merge_components ca cb).1 →
        (y ∈ alts_of g1 x ↔ y ∈ (merge_components ca cb).2)) ∧
      (∀ x y, x ∈ (merge_components ca cb).2 →
        (y ∈ alts_of g1 x ↔ y ∈ (merge_components ca cb).1)) ∧
      (∀ x, x ∈ (merge_components ca cb).1 → x ∉ (merge_components ca cb).2) := by
  obtain ⟨⟨na, ha⟩, ⟨nb, hb⟩, hab⟩ := add_alt_returned_args flag g g1 a b h
  obtain ⟨ca, cb, hca, hcb, ha1, ha2, hb1, hb2, hcase⟩ :=
    add_alt_spec hwf flag a b na nb ha hb hab hnot
  rcases hcase with ⟨_, g0, g2, h2, hs, l, hwf2, hs0, hs1, hd⟩ | ⟨_, ht⟩
  · rw [h2] at h
    simp only [Outcome.returned.injEq] at h
    subst h
    exact ⟨ca, cb, g0, hca, hcb, ha1, ha2, hb1, hb2, hs, l, hwf2, hs0, hs1, hd⟩
  · rw [ht] at h
    cases h

theorem mem_merge_first (ca cb : alt_component_t) (x : Int) :
    x ∈ (merge_components ca cb).1 ↔ x ∈ ca.1 ∨ x ∈ cb.2 := by
  unfold merge_components
  exact mem_set_union _ _ x

theorem mem_merge_second (ca cb : alt_component_t) (x : Int) :
    x ∈ (merge_components ca cb).2 ↔ x ∈ ca.2 ∨ x ∈ cb.1 := by
  unfold merge_components
  exact mem_set_union _ _ x

/-- C6: what the non-bipartite failure of `add_alt(1, 3)` carries on the
graph built by `add_alt(1, 2)`, `add_alt(3, 4)`, `add_alt(2, 3)`: the two
components and the two conflict sets, but the pair `(-1, -1)` instead of the
offending pair `(1, 3)`. -/
theorem add_alt_non_bipartite_payload :
    add_alt true example_merged 1 3 =
      .threw (.non_bipartite
        { component_a := ([1, 3], [2, 4]), component_b := ([1, 3], [2, 4]),
          a := -1, b := -1, conflicts_0 := [1, 3], conflicts_1 := [2, 4] })
        example_merged ∧
    get_alt_component example_merged 1 false = .ok ([1, 3], [2, 4]) ∧
    get_alt_component example_merged 3 false = .ok ([1, 3], [2, 4]) := by
  decide

/-- C10: `max_id` after removing the node with the largest id. After
`insert_node(1)`, `insert_node(2)`, `remove_node(2)` the only node left is 1
but `get_max_id()` is still 2; after `insert_node(0)`, `remove_node(0)` the
store is empty but `get_max_id()` is 0, not -1. -/
theorem remove_node_leaves_stale_max_id :
    ((insert_node MultiContactGraph.empty 1).andThen (fun g => insert_node g 2)).andThen
        (fun g => remove_node g 2) =
      .returned { edge_weights := [], nodes := [(1, MultiNode.mk_partition 0)], max_id := 2 } ∧
    (insert_node MultiContactGraph.empty 0).andThen (fun g => remove_node g 0) =
      .returned { edge_weights := [], nodes := [], max_id := 0 } := by
  decide

/-! ## `set_partition` -/

theorem on_side_of_congr {g g1 : MultiContactGraph} (h : ∀ x, alts_of g1 x = alts_of g x)
    (id x : Int) : on_side_of g1 id x ↔ on_side_of g id x := by
  unfold on_side_of
  simp only [h]

/-- The component of a node only depends on the links of the graph. -/
theorem get_alt_component_same_links {g g1 : MultiContactGraph} (hwf : WellFormed g)
    (hs : same_links g g1) (id : Int) (n0 : MultiNode) (hid : map_find id g.nodes = some n0) :
    get_alt_component g1 id false = get_alt_component g id false := by
  have hwf1 := hwf.of_same_links hs
  have hp1 : (map_find id g1.nodes).isSome = true := by rw [hs.2.2.1, hid]; rfl
  obtain ⟨n1, hn1⟩ := Option.isSome_iff_exists.mp hp1
  obtain ⟨c, hc, h1, h2, hsort⟩ := get_alt_component_wellFormed hwf n0 hid
  obtain ⟨c1, hc1, h11, h12, hsort1⟩ := get_alt_component_wellFormed hwf1 n1 hn1
  rw [hc, hc1]
  have e2 : c1.2 = c.2 := by rw [h12, h2, hs.1]
  have e1 : c1.1 = c.1 := by
    apply sorted_ext hsort1 hsort
    intro x
    rw [h11, h1]
    exact on_side_of_congr hs.1 id x
  rw [Prod.ext e1 e2]

/-- A loop that writes one label into every node of a list of present nodes. -/
theorem label_loop (p : Int) :
    ∀ (xs : List Int) (g : MultiContactGraph),
      (∀ x, x ∈ xs → (map_find x g.nodes).isSome = true) →
      ∃ g1, for_each (fun g2 alt_id =>
            nodes_at g2 alt_id (fun n => { n with partition := p })) xs g = .returned g1 ∧
        same_links g g1 ∧ g1.max_id = g.max_id ∧
        ∀ x, partition_of g1 x =
          if x ∈ xs then (partition_of g x).map (fun _ => p) else partition_of g x := by
  intro xs
  induction xs with
  | nil =>
    intro g _
    exact ⟨g, rfl, same_links_refl g, rfl, by simp⟩
  | cons a xs ih =>
    intro g hp
    obtain ⟨n, hn⟩ := Option.isSome_iff_exists.mp (hp a (List.mem_cons_self _ _))
    let f : MultiNode → MultiNode := fun n => { n with partition := p }
    let g2 : MultiContactGraph := { g with nodes := map_update a f g.nodes }
    have e2 : g2.nodes = map_update a f g.nodes := rfl
    have hs2 : same_links g g2 := same_links_update g a f (fun _ => rfl) (fun _ => rfl)
    obtain ⟨g3, h3, hs3, hmax, hpart⟩ := ih g2
      (fun x hx => (hs2.2.2.1 x).trans (hp x (List.mem_cons_of_mem _ hx)))
    refine ⟨g3, ?_, same_links_trans hs2 hs3, hmax, fun x => ?_⟩
    · simp only [for_each]
      rw [nodes_at_of_present g a _ n hn]
      exact h3
    · rw [hpart, partition_of_update_const g g2 a p f e2 (fun _ => rfl)]
      by_cases hxa : x = a
      · subst hxa
        by_cases hxs : x ∈ xs
        · cases partition_of g x <;> simp [hxs]
        · simp [hxs]
      · by_cases hxs : x ∈ xs
        · simp [hxs, hxa]
        · simp [hxs, hxa]

theorem has_alt_iff (n : MultiNode) : n.has_alt = true ↔ n.alts ≠ [] := by
  unfold MultiNode.has_alt
  cases n.alts <;> simp

/-- The contract of `set_partition` on a well-formed graph for a present node:
the side of the node takes `p`, the other side the 8-bit negation of `p`, and
no other label and no link changes. -/
theorem set_partition_spec {g : MultiContactGraph} (hwf : WellFormed g) (id p : Int)
    (n0 : MultiNode) (hid : map_find id g.nodes = some n0) (hp : n0.alts ≠ [] → p ≠ 0) :
    ∃ g1 c, set_partition g id p = .returned g1 ∧ same_links g g1 ∧ g1.max_id = g.max_id ∧
      get_alt_component g id false = .ok c ∧
      (∀ x, x ∈ c.1 ↔ on_side_of g id x) ∧ c.2 = alts_of g id ∧
      ∀ x, partition_of g1 x =
        if x ∈ c.1 then some p
        else if x ∈ c.2 then some (wrap 8 (p * -1)) else partition_of g x := by
  let f : MultiNode → MultiNode := fun n => { n with partition := p }
  let g1 : MultiContactGraph := { g with nodes := map_update id f g.nodes }
  have e1 : g1.nodes = map_update id f g.nodes := rfl
  have hs1 : same_links g g1 := same_links_update g id f (fun _ => rfl) (fun _ => rfl)
  have hpart1 : ∀ x, partition_of g1 x =
      if x = id then (partition_of g x).map (fun _ => p) else partition_of g x :=
    partition_of_update_const g g1 id p f e1 (fun _ => rfl)
  obtain ⟨c, hc, hc1, hc2, _⟩ := get_alt_component_wellFormed hwf n0 hid
  have hcg1 : get_alt_component g1 id false = .ok c :=
    (get_alt_component_same_links hwf hs1 id n0 hid).trans hc
  have hpres : ∀ x, (x ∈ c.1 ∨ x ∈ c.2) → (map_find x g.nodes).isSome = true :=
    get_alt_component_members_present g id false c hc
  have hsome : ∀ x, (map_find x g.nodes).isSome = true →
      ∀ q : Int, (partition_of g x).map (fun _ => q) = some q := by
    intro x hx q
    obtain ⟨n, hn⟩ := Option.isSome_iff_exists.mp hx
    simp [partition_of, hn]
  have hidc : id ∈ c.1 := (hc1 id).mpr (Or.inl rfl)
  cases hh : n0.has_alt with
  | false =>
    have halts : alts_of g id = [] := by
      rw [alts_of_some g id n0 hid]
      by_contra hne
      rw [(has_alt_iff n0).mpr hne] at hh
      cases hh
    refine ⟨g1, c, ?_, hs1, rfl, hc, hc1, hc2, fun x => ?_⟩
    · unfold set_partition
      simp only [hid, hh]
      rfl
    · have hx1 : x ∈ c.1 ↔ x = id := by
        rw [hc1]
        unfold on_side_of
        simp [halts]
      have hx2 : x ∉ c.2 := by rw [hc2, halts]; simp
      rw [hpart1]
      by_cases hx : x = id
      · rw [if_pos hx, if_pos (hx1.mpr hx), hsome x (hx ▸ (by rw [hid]; rfl)) p]
      · rw [if_neg hx, if_neg (fun h => hx (hx1.mp h)), if_neg hx2]
  | true =>
    have hp0 : p ≠ 0 := hp ((has_alt_iff n0).mp hh)
    obtain ⟨g2, h2, hs2, hmax2, hpart2⟩ := label_loop (wrap 8 (p * -1)) c.2 g1
      (fun x hx => (hs1.2.2.1 x).trans (hpres x (Or.inr hx)))
    obtain ⟨g3, h3, hs3, hmax3, hpart3⟩ := label_loop p c.1 g2
      (fun x hx => (hs2.2.2.1 x).trans ((hs1.2.2.1 x).trans (hpres x (Or.inl hx))))
    refine ⟨g3, c, ?_, same_links_trans hs1 (same_links_trans hs2 hs3),
      hmax3.trans hmax2, hc, hc1, hc2, fun x => ?_⟩
    · unfold set_partition
      simp only [hid, hh, if_true, if_neg hp0]
      rw [hcg1]
      simp only
      rw [h2]
      exact h3
    · have hmap : ∀ (o : Option Int) (q : Int), o.isSome = true →
          o.map (fun _ => q) = some q := by
        intro o q ho
        obtain ⟨v, rfl⟩ := Option.isSome_iff_exists.mp ho
        rfl
      have hp2 : ∀ y, (partition_of g2 y).isSome = (map_find y g.nodes).isSome := by
        intro y
        rw [partition_of_isSome, hs2.2.2.1, hs1.2.2.1]
      have hp1 : ∀ y, (partition_of g1 y).isSome = (map_find y g.nodes).isSome := by
        intro y
        rw [partition_of_isSome, hs1.2.2.1]
      rw [hpart3]
      by_cases hx1 : x ∈ c.1
      · rw [if_pos hx1, if_pos hx1]
        exact hmap _ p ((hp2 x).trans (hpres x (Or.inl hx1)))
      · have hxid : x ≠ id := fun e => hx1 (e ▸ hidc)
        rw [if_neg hx1, if_neg hx1, hpart2]
        by_cases hx2 : x ∈ c.2
        · rw [if_pos hx2, if_pos hx2]
          exact hmap _ _ ((hp1 x).trans (hpres x (Or.inr hx2)))
        · rw [if_neg hx2, if_neg hx2, hpart1, if_neg hxid]

/-! ## Paths and the list of components -/

/-- In a well-formed graph a chain of even length ends on the side of its
start and a chain of odd length ends in the alts of its start. -/
theorem WellFormed.altPath_parity {g : MultiContactGraph} (hwf : WellFormed g) {a b : Int}
    {n : Nat} (h : AltPath g a b n) :
    (n % 2 = 0 → on_side_of g a b) ∧ (n % 2 = 1 → b ∈ alts_of g a) := by
  induction h with
  | nil => exact ⟨fun _ => Or.inl rfl, fun h => by omega⟩
  | snoc _ hc ih =>
    constructor
    · intro hn
      exact Or.inr ⟨_, ih.2 (by omega), hc⟩
    · intro hn
      exact hwf.alts_of_side a _ (ih.1 (by omega)) _ hc

theorem on_side_iff_even_path {g : MultiContactGraph} (hwf : WellFormed g) (a b : Int) :
    on_side_of g a b ↔ ∃ n, n % 2 = 0 ∧ AltPath g a b n := by
  constructor
  · rintro (rfl | ⟨y, hy, hby⟩)
    · exact ⟨0, rfl, AltPath.nil _⟩
    · exact ⟨2, rfl, AltPath.snoc (AltPath.snoc (AltPath.nil a) hy) hby⟩
  · rintro ⟨n, hn, hp⟩
    exact (hwf.altPath_parity hp).1 hn

theorem alt_iff_odd_path {g : MultiContactGraph} (hwf : WellFormed g) (a b : Int) :
    b ∈ alts_of g a ↔ ∃ n, n % 2 = 1 ∧ AltPath g a b n := by
  constructor
  · intro h
    exact ⟨1, rfl, AltPath.snoc (AltPath.nil a) h⟩
  · rintro ⟨n, hn, hp⟩
    exact (hwf.altPath_parity hp).2 hn

/-- The component of a node without alts is the node alone. -/
theorem get_alt_component_of_no_alts {g : MultiContactGraph} (hwf : WellFormed g) (id : Int)
    (n0 : MultiNode) (hid : map_find id g.nodes = some n0) (halts : alts_of g id = []) :
    get_alt_component g id false = .ok ([id], []) := by
  obtain ⟨c, hc, h1, h2, hsort⟩ := get_alt_component_wellFormed hwf n0 hid
  rw [hc]
  have e2 : c.2 = [] := by rw [h2, halts]
  have e1 : c.1 = [id] := by
    apply sorted_ext hsort (List.sorted_singleton id)
    intro x
    rw [h1]
    unfold on_side_of
    simp [halts]
  exact congrArg Result.ok (Prod.ext e1 e2)

theorem WellFormed.same_component_symm {g : MultiContactGraph} (hwf : WellFormed g)
    (a b : Int) (h : same_alt_component g a b) : same_alt_component g b a := by
  rw [same_alt_component_iff hwf] at h ⊢
  rcases h with h | h
  · exact Or.inl (hwf.on_side_symm a b h)
  · exact Or.inr (hwf.alts_symm a b h)

/-- The component returned for a present node is its whole alt component. -/
theorem get_alt_component_whole {g : MultiContactGraph} (hwf : WellFormed g) (n : Int)
    (c : alt_component_t) (hp : (map_find n g.nodes).isSome = true)
    (hc : get_alt_component g n false = .ok c) :
    (∀ x, in_component c x ↔ same_alt_component g n x) ∧ (∀ x, x ∈ c.1 → x ∉ c.2) ∧
      n ∈ c.1 := by
  obtain ⟨n0, hn0⟩ := Option.isSome_iff_exists.mp hp
  obtain ⟨c1, hc1, h1, h2, _⟩ := get_alt_component_wellFormed hwf n0 hn0
  rw [hc] at hc1
  simp only [Result.ok.injEq] at hc1
  subst hc1
  refine ⟨fun x => ?_, fun x hx hx2 => ?_, (h1 n).mpr (Or.inl rfl)⟩
  · unfold in_component
    rw [same_alt_component_iff hwf, h1, h2]
  · rw [h2] at hx2
    exact hwf.not_alt_of_side n x ((h1 x).mp hx) hx2

/-- The loop of `get_alt_components` returns and keeps its invariant; every id
visited before and every id of a record it is run on ends up visited. -/
theorem alt_components_loop_spec {g : MultiContactGraph} (hwf : WellFormed g) :
    ∀ (entries : List (Int × MultiNode)) (visited : List Int) (found : List alt_component_t),
      ComponentsInv g visited found →
      (∀ e, e ∈ entries → (map_find e.1 g.nodes).isSome = true) →
      ∃ comps visited1, alt_components_loop g entries visited found = .ok comps ∧
        ComponentsInv g visited1 comps ∧ (∀ x, x ∈ visited → x ∈ visited1) ∧
        (∀ e, e ∈ entries → e.1 ∈ visited1) := by
  intro entries
  induction entries with
  | nil =>
    intro visited found inv _
    exact ⟨found, visited, rfl, inv, fun _ h => h, by simp⟩
  | cons e rest ih =>
    intro visited found inv hp
    obtain ⟨n, node⟩ := e
    have hn := hp (n, node) (List.mem_cons_self _ _)
    have hrest : ∀ e, e ∈ rest → (map_find e.1 g.nodes).isSome = true :=
      fun e he => hp e (List.mem_cons_of_mem _ he)
    by_cases hv : n ∈ visited
    · obtain ⟨comps, visited1, h1, inv1, hsub, hcov⟩ := ih visited found inv hrest
      refine ⟨comps, visited1, ?_, inv1, hsub, ?_⟩
      · simp only [alt_components_loop, if_pos hv]
        exact h1
      · intro e he
        rcases List.mem_cons.mp he with rfl | he
        · exact hsub n hv
        · exact hcov e he
    · obtain ⟨n0, hn0⟩ := Option.isSome_iff_exists.mp hn
      obtain ⟨c, hc, _⟩ := get_alt_component_wellFormed hwf n0 hn0
      obtain ⟨hwhole, _, hnc⟩ := get_alt_component_whole hwf n c hn hc
      have inv2 : ComponentsInv g (visited ++ c.1 ++ c.2) (found ++ [c]) := by
        refine ⟨fun x => ?_, fun d hd => ?_, ?_⟩
        · simp only [List.mem_append, List.mem_singleton, inv.visited_iff]
          constructor
          · rintro ((⟨d, hd, hx⟩ | hx) | hx)
            · exact ⟨d, Or.inl hd, hx⟩
            · exact ⟨c, Or.inr rfl, Or.inl hx⟩
            · exact ⟨c, Or.inr rfl, Or.inr hx⟩
          · rintro ⟨d, hd | rfl, hx⟩
            · exact Or.inl (Or.inl ⟨d, hd, hx⟩)
            · rcases hx with hx | hx
              · exact Or.inl (Or.inr hx)
              · exact Or.inr hx
        · rcases List.mem_append.mp hd with hd | hd
          · exact inv.is_component d hd
          · rw [List.mem_singleton] at hd
            subst hd
            exact ⟨n, hn, hc⟩
        · rw [List.pairwise_append]
          refine ⟨inv.disjoint, List.pairwise_singleton _ _, ?_⟩
          intro d hd c1 hc1 x hxd hxc
          rw [List.mem_singleton] at hc1
          subst hc1
          obtain ⟨m, hm, hdm⟩ := inv.is_component d hd
          obtain ⟨hwd, _, _⟩ := get_alt_component_whole hwf m d hm hdm
          have h1 : same_alt_component g m x := (hwd x).mp hxd
          have h2 : same_alt_component g n x := (hwhole x).mp hxc
          have h3 : same_alt_component g m n :=
            Relation.ReflTransGen.trans h1 (hwf.same_component_symm n x h2)
          exact hv ((inv.visited_iff n).mpr ⟨d, hd, (hwd n).mpr h3⟩)
      obtain ⟨comps, visited1, h1, inv1, hsub, hcov⟩ := ih _ _ inv2 hrest
      refine ⟨comps, visited1, ?_, inv1, ?_, ?_⟩
      · simp only [alt_components_loop, if_neg hv, hc]
        exact h1
      · intro x hx
        exact hsub x (List.mem_append_left _ (List.mem_append_left _ hx))
      · intro e he
        rcases List.mem_cons.mp he with rfl | he
        · exact hsub n (List.mem_append_left _ (List.mem_append_right _ hnc))
        · exact hcov e he

theorem componentsInv_initial (g : MultiContactGraph) : ComponentsInv g [] [] where
  visited_iff := by intro x; simp
  is_component := by intro c hc; simp at hc
  disjoint := List.Pairwise.nil

theorem mem_keys_of_map_find {K V : Type} [DecidableEq K] (k : K) (m : List (K × V))
    (h : (map_find k m).isSome = true) : ∃ v, (k, v) ∈ m := by
  obtain ⟨v, hv⟩ := Option.isSome_iff_exists.mp h
  exact ⟨v, mem_of_map_find k v m hv⟩

/-! ## Sums in `double` -/

theorem double_sum_nil (score : Int) : double_sum [] score = score := rfl

theorem double_sum_cons (t : Int) (terms : List Int) (score : Int) :
    double_sum (t :: terms) score = double_sum terms (double_add score t) := rfl

theorem magnitude_append (a b : List Int) : magnitude (a ++ b) = magnitude a + magnitude b := by
  simp [magnitude]

theorem get_score_eq_contribution (g : MultiContactGraph) (a b w : Int) (na nb : MultiNode)
    (ha : map_find a g.nodes = some na) (hb : map_find b g.nodes = some nb) :
    get_score na nb w = edge_contribution g a b w := by
  unfold get_score edge_contribution partition_of
  simp only [ha, hb, Option.map_some']
  by_cases h1 : na.partition = 0
  · simp [h1]
  · by_cases h2 : nb.partition = 0
    · simp [h2]
    · simp [h1, h2]

theorem map_update_keys {K V : Type} [DecidableEq K] (k : K) (f : V → V) (m : List (K × V)) :
    (map_update k f m).map Prod.fst = m.map Prod.fst := by
  induction m with
  | nil => rfl
  | cons p ps ih =>
    obtain ⟨pk, pv⟩ := p
    rw [map_update_cons, List.map_cons, List.map_cons, ih]
    by_cases hp : pk = k <;> simp [hp]

theorem mem_map_update {K V : Type} [DecidableEq K] (k : K) (f : V → V) (m : List (K × V))
    (k1 : K) (v1 : V) (h : (k1, v1) ∈ map_update k f m) :
    ∃ v, (k1, v) ∈ m ∧ (v1 = v ∨ v1 = f v) := by
  unfold map_update at h
  obtain ⟨p, hp, he⟩ := List.mem_map.mp h
  obtain ⟨pk, pv⟩ := p
  by_cases hk : pk = k
  · simp only [hk, if_true, Prod.mk.injEq] at he
    exact ⟨pv, by rw [← he.1, ← hk]; exact hp, Or.inr he.2.symm⟩
  · simp only [hk, if_false, Prod.mk.injEq] at he
    exact ⟨pv, by rw [← he.1]; exact hp, Or.inl he.2.symm⟩

theorem map_find_none_iff {K V : Type} [DecidableEq K] (k : K) (m : List (K × V)) :
    map_find k m = none ↔ k ∉ m.map Prod.fst := by
  induction m with
  | nil => simp [map_find]
  | cons p ps ih =>
    obtain ⟨pk, pv⟩ := p
    by_cases hp : pk = k
    · simp [map_find, hp]
    · have hp1 : ¬ k = pk := fun h => hp h.symm
      simp [map_find, hp, hp1, ih]

theorem map_emplace_keys_nodup {K V : Type} [DecidableEq K] (k : K) (v : V) (m : List (K × V))
    (h : (m.map Prod.fst).Nodup) : ((map_emplace k v m).map Prod.fst).Nodup := by
  unfold map_emplace
  cases hf : map_find k m with
  | some x => exact h
  | none =>
    simp only [List.map_append, List.map_cons, List.map_nil]
    have hk := (map_find_none_iff k m).mp hf
    exact List.Nodup.append h (List.nodup_singleton k) (by
      intro a ha hb
      rw [List.mem_singleton] at hb
      exact hk (hb ▸ ha))

theorem mem_map_emplace {K V : Type} [DecidableEq K] (k : K) (v : V) (m : List (K × V))
    (p : K × V) (h : p ∈ map_emplace k v m) : p ∈ m ∨ p = (k, v) := by
  unfold map_emplace at h
  cases hf : map_find k m with
  | some x => rw [hf] at h; exact Or.inl h
  | none =>
    rw [hf] at h
    simp only [List.mem_append, List.mem_singleton] at h
    exact h

theorem map_erase_keys_nodup {K V : Type} [DecidableEq K] (k : K) (m : List (K × V))
    (h : (m.map Prod.fst).Nodup) : ((map_erase k m).map Prod.fst).Nodup := by
  unfold map_erase
  exact (List.Nodup.sublist (List.Sublist.map _ (List.filter_sublist _)) h)

theorem mem_map_erase {K V : Type} [DecidableEq K] (k : K) (m : List (K × V))
    (p : K × V) (h : p ∈ map_erase k m) : p ∈ m := by
  unfold map_erase at h
  exact (List.mem_filter.mp h).1

/-- With distinct keys an entry of the list is the binding of its key. -/
theorem map_find_of_mem_nodup {K V : Type} [DecidableEq K] (k : K) (v : V) (m : List (K × V))
    (hn : (m.map Prod.fst).Nodup) (h : (k, v) ∈ m) : map_find k m = some v := by
  induction m with
  | nil => simp at h
  | cons p ps ih =>
    obtain ⟨pk, pv⟩ := p
    rw [List.map_cons, List.nodup_cons] at hn
    rcases List.mem_cons.mp h with h1 | h1
    · rw [Prod.mk.injEq] at h1
      simp [map_find, h1.1, h1.2]
    · have hne : pk ≠ k := by
        intro hp
        apply hn.1
        rw [hp]
        exact List.mem_map.mpr ⟨(k, v), h1, rfl⟩
      simp only [map_find, hne, if_false]
      exact ih hn.2 h1

theorem canonical_empty : Canonical MultiContactGraph.empty where
  nodes_nodup := by simp [MultiContactGraph.empty]
  edges_nodup := by simp [MultiContactGraph.empty]
  neighbors_sorted := by intro k n h; simp [MultiContactGraph.empty] at h

theorem Canonical.update_nodes {g : MultiContactGraph} (hc : Canonical g) (id : Int)
    (f : MultiNode → MultiNode)
    (hf : ∀ n, n.neighbors.Sorted (· < ·) → (f n).neighbors.Sorted (· < ·)) :
    Canonical { g with nodes := map_update id f g.nodes } where
  nodes_nodup := by
    show ((map_update id f g.nodes).map Prod.fst).Nodup
    rw [map_update_keys]; exact hc.nodes_nodup
  edges_nodup := hc.edges_nodup
  neighbors_sorted := by
    intro k n h
    obtain ⟨n0, h0, h1 | h1⟩ := mem_map_update id f g.nodes k n h
    · rw [h1]; exact hc.neighbors_sorted k n0 h0
    · rw [h1]; exact hf n0 (hc.neighbors_sorted k n0 h0)

theorem Canonical.emplace_node {g : MultiContactGraph} (hc : Canonical g) (id p : Int) :
    Canonical { g with nodes := map_emplace id (MultiNode.mk_partition p) g.nodes } where
  nodes_nodup := map_emplace_keys_nodup _ _ _ hc.nodes_nodup
  edges_nodup := hc.edges_nodup
  neighbors_sorted := by
    intro k n h
    rcases mem_map_emplace _ _ _ _ h with h1 | h1
    · exact hc.neighbors_sorted k n h1
    · rw [Prod.mk.injEq] at h1
      rw [h1.2]
      simp [MultiNode.mk_partition]

theorem Canonical.erase_node {g : MultiContactGraph} (hc : Canonical g) (id : Int) :
    Canonical { g with nodes := map_erase id g.nodes } where
  nodes_nodup := map_erase_keys_nodup _ _ hc.nodes_nodup
  edges_nodup := hc.edges_nodup
  neighbors_sorted := fun k n h => hc.neighbors_sorted k n (mem_map_erase _ _ _ h)

theorem Canonical.with_edges {g : MultiContactGraph} (hc : Canonical g)
    (m : List ((Int × Int) × Int)) (hm : (m.map Prod.fst).Nodup) :
    Canonical { g with edge_weights := m } where
  nodes_nodup := hc.nodes_nodup
  edges_nodup := hm
  neighbors_sorted := hc.neighbors_sorted

theorem Canonical.with_max_id {g : MultiContactGraph} (hc : Canonical g) (m : Int) :
    Canonical { g with max_id := m } where
  nodes_nodup := hc.nodes_nodup
  edges_nodup := hc.edges_nodup
  neighbors_sorted := hc.neighbors_sorted

theorem Canonical.raise_max_id {g : MultiContactGraph} (hc : Canonical g) (id : Int) :
    Canonical (raise_max_id g id) := by
  unfold gfase.raise_max_id
  split_ifs
  · exact hc.with_max_id id
  · exact hc

theorem canonical_nodes_at {g g1 : MultiContactGraph} (hc : Canonical g) {id : Int}
    {f : MultiNode → MultiNode} (h : nodes_at g id f = .returned g1)
    (hf : ∀ n, n.neighbors.Sorted (· < ·) → (f n).neighbors.Sorted (· < ·)) :
    Canonical g1 := by
  rw [(nodes_at_returned g g1 id f h).1]
  exact hc.update_nodes id f hf

theorem canonical_insert_edge {g g1 : MultiContactGraph} (hc : Canonical g) (a b w : Int)
    (h : insert_edge g a b w = .returned g1) : Canonical g1 := by
  unfold insert_edge at h
  obtain ⟨g2, h2, h3⟩ := andThen_returned _ _ _ h
  have hc2 : Canonical g2 :=
    canonical_nodes_at (hc.with_edges _ (map_emplace_keys_nodup _ _ _ hc.edges_nodup)) h2
        (fun n hn => sorted_set_emplace b n.neighbors hn)
  exact canonical_nodes_at hc2 h3 (fun n hn => sorted_set_emplace a n.neighbors hn)

theorem canonical_remove_edge {g g1 : MultiContactGraph} (hc : Canonical g) (a b : Int)
    (h : remove_edge g a b = .returned g1) : Canonical g1 := by
  unfold remove_edge at h
  cases hf : map_find (edge a b) g.edge_weights with
  | none =>
    rw [hf] at h
    simp only [Outcome.returned.injEq] at h
    exact h ▸ hc
  | some w =>
    rw [hf] at h
    simp only at h
    obtain ⟨g2, h2, h3⟩ := andThen_returned _ _ _ h
    have hc2 : Canonical g2 :=
      canonical_nodes_at (hc.with_edges _ (map_erase_keys_nodup _ _ hc.edges_nodup)) h2
        (fun n hn => sorted_set_erase b n.neighbors hn)
    exact canonical_nodes_at hc2 h3 (fun n hn => sorted_set_erase a n.neighbors hn)

theorem canonical_try_insert_edge {g g1 : MultiContactGraph} (hc : Canonical g) (a b w : Int)
    (h : try_insert_edge g a b w = .returned g1) : Canonical g1 := by
  unfold try_insert_edge at h
  split_ifs at h
  cases hf : map_find (edge a b) g.edge_weights with
  | none => rw [hf] at h; exact canonical_insert_edge hc a b w h
  | some w0 =>
    rw [hf] at h
    simp only [Outcome.returned.injEq] at h
    exact h ▸ hc

theorem canonical_try_insert_edge2 {g g1 : MultiContactGraph} (hc : Canonical g) (a b : Int)
    (h : try_insert_edge2 g a b = .returned g1) : Canonical g1 := by
  unfold try_insert_edge2 at h
  split_ifs at h
  cases hf : map_find (edge a b) g.edge_weights with
  | none => rw [hf] at h; exact canonical_insert_edge hc a b 0 h
  | some w0 =>
    rw [hf] at h
    simp only [Outcome.returned.injEq] at h
    exact h ▸ hc

theorem canonical_increment_edge_weight {g g1 : MultiContactGraph} (hc : Canonical g)
    (a b v : Int) (h : increment_edge_weight g a b v = .returned g1) : Canonical g1 := by
  unfold increment_edge_weight at h
  split_ifs at h
  cases hf : map_find (edge a b) g.edge_weights with
  | none =>
    rw [hf] at h
    simp only [Outcome.returned.injEq] at h
    exact h ▸ hc
  | some w0 =>
    rw [hf] at h
    simp only [Outcome.returned.injEq] at h
    rw [← h]
    exact hc.with_edges _ (by rw [map_update_keys]; exact hc.edges_nodup)

theorem canonical_link_alts {g g1 : MultiContactGraph} (hc : Canonical g) (a b : Int)
    (h : link_alts g a b = .returned g1) : Canonical g1 := by
  unfold link_alts at h
  cases hf : map_find b g.nodes with
  | none => rw [hf] at h; simp at h
  | some n =>
    rw [hf] at h
    simp only [Outcome.returned.injEq] at h
    rw [← h]
    have h1 := hc.update_nodes a (fun n => { n with alts := set_emplace b n.alts })
      (fun n hn => hn)
    have h2 := h1.update_nodes b (fun n => { n with alts := set_emplace a n.alts })
      (fun n hn => hn)
    have h3 := h2.update_nodes a (fun n => { n with partition := 1 }) (fun n hn => hn)
    exact h3.update_nodes b (fun n => { n with partition := -1 }) (fun n hn => hn)

theorem canonical_remove_component_edges :
    ∀ (ids : List Int) (g g1 : MultiContactGraph), Canonical g →
      remove_component_edges ids g = .returned g1 → Canonical g1 := by
  intro ids
  induction ids with
  | nil =>
    intro g g1 hc h
    simp only [remove_component_edges, Outcome.returned.injEq] at h
    exact h ▸ hc
  | cons x xs ih =>
    intro g g1 hc h
    simp only [remove_component_edges] at h
    obtain ⟨g2, h2, h3⟩ := andThen_returned _ _ _ h
    have hc2 : Canonical g2 := by
      refine for_each_invariant Canonical _ xs ?_ g g2 hc h2
      intro ga gb y _ hca hy
      exact canonical_remove_edge hca x y hy
    exact ih g2 g1 hc2 h3

theorem canonical_add_alt_components {g g1 : MultiContactGraph} (hc : Canonical g)
    (a b : alt_component_t) (remove_weights : Bool)
    (h : add_alt_components g a b remove_weights = .returned g1) : Canonical g1 := by
  unfold add_alt_components at h
  by_cases hcompat : components_are_compatible a b = true
  · rw [if_pos hcompat] at h
    simp only at h
    obtain ⟨g2, h2, h3⟩ := andThen_returned _ _ _ h
    have hc2 : Canonical g2 := by
      cases remove_weights with
      | true => exact canonical_remove_component_edges _ g g2 hc h2
      | false =>
        simp only [Bool.false_eq_true, if_false, Outcome.returned.injEq] at h2
        exact h2 ▸ hc
    refine for_each_invariant Canonical _ _ ?_ g2 g1 hc2 h3
    intro ga gb x _ hca hx
    cases hf : map_find x ga.nodes with
    | none => rw [hf] at hx; simp at hx
    | some n =>
      rw [hf] at hx
      simp only at hx
      refine for_each_invariant Canonical _ _ ?_ ga gb hca hx
      intro gc gd y _ hcc hy
      exact canonical_link_alts hcc x y hy
  · rw [if_neg hcompat] at h
    simp at h

theorem canonical_add_alt {g g1 : MultiContactGraph} (hc : Canonical g) (rw_ : Bool)
    (a b : Int) (h : add_alt rw_ g a b = .returned g1) : Canonical g1 := by
  unfold add_alt at h
  cases hfa : map_find a g.nodes with
  | none => rw [hfa] at h; simp at h
  | some na =>
    cases hfb : map_find b g.nodes with
    | none => rw [hfa, hfb] at h; simp at h
    | some nb =>
      rw [hfa, hfb] at h
      simp only at h
      split_ifs at h with h1 h2
      · simp only [Outcome.returned.injEq] at h
        exact h ▸ hc
      · cases hca : get_alt_component g a false with
        | threw e => rw [hca] at h; simp at h
        | out_of_fuel => rw [hca] at h; simp at h
        | ok ca =>
          cases hcb : get_alt_component g b false with
          | threw e => rw [hca, hcb] at h; simp at h
          | out_of_fuel => rw [hca, hcb] at h; simp at h
          | ok cb =>
            rw [hca, hcb] at h
            exact canonical_add_alt_components hc ca cb rw_ h

theorem canonical_set_partition {g g1 : MultiContactGraph} (hc : Canonical g) (id p : Int)
    (h : set_partition g id p = .returned g1) : Canonical g1 := by
  unfold set_partition at h
  cases hf : map_find id g.nodes with
  | none => rw [hf] at h; simp at h
  | some n =>
    rw [hf] at h
    simp only at h
    have hc1 := hc.update_nodes id (fun n => { n with partition := p }) (fun n hn => hn)
    split_ifs at h with h1 h2
    · cases hca : get_alt_component
          { g with nodes := map_update id (fun n => { n with partition := p }) g.nodes }
          id false with
      | threw e => rw [hca] at h; simp at h
      | out_of_fuel => rw [hca] at h; simp at h
      | ok c =>
        rw [hca] at h
        simp only at h
        obtain ⟨g2, h2, h3⟩ := andThen_returned _ _ _ h
        have hc2 : Canonical g2 := by
          refine for_each_invariant Canonical _ _ ?_ _ g2 hc1 h2
          intro ga gb y _ hca hy
          exact canonical_nodes_at hca hy (fun n hn => hn)
        refine for_each_invariant Canonical _ _ ?_ g2 g1 hc2 h3
        intro ga gb y _ hca hy
        exact canonical_nodes_at hca hy (fun n hn => hn)
    · simp only [Outcome.returned.injEq] at h
      exact h ▸ hc1

theorem canonical_remove_node {g g1 : MultiContactGraph} (hc : Canonical g) (id : Int)
    (h : remove_node g id = .returned g1) : Canonical g1 := by
  unfold remove_node at h
  cases hv : for_each_node_neighbor g id with
  | threw e => rw [hv] at h; simp at h
  | out_of_fuel => rw [hv] at h; simp at h
  | ok visited =>
    rw [hv] at h
    simp only at h
    obtain ⟨g2, h2, h3⟩ := andThen_returned _ _ _ h
    have hc2 : Canonical g2 := by
      refine for_each_invariant Canonical _ _ ?_ g g2 hc h2
      intro ga gb e _ hca he
      exact canonical_remove_edge hca e.1 e.2 he
    cases hf : map_find id g2.nodes with
    | none => rw [hf] at h3; simp at h3
    | some n =>
      rw [hf] at h3
      simp only at h3
      obtain ⟨g3, h4, h5⟩ := andThen_returned _ _ _ h3
      have hc3 : Canonical g3 := by
        split_ifs at h4
        · refine for_each_invariant Canonical _ _ ?_ g2 g3 hc2 h4
          intro ga gb y _ hca hy
          exact canonical_nodes_at hca hy (fun n hn => hn)
        · simp only [Outcome.returned.injEq] at h4
          exact h4 ▸ hc2
      simp only [Outcome.returned.injEq] at h5
      rw [← h5]
      split_ifs
      · exact (hc3.erase_node id).with_max_id _
      · exact hc3.erase_node id

/-- Every graph built by the public member functions keeps the keys of both
maps distinct and every neighbour set ascending. -/
theorem Reachable.canonical {g : MultiContactGraph} (h : Reachable g) : Canonical g := by
  induction h with
  | empty => exact canonical_empty
  | insert_node id _ h ih =>
    simp only [gfase.insert_node, Outcome.returned.injEq] at h
    rw [← h]; exact (ih.emplace_node id 0).raise_max_id id
  | insert_node_partition id p _ h ih =>
    unfold gfase.insert_node_partition at h
    split_ifs at h
    simp only [Outcome.returned.injEq] at h
    rw [← h]; exact (ih.emplace_node id p).raise_max_id id
  | try_insert_node id _ h ih =>
    simp only [gfase.try_insert_node, Outcome.returned.injEq] at h
    rw [← h]
    split_ifs
    · exact (ih.emplace_node id 0).raise_max_id id
    · exact ih.raise_max_id id
  | try_insert_node_partition id p _ h ih =>
    simp only [gfase.try_insert_node_partition, Outcome.returned.injEq] at h
    rw [← h]
    split_ifs
    · exact (ih.emplace_node id p).raise_max_id id
    · exact ih.raise_max_id id
  | try_insert_edge a b w _ h ih => exact canonical_try_insert_edge ih a b w h
  | try_insert_edge2 a b _ h ih => exact canonical_try_insert_edge2 ih a b h
  | increment_edge_weight a b v _ h ih => exact canonical_increment_edge_weight ih a b v h
  | increment_coverage id v _ h ih =>
    unfold gfase.increment_coverage at h
    split_ifs at h
    exact canonical_nodes_at ih h (fun n hn => hn)
  | set_node_coverage id v _ h ih =>
    unfold gfase.set_node_coverage at h
    split_ifs at h
    exact canonical_nodes_at ih h (fun n hn => hn)
  | set_node_length id v _ h ih =>
    unfold gfase.set_node_length at h
    split_ifs at h
    exact canonical_nodes_at ih h (fun n hn => hn)
  | remove_edge a b _ h ih => exact canonical_remove_edge ih a b h
  | remove_node id _ h ih => exact canonical_remove_node ih id h
  | add_alt rw_ a b _ h ih => exact canonical_add_alt ih rw_ a b h
  | set_partition id p _ h ih => exact canonical_set_partition ih id p h

/-! ## The score of a node and of a component -/

theorem get_edge_weight_of_find (g : MultiContactGraph) (a b w : Int)
    (h : map_find (edge a b) g.edge_weights = some w) : get_edge_weight g a b = w := by
  unfold get_edge_weight
  rw [h]

theorem neighbor_score_loop_eq (g : MultiContactGraph) (id : Int) (n : MultiNode)
    (hn : map_find id g.nodes = some n) :
    ∀ (l : List Int) (score : Int),
      (∀ y, y ∈ l → (map_find y g.nodes).isSome = true ∧
        (y ≠ id → edge_stored g (edge id y))) →
      neighbor_score_loop g id n l score = .ok (double_sum
        ((l.filter (fun y => decide (y ≠ id))).map
          (fun y => edge_contribution g id y (get_edge_weight g id y))) score) := by
  intro l
  induction l with
  | nil => intro score _; simp [neighbor_score_loop, double_sum]
  | cons y rest ih =>
    intro score hl
    have hrest := fun z hz => hl z (List.mem_cons_of_mem _ hz)
    obtain ⟨hy, hedge⟩ := hl y (List.mem_cons_self _ _)
    obtain ⟨ny, hny⟩ := Option.isSome_iff_exists.mp hy
    by_cases hyid : id = y
    · have hdec : decide (y ≠ id) = false := by simp [hyid]
      simp only [neighbor_score_loop, hny, hyid, if_true]
      rw [← hyid, ih score hrest]
      simp only [List.filter_cons, ← hyid, ne_eq, not_true_eq_false, decide_False,
        Bool.false_eq_true, if_false]
    · have hne : y ≠ id := fun h => hyid h.symm
      obtain ⟨w, hw⟩ := Option.isSome_iff_exists.mp (hedge hne)
      have hdec : decide (y ≠ id) = true := by simpa using hne
      simp only [neighbor_score_loop, hny, if_neg hyid, hw]
      rw [ih _ hrest, get_score_eq_contribution g id y w n ny hn hny]
      simp only [List.filter_cons, hdec, if_true, List.map_cons, double_sum_cons,
        get_edge_weight_of_find g id y w hw]

/-- The neighbours of a present node of a well-formed graph are visited
without an error and add the contributions of its edges. -/
theorem add_neighbor_scores_eq {g : MultiContactGraph} (hwf : WellFormed g) (id : Int)
    (n : MultiNode) (hn : map_find id g.nodes = some n) (score : Int) :
    add_neighbor_scores g id n score = .ok (double_sum (incident_terms g id) score) := by
  unfold add_neighbor_scores incident_terms
  rw [hn, neighbors_of_some g id n hn]
  simp only
  apply neighbor_score_loop_eq g id n hn
  intro y hy
  have hy1 : y ∈ neighbors_of g id := by rw [neighbors_of_some g id n hn]; exact hy
  exact ⟨hwf.neighbor_present id y hy1, fun _ => (hwf.edge_neighbors id y).mpr hy1⟩

theorem edge_contribution_congr (g g1 : MultiContactGraph)
    (hp : ∀ x, partition_of g1 x = partition_of g x) (a b w : Int) :
    edge_contribution g1 a b w = edge_contribution g a b w := by
  unfold edge_contribution
  rw [hp a, hp b]

theorem SameUpToLoops.refl (g : MultiContactGraph) : SameUpToLoops g g :=
  ⟨fun _ => rfl, fun _ => rfl, fun _ => rfl, fun _ _ _ => rfl, rfl⟩

theorem SameUpToLoops.same_presence {g g1 : MultiContactGraph} (h : SameUpToLoops g g1) (x : Int) :
    (map_find x g1.nodes).isSome = (map_find x g.nodes).isSome := by
  rw [← partition_of_isSome, ← partition_of_isSome, h.labels]

theorem SameUpToLoops.incident_terms {g g1 : MultiContactGraph} (h : SameUpToLoops g g1)
    (x : Int) : incident_terms g1 x = incident_terms g x := by
  unfold gfase.incident_terms
  rw [h.neighbors x]
  apply List.map_congr_left
  intro y hy
  have hyx : y ≠ x := by simpa using (List.mem_filter.mp hy).2
  rw [h.weights x y (fun e => hyx e.symm), edge_contribution_congr g g1 h.labels]

theorem SameUpToLoops.node_scores_loop {g g1 : MultiContactGraph} (h : SameUpToLoops g g1)
    (hwf : WellFormed g) (hwf1 : WellFormed g1) :
    ∀ (l : List Int) (score : Int),
      node_scores_loop g1 l score = node_scores_loop g l score := by
  intro l
  induction l with
  | nil => intro score; rfl
  | cons x rest ih =>
    intro score
    have hpres := h.same_presence x
    cases hx : map_find x g.nodes with
    | none =>
      rw [hx] at hpres
      have hx1 : map_find x g1.nodes = none := by
        cases h1 : map_find x g1.nodes with
        | none => rfl
        | some n1 => rw [h1] at hpres; simp at hpres
      simp [gfase.node_scores_loop, hx, hx1]
    | some n =>
      rw [hx] at hpres
      obtain ⟨n1, hn1⟩ := Option.isSome_iff_exists.mp hpres
      simp only [gfase.node_scores_loop, hx, hn1, add_neighbor_scores_eq hwf x n hx,
        add_neighbor_scores_eq hwf1 x n1 hn1, h.incident_terms x]
      exact ih _

theorem partition_of_some (g : MultiContactGraph) (x : Int) (n : MultiNode)
    (h : map_find x g.nodes = some n) : partition_of g x = some n.partition := by
  unfold partition_of; rw [h]; rfl

theorem validate_node_alts_spec (g : MultiContactGraph) (id : Int) (node : MultiNode) :
    ∀ (l : List Int), (∀ x, x ∈ l → (map_find x g.nodes).isSome = true) →
      (validate_node_alts g id node l = .ok () ∧
        ∀ x, x ∈ l → partition_of g x ≠ some node.partition) ∨
      (∃ x, x ∈ l ∧ partition_of g x = some node.partition ∧
        validate_node_alts g id node l = .threw (.alt_nodes_in_same_partition id x)) := by
  intro l
  induction l with
  | nil => intro _; left; exact ⟨rfl, fun x hx => by simp at hx⟩
  | cons y rest ih =>
    intro hl
    obtain ⟨ny, hny⟩ := Option.isSome_iff_exists.mp (hl y (List.mem_cons_self _ _))
    have hpy := partition_of_some g y ny hny
    by_cases hsame : ny.partition = node.partition
    · right
      refine ⟨y, List.mem_cons_self _ _, by rw [hpy, hsame], ?_⟩
      simp [validate_node_alts, hny, hsame]
    · rcases ih (fun z hz => hl z (List.mem_cons_of_mem _ hz)) with ⟨h1, h2⟩ | ⟨x, hx, h1, h2⟩
      · left
        refine ⟨by simp [validate_node_alts, hny, hsame, h1], ?_⟩
        intro x hx
        rcases List.mem_cons.mp hx with hxy | hxr
        · rw [hxy, hpy]; intro he; exact hsame (Option.some.inj he)
        · exact h2 x hxr
      · right
        exact ⟨x, List.mem_cons_of_mem _ hx, h1, by simp [validate_node_alts, hny, hsame, h2]⟩

theorem validate_alts_loop_spec (g : MultiContactGraph) :
    ∀ (entries : List (Int × MultiNode)),
      (∀ id node, (id, node) ∈ entries → ∀ x, x ∈ node.alts →
        (map_find x g.nodes).isSome = true) →
      (validate_alts_loop g entries = .ok () ∧
        ∀ id node, (id, node) ∈ entries → ∀ x, x ∈ node.alts →
          partition_of g x ≠ some node.partition) ∨
      (∃ id node x, (id, node) ∈ entries ∧ x ∈ node.alts ∧
        partition_of g x = some node.partition ∧
        validate_alts_loop g entries = .threw (.alt_nodes_in_same_partition id x)) := by
  intro entries
  induction entries with
  | nil => intro _; left; exact ⟨rfl, fun id node h => by simp at h⟩
  | cons p rest ih =>
    obtain ⟨id, node⟩ := p
    intro hl
    have hbody : (if node.has_alt then validate_node_alts g id node node.alts else .ok ()) =
        validate_node_alts g id node node.alts := by
      by_cases hh : node.has_alt = true
      · rw [if_pos hh]
      · rw [if_neg hh]
        have : node.alts = [] := by
          unfold MultiNode.has_alt at hh
          simpa using hh
        rw [this]; rfl
    rcases validate_node_alts_spec g id node node.alts
        (hl id node (List.mem_cons_self _ _)) with ⟨h1, h2⟩ | ⟨x, hx, h1, h2⟩
    · rcases ih (fun i n hi => hl i n (List.mem_cons_of_mem _ hi)) with
        ⟨h3, h4⟩ | ⟨i, n, y, hi, hy, h3, h4⟩
      · left
        refine ⟨by rw [validate_alts_loop, hbody, h1]; exact h3, ?_⟩
        intro i n hi
        rcases List.mem_cons.mp hi with he | hr
        · rw [Prod.mk.injEq] at he
          rw [he.2]; exact h2
        · exact h4 i n hr
      · right
        exact ⟨i, n, y, List.mem_cons_of_mem _ hi, hy, h3,
          by rw [validate_alts_loop, hbody, h1]; exact h4⟩
    · right
      exact ⟨id, node, x, List.mem_cons_self _ _, hx, h1,
        by rw [validate_alts_loop, hbody, h2]⟩

/-- In a state with distinct node keys and symmetric alts the sweep returns
exactly when no node holds the label of one of its alts, and fails with the
same-partition error otherwise. -/
theorem validate_alts_spec (g : MultiContactGraph) (hkeys : (g.nodes.map Prod.fst).Nodup)
    (hsymm : ∀ a b, b ∈ alts_of g a → a ∈ alts_of g b) :
    (validate_alts g = .ok () ∧
      ∀ n x, x ∈ alts_of g n → partition_of g x ≠ partition_of g n) ∨
    (∃ n x, x ∈ alts_of g n ∧ partition_of g x = partition_of g n ∧
      validate_alts g = .threw (.alt_nodes_in_same_partition n x)) := by
  have hentry : ∀ id node, (id, node) ∈ g.nodes → map_find id g.nodes = some node :=
    fun id node h => map_find_of_mem_nodup id node _ hkeys h
  have hpres : ∀ id node, (id, node) ∈ g.nodes → ∀ x, x ∈ node.alts →
      (map_find x g.nodes).isSome = true := by
    intro id node h x hx
    have hx1 : x ∈ alts_of g id := by rw [alts_of_some g id node (hentry id node h)]; exact hx
    obtain ⟨n, hn⟩ := has_node_of_mem_alts g x id (hsymm id x hx1)
    rw [hn]; rfl
  unfold validate_alts
  rcases validate_alts_loop_spec g g.nodes hpres with ⟨h1, h2⟩ | ⟨id, node, x, hi, hx, h1, h2⟩
  · left
    refine ⟨h1, ?_⟩
    intro n x hx
    obtain ⟨node, hn⟩ := has_node_of_mem_alts g n x hx
    rw [partition_of_some g n node hn]
    exact h2 n node (mem_of_map_find n node _ hn) x (by rw [← alts_of_some g n node hn]; exact hx)
  · right
    have hn := hentry id node hi
    exact ⟨id, x, by rw [alts_of_some g id node hn]; exact hx,
      by rw [h1, partition_of_some g id node hn], h2⟩

/-! ## Labels after `set_partition` -/

/-- What a call of `set_partition` that returned did. -/
theorem set_partition_returned_spec {g g1 : MultiContactGraph} (hwf : WellFormed g) (id p : Int)
    (h : set_partition g id p = .returned g1) :
    (alts_of g id ≠ [] → p ≠ 0) ∧ (map_find id g.nodes).isSome = true ∧
    ∃ c, same_links g g1 ∧ g1.max_id = g.max_id ∧
      get_alt_component g id false = .ok c ∧
      (∀ x, x ∈ c.1 ↔ on_side_of g id x) ∧ c.2 = alts_of g id ∧
      ∀ x, partition_of g1 x =
        if x ∈ c.1 then some p
        else if x ∈ c.2 then some (wrap 8 (p * -1)) else partition_of g x := by
  cases hid : map_find id g.nodes with
  | none => simp [set_partition, hid] at h
  | some n0 =>
    have hp : n0.alts ≠ [] → p ≠ 0 := by
      intro halts hp0
      have hh : n0.has_alt = true := (has_alt_iff n0).mpr halts
      simp [set_partition, hid, hh, hp0] at h
    obtain ⟨g2, c, h2, hrest⟩ := set_partition_spec hwf id p n0 hid hp
    rw [h2] at h
    simp only [Outcome.returned.injEq] at h
    subst h
    exact ⟨by rw [alts_of_some g id n0 hid]; exact hp, rfl, c, hrest⟩

theorem wrap_neg_of_small (p : Int) (h1 : -127 ≤ p) (h2 : p ≤ 127) :
    wrap 8 (p * -1) = -p := by
  unfold wrap
  have e : ((2 : Int) ^ (8 - 1)) = 128 := by norm_num
  have e2 : ((2 : Int) ^ 8) = 256 := by norm_num
  rw [e, e2]
  omega

/-- A call of `set_partition` with a label other than `-128` keeps a graph
that passes `validate_alts` passing it. -/
theorem set_partition_keeps_valid {g g1 : MultiContactGraph} (hg : Reachable g)
    (id p : Int) (h1 : -127 ≤ p) (h2 : p ≤ 127)
    (hvalid : validate_alts g = .ok ()) (h : set_partition g id p = .returned g1) :
    validate_alts g1 = .ok () := by
  have hwf := hg.wellFormed
  have hg1 : Reachable g1 := Reachable.set_partition id p hg h
  have hwf1 := hg1.wellFormed
  obtain ⟨hp, _, c, hs, _, hc, hc1, hc2, hlab⟩ := set_partition_returned_spec hwf id p h
  have hold : ∀ n x, x ∈ alts_of g n → partition_of g x ≠ partition_of g n := by
    rcases validate_alts_spec g hg.canonical.nodes_nodup hwf.alts_symm with
      ⟨_, hd⟩ | ⟨n, x, _, _, hthrew⟩
    · exact hd
    · rw [hvalid] at hthrew; simp at hthrew
  rcases validate_alts_spec g1 hg1.canonical.nodes_nodup hwf1.alts_symm with
    ⟨hok, _⟩ | ⟨n, x, hx, hsame, _⟩
  · exact hok
  · exfalso
    rw [hs.1] at hx
    have hwrap := wrap_neg_of_small p h1 h2
    rw [hlab x, hlab n] at hsame
    by_cases hn1 : n ∈ c.1
    · have hxalt : x ∈ alts_of g id := hwf.alts_of_side id n ((hc1 n).mp hn1) x hx
      have hx1 : x ∉ c.1 := fun hx1 => hwf.not_alt_of_side id x ((hc1 x).mp hx1) hxalt
      have hx2 : x ∈ c.2 := by rw [hc2]; exact hxalt
      rw [if_pos hn1, if_neg hx1, if_pos hx2, hwrap] at hsame
      have hp0 := hp (List.ne_nil_of_mem hxalt)
      have := Option.some.inj hsame
      omega
    · by_cases hn2 : n ∈ c.2
      · have hnalt : n ∈ alts_of g id := by rw [← hc2]; exact hn2
        have hx1 : x ∈ c.1 := (hc1 x).mpr (Or.inr ⟨n, hnalt, hx⟩)
        rw [if_pos hx1, if_neg hn1, if_pos hn2, hwrap] at hsame
        have hp0 := hp (List.ne_nil_of_mem hnalt)
        have := Option.some.inj hsame
        omega
      · have hx1 : x ∉ c.1 := by
          intro hx1
          apply hn2
          rw [hc2]
          exact hwf.alts_of_side id x ((hc1 x).mp hx1) n (hwf.alts_symm n x hx)
        have hx2 : x ∉ c.2 := by
          intro hx2
          apply hn1
          rw [hc2] at hx2
          exact (hc1 n).mpr (Or.inr ⟨x, hx2, hwf.alts_symm n x hx⟩)
        rw [if_neg hn1, if_neg hn2, if_neg hx1, if_neg hx2] at hsame
        exact hold n x hx hsame

/-! ## The example graphs for labels and scores are reachable -/

theorem example_three_reachable : Reachable example_three :=
  Reachable.insert_node 3
    (Reachable.insert_node 2 (Reachable.insert_node 1 Reachable.empty rfl) rfl) rfl

theorem example_three_pair_reachable : Reachable example_three_pair :=
  Reachable.add_alt true 1 2 example_three_reachable (by decide)

theorem example_overflow_reachable : Reachable example_overflow :=
  Reachable.set_partition 1 (-128) example_three_pair_reachable (by decide)

theorem example_self_loop_reachable : Reachable example_self_loop :=
  Reachable.try_insert_edge 4 4 2 example_merged_reachable (by decide)

/-- An edge between two present nodes is stored when `try_insert_edge`
returns, and the call does return. -/
theorem try_insert_edge_returns (g : MultiContactGraph) (a b w : Int)
    (ha : (map_find a g.nodes).isSome = true) (hb : (map_find b g.nodes).isSome = true) :
    ∃ g1, try_insert_edge g a b w = .returned g1 ∧ edge_stored g1 (edge a b) := by
  obtain ⟨na, hna⟩ := Option.isSome_iff_exists.mp ha
  unfold try_insert_edge
  have hpres : ¬ ((map_find a g.nodes).isNone || (map_find b g.nodes).isNone) = true := by
    cases h1 : map_find a g.nodes with
    | none => rw [h1] at ha; simp at ha
    | some x =>
      cases h2 : map_find b g.nodes with
      | none => rw [h2] at hb; simp at hb
      | some y => simp
  rw [if_neg hpres]
  cases hf : map_find (edge a b) g.edge_weights with
  | some w0 => exact ⟨g, rfl, by unfold edge_stored; rw [hf]; rfl⟩
  | none =>
    simp only
    have hb2 : (map_find b (map_update a
        (fun n => { n with neighbors := set_emplace b n.neighbors }) g.nodes)).isSome = true := by
      rw [isSome_map_find_update]; exact hb
    obtain ⟨nb, hnb⟩ := Option.isSome_iff_exists.mp hb2
    have hret : ∃ g1, insert_edge g a b w = .returned g1 := by
      unfold insert_edge
      rw [nodes_at_of_present
        { g with edge_weights := map_emplace (edge a b) w g.edge_weights } a _ na hna]
      simp only [Outcome.andThen]
      exact ⟨_, nodes_at_of_present _ b _ nb hnb⟩
    obtain ⟨g1, hg1⟩ := hret
    exact ⟨g1, hg1, ((insert_edge_effect g g1 a b w hg1).2.2 (edge a b)).mpr (Or.inr rfl)⟩

/-! ## Claims about labels -/

/-- C11: the graph `example_overflow` is reachable (three nodes, `add_alt(1, 2)`,
then `set_partition(1, -128)`, which returns and leaves `-128` on both alts);
on it the call `set_partition(3, 1)` of a present node with a label in
`{-1, 0, +1}` returns, and `validate_alts` on the resulting graph throws the
same-partition error for the pair `1, 2`. -/
theorem set_partition_then_validate_alts_throws :
    Reachable example_overflow ∧ has_node example_overflow 3 = true ∧
    set_partition example_three_pair 1 (-128) = .returned example_overflow ∧
    set_partition example_overflow 3 1 = .returned example_overflow_labelled ∧
    validate_alts example_overflow_labelled = .threw (.alt_nodes_in_same_partition 1 2) :=
  ⟨example_overflow_reachable, by decide, by decide, by decide, by decide⟩

/-- C13: `try_insert_node(1, 5)` on the empty graph returns and stores the
label `5`, and `set_partition(1, 2)` on the result returns and stores the
label `2`, while the sibling `insert_node(1, 5)` throws the range error: the
two calls store labels outside `{-1, 0, +1}` in reachable graphs, where the
index `partition + 1` into the three colors is `6` and `3`. -/
theorem out_of_range_labels_are_stored :
    insert_node_partition MultiContactGraph.empty 1 5 =
      .threw .partition_outside_range MultiContactGraph.empty ∧
    ∃ g1 g2 n1 n2, try_insert_node_partition MultiContactGraph.empty 1 5 = .returned g1 ∧
      set_partition g1 1 2 = .returned g2 ∧ Reachable g1 ∧ Reachable g2 ∧
      map_find 1 g1.nodes = some n1 ∧ n1.partition = 5 ∧ colors_index n1 = 6 ∧
      map_find 1 g2.nodes = some n2 ∧ n2.partition = 2 ∧ colors_index n2 = 3 :=
  ⟨by decide, _, _, _, _, rfl, rfl,
    Reachable.try_insert_node_partition 1 5 Reachable.empty rfl,
    Reachable.set_partition 1 2
      (Reachable.try_insert_node_partition 1 5 Reachable.empty rfl) rfl,
    rfl, by decide, by decide, rfl, by decide, by decide⟩

/-- C14: on the reachable graph `example_pair`, where node `1` has the alt `2`
and holds the label `+1`, `set_partition(1, 0)` throws the zero-label error
and leaves a graph in which node `1` still has its alt and holds the label
`0`: the label is written before the check. -/
theorem set_partition_zero_writes_before_throwing :
    Reachable example_pair ∧ has_node example_pair 1 = true ∧
    alts_of example_pair 1 = [2] ∧ partition_of example_pair 1 = some 1 ∧
    ∃ g1, set_partition example_pair 1 0 = .threw (.zero_partition_for_bubble 1) g1 ∧
      g1 ≠ example_pair ∧ alts_of g1 1 = [2] ∧ partition_of g1 1 = some 0 :=
  ⟨example_pair_reachable, by decide, by decide, by decide, _, rfl, by decide, by decide,
    by decide⟩

/-- C15: the sweep misses a pair of alts that are not in opposite states. The
state `example_zero_label`, left behind by the throwing call
`set_partition(2, 0)` on `example_pair`, has symmetric alts and labels in
`{-1, 0, +1}`, node `2` holds `0` and its alt `1` holds `+1`, which is not the
opposite label, and `validate_alts` returns without error. The comment in
`validate_alts` says "alt must be maintained in an opposite state", but the
test of the sweep is `alt.partition == node.partition`. -/
theorem validate_alts_passes_unequal_labels :
    set_partition example_pair 2 0 =
      .threw (.zero_partition_for_bubble 2) example_zero_label ∧
    alts_of example_zero_label 1 = [2] ∧ alts_of example_zero_label 2 = [1] ∧
    alts_of example_zero_label 3 = [] ∧ alts_of example_zero_label 4 = [] ∧
    partition_of example_zero_label 2 = some 0 ∧
    partition_of example_zero_label 1 = some 1 ∧ (1 : Int) ≠ -0 ∧
    validate_alts example_zero_label = .ok () :=
  ⟨by decide, by decide, by decide, by decide, by decide, by decide, by decide, by decide,
    by decide⟩

/-- What the sweep of `validate_alts` tests, where its comment asks for
opposite labels: in every state with distinct node keys and symmetric alts,
`validate_alts` returns without error if and only if, for every node `n` and
every `x` in `alts(n)`, the label of `x` differs from the label of `n`;
otherwise it throws the same-partition error for such a pair with equal
labels. When every node with alts holds `+1` or `-1`, this is the same as:
the label of every alt `x` of `n` is the opposite of the label of `n`. -/
theorem validate_alts_iff_labels_differ (g : MultiContactGraph)
    (hkeys : (g.nodes.map Prod.fst).Nodup)
    (hsymm : ∀ a b, b ∈ alts_of g a → a ∈ alts_of g b) :
    (validate_alts g = .ok () ↔
      ∀ n x, x ∈ alts_of g n → partition_of g x ≠ partition_of g n) ∧
    (validate_alts g ≠ .ok () →
      ∃ n x, x ∈ alts_of g n ∧ partition_of g x = partition_of g n ∧
        validate_alts g = .threw (.alt_nodes_in_same_partition n x)) ∧
    ((∀ n x, x ∈ alts_of g n → partition_of g n = some 1 ∨ partition_of g n = some (-1)) →
      (validate_alts g = .ok () ↔
        ∀ n x, x ∈ alts_of g n →
          ∃ p, partition_of g n = some p ∧ partition_of g x = some (-p))) := by
  have hspec := validate_alts_spec g hkeys hsymm
  have hiff : validate_alts g = .ok () ↔
      ∀ n x, x ∈ alts_of g n → partition_of g x ≠ partition_of g n := by
    constructor
    · intro hok
      rcases hspec with ⟨_, hd⟩ | ⟨n, x, _, _, hthrew⟩
      · exact hd
      · rw [hok] at hthrew; simp at hthrew
    · intro hd
      rcases hspec with ⟨hok, _⟩ | ⟨n, x, hx, hsame, _⟩
      · exact hok
      · exact absurd hsame (hd n x hx)
  refine ⟨hiff, ?_, ?_⟩
  · intro hne
    rcases hspec with ⟨hok, _⟩ | h
    · exact absurd hok hne
    · exact h
  · intro hlab
    rw [hiff]
    constructor
    · intro hd n x hx
      have hxn := hd n x hx
      rcases hlab n x hx with h1 | h1 <;>
        rcases hlab x n (hsymm n x hx) with h2 | h2 <;> rw [h1, h2] at hxn
      · exact absurd rfl hxn
      · exact ⟨1, h1, h2⟩
      · exact ⟨-1, h1, h2⟩
      · exact absurd rfl hxn
    · intro ho n x hx he
      obtain ⟨p, hp1, hp2⟩ := ho n x hx
      rw [hp1, hp2] at he
      have hpp : -p = p := Option.some.inj he
      rcases hlab n x hx with h1 | h1 <;> rw [hp1] at h1 <;>
        have := Option.some.inj h1 <;> omega

theorem validate_alts_iff_labels_differ_witness :
    (example_merged.nodes.map Prod.fst).Nodup ∧
    (∀ a b, b ∈ alts_of example_merged a → a ∈ alts_of example_merged b) ∧
    (validate_alts example_merged = .ok () ↔
      ∀ n x, x ∈ alts_of example_merged n →
        partition_of example_merged x ≠ partition_of example_merged n) ∧
    (validate_alts example_merged ≠ .ok () →
      ∃ n x, x ∈ alts_of example_merged n ∧
        partition_of example_merged x = partition_of example_merged n ∧
        validate_alts example_merged = .threw (.alt_nodes_in_same_partition n x)) ∧
    ((∀ n x, x ∈ alts_of example_merged n →
        partition_of example_merged n = some 1 ∨ partition_of example_merged n = some (-1)) →
      (validate_alts example_merged = .ok () ↔
        ∀ n x, x ∈ alts_of example_merged n →
          ∃ p, partition_of example_merged n = some p ∧
            partition_of example_merged x = some (-p))) :=
  ⟨by decide, example_merged_reachable.wellFormed.alts_symm,
    validate_alts_iff_labels_differ example_merged (by decide)
      example_merged_reachable.wellFormed.alts_symm⟩

/-! ## Claims about scores and components -/

theorem search_until_cons (nodes : List (Int × MultiNode)) (stop : Int → Nat → Bool)
    (fuel : Nat) (v : Int) (d : Nat) (q : List (Int × Nat)) (visited : List Int) :
    search_until nodes stop (fuel + 1) ((v, d) :: q) visited =
      match map_find v nodes with
      | none => .threw (.nonexistent_id_while_iterating_side v)
      | some node =>
        if stop v d = true then .ok true
        else
          search_until nodes stop fuel
            (q ++ (node.alts.filter (fun alt_id =>
              !decide (alt_id ∈ set_emplace v visited))).map (fun alt_id => (alt_id, d + 1)))
            (set_emplace v visited) := rfl

theorem of_same_component_side_loop_eq (nodes : List (Int × MultiNode)) (id_b : Int) :
    ∀ (fuel : Nat) (q : List (Int × Nat)) (visited : List Int),
      of_same_component_side_loop nodes id_b fuel q visited =
        search_until nodes (fun x d => decide (d % 2 = 0 ∧ x = id_b)) fuel q visited := by
  intro fuel
  induction fuel with
  | zero => intro q visited; cases q <;> rfl
  | succ fuel ih =>
    intro q visited
    match q with
    | [] => rfl
    | (v, d) :: q =>
      rw [search_until_cons]
      unfold of_same_component_side_loop
      cases map_find v nodes with
      | none => rfl
      | some node =>
        simp only [decide_eq_true_eq]
        split_ifs
        · rfl
        · exact ih _ _

theorem of_same_component_loop_eq (nodes : List (Int × MultiNode)) (id_b : Int) :
    ∀ (fuel : Nat) (q : List (Int × Nat)) (visited : List Int),
      of_same_component_loop nodes id_b fuel q visited =
        search_until nodes (fun x _ => decide (x = id_b)) fuel q visited := by
  intro fuel
  induction fuel with
  | zero => intro q visited; cases q <;> rfl
  | succ fuel ih =>
    intro q visited
    match q with
    | [] => rfl
    | (v, d) :: q =>
      rw [search_until_cons]
      unfold of_same_component_loop
      cases map_find v nodes with
      | none => rfl
      | some node =>
        simp only [decide_eq_true_eq]
        split_ifs
        · rfl
        · exact ih _ _

/-- The visited set of the predicates stands for the two sides of the search:
both loops enqueue the same entries. -/
theorem enqueued_eq_of_visited (node : MultiNode) (c : alt_component_t) (visited : List Int)
    (v : Int) (d : Nat) (hvis : ∀ x, x ∈ visited ↔ (x ∈ c.1 ∨ x ∈ c.2)) :
    (node.alts.filter (fun alt_id => !decide (alt_id ∈ set_emplace v visited))).map
        (fun alt_id => (alt_id, d + 1)) = enqueued node (placed c v d) d := by
  unfold enqueued
  congr 1
  apply List.filter_congr
  intro x _
  have h := mem_placed c v x d
  unfold unseen
  rw [Bool.eq_iff_iff]
  simp only [Bool.not_eq_true', decide_eq_false_iff_not, mem_set_emplace, hvis,
    Bool.or_eq_false_iff]
  tauto

theorem visited_placed (c : alt_component_t) (visited : List Int) (v : Int) (d : Nat)
    (hvis : ∀ x, x ∈ visited ↔ (x ∈ c.1 ∨ x ∈ c.2)) :
    ∀ x, x ∈ set_emplace v visited ↔ (x ∈ (placed c v d).1 ∨ x ∈ (placed c v d).2) := by
  intro x
  rw [mem_placed, mem_set_emplace, hvis]

theorem placed_subset (c : alt_component_t) (v : Int) (d : Nat) :
    (∀ x, x ∈ c.1 → x ∈ (placed c v d).1) ∧ (∀ x, x ∈ c.2 → x ∈ (placed c v d).2) := by
  unfold placed
  split_ifs
  · exact ⟨fun x hx => (mem_set_emplace v x c.1).mpr (Or.inr hx), fun _ hx => hx⟩
  · exact ⟨fun _ hx => hx, fun x hx => (mem_set_emplace v x c.2).mpr (Or.inr hx)⟩

/-- The sides of the search only grow. -/
theorem bfs_loop_grows (nodes : List (Int × MultiNode)) (id : Int) :
    ∀ (fuel : Nat) (q : List (Int × Nat)) (c cf : alt_component_t),
      bfs_loop nodes id fuel q c = .ok cf →
      (∀ x, x ∈ c.1 → x ∈ cf.1) ∧ (∀ x, x ∈ c.2 → x ∈ cf.2) := by
  intro fuel
  induction fuel with
  | zero =>
    intro q c cf h
    match q with
    | [] =>
      simp only [bfs_loop, Result.ok.injEq] at h
      subst h
      exact ⟨fun _ hx => hx, fun _ hx => hx⟩
    | _ :: _ => simp [bfs_loop] at h
  | succ fuel ih =>
    intro q c cf h
    match q with
    | [] =>
      simp only [bfs_loop, Result.ok.injEq] at h
      subst h
      exact ⟨fun _ hx => hx, fun _ hx => hx⟩
    | (v, d) :: q =>
      rw [bfs_loop_cons] at h
      cases hv : map_find v nodes with
      | none => rw [hv] at h; simp at h
      | some node =>
        rw [hv] at h
        obtain ⟨h1, h2⟩ := ih _ _ _ h
        obtain ⟨h3, h4⟩ := placed_subset c v d
        exact ⟨fun x hx => h1 x (h3 x hx), fun x hx => h2 x (h4 x hx)⟩

/-- When the search returns the component `cf`, a predicate loop returns
`true` if it met an entry that satisfies `stop`, and every such entry makes
the target property `tgt` of the component true. -/
theorem search_until_follows (nodes : List (Int × MultiNode)) (id : Int)
    (stop : Int → Nat → Bool) (tgt : alt_component_t → Prop)
    (hmono : ∀ c c1 : alt_component_t, (∀ x, x ∈ c.1 → x ∈ c1.1) →
      (∀ x, x ∈ c.2 → x ∈ c1.2) → tgt c → tgt c1)
    (hstop : ∀ c x d, stop x d = true → tgt (placed c x d))
    (hnot : ∀ c x d, ¬ stop x d = true → tgt (placed c x d) → tgt c) :
    ∀ (fuel : Nat) (q : List (Int × Nat)) (c cf : alt_component_t) (visited : List Int),
      (∀ x, x ∈ visited ↔ (x ∈ c.1 ∨ x ∈ c.2)) →
      bfs_loop nodes id fuel q c = .ok cf →
      (search_until nodes stop fuel q visited = .ok true ∧ tgt cf) ∨
      (search_until nodes stop fuel q visited = .ok false ∧ (tgt cf → tgt c)) := by
  intro fuel
  induction fuel with
  | zero =>
    intro q c cf visited _ h
    match q with
    | [] =>
      simp only [bfs_loop, Result.ok.injEq] at h
      subst h
      exact Or.inr ⟨rfl, fun h => h⟩
    | _ :: _ => simp [bfs_loop] at h
  | succ fuel ih =>
    intro q c cf visited hvis h
    match q with
    | [] =>
      simp only [bfs_loop, Result.ok.injEq] at h
      subst h
      exact Or.inr ⟨rfl, fun h => h⟩
    | (v, d) :: q =>
      rw [bfs_loop_cons] at h
      rw [search_until_cons]
      cases hv : map_find v nodes with
      | none => rw [hv] at h; simp at h
      | some node =>
        rw [hv] at h
        simp only at h ⊢
        obtain ⟨g1, g2⟩ := bfs_loop_grows nodes id _ _ _ _ h
        by_cases hs : stop v d = true
        · rw [if_pos hs]
          exact Or.inl ⟨rfl, hmono _ _ g1 g2 (hstop c v d hs)⟩
        · rw [if_neg hs, enqueued_eq_of_visited node c visited v d hvis]
          rcases ih _ _ _ _ (visited_placed c visited v d hvis) h with ⟨h1, h2⟩ | ⟨h1, h2⟩
          · exact Or.inl ⟨h1, h2⟩
          · exact Or.inr ⟨h1, fun ht => hnot c v d hs (h2 ht)⟩

theorem mem_placed_side (c : alt_component_t) (v x : Int) (d : Nat) :
    x ∈ (placed c v d).1 ↔ (x ∈ c.1 ∨ (d % 2 = 0 ∧ x = v)) := by
  unfold placed
  split_ifs with h
  · simp only [mem_set_emplace]; tauto
  · simp only; tauto

theorem get_alt_component_ok_iff (g : MultiContactGraph) (id : Int) (c : alt_component_t) :
    get_alt_component g id false = .ok c ↔
      bfs_loop g.nodes id (bfs_fuel g.nodes) [(id, 0)] ([], []) = .ok c := by
  unfold get_alt_component
  cases bfs_loop g.nodes id (bfs_fuel g.nodes) [(id, 0)] ([], []) <;> simp

/-- On every graph on which `get_alt_component(a)` returns, the two predicates
return and agree with the component. -/
theorem predicates_follow_component (g : MultiContactGraph) (a b : Int) (c : alt_component_t)
    (hc : get_alt_component g a false = .ok c) :
    of_same_component_side g a b = .ok (decide (b ∈ c.1)) ∧
    of_same_component g a b = .ok (decide (b ∈ c.1 ∨ b ∈ c.2)) := by
  rw [get_alt_component_ok_iff] at hc
  constructor
  · unfold of_same_component_side
    rw [of_same_component_side_loop_eq]
    rcases search_until_follows g.nodes a (fun x d => decide (d % 2 = 0 ∧ x = b))
        (fun c => b ∈ c.1) (fun _ _ h1 _ h => h1 b h)
        (fun c x d hs => by
          have hs1 : d % 2 = 0 ∧ x = b := by simpa using hs
          exact (mem_placed_side c x b d).mpr (Or.inr ⟨hs1.1, hs1.2.symm⟩))
        (fun c x d hs ht => by
          have hs1 : ¬ (d % 2 = 0 ∧ x = b) := by simpa using hs
          rcases (mem_placed_side c x b d).mp ht with h | ⟨h1, h2⟩
          · exact h
          · exact absurd ⟨h1, h2.symm⟩ hs1)
        _ _ _ _ [] (by simp) hc with ⟨h1, h2⟩ | ⟨h1, h2⟩
    · rw [h1]; simp [h2]
    · rw [h1]
      have : b ∉ c.1 := fun h => by simpa using h2 h
      simp [this]
  · unfold of_same_component
    rw [of_same_component_loop_eq]
    rcases search_until_follows g.nodes a (fun x _ => decide (x = b))
        (fun c => b ∈ c.1 ∨ b ∈ c.2)
        (fun _ _ h1 h2 h => h.imp (h1 b) (h2 b))
        (fun c x d hs => by
          have hs1 : x = b := by simpa using hs
          exact (mem_placed c x b d).mpr (Or.inl hs1.symm))
        (fun c x d hs ht => by
          have hs1 : ¬ x = b := by simpa using hs
          rcases (mem_placed c x b d).mp ht with h | h
          · exact absurd h.symm hs1
          · exact h)
        _ _ _ _ [] (by simp) hc with ⟨h1, h2⟩ | ⟨h1, h2⟩
    · rw [h1]; simp [h2]
    · rw [h1]
      have : ¬ (b ∈ c.1 ∨ b ∈ c.2) := fun h => by simpa using h2 h
      simp [this]

theorem same_but_neighbors_refl (g : MultiContactGraph) : same_but_neighbors g g :=
  ⟨rfl, fun _ => rfl⟩

theorem same_but_neighbors_trans {g g1 g2 : MultiContactGraph}
    (h1 : same_but_neighbors g g1) (h2 : same_but_neighbors g1 g2) :
    same_but_neighbors g g2 :=
  ⟨h2.1.trans h1.1, fun x => (h2.2 x).trans (h1.2 x)⟩

theorem same_but_neighbors_nodes_at (g g1 : MultiContactGraph) (id : Int)
    (s : List Int → List Int)
    (h : nodes_at g id (fun n => { n with neighbors := s n.neighbors }) = .returned g1) :
    same_but_neighbors g g1 := by
  obtain ⟨hg1, _⟩ := nodes_at_returned _ _ _ _ h
  rw [hg1]
  exact ⟨rfl, fun x => map_find_update_field MultiNode.other_fields
    (fun n => { n with neighbors := s n.neighbors }) (fun _ => rfl) id x g.nodes⟩

theorem present_iff_of_same_but_neighbors {g g1 : MultiContactGraph}
    (h : same_but_neighbors g g1) (x : Int) : has_node g1 x = has_node g x := by
  unfold has_node
  have := congrArg Option.isSome (h.2 x)
  simpa using this

theorem not_present_iff (g : MultiContactGraph) (a b : Int) :
    ((map_find a g.nodes).isNone || (map_find b g.nodes).isNone) = true ↔
      (has_node g a = false ∨ has_node g b = false) := by
  unfold has_node
  cases map_find a g.nodes <;> cases map_find b g.nodes <;> simp

/-- What `insert_edge` does to the weights and to the fields of the nodes. -/
theorem insert_edge_weights (g g1 : MultiContactGraph) (a b w : Int)
    (h : insert_edge g a b w = .returned g1) :
    g1.edge_weights = map_emplace (edge a b) w g.edge_weights ∧ same_but_neighbors g g1 := by
  unfold insert_edge at h
  obtain ⟨g2, h2, h3⟩ := andThen_returned _ _ _ h
  have s2 := same_but_neighbors_nodes_at _ g2 a (set_emplace b) h2
  have s3 := same_but_neighbors_nodes_at g2 g1 b (set_emplace a) h3
  obtain ⟨hg2, _⟩ := nodes_at_returned _ _ _ _ h2
  obtain ⟨hg1, _⟩ := nodes_at_returned _ _ _ _ h3
  have s2g : same_but_neighbors g g2 := ⟨s2.1, s2.2⟩
  exact ⟨by rw [hg1, hg2], same_but_neighbors_trans s2g s3⟩

theorem get_edge_weight_comm (g : MultiContactGraph) (a b : Int) :
    get_edge_weight g a b = get_edge_weight g b a := by
  unfold get_edge_weight
  rw [edge_comm]

/-- What `remove_edge` does to the weights and to the fields of the nodes. -/
theorem remove_edge_weights (g g1 : MultiContactGraph) (a b : Int)
    (h : remove_edge g a b = .returned g1) :
    (∀ e, e ≠ edge a b → map_find e g1.edge_weights = map_find e g.edge_weights) ∧
    map_find (edge a b) g1.edge_weights = none ∧ same_but_neighbors g g1 := by
  unfold remove_edge at h
  cases hf : map_find (edge a b) g.edge_weights with
  | none =>
    rw [hf] at h
    simp only [Outcome.returned.injEq] at h
    subst h
    exact ⟨fun _ _ => rfl, hf, same_but_neighbors_refl g⟩
  | some w =>
    rw [hf] at h
    simp only at h
    obtain ⟨g2, h2, h3⟩ := andThen_returned _ _ _ h
    have s2 := same_but_neighbors_nodes_at _ g2 a (set_erase b) h2
    have s3 := same_but_neighbors_nodes_at g2 g1 b (set_erase a) h3
    obtain ⟨hg2, _⟩ := nodes_at_returned _ _ _ _ h2
    obtain ⟨hg1, _⟩ := nodes_at_returned _ _ _ _ h3
    have he : g1.edge_weights = map_erase (edge a b) g.edge_weights := by rw [hg1, hg2]
    have s2g : same_but_neighbors g g2 := ⟨s2.1, s2.2⟩
    refine ⟨fun e hne => ?_, ?_, same_but_neighbors_trans s2g s3⟩
    · rw [he, map_find_erase, if_neg hne]
    · rw [he, map_find_erase, if_pos rfl]

/-- A call `add_alt(a, b)` for two distinct present nodes that are alts of each
other already returns at once. -/
theorem add_alt_existing_noop (g : MultiContactGraph) (flag : Bool) (a b : Int)
    (na nb : MultiNode) (ha : map_find a g.nodes = some na) (hb : map_find b g.nodes = some nb)
    (hab : a ≠ b) (h : b ∈ alts_of g a) : add_alt flag g a b = .returned g := by
  rw [alts_of_some g a na ha] at h
  unfold add_alt
  rw [ha, hb]
  simp only [if_neg hab, if_pos h]

/-! ## Labels of alts in reachable graphs -/

theorem alts_of_other_fields {g g1 : MultiContactGraph} (h : same_but_neighbors g g1)
    (x : Int) : alts_of g1 x = alts_of g x ∧ partition_of g1 x = partition_of g x := by
  have hx := h.2 x
  unfold alts_of partition_of
  cases h1 : map_find x g1.nodes <;> cases h0 : map_find x g.nodes <;>
    rw [h1, h0] at hx <;> simp [MultiNode.other_fields] at hx ⊢
  exact ⟨hx.2.2.1, hx.2.2.2⟩

theorem wrap8_neg_neg (p : Int) (h1 : -128 ≤ p) (h2 : p ≤ 127) :
    wrap 8 (wrap 8 (p * -1) * -1) = p := by
  unfold wrap
  have e : ((2 : Int) ^ (8 - 1)) = 128 := by norm_num
  have e2 : ((2 : Int) ^ 8) = 256 := by norm_num
  rw [e, e2]
  omega

theorem wrap8_neg_ne_zero (p : Int) (h1 : -128 ≤ p) (h2 : p ≤ 127) (h0 : p ≠ 0) :
    wrap 8 (p * -1) ≠ 0 := by
  unfold wrap
  have e : ((2 : Int) ^ (8 - 1)) = 128 := by norm_num
  have e2 : ((2 : Int) ^ 8) = 256 := by norm_num
  rw [e, e2]
  omega

/-- The property only reads the alts sets and the labels of nodes that have
alts. -/
theorem LabelsLinked.congr_labels {g g1 : MultiContactGraph} (hk : LabelsLinked g)
    (halts : ∀ x y, y ∈ alts_of g1 x → y ∈ alts_of g x)
    (hlab : ∀ x y, y ∈ alts_of g1 x →
      partition_of g1 x = partition_of g x ∧ partition_of g1 y = partition_of g y) :
    LabelsLinked g1 := by
  intro x y p q hy hp hq
  obtain ⟨h1, h2⟩ := hlab x y hy
  rw [h1] at hp
  rw [h2] at hq
  exact hk x y p q (halts x y hy) hp hq

theorem LabelsLinked.of_same_fields {g g1 : MultiContactGraph} (hk : LabelsLinked g)
    (h : same_but_neighbors g g1) : LabelsLinked g1 :=
  hk.congr_labels (fun x y hy => by rw [← (alts_of_other_fields h x).1]; exact hy)
    (fun x y _ => ⟨(alts_of_other_fields h x).2, (alts_of_other_fields h y).2⟩)

theorem same_but_neighbors_of_update (g : MultiContactGraph) (id : Int)
    (f : MultiNode → MultiNode) (hf : ∀ n, (f n).alts = n.alts)
    (hp : ∀ n, (f n).partition = n.partition) (x : Int) :
    alts_of { g with nodes := map_update id f g.nodes } x = alts_of g x ∧
    partition_of { g with nodes := map_update id f g.nodes } x = partition_of g x :=
  ⟨alts_of_update g _ id f rfl hf x, partition_of_update g _ id f rfl hp x⟩

theorem LabelsLinked.after_nodes_at {g g1 : MultiContactGraph} (hk : LabelsLinked g) {id : Int}
    {f : MultiNode → MultiNode} (h : nodes_at g id f = .returned g1)
    (hf : ∀ n, (f n).alts = n.alts) (hp : ∀ n, (f n).partition = n.partition) :
    LabelsLinked g1 := by
  rw [(nodes_at_returned g g1 id f h).1]
  exact hk.congr_labels
    (fun x y hy => by rw [← (same_but_neighbors_of_update g id f hf hp x).1]; exact hy)
    (fun x y _ => ⟨(same_but_neighbors_of_update g id f hf hp x).2,
      (same_but_neighbors_of_update g id f hf hp y).2⟩)

theorem LabelsLinked.after_raise_max_id {g : MultiContactGraph} (hk : LabelsLinked g) (id : Int) :
    LabelsLinked (raise_max_id g id) := by
  unfold gfase.raise_max_id
  split_ifs
  · exact hk
  · exact hk

theorem LabelsLinked.after_emplace {g : MultiContactGraph} (hk : LabelsLinked g)
    (hwf : WellFormed g) (id p : Int) :
    LabelsLinked { g with nodes := map_emplace id (MultiNode.mk_partition p) g.nodes } := by
  have hl := (links_emplace g id (MultiNode.mk_partition p) rfl rfl).1
  have hkeep : ∀ x, (map_find x g.nodes).isSome = true →
      partition_of { g with nodes := map_emplace id (MultiNode.mk_partition p) g.nodes } x =
        partition_of g x := by
    intro x hx
    obtain ⟨n, hn⟩ := Option.isSome_iff_exists.mp hx
    unfold partition_of
    show (map_find x (map_emplace id (MultiNode.mk_partition p) g.nodes)).map _ = _
    rw [map_find_emplace, hn]
  refine hk.congr_labels (fun x y hy => by rw [← hl x]; exact hy) ?_
  intro x y hy
  rw [hl x] at hy
  obtain ⟨n, hn⟩ := has_node_of_mem_alts g x y hy
  exact ⟨hkeep x (by rw [hn]; rfl), hkeep y (present_of_alt hwf x y hy)⟩

theorem LabelsLinked.after_insert_edge {g g1 : MultiContactGraph} (hk : LabelsLinked g)
    (a b w : Int) (h : insert_edge g a b w = .returned g1) : LabelsLinked g1 :=
  hk.of_same_fields (insert_edge_weights g g1 a b w h).2

theorem LabelsLinked.after_remove_edge {g g1 : MultiContactGraph} (hk : LabelsLinked g)
    (a b : Int) (h : remove_edge g a b = .returned g1) : LabelsLinked g1 :=
  hk.of_same_fields (remove_edge_weights g g1 a b h).2.2

theorem LabelsLinked.after_set_partition {g g1 : MultiContactGraph} (hk : LabelsLinked g)
    (hwf : WellFormed g) (id p : Int) (h : set_partition g id p = .returned g1) :
    LabelsLinked g1 := by
  obtain ⟨hp, _, c, hs, _, _, hc1, hc2, hlab⟩ := set_partition_returned_spec hwf id p h
  intro x y px py hy hpx hpy hx1 hx2 hy1 hy2
  rw [hs.1] at hy
  rw [hlab x] at hpx
  rw [hlab y] at hpy
  by_cases hxs : x ∈ c.1
  · have hyalt : y ∈ alts_of g id := hwf.alts_of_side id x ((hc1 x).mp hxs) y hy
    have hy0 : y ∉ c.1 := fun h0 => hwf.not_alt_of_side id y ((hc1 y).mp h0) hyalt
    rw [if_pos hxs] at hpx
    rw [if_neg hy0, if_pos (by rw [hc2]; exact hyalt)] at hpy
    have e1 := Option.some.inj hpx
    have e2 := Option.some.inj hpy
    subst e1
    exact ⟨hp (List.ne_nil_of_mem hyalt), e2.symm⟩
  · by_cases hxa : x ∈ c.2
    · have hxalt : x ∈ alts_of g id := by rw [← hc2]; exact hxa
      have hys : y ∈ c.1 := (hc1 y).mpr (Or.inr ⟨x, hxalt, hy⟩)
      rw [if_neg hxs, if_pos hxa] at hpx
      rw [if_pos hys] at hpy
      have e1 := Option.some.inj hpx
      have e2 := Option.some.inj hpy
      subst e2
      have hp0 := hp (List.ne_nil_of_mem hxalt)
      rw [← e1]
      exact ⟨wrap8_neg_ne_zero p hy1 hy2 hp0, (wrap8_neg_neg p hy1 hy2).symm⟩
    · have hy0 : y ∉ c.1 := by
        intro h0
        apply hxa
        rw [hc2]
        exact hwf.alts_of_side id y ((hc1 y).mp h0) x (hwf.alts_symm x y hy)
      have hy1' : y ∉ c.2 := by
        intro h0
        apply hxs
        rw [hc2] at h0
        exact (hc1 x).mpr (Or.inr ⟨y, h0, hwf.alts_symm x y hy⟩)
      rw [if_neg hxs, if_neg hxa] at hpx
      rw [if_neg hy0, if_neg hy1'] at hpy
      exact hk x y px py hy hpx hpy hx1 hx2 hy1 hy2

theorem LabelsLinked.after_remove_node {g g1 : MultiContactGraph} (hk : LabelsLinked g)
    (hwf : WellFormed g) (id : Int) (h : remove_node g id = .returned g1) :
    LabelsLinked g1 := by
  cases hid : map_find id g.nodes with
  | none =>
    unfold gfase.remove_node for_each_node_neighbor at h
    rw [hid] at h
    simp at h
  | some n0 =>
    obtain ⟨g2, h2, _, _, _, halts, hpart⟩ := remove_node_spec hwf id n0 hid
    rw [h2] at h
    simp only [Outcome.returned.injEq] at h
    subst h
    refine hk.congr_labels (fun x y hy => ((halts x y).mp hy).2.2) ?_
    intro x y hy
    obtain ⟨hx, hy1, _⟩ := (halts x y).mp hy
    exact ⟨hpart x hx, hpart y hy1⟩

theorem LabelsLinked.after_add_alt {g g1 : MultiContactGraph} (hk : LabelsLinked g)
    (hwf : WellFormed g) (flag : Bool) (a b : Int) (h : add_alt flag g a b = .returned g1) :
    LabelsLinked g1 := by
  by_cases hnot : b ∈ alts_of g a
  · obtain ⟨⟨na, ha⟩, ⟨nb, hb⟩, hab⟩ := add_alt_returned_args flag g g1 a b h
    rw [add_alt_existing_noop g flag a b na nb ha hb hab hnot] at h
    simp only [Outcome.returned.injEq] at h
    exact h ▸ hk
  · obtain ⟨ca, cb, g0, hca, hcb, ha1, _, hb1, _, hs, l, hwf1, hs0, hs1, hd⟩ :=
      add_alt_returned_spec hwf flag a b hnot h
    have hpa := get_alt_component_members_present g a false ca hca
    have hpb := get_alt_component_members_present g b false cb hcb
    have ha0 : a ∈ (merge_components ca cb).1 :=
      (mem_merge_first ca cb a).mpr (Or.inl ((ha1 a).mpr (Or.inl rfl)))
    have hb0 : b ∈ (merge_components ca cb).2 :=
      (mem_merge_second ca cb b).mpr (Or.inr ((hb1 b).mpr (Or.inl rfl)))
    have hfirst : ∀ x, x ∈ (merge_components ca cb).1 → partition_of g1 x = some 1 := by
      intro x hx
      refine l.first x ⟨b, hx, hb0⟩ (fun ⟨y, _, hx2⟩ => hd x hx hx2) ?_
      rw [hs.2.2.1]
      rcases (mem_merge_first ca cb x).mp hx with h | h
      · exact hpa x (Or.inl h)
      · exact hpb x (Or.inr h)
    have hsecond : ∀ y, y ∈ (merge_components ca cb).2 → partition_of g1 y = some (-1) := by
      intro y hy
      refine l.second y ⟨a, ha0, hy⟩ ?_
      rw [hs.2.2.1]
      rcases (mem_merge_second ca cb y).mp hy with h | h
      · exact hpa y (Or.inr h)
      · exact hpb y (Or.inl h)
    have hout : ∀ x, x ∉ (merge_components ca cb).1 → x ∉ (merge_components ca cb).2 →
        partition_of g1 x = partition_of g x ∧ ∀ y, y ∈ alts_of g1 x → y ∈ alts_of g x := by
      intro x hx0 hx1
      have hn1 : ¬ ∃ y, x ∈ (merge_components ca cb).1 ∧ y ∈ (merge_components ca cb).2 :=
        fun ⟨_, h, _⟩ => hx0 h
      have hn2 : ¬ ∃ y, y ∈ (merge_components ca cb).1 ∧ x ∈ (merge_components ca cb).2 :=
        fun ⟨_, _, h⟩ => hx1 h
      refine ⟨(l.others x hn1 hn2).trans (hs.2.2.2.1 x), ?_⟩
      intro y hy
      rcases (l.alts x y).mp hy with h | h | h
      · rw [← hs.2.1 x]; exact h
      · exact absurd h.1 hx0
      · exact absurd h.2 hx1
    intro x y px py hy hpx hpy hx1 hx2 hy1 hy2
    by_cases hx0 : x ∈ (merge_components ca cb).1
    · have hym := (hs0 x y hx0).mp hy
      rw [hfirst x hx0] at hpx
      rw [hsecond y hym] at hpy
      rw [← Option.some.inj hpx, ← Option.some.inj hpy]
      exact ⟨by decide, by decide⟩
    · by_cases hxm : x ∈ (merge_components ca cb).2
      · have hym := (hs1 x y hxm).mp hy
        rw [hsecond x hxm] at hpx
        rw [hfirst y hym] at hpy
        rw [← Option.some.inj hpx, ← Option.some.inj hpy]
        exact ⟨by decide, by decide⟩
      · obtain ⟨hlx, hax⟩ := hout x hx0 hxm
        have hyx := hwf1.alts_symm x y hy
        have hy0 : y ∉ (merge_components ca cb).1 :=
          fun h0 => hxm ((hs0 y x h0).mp hyx)
        have hym : y ∉ (merge_components ca cb).2 :=
          fun h0 => hx0 ((hs1 y x h0).mp hyx)
        obtain ⟨hly, _⟩ := hout y hy0 hym
        rw [hlx] at hpx
        rw [hly] at hpy
        exact hk x y px py (hax y hy) hpx hpy hx1 hx2 hy1 hy2

theorem labelsLinked_empty : LabelsLinked MultiContactGraph.empty := by
  intro x y p q hy
  simp [alts_of, MultiContactGraph.empty, map_find] at hy

/-- In every graph built by the public member functions two alts that hold
8-bit values hold non-zero labels that are the 8-bit negation of each other. -/
theorem Reachable.labelsLinked {g : MultiContactGraph} (h : Reachable g) : LabelsLinked g := by
  induction h with
  | empty => exact labelsLinked_empty
  | insert_node id hg h ih =>
    simp only [gfase.insert_node, Outcome.returned.injEq] at h
    rw [← h]; exact (ih.after_emplace hg.wellFormed id 0).after_raise_max_id id
  | insert_node_partition id p hg h ih =>
    unfold gfase.insert_node_partition at h
    split_ifs at h
    simp only [Outcome.returned.injEq] at h
    rw [← h]; exact (ih.after_emplace hg.wellFormed id p).after_raise_max_id id
  | try_insert_node id hg h ih =>
    simp only [gfase.try_insert_node, Outcome.returned.injEq] at h
    rw [← h]
    split_ifs
    · exact (ih.after_emplace hg.wellFormed id 0).after_raise_max_id id
    · exact ih.after_raise_max_id id
  | try_insert_node_partition id p hg h ih =>
    simp only [gfase.try_insert_node_partition, Outcome.returned.injEq] at h
    rw [← h]
    split_ifs
    · exact (ih.after_emplace hg.wellFormed id p).after_raise_max_id id
    · exact ih.after_raise_max_id id
  | try_insert_edge a b w _ h ih =>
    unfold gfase.try_insert_edge at h
    split_ifs at h
    cases hf : map_find (edge a b) _ with
    | none => rw [hf] at h; exact ih.after_insert_edge a b w h
    | some w0 =>
      rw [hf] at h
      simp only [Outcome.returned.injEq] at h
      exact h ▸ ih
  | try_insert_edge2 a b _ h ih =>
    unfold gfase.try_insert_edge2 at h
    split_ifs at h
    cases hf : map_find (edge a b) _ with
    | none => rw [hf] at h; exact ih.after_insert_edge a b 0 h
    | some w0 =>
      rw [hf] at h
      simp only [Outcome.returned.injEq] at h
      exact h ▸ ih
  | increment_edge_weight a b v _ h ih =>
    unfold gfase.increment_edge_weight at h
    split_ifs at h
    cases hf : map_find (edge a b) _ with
    | none =>
      rw [hf] at h
      simp only [Outcome.returned.injEq] at h
      exact h ▸ ih
    | some w0 =>
      rw [hf] at h
      simp only [Outcome.returned.injEq] at h
      rw [← h]
      exact ih.congr_labels (fun _ _ hy => hy) (fun _ _ _ => ⟨rfl, rfl⟩)
  | increment_coverage id v _ h ih =>
    unfold gfase.increment_coverage at h
    split_ifs at h
    exact ih.after_nodes_at h (fun _ => rfl) (fun _ => rfl)
  | set_node_coverage id v _ h ih =>
    unfold gfase.set_node_coverage at h
    split_ifs at h
    exact ih.after_nodes_at h (fun _ => rfl) (fun _ => rfl)
  | set_node_length id v _ h ih =>
    unfold gfase.set_node_length at h
    split_ifs at h
    exact ih.after_nodes_at h (fun _ => rfl) (fun _ => rfl)
  | remove_edge a b _ h ih => exact ih.after_remove_edge a b h
  | remove_node id hg h ih => exact ih.after_remove_node hg.wellFormed id h
  | add_alt flag a b hg h ih => exact ih.after_add_alt hg.wellFormed flag a b h
  | set_partition id p hg h ih => exact ih.after_set_partition hg.wellFormed id p h

/-! ## Writing back an assignment -/

theorem map_find_map_snd {V W : Type} (f : V → W) (x : Int) (m : List (Int × V)) :
    map_find x (m.map (fun p => (p.1, f p.2))) = (map_find x m).map f := by
  induction m with
  | nil => rfl
  | cons p ps ih =>
    obtain ⟨k, v⟩ := p
    by_cases hk : k = x
    · simp [map_find, hk]
    · simp [map_find, hk, ih]

theorem map_find_get_partitions (g : MultiContactGraph) (x : Int) :
    map_find x (get_partitions g) = partition_of g x :=
  map_find_map_snd (fun n : MultiNode => n.partition) x g.nodes

theorem get_partitions_keys (g : MultiContactGraph) :
    (get_partitions g).map Prod.fst = g.nodes.map Prod.fst := by
  unfold get_partitions
  rw [List.map_map]
  rfl

/-- Lookups in an association list with distinct keys do not depend on the
order of the list. -/
theorem map_find_perm {K V : Type} [DecidableEq K] (l m : List (K × V)) (hp : l.Perm m)
    (hn : (m.map Prod.fst).Nodup) (x : K) : map_find x l = map_find x m := by
  have hnl : (l.map Prod.fst).Nodup := (hp.map Prod.fst).nodup_iff.mpr hn
  cases hm : map_find x m with
  | some v => exact map_find_of_mem_nodup x v l hnl (hp.mem_iff.mpr (mem_of_map_find x v m hm))
  | none =>
    rw [map_find_none_iff] at hm ⊢
    intro hx
    exact hm ((hp.map Prod.fst).mem_iff.mp hx)

theorem labels_are_int8_of_nodes (g : MultiContactGraph)
    (h : ∀ e, e ∈ g.nodes → -128 ≤ e.2.partition ∧ e.2.partition ≤ 127) :
    labels_are_int8 g := by
  intro x p hp
  unfold partition_of at hp
  cases hx : map_find x g.nodes with
  | none => rw [hx] at hp; simp at hp
  | some n =>
    rw [hx] at hp
    simp only [Option.map_some', Option.some.injEq] at hp
    rw [← hp]
    exact h (x, n) (mem_of_map_find x n _ hx)

theorem has_node_of_keys (g g1 : MultiContactGraph)
    (h : g1.nodes.map Prod.fst = g.nodes.map Prod.fst) (x : Int) :
    has_node g1 x = has_node g x := by
  unfold has_node
  cases h1 : map_find x g1.nodes <;> cases h0 : map_find x g.nodes <;> try rfl
  · rw [map_find_none_iff, h, ← map_find_none_iff, h0] at h1; cases h1
  · rw [map_find_none_iff, ← h, ← map_find_none_iff, h1] at h0; cases h0

theorem alts_of_of_nodes (g g1 : MultiContactGraph)
    (h : g1.nodes.map (fun p => (p.1, p.2.alts)) = g.nodes.map (fun p => (p.1, p.2.alts)))
    (x : Int) : alts_of g1 x = alts_of g x := by
  rw [alts_of_eq, alts_of_eq, ← map_find_map_snd MultiNode.alts x g1.nodes,
    ← map_find_map_snd MultiNode.alts x g.nodes, h]

/-- In a graph whose alts hold linked 8-bit labels the label of a node fixes
the label of each of its alts. -/
theorem label_of_alt {g : MultiContactGraph} (hwf : WellFormed g) (hk : LabelsLinked g)
    (h8 : labels_are_int8 g) (x y p : Int) (hy : y ∈ alts_of g x)
    (hp : partition_of g x = some p) :
    p ≠ 0 ∧ partition_of g y = some (wrap 8 (p * -1)) := by
  have hpres : (partition_of g y).isSome = true := by
    rw [partition_of_isSome]; exact present_of_alt hwf x y hy
  obtain ⟨q, hq⟩ := Option.isSome_iff_exists.mp hpres
  obtain ⟨h1, h2⟩ := hk x y p q hy hp hq (h8 x p hp).1 (h8 x p hp).2 (h8 y q hq).1 (h8 y q hq).2
  exact ⟨h1, by rw [hq, h2]⟩

/-- One call of `set_partition` with the label that `id` has in `g1`, on a
graph with the nodes and alts of `g1`: the call returns, `id` agrees with `g1`
afterwards, and so does every node that agreed before. -/
theorem set_partition_restores_node {g g1 : MultiContactGraph} (hwf : WellFormed g)
    (hwf1 : WellFormed g1) (hk : LabelsLinked g1) (h8 : labels_are_int8 g1)
    (halts : ∀ x, alts_of g x = alts_of g1 x)
    (hpres : ∀ x, (map_find x g.nodes).isSome = (map_find x g1.nodes).isSome)
    (id p : Int) (hp : partition_of g1 id = some p) :
    ∃ g2, set_partition g id p = .returned g2 ∧ same_links g g2 ∧
      partition_of g2 id = partition_of g1 id ∧
      ∀ y, partition_of g y = partition_of g1 y → partition_of g2 y = partition_of g1 y := by
  have hid1 : (map_find id g1.nodes).isSome = true := by
    rw [← partition_of_isSome, hp]; rfl
  obtain ⟨n0, hn0⟩ := Option.isSome_iff_exists.mp ((hpres id).trans hid1)
  have hp0 : n0.alts ≠ [] → p ≠ 0 := by
    intro hne
    rw [← alts_of_some g id n0 hn0, halts] at hne
    obtain ⟨y, hy⟩ := List.exists_mem_of_ne_nil _ hne
    exact (label_of_alt hwf1 hk h8 id y p hy hp).1
  obtain ⟨g2, c, hret, hs, _, _, hc1, hc2, hlab⟩ := set_partition_spec hwf id p n0 hn0 hp0
  have hside : ∀ y, y ∈ c.1 → partition_of g1 y = some p := by
    intro y hy
    rcases (hc1 y).mp hy with rfl | ⟨z, hz, hyz⟩
    · exact hp
    · rw [halts] at hz hyz
      obtain ⟨_, hz1⟩ := label_of_alt hwf1 hk h8 id z p hz hp
      obtain ⟨_, hy1⟩ := label_of_alt hwf1 hk h8 z y _ hyz hz1
      rw [hy1, wrap8_neg_neg p (h8 id p hp).1 (h8 id p hp).2]
  have halt : ∀ y, y ∈ c.2 → partition_of g1 y = some (wrap 8 (p * -1)) := by
    intro y hy
    rw [hc2, halts] at hy
    exact (label_of_alt hwf1 hk h8 id y p hy hp).2
  have hagree : ∀ y, (y ∈ c.1 ∨ y ∈ c.2) → partition_of g2 y = partition_of g1 y := by
    intro y hy
    rw [hlab y]
    by_cases h1 : y ∈ c.1
    · rw [if_pos h1, hside y h1]
    · have h2 : y ∈ c.2 := hy.resolve_left h1
      rw [if_neg h1, if_pos h2, halt y h2]
  refine ⟨g2, hret, hs, hagree id (Or.inl ((hc1 id).mpr (Or.inl rfl))), ?_⟩
  intro y hy
  by_cases h1 : y ∈ c.1
  · exact hagree y (Or.inl h1)
  · by_cases h2 : y ∈ c.2
    · exact hagree y (Or.inr h2)
    · rw [hlab y, if_neg h1, if_neg h2, hy]

theorem set_partitions_loop {g1 : MultiContactGraph} (hwf1 : WellFormed g1)
    (hk : LabelsLinked g1) (h8 : labels_are_int8 g1) :
    ∀ (l : List (Int × Int)) (g : MultiContactGraph), WellFormed g →
      (∀ x, alts_of g x = alts_of g1 x) →
      (∀ x, (map_find x g.nodes).isSome = (map_find x g1.nodes).isSome) →
      (∀ e, e ∈ l → partition_of g1 e.1 = some e.2) →
      ∃ g3, set_partitions g l = .returned g3 ∧ same_links g g3 ∧
        ∀ y, (partition_of g y = partition_of g1 y ∨ ∃ e, e ∈ l ∧ e.1 = y) →
          partition_of g3 y = partition_of g1 y := by
  intro l
  induction l with
  | nil =>
    intro g _ _ _ _
    refine ⟨g, rfl, same_links_refl g, ?_⟩
    rintro y (h | ⟨e, he, _⟩)
    · exact h
    · simp at he
  | cons e rest ih =>
    intro g hwf halts hpres hl
    obtain ⟨g2, hret, hs, hid, hkeep⟩ := set_partition_restores_node hwf hwf1 hk h8 halts hpres
      e.1 e.2 (hl e (List.mem_cons_self _ _))
    obtain ⟨g3, hret3, hs3, hfinal⟩ := ih g2 (hwf.of_same_links hs)
      (fun x => (hs.1 x).trans (halts x)) (fun x => (hs.2.2.1 x).trans (hpres x))
      (fun e1 he1 => hl e1 (List.mem_cons_of_mem _ he1))
    refine ⟨g3, ?_, same_links_trans hs hs3, ?_⟩
    · unfold set_partitions at hret3 ⊢
      simp only [for_each, hret, Outcome.andThen]
      exact hret3
    · rintro y (h | ⟨e1, he1, hy⟩)
      · exact hfinal y (Or.inl (hkeep y h))
      · rcases List.mem_cons.mp he1 with h1 | h1
        · rw [h1] at hy
          exact hfinal y (Or.inl (hy ▸ hid))
        · exact hfinal y (Or.inr ⟨e1, h1, hy⟩)

theorem example_flipped_reachable : Reachable example_flipped :=
  Reachable.set_partition 1 1 example_merged_reachable (by decide)

/-! ## Sorting the edges by weight -/

theorem ordered_insert_perm {α : Type} (comp : α → α → Bool) (x : α) :
    ∀ l : List α, (ordered_insert comp x l).Perm (x :: l) := by
  intro l
  induction l with
  | nil => exact List.Perm.refl _
  | cons y ys ih =>
    unfold ordered_insert
    split_ifs
    · exact ((List.Perm.cons y ih).trans (List.Perm.swap x y ys))
    · exact List.Perm.refl _

theorem insertion_sort_perm {α : Type} (comp : α → α → Bool) :
    ∀ l : List α, (insertion_sort comp l).Perm l := by
  intro l
  induction l with
  | nil => exact List.Perm.refl _
  | cons x xs ih =>
    unfold insertion_sort
    exact (ordered_insert_perm comp x _).trans (List.Perm.cons x ih)

theorem weight_greater_eq_false (a b : (Int × Int) × Int) :
    weight_greater b a = false ↔ b.2 ≤ a.2 := by
  unfold weight_greater
  simp

theorem ordered_insert_sorted (x : (Int × Int) × Int) :
    ∀ l : List ((Int × Int) × Int), l.Pairwise (fun a b => weight_greater b a = false) →
      (ordered_insert weight_greater x l).Pairwise (fun a b => weight_greater b a = false) := by
  intro l
  induction l with
  | nil => intro _; simp [ordered_insert]
  | cons y ys ih =>
    intro h
    obtain ⟨hy, hys⟩ := List.pairwise_cons.mp h
    unfold ordered_insert
    by_cases hc : weight_greater y x = true
    · rw [if_pos hc]
      refine List.pairwise_cons.mpr ⟨?_, ih hys⟩
      intro z hz
      rcases List.mem_cons.mp ((ordered_insert_perm weight_greater x ys).mem_iff.mp hz) with
        h1 | h1
      · rw [h1, weight_greater_eq_false]
        have : y.2 > x.2 := by simpa [weight_greater] using hc
        omega
      · exact hy z h1
    · rw [if_neg hc]
      have hxy : y.2 ≤ x.2 := by
        have : ¬ y.2 > x.2 := by simpa [weight_greater] using hc
        omega
      refine List.pairwise_cons.mpr ⟨?_, h⟩
      intro z hz
      rw [weight_greater_eq_false]
      rcases List.mem_cons.mp hz with h1 | h1
      · rw [h1]; exact hxy
      · have := (weight_greater_eq_false y z).mp (hy z h1)
        omega

/-- Insertion sort meets the contract of `std::sort` for the comparator of
`for_each_edge_in_order_of_weight`. -/
theorem insertion_sort_sortsBy :
    SortsBy (insertion_sort : _ → List ((Int × Int) × Int) → _) weight_greater := by
  intro l
  refine ⟨insertion_sort_perm weight_greater l, ?_⟩
  induction l with
  | nil => simp [insertion_sort]
  | cons x xs ih =>
    unfold insertion_sort
    exact ordered_insert_sorted x _ ih

/-- Of two distinct members of a list one comes before the other. -/
theorem sublist_pair_of_mem {α : Type} (x y : α) (l : List α) (hx : x ∈ l) (hy : y ∈ l)
    (hne : x ≠ y) : List.Sublist [x, y] l ∨ List.Sublist [y, x] l := by
  obtain ⟨s, t, rfl⟩ := List.append_of_mem hx
  rcases List.mem_append.mp hy with h | h
  · right
    exact List.Sublist.append (List.singleton_sublist.mpr h)
      (List.singleton_sublist.mpr (List.mem_cons_self x t))
  · rcases List.mem_cons.mp h with h1 | h1
    · exact absurd h1.symm hne
    · left
      exact (List.Sublist.cons₂ x (List.singleton_sublist.mpr h1)).trans
        (List.sublist_append_right s _)

theorem example_ties_reachable : Reachable example_ties :=
  Reachable.try_insert_edge 1 2 5
    (Reachable.try_insert_edge 2 3 5 example_three_reachable rfl) rfl

theorem example_ties_swapped_reachable : Reachable example_ties_swapped :=
  Reachable.try_insert_edge 2 3 5
    (Reachable.try_insert_edge 1 2 5 example_three_reachable rfl) rfl

/-! ## Claims about alts that exist already and about edge updates -/

/-- C22: in every graph, for present nodes `a ≠ b` with `b` among the alts of
`a`, `add_alt(a, b)` returns and the graph it leaves is the graph before the
call: no label, alts set, edge or weight changes, whatever the policy on
weights. -/
theorem add_alt_existing_is_noop (g : MultiContactGraph) (flag : Bool) (a b : Int)
    (ha : has_node g a = true) (hb : has_node g b = true) (hab : a ≠ b)
    (h : b ∈ alts_of g a) : add_alt flag g a b = .returned g := by
  obtain ⟨na, hna⟩ := (has_node_iff g a).mp ha
  obtain ⟨nb, hnb⟩ := (has_node_iff g b).mp hb
  exact add_alt_existing_noop g flag a b na nb hna hnb hab h

theorem add_alt_existing_is_noop_witness :
    has_node example_merged 1 = true ∧ has_node example_merged 4 = true ∧ (1 : Int) ≠ 4 ∧
    4 ∈ alts_of example_merged 1 ∧ add_alt true example_merged 1 4 = .returned example_merged :=
  ⟨by decide, by decide, by decide, by decide,
    add_alt_existing_is_noop example_merged true 1 4 (by decide) (by decide) (by decide)
      (by decide)⟩

/-- C23: in every graph, `try_insert_edge(a, b, w)` throws exactly when `a` or
`b` is not in the node store, and then leaves the graph as it was. When both
are present and the key `edge(a, b)` is stored, the call returns the graph
unchanged. When both are present and the key is not stored, the call returns
a graph in which `get_edge_weight(a, b) = get_edge_weight(b, a) = w`, `b` is a
neighbour of `a` and `a` of `b`, no other weight and no other neighbour entry
changed, and every node keeps its coverage, length, alts and label. The
two-argument form is the call with `w = 0`. -/
theorem try_insert_edge_contract (g : MultiContactGraph) (a b w : Int) :
    ((∃ e g1, try_insert_edge g a b w = .threw e g1) ↔
      (has_node g a = false ∨ has_node g b = false)) ∧
    ((has_node g a = false ∨ has_node g b = false) →
      try_insert_edge g a b w = .threw (.add_edge_nonexistent_node a b) g) ∧
    (has_node g a = true → has_node g b = true → edge_stored g (edge a b) →
      try_insert_edge g a b w = .returned g) ∧
    (has_node g a = true → has_node g b = true → ¬ edge_stored g (edge a b) →
      ∃ g1, try_insert_edge g a b w = .returned g1 ∧
        get_edge_weight g1 a b = w ∧ get_edge_weight g1 b a = w ∧
        b ∈ neighbors_of g1 a ∧ a ∈ neighbors_of g1 b ∧
        (∀ e, e ≠ edge a b → map_find e g1.edge_weights = map_find e g.edge_weights) ∧
        (∀ x y, y ∈ neighbors_of g1 x ↔
          y ∈ neighbors_of g x ∨ (x = a ∧ y = b) ∨ (x = b ∧ y = a)) ∧
        same_but_neighbors g g1) ∧
    try_insert_edge2 g a b = try_insert_edge g a b 0 := by
  have habsent : (has_node g a = false ∨ has_node g b = false) →
      try_insert_edge g a b w = .threw (.add_edge_nonexistent_node a b) g := by
    intro h
    unfold try_insert_edge
    rw [if_pos ((not_present_iff g a b).mpr h)]
  have hpresent : has_node g a = true → has_node g b = true →
      ¬ ((map_find a g.nodes).isNone || (map_find b g.nodes).isNone) = true := by
    intro ha hb h
    rcases (not_present_iff g a b).mp h with h1 | h1
    · rw [ha] at h1; exact absurd h1 (by decide)
    · rw [hb] at h1; exact absurd h1 (by decide)
  refine ⟨⟨?_, fun h => ⟨_, _, habsent h⟩⟩, habsent, ?_, ?_, rfl⟩
  · rintro ⟨e, g1, hthrew⟩
    by_contra hcon
    have ha : has_node g a = true := by
      cases h1 : has_node g a with
      | true => rfl
      | false => exact absurd (Or.inl h1) hcon
    have hb : has_node g b = true := by
      cases h1 : has_node g b with
      | true => rfl
      | false => exact absurd (Or.inr h1) hcon
    obtain ⟨g2, hret, _⟩ := try_insert_edge_returns g a b w ha hb
    rw [hret] at hthrew
    simp at hthrew
  · intro ha hb hs
    unfold try_insert_edge
    rw [if_neg (hpresent ha hb)]
    obtain ⟨w0, hw0⟩ := Option.isSome_iff_exists.mp hs
    rw [hw0]
  · intro ha hb hs
    have hnone : map_find (edge a b) g.edge_weights = none := by
      cases hf : map_find (edge a b) g.edge_weights with
      | none => rfl
      | some w0 => exact absurd (by unfold edge_stored; rw [hf]; rfl) hs
    obtain ⟨g1, hret, _⟩ := try_insert_edge_returns g a b w ha hb
    have hins : insert_edge g a b w = .returned g1 := by
      unfold try_insert_edge at hret
      rw [if_neg (hpresent ha hb), hnone] at hret
      exact hret
    obtain ⟨_, hnb, _⟩ := insert_edge_effect g g1 a b w hins
    obtain ⟨hw, hsame⟩ := insert_edge_weights g g1 a b w hins
    have hfind : map_find (edge a b) g1.edge_weights = some w := by
      rw [hw, map_find_emplace, hnone]
      simp
    refine ⟨g1, hret, get_edge_weight_of_find g1 a b w hfind, ?_,
      (hnb a b).mpr (Or.inr (Or.inl ⟨rfl, rfl⟩)), (hnb b a).mpr (Or.inr (Or.inr ⟨rfl, rfl⟩)),
      ?_, hnb, hsame⟩
    · rw [get_edge_weight_comm]
      exact get_edge_weight_of_find g1 a b w hfind
    · intro e hne
      rw [hw, map_find_emplace]
      cases map_find e g.edge_weights with
      | some x => rfl
      | none => simp [hne]

theorem try_insert_edge_contract_witness :
    ∃ g1, try_insert_edge example_nodes 1 2 5 = .returned g1 ∧
      get_edge_weight g1 1 2 = 5 ∧ get_edge_weight g1 2 1 = 5 ∧
      2 ∈ neighbors_of g1 1 ∧ 1 ∈ neighbors_of g1 2 ∧
      (∀ e, e ≠ edge 1 2 →
        map_find e g1.edge_weights = map_find e example_nodes.edge_weights) ∧
      (∀ x y, y ∈ neighbors_of g1 x ↔
        y ∈ neighbors_of example_nodes x ∨ (x = 1 ∧ y = 2) ∨ (x = 2 ∧ y = 1)) ∧
      same_but_neighbors example_nodes g1 :=
  (try_insert_edge_contract example_nodes 1 2 5).2.2.2.1 (by decide) (by decide)
    (by unfold edge_stored; decide)

/-- C24: in every graph, `increment_edge_weight(a, b, d)` throws exactly when
`a` or `b` is not in the node store. When both are present and the edge is
missing, the call returns the graph unchanged, so no edge is created and
`get_edge_weight(a, b)` stays `0`. When both are present and the edge is
stored with weight `w`, the call returns a graph with the same nodes in which
the weight of the edge is the 32-bit sum of `w` and `d`, which is `w + d` when
that is a 32-bit value, and no other weight changed. -/
theorem increment_edge_weight_contract (g : MultiContactGraph) (a b d : Int) :
    ((∃ e g1, increment_edge_weight g a b d = .threw e g1) ↔
      (has_node g a = false ∨ has_node g b = false)) ∧
    (has_node g a = true → has_node g b = true → ¬ edge_stored g (edge a b) →
      increment_edge_weight g a b d = .returned g ∧ get_edge_weight g a b = 0) ∧
    (∀ w, has_node g a = true → has_node g b = true →
      map_find (edge a b) g.edge_weights = some w →
      ∃ g1, increment_edge_weight g a b d = .returned g1 ∧
        get_edge_weight g1 a b = wrap 32 (w + d) ∧
        (-2 ^ 31 ≤ w + d → w + d < 2 ^ 31 → get_edge_weight g1 a b = w + d) ∧
        (∀ e, e ≠ edge a b → map_find e g1.edge_weights = map_find e g.edge_weights) ∧
        g1.nodes = g.nodes ∧ g1.max_id = g.max_id) := by
  have hpresent : has_node g a = true → has_node g b = true →
      ¬ ((map_find a g.nodes).isNone || (map_find b g.nodes).isNone) = true := by
    intro ha hb h
    rcases (not_present_iff g a b).mp h with h1 | h1
    · rw [ha] at h1; exact absurd h1 (by decide)
    · rw [hb] at h1; exact absurd h1 (by decide)
  refine ⟨⟨?_, ?_⟩, ?_, ?_⟩
  · rintro ⟨e, g1, hthrew⟩
    by_contra hcon
    have hp : ¬ ((map_find a g.nodes).isNone || (map_find b g.nodes).isNone) = true :=
      fun h => hcon ((not_present_iff g a b).mp h)
    unfold increment_edge_weight at hthrew
    rw [if_neg hp] at hthrew
    cases hf : map_find (edge a b) g.edge_weights <;> rw [hf] at hthrew <;> simp at hthrew
  · intro h
    refine ⟨.add_edge_nonexistent_node a b, g, ?_⟩
    unfold increment_edge_weight
    rw [if_pos ((not_present_iff g a b).mpr h)]
  · intro ha hb hs
    have hnone : map_find (edge a b) g.edge_weights = none := by
      cases hf : map_find (edge a b) g.edge_weights with
      | none => rfl
      | some w0 => exact absurd (by unfold edge_stored; rw [hf]; rfl) hs
    constructor
    · unfold increment_edge_weight
      rw [if_neg (hpresent ha hb), hnone]
    · unfold get_edge_weight
      rw [hnone]
  · intro w ha hb hw
    let m := map_update (edge a b) (fun w => wrap 32 (w + d)) g.edge_weights
    have hm : m = map_update (edge a b) (fun w => wrap 32 (w + d)) g.edge_weights := rfl
    refine ⟨{ g with edge_weights := m }, ?_, ?_, ?_, ?_, rfl, rfl⟩
    · unfold increment_edge_weight
      rw [if_neg (hpresent ha hb), hw]
    · unfold get_edge_weight
      simp only [hm, map_find_update, if_true, hw, Option.map_some']
    · intro h1 h2
      unfold get_edge_weight
      simp only [hm, map_find_update, if_true, hw, Option.map_some']
      unfold wrap
      have e1 : ((2 : Int) ^ (32 - 1)) = 2147483648 := by norm_num
      have e2 : ((2 : Int) ^ 32) = 4294967296 := by norm_num
      have e3 : ((2 : Int) ^ 31) = 2147483648 := by norm_num
      rw [e3] at h1 h2
      rw [e1, e2]
      omega
    · intro e hne
      simp only [hm, map_find_update, if_neg hne]

theorem increment_edge_weight_contract_witness :
    ∃ g1, increment_edge_weight example_contacts 1 3 4 = .returned g1 ∧
      get_edge_weight g1 1 3 = wrap 32 (10 + 4) ∧
      (-2 ^ 31 ≤ (10 : Int) + 4 → (10 : Int) + 4 < 2 ^ 31 → get_edge_weight g1 1 3 = 10 + 4) ∧
      (∀ e, e ≠ edge 1 3 →
        map_find e g1.edge_weights = map_find e example_contacts.edge_weights) ∧
      g1.nodes = example_contacts.nodes ∧ g1.max_id = example_contacts.max_id :=
  (increment_edge_weight_contract example_contacts 1 3 4).2.2 10 (by decide) (by decide)
    (by decide)

/-- C26: for every sorting function that meets the contract of `std::sort` and
every graph, `for_each_edge_in_order_of_weight` visits a rearrangement of the
entries of the edge map, so every stored entry exactly once, and the sequence
of visited weights is non-increasing. When the keys of the edge map are
distinct, the visited keys are distinct and the visits are exactly the stored
edges with their weights. -/
theorem edges_visited_once_by_descending_weight
    (std_sort : ((Int × Int) × Int → (Int × Int) × Int → Bool) →
      List ((Int × Int) × Int) → List ((Int × Int) × Int))
    (hsort : SortsBy std_sort weight_greater) (g : MultiContactGraph) :
    (for_each_edge_in_order_of_weight std_sort g).Perm g.edge_weights ∧
    ((for_each_edge_in_order_of_weight std_sort g).map Prod.snd).Pairwise
      (fun w1 w2 => w1 ≥ w2) ∧
    ((g.edge_weights.map Prod.fst).Nodup →
      ((for_each_edge_in_order_of_weight std_sort g).map Prod.fst).Nodup ∧
      ∀ e w, map_find e g.edge_weights = some w ↔
        (e, w) ∈ for_each_edge_in_order_of_weight std_sort g) := by
  obtain ⟨hperm, hsorted⟩ := hsort g.edge_weights
  refine ⟨hperm, ?_, ?_⟩
  · rw [List.pairwise_map]
    exact hsorted.imp (fun {a b} h => (weight_greater_eq_false a b).mp h)
  · intro hn
    refine ⟨(hperm.map Prod.fst).nodup_iff.mpr hn, ?_⟩
    intro e w
    constructor
    · intro h
      exact hperm.mem_iff.mpr (mem_of_map_find e w _ h)
    · intro h
      exact map_find_of_mem_nodup e w _ hn (hperm.mem_iff.mp h)

theorem edges_visited_once_by_descending_weight_witness :
    SortsBy (insertion_sort : _ → List ((Int × Int) × Int) → _) weight_greater ∧
    (for_each_edge_in_order_of_weight insertion_sort example_contacts).Perm
      example_contacts.edge_weights ∧
    ((for_each_edge_in_order_of_weight insertion_sort example_contacts).map Prod.snd).Pairwise
      (fun w1 w2 => w1 ≥ w2) ∧
    ((example_contacts.edge_weights.map Prod.fst).Nodup →
      ((for_each_edge_in_order_of_weight insertion_sort example_contacts).map Prod.fst).Nodup ∧
      ∀ e w, map_find e example_contacts.edge_weights = some w ↔
        (e, w) ∈ for_each_edge_in_order_of_weight insertion_sort example_contacts) :=
  ⟨insertion_sort_sortsBy,
    edges_visited_once_by_descending_weight insertion_sort insertion_sort_sortsBy
      example_contacts⟩

/-- C27 fails as stated: insertion sort meets the contract of `std::sort`, the
graphs `example_ties` and `example_ties_swapped` are reachable and hold the
same edge-weight map (the edges `(1, 2)` and `(2, 3)`, both of weight 5) in
the two store orders, and `for_each_edge_in_order_of_weight` visits `(2, 3)`
before `(1, 2)` on the first and `(1, 2)` before `(2, 3)` on the second: the
comparator looks at the weight alone, so equal weights are visited in the
order the sort leaves them, here the order of the edge store. -/
theorem equal_weights_follow_store_order :
    SortsBy (insertion_sort : _ → List ((Int × Int) × Int) → _) weight_greater ∧
    Reachable example_ties ∧ Reachable example_ties_swapped ∧
    (∀ e, map_find e example_ties.edge_weights =
      map_find e example_ties_swapped.edge_weights) ∧
    for_each_edge_in_order_of_weight insertion_sort example_ties =
      [((2, 3), 5), ((1, 2), 5)] ∧
    for_each_edge_in_order_of_weight insertion_sort example_ties_swapped =
      [((1, 2), 5), ((2, 3), 5)] :=
  ⟨insertion_sort_sortsBy, example_ties_reachable, example_ties_swapped_reachable,
    map_find_perm example_ties.edge_weights example_ties_swapped.edge_weights
      (List.Perm.swap _ _ _) (by decide),
    by decide, by decide⟩

/-- C27, amended: for every sorting function that meets the contract of
`std::sort`, every graph and every two stored entries of different weight,
`for_each_edge_in_order_of_weight` visits the heavier one before the lighter
one and never after it, whatever the iteration order of the edge store. The
order of entries of equal weight is not fixed by the code. -/
theorem heavier_edge_is_visited_first
    (std_sort : ((Int × Int) × Int → (Int × Int) × Int → Bool) →
      List ((Int × Int) × Int) → List ((Int × Int) × Int))
    (hsort : SortsBy std_sort weight_greater) (g : MultiContactGraph)
    (e1 e2 : (Int × Int) × Int) (h1 : e1 ∈ g.edge_weights) (h2 : e2 ∈ g.edge_weights)
    (hw : e1.2 > e2.2) :
    List.Sublist [e1, e2] (for_each_edge_in_order_of_weight std_sort g) ∧
    ¬ List.Sublist [e2, e1] (for_each_edge_in_order_of_weight std_sort g) := by
  obtain ⟨hperm, hsorted⟩ := hsort g.edge_weights
  have hnot : ¬ List.Sublist [e2, e1] (for_each_edge_in_order_of_weight std_sort g) := by
    intro hsub
    have hp := hsorted.sublist hsub
    have := (weight_greater_eq_false e2 e1).mp (List.rel_of_pairwise_cons hp
      (List.mem_singleton.mpr rfl))
    omega
  have hne : e1 ≠ e2 := by
    intro h
    rw [h] at hw
    omega
  rcases sublist_pair_of_mem e1 e2 _ (hperm.mem_iff.mpr h1) (hperm.mem_iff.mpr h2) hne with
    h | h
  · exact ⟨h, hnot⟩
  · exact absurd h hnot

theorem heavier_edge_is_visited_first_witness :
    SortsBy (insertion_sort : _ → List ((Int × Int) × Int) → _) weight_greater ∧
    (((1, 3), 10) : (Int × Int) × Int) ∈ example_contacts.edge_weights ∧
    (((4, 4), 2) : (Int × Int) × Int) ∈ example_contacts.edge_weights ∧
    (10 : Int) > 2 ∧
    List.Sublist [((1, 3), 10), ((4, 4), 2)]
      (for_each_edge_in_order_of_weight insertion_sort example_contacts) ∧
    ¬ List.Sublist [((4, 4), 2), ((1, 3), 10)]
      (for_each_edge_in_order_of_weight insertion_sort example_contacts) :=
  ⟨insertion_sort_sortsBy, by decide, by decide, by decide,
    heavier_edge_is_visited_first insertion_sort insertion_sort_sortsBy example_contacts
      ((1, 3), 10) ((4, 4), 2) (by decide) (by decide) (by decide)⟩

/-- C28: in the single-alt `ContactGraph`, `insert_node(1)`, `insert_node(2)`
and `add_alt(1, 2)` give the graph `example_bubble`, in which node 1 has the
alt 2 and the labels are `-1` and `+1`. On it `set_partition(1, -1)` returns
and leaves `-1` on node 1 and `-1` on its alt 2, not the opposite label `+1`:
the label of the alt is multiplied by `-1`, not set to the opposite of the new
label. -/
theorem contact_set_partition_flips_alt :
    ((ContactGraph.insert_node ContactGraph.empty 1).andThen (fun g =>
      (ContactGraph.insert_node g 2).andThen (fun g => ContactGraph.add_alt g 1 2))) =
      .returned example_bubble ∧
    ContactGraph.alt_of example_bubble 1 = some 2 ∧
    ContactGraph.partition_of example_bubble 1 = some (-1) ∧
    ContactGraph.partition_of example_bubble 2 = some 1 ∧
    ∃ g1, ContactGraph.set_partition example_bubble 1 (-1) = .returned g1 ∧
      ContactGraph.alt_of g1 1 = some 2 ∧
      ContactGraph.partition_of g1 1 = some (-1) ∧
      ContactGraph.partition_of g1 2 = some (-1) :=
  ⟨by decide, by decide, by decide, by decide, _, rfl, by decide, by decide, by decide⟩

/-- C30: one pass through the publish-or-reset gate never lowers `best_score`;
when `total_score > best_score` it sets `best_score` to `total_score` and
`best_partitions` to the current assignment, and otherwise it leaves the
shared pair as it was, so `best_score` changes only to `total_score` and only
when `total_score > best_score`, and `best_partitions` is replaced only in
that same pass. Along every sequence of passes `best_score` is
non-decreasing. -/
theorem best_score_never_decreases (s : SharedBest) (total_score : Int)
    (current_partitions : List (Int × Int)) :
    s.best_score ≤ (publish_or_reset s total_score current_partitions).best_score ∧
    (total_score > s.best_score →
      publish_or_reset s total_score current_partitions =
        { best_score := total_score, best_partitions := current_partitions }) ∧
    (¬ total_score > s.best_score →
      publish_or_reset s total_score current_partitions = s) ∧
    ((publish_or_reset s total_score current_partitions).best_score ≠ s.best_score →
      total_score > s.best_score ∧
      (publish_or_reset s total_score current_partitions).best_score = total_score) ∧
    ((publish_or_reset s total_score current_partitions).best_partitions ≠ s.best_partitions →
      total_score > s.best_score) ∧
    (∀ before after : List (Int × List (Int × Int)),
      (gate_run s before).best_score ≤ (gate_run s (before ++ after)).best_score) := by
  have hstep : ∀ (s : SharedBest) (t : Int) (c : List (Int × Int)),
      s.best_score ≤ (publish_or_reset s t c).best_score := by
    intro s t c
    unfold publish_or_reset
    split_ifs with h
    · exact le_of_lt h
    · exact le_refl _
  have hrun : ∀ (l : List (Int × List (Int × Int))) (s : SharedBest),
      s.best_score ≤ (gate_run s l).best_score := by
    intro l
    induction l with
    | nil => intro s; exact le_refl _
    | cons i rest ih =>
      intro s
      exact le_trans (hstep s i.1 i.2) (ih _)
  refine ⟨hstep s total_score current_partitions, ?_, ?_, ?_, ?_, ?_⟩
  · intro h
    unfold publish_or_reset
    rw [if_pos h]
  · intro h
    unfold publish_or_reset
    rw [if_neg h]
  · intro hne
    by_cases h : total_score > s.best_score
    · refine ⟨h, ?_⟩
      unfold publish_or_reset
      rw [if_pos h]
    · exfalso
      apply hne
      unfold publish_or_reset
      rw [if_neg h]
  · intro hne
    by_contra h
    apply hne
    unfold publish_or_reset
    rw [if_neg h]
  · intro before after
    have : gate_run s (before ++ after) = gate_run (gate_run s before) after := by
      unfold gate_run
      rw [List.foldl_append]
    rw [this]
    exact hrun after _

theorem best_score_never_decreases_witness :
    (gate_run { best_score := 0, best_partitions := [] } [(5, [(1, 1)])]).best_score ≤
      (gate_run { best_score := 0, best_partitions := [] }
        ([(5, [(1, 1)])] ++ [(3, [(1, -1)])])).best_score :=
  (best_score_never_decreases { best_score := 0, best_partitions := [] } 5 [(1, 1)]).2.2.2.2.2
    [(5, [(1, 1)])] [(3, [(1, -1)])]


/-! ## C38: the alt-component searches end -/

theorem map_find_negate (g : MultiContactGraph) (x : Int) :
    map_find x (negate_partitions g).nodes =
      (map_find x g.nodes).map (fun n => { n with partition := -n.partition }) := by
  unfold negate_partitions
  exact map_find_map_snd (fun n : MultiNode => { n with partition := -n.partition }) x g.nodes

theorem get_score_negate (a b : MultiNode) (w : Int) :
    get_score { a with partition := -a.partition } { b with partition := -b.partition } w =
      get_score a b w := by
  unfold get_score
  simp only [neg_ne_zero, neg_mul_neg]

theorem total_score_loop_negate (g : MultiContactGraph) :
    ∀ (es : List ((Int × Int) × Int)) (score : Int),
      total_score_loop (negate_partitions g) es score = total_score_loop g es score := by
  intro es
  induction es with
  | nil => intro score; rfl
  | cons e rest ih =>
    intro score
    obtain ⟨e, w⟩ := e
    simp only [total_score_loop, map_find_negate]
    split
    · exact ih score
    · cases h1 : map_find e.1 g.nodes with
      | none => rfl
      | some a =>
        cases h2 : map_find e.2 g.nodes with
        | none => rfl
        | some b =>
          simp only [Option.map_some']
          rw [get_score_negate]
          exact ih _

theorem neighbor_score_loop_negate (g : MultiContactGraph) (id : Int) (n : MultiNode) :
    ∀ (xs : List Int) (score : Int),
      neighbor_score_loop (negate_partitions g) id { n with partition := -n.partition } xs score =
        neighbor_score_loop g id n xs score := by
  intro xs
  induction xs with
  | nil => intro score; rfl
  | cons y rest ih =>
    intro score
    simp only [neighbor_score_loop, map_find_negate]
    cases h1 : map_find y g.nodes with
    | none => rfl
    | some m =>
      simp only [Option.map_some']
      split
      · exact ih score
      · have he : (negate_partitions g).edge_weights = g.edge_weights := rfl
        rw [he]
        cases h2 : map_find (edge id y) g.edge_weights with
        | none => rfl
        | some w =>
          simp only []
          rw [get_score_negate]
          exact ih _

theorem add_neighbor_scores_negate (g : MultiContactGraph) (id : Int) (n : MultiNode)
    (score : Int) :
    add_neighbor_scores (negate_partitions g) id { n with partition := -n.partition } score =
      add_neighbor_scores g id n score := by
  unfold add_neighbor_scores
  rw [map_find_negate]
  cases h : map_find id g.nodes with
  | none => rfl
  | some node => exact neighbor_score_loop_negate g id n node.neighbors score

theorem node_scores_loop_negate (g : MultiContactGraph) :
    ∀ (xs : List Int) (score : Int),
      node_scores_loop (negate_partitions g) xs score = node_scores_loop g xs score := by
  intro xs
  induction xs with
  | nil => intro score; rfl
  | cons y rest ih =>
    intro score
    simp only [node_scores_loop, map_find_negate]
    cases h1 : map_find y g.nodes with
    | none => rfl
    | some m =>
      simp only [Option.map_some']
      rw [add_neighbor_scores_negate]
      cases add_neighbor_scores g y m score with
      | ok s => exact ih s
      | threw e => rfl
      | out_of_fuel => rfl

theorem validate_node_alts_negate (g : MultiContactGraph) (id : Int) (node : MultiNode) :
    ∀ (xs : List Int),
      validate_node_alts (negate_partitions g) id { node with partition := -node.partition } xs =
        validate_node_alts g id node xs := by
  intro xs
  induction xs with
  | nil => rfl
  | cons y rest ih =>
    simp only [validate_node_alts, map_find_negate]
    cases h1 : map_find y g.nodes with
    | none => rfl
    | some m =>
      simp only [Option.map_some', neg_inj]
      rw [ih]

theorem validate_alts_loop_negate (g : MultiContactGraph) :
    ∀ (ns : List (Int × MultiNode)),
      validate_alts_loop (negate_partitions g)
          (ns.map (fun p => (p.1, { p.2 with partition := -p.2.partition }))) =
        validate_alts_loop g ns := by
  intro ns
  induction ns with
  | nil => rfl
  | cons p rest ih =>
    obtain ⟨id, node⟩ := p
    simp only [List.map_cons, validate_alts_loop]
    have hh : MultiNode.has_alt { node with partition := -node.partition } = node.has_alt := rfl
    rw [hh, validate_node_alts_negate, ih]

/-- C40: negating the partition of every node changes no result of
`compute_total_consistency_score`, of `compute_consistency_score(id)` for any
id, or of `validate_alts`; in particular `validate_alts` succeeds on the
negated graph exactly when it succeeds on the graph. This holds whatever the
labels are, so also for labels in -1, 0, +1. -/
theorem sign_flip_invariance (g : MultiContactGraph) :
    compute_total_consistency_score (negate_partitions g) =
      compute_total_consistency_score g ∧
    (∀ id, compute_consistency_score (negate_partitions g) id =
      compute_consistency_score g id) ∧
    validate_alts (negate_partitions g) = validate_alts g ∧
    (validate_alts (negate_partitions g) = .ok () ↔ validate_alts g = .ok ()) := by
  have hv : validate_alts (negate_partitions g) = validate_alts g :=
    validate_alts_loop_negate g g.nodes
  refine ⟨total_score_loop_negate g g.edge_weights 0, ?_, hv, by rw [hv]⟩
  intro id
  unfold compute_consistency_score
  rw [map_find_negate]
  cases h : map_find id g.nodes with
  | none => rfl
  | some n =>
    simp only [Option.map_some']
    rw [add_neighbor_scores_negate]
    cases add_neighbor_scores g id n 0 with
    | ok s => exact node_scores_loop_negate g n.alts s
    | threw e => rfl
    | out_of_fuel => rfl

/-! ## C33: the optimum of scenario 5 -/

theorem example_optimum_steps :
    ∀ p ∈ [(1 : Int), -1], ∀ q ∈ [(1 : Int), -1], ∀ l ∈ [(1 : Int), -1],
      set_partition (example_optimum p q) 1 l = .returned (example_optimum l q) ∧
      set_partition (example_optimum p q) 2 l = .returned (example_optimum (-l) q) ∧
      set_partition (example_optimum p q) 3 l = .returned (example_optimum p l) ∧
      set_partition (example_optimum p q) 4 l = .returned (example_optimum p (-l)) := by
  decide

theorem example_optimum_scores :
    ∀ p ∈ [(1 : Int), -1], ∀ q ∈ [(1 : Int), -1],
      compute_total_consistency_score (example_optimum p q) = .ok (18 * p * q) := by
  decide

theorem set_partition_zero_of_alts (g g1 : MultiContactGraph) (id : Int) (n : MultiNode)
    (hn : map_find id g.nodes = some n) (ha : n.has_alt = true) :
    set_partition g id 0 ≠ .returned g1 := by
  unfold set_partition
  simp [hn, ha]

theorem example_optimum_step (p q id l : Int) (g : MultiContactGraph)
    (hp : p = 1 ∨ p = -1) (hq : q = 1 ∨ q = -1) (hl : l = -1 ∨ l = 0 ∨ l = 1)
    (h : set_partition (example_optimum p q) id l = .returned g) :
    ∃ p1 q1, (p1 = 1 ∨ p1 = -1) ∧ (q1 = 1 ∨ q1 = -1) ∧ g = example_optimum p1 q1 := by
  have hpm : p ∈ [(1 : Int), -1] := by rcases hp with rfl | rfl <;> simp
  have hqm : q ∈ [(1 : Int), -1] := by rcases hq with rfl | rfl <;> simp
  by_cases hid : id = 1 ∨ id = 2 ∨ id = 3 ∨ id = 4
  · by_cases hz : l = 0
    · subst hz
      exfalso
      rcases hid with rfl | rfl | rfl | rfl
      · exact set_partition_zero_of_alts (example_optimum p q) g 1 (example_node [3, 4] [2] p) rfl rfl h
      · exact set_partition_zero_of_alts (example_optimum p q) g 2 (example_node [3, 4] [1] (-p)) rfl rfl h
      · exact set_partition_zero_of_alts (example_optimum p q) g 3 (example_node [1, 2] [4] q) rfl rfl h
      · exact set_partition_zero_of_alts (example_optimum p q) g 4 (example_node [1, 2] [3] (-q)) rfl rfl h
    · have hl2 : l = 1 ∨ l = -1 := by
        rcases hl with h1 | h1 | h1
        · exact Or.inr h1
        · exact absurd h1 hz
        · exact Or.inl h1
      have hlm : l ∈ [(1 : Int), -1] := by rcases hl2 with rfl | rfl <;> simp
      have hnl : -l = 1 ∨ -l = -1 := by rcases hl2 with rfl | rfl <;> simp
      obtain ⟨s1, s2, s3, s4⟩ := example_optimum_steps p hpm q hqm l hlm
      rcases hid with rfl | rfl | rfl | rfl
      · rw [s1] at h
        exact ⟨l, q, hl2, hq, (Outcome.returned.inj h).symm⟩
      · rw [s2] at h
        exact ⟨-l, q, hnl, hq, (Outcome.returned.inj h).symm⟩
      · rw [s3] at h
        exact ⟨p, l, hp, hl2, (Outcome.returned.inj h).symm⟩
      · rw [s4] at h
        exact ⟨p, -l, hp, hnl, (Outcome.returned.inj h).symm⟩
  · exfalso
    have hnone : map_find id (example_optimum p q).nodes = none := by
      rw [map_find_none_iff]
      simp [example_optimum]
      tauto
    unfold set_partition at h
    simp [hnone] at h

theorem example_optimum_closed :
    ∀ (calls : List (Int × Int)) (p q : Int) (g : MultiContactGraph),
      (p = 1 ∨ p = -1) → (q = 1 ∨ q = -1) →
      (∀ c ∈ calls, c.2 = -1 ∨ c.2 = 0 ∨ c.2 = 1) →
      set_partitions (example_optimum p q) calls = .returned g →
      ∃ p1 q1, (p1 = 1 ∨ p1 = -1) ∧ (q1 = 1 ∨ q1 = -1) ∧ g = example_optimum p1 q1 := by
  intro calls
  induction calls with
  | nil =>
    intro p q g hp hq _ h
    exact ⟨p, q, hp, hq, (Outcome.returned.inj h).symm⟩
  | cons c rest ih =>
    intro p q g hp hq hl h
    unfold set_partitions at h
    rcases andThen_returned _ _ _ h with ⟨g1, h1, h2⟩
    rcases example_optimum_step p q c.1 c.2 g1 hp hq (hl c (by simp)) h1 with
      ⟨p1, q1, hp1, hq1, rfl⟩
    exact ih p1 q1 g hp1 hq1 (fun c1 hc1 => hl c1 (List.mem_cons_of_mem _ hc1)) h2

/-- C33: in the graph of scenario 5, after any sequence of `set_partition`
calls with labels in -1, 0, +1 that all returned, the total score is at most
18, and it is 18 exactly when nodes 1, 2, 3, 4 hold the labels +1, -1, +1, -1
or -1, +1, -1, +1. -/
theorem scenario_optimum_is_18 (calls : List (Int × Int)) (g : MultiContactGraph)
    (hlegal : ∀ c ∈ calls, c.2 = -1 ∨ c.2 = 0 ∨ c.2 = 1)
    (h : set_partitions (example_optimum 1 1) calls = .returned g) :
    ∃ s, compute_total_consistency_score g = .ok s ∧ s ≤ 18 ∧
      (s = 18 ↔ (get_partitions g = [(1, 1), (2, -1), (3, 1), (4, -1)] ∨
        get_partitions g = [(1, -1), (2, 1), (3, -1), (4, 1)])) := by
  rcases example_optimum_closed calls 1 1 g (Or.inl rfl) (Or.inl rfl) hlegal h with
    ⟨p, q, hp, hq, rfl⟩
  rcases hp with rfl | rfl <;> rcases hq with rfl | rfl
  · exact ⟨18, by decide, by decide, by decide⟩
  · exact ⟨-18, by decide, by decide, by decide⟩
  · exact ⟨-18, by decide, by decide, by decide⟩
  · exact ⟨18, by decide, by decide, by decide⟩

theorem scenario_optimum_is_18_witness :
    (∀ c ∈ [((1 : Int), (-1 : Int)), (3, -1)], c.2 = -1 ∨ c.2 = 0 ∨ c.2 = 1) ∧
    set_partitions (example_optimum 1 1) [(1, -1), (3, -1)] =
      .returned (example_optimum (-1) (-1)) ∧
    ∃ s, compute_total_consistency_score (example_optimum (-1) (-1)) = .ok s ∧ s ≤ 18 ∧
      (s = 18 ↔
        (get_partitions (example_optimum (-1) (-1)) = [(1, 1), (2, -1), (3, 1), (4, -1)] ∨
          get_partitions (example_optimum (-1) (-1)) = [(1, -1), (2, 1), (3, -1), (4, 1)])) :=
  ⟨by decide, by decide,
    scenario_optimum_is_18 [(1, -1), (3, -1)] (example_optimum (-1) (-1)) (by decide)
      (by decide)⟩

/-! ## C31 and C32: the perturb loop and the local-maximize trial -/

theorem map_find_update_isSome {K V : Type} [DecidableEq K] (k x : K) (f : V → V)
    (m : List (K × V)) :
    (map_find x (map_update k f m)).isSome = (map_find x m).isSome := by
  rw [map_find_update]
  by_cases h : x = k
  · subst h
    simp
  · simp [h]

theorem contact_alts_present_update (g : ContactGraph) (k : Int) (f : Node → Node)
    (hf : ∀ n, (f n).alt = n.alt) (h : ContactGraph.alts_present g) :
    ContactGraph.alts_present { g with nodes := map_update k f g.nodes } := by
  intro p hp ha
  simp only [map_update, List.mem_map] at hp
  rcases hp with ⟨p0, hp0, rfl⟩
  show (map_find _ (map_update k f g.nodes)).isSome = true
  rw [map_find_update_isSome]
  by_cases hk : p0.1 = k
  · simp only [hk, if_true] at ha ⊢
    have ha0 : p0.2.has_alt = true := by
      unfold Node.has_alt at ha ⊢
      rw [hf] at ha
      exact ha
    rw [hf]
    exact h p0 hp0 ha0
  · simp only [hk, if_false] at ha ⊢
    exact h p0 hp0 ha

theorem contact_set_partition_returns (g : ContactGraph) (halts : ContactGraph.alts_present g)
    (id p : Int) (n : Node) (hn : map_find id g.nodes = some n)
    (hz : n.has_alt = true → p ≠ 0) :
    ∃ g1, ContactGraph.set_partition g id p = .returned g1 ∧ ContactGraph.alts_present g1 ∧
      g1.nodes.length = g.nodes.length ∧
      ∀ x, (map_find x g1.nodes).isSome = (map_find x g.nodes).isSome := by
  have h1 : ContactGraph.alts_present
      { g with nodes := map_update id (fun m => { m with partition := p }) g.nodes } :=
    contact_alts_present_update g id _ (fun _ => rfl) halts
  unfold ContactGraph.set_partition
  rw [hn]
  by_cases ha : n.has_alt = true
  · have hp0 := hz ha
    have hpres : (map_find n.alt g.nodes).isSome = true :=
      halts (id, n) (mem_of_map_find id n g.nodes hn) ha
    simp only [ha, if_true, hp0, if_false]
    unfold ContactGraph.nodes_at
    have hpres1 : (map_find n.alt
        (map_update id (fun m : Node => { m with partition := p }) g.nodes)).isSome = true := by
      rw [map_find_update_isSome]
      exact hpres
    cases hm : map_find n.alt
        (map_update id (fun m : Node => { m with partition := p }) g.nodes) with
    | none => simp [hm] at hpres1
    | some m =>
      simp only []
      refine ⟨_, rfl, contact_alts_present_update _ n.alt
        (fun m : Node => { m with partition := wrap 8 (m.partition * -1) }) (fun _ => rfl) h1,
        ?_, ?_⟩
      · simp [map_update]
      · intro x
        simp only [map_find_update_isSome]
  · simp only [ha, Bool.false_eq_true, if_false]
    refine ⟨_, rfl, h1, ?_, ?_⟩
    · simp [map_update]
    · intro x
      simp only [map_find_update_isSome]

theorem perturb_loop_calls (ids : List Int) (uniform : Nat → Nat)
    (hrange : ∀ k, uniform k < ids.length) :
    ∀ (is : List Nat) (g : ContactGraph) (calls : List (Int × Int)),
      ContactGraph.alts_present g →
      (∀ id ∈ ids, (map_find id g.nodes).isSome = true) →
      ∃ g1 calls1, perturb_loop ids uniform is g calls = (.returned g1, calls1) ∧
        calls1.length = calls.length + is.length := by
  intro is
  induction is with
  | nil =>
    intro g calls _ _
    exact ⟨g, calls, rfl, by simp⟩
  | cons i rest ih =>
    intro g calls halts hids
    have hr : ids.getD (uniform (2 * i)) 0 ∈ ids := by
      rw [List.getD_eq_getElem _ _ (hrange _)]
      exact List.getElem_mem _
    have hpres : (map_find (ids.getD (uniform (2 * i)) 0) g.nodes).isSome = true := hids _ hr
    cases hn : map_find (ids.getD (uniform (2 * i)) 0) g.nodes with
    | none =>
      rw [hn] at hpres
      exact absurd hpres (by simp)
    | some n =>
      have hz : n.has_alt = true →
          (if n.has_alt = true then
            (if (uniform (2 * i + 1) : Int) % 2 = 0 then (-1 : Int)
              else (uniform (2 * i + 1) : Int) % 2)
           else (uniform (2 * i + 1) : Int) % 3 - 1) ≠ 0 := by
        intro ha
        rw [if_pos ha]
        split
        · decide
        · assumption
      rcases contact_set_partition_returns g halts _ _ n hn hz with ⟨g1, h1, h2, _, h4⟩
      rcases ih g1 (calls ++ [(ids.getD (uniform (2 * i)) 0,
          if n.has_alt = true then
            (if (uniform (2 * i + 1) : Int) % 2 = 0 then (-1 : Int)
              else (uniform (2 * i + 1) : Int) % 2)
           else (uniform (2 * i + 1) : Int) % 3 - 1)]) h2
        (fun id hid => by rw [h4]; exact hids id hid) with ⟨g2, calls2, h5, h6⟩
      refine ⟨g2, calls2, ?_, ?_⟩
      · simp only [perturb_loop, ContactGraph.has_alt, hn, h1]
        exact h5
      · rw [h6]
        simp
        omega

/-- C31, amended: when every id the loop can draw is a node and every alt is
present, the perturb phase returns after exactly `size / 30 + 1` calls of
`set_partition` (integer division); this is `⌈size / 30⌉` exactly when the
size is not a multiple of 30. -/
theorem perturb_draws_floor_plus_one (ids : List Int) (uniform : Nat → Nat) (g : ContactGraph)
    (hids : ∀ id ∈ ids, (map_find id g.nodes).isSome = true)
    (hrange : ∀ k, uniform k < ids.length) (halts : ContactGraph.alts_present g) :
    ∃ g1 calls, perturb ids uniform g = (.returned g1, calls) ∧
      calls.length = ContactGraph.size g / 30 + 1 ∧
      (calls.length = spec_perturb_draws (ContactGraph.size g) ↔
        ContactGraph.size g % 30 ≠ 0) := by
  rcases perturb_loop_calls ids uniform hrange (List.range (ContactGraph.size g / 30 + 1)) g []
    halts hids with ⟨g1, calls, h1, h2⟩
  have h3 : calls.length = ContactGraph.size g / 30 + 1 := by
    rw [h2]
    simp
  refine ⟨g1, calls, h1, h3, ?_⟩
  rw [h3]
  unfold spec_perturb_draws
  omega

theorem perturb_draws_floor_plus_one_witness :
    (∀ id ∈ [(1 : Int), 2, 3], (map_find id example_trial.nodes).isSome = true) ∧
    (∀ k : Nat, (fun _ : Nat => 1) k < [(1 : Int), 2, 3].length) ∧
    ContactGraph.alts_present example_trial ∧
    ∃ g1 calls, perturb [1, 2, 3] (fun _ => 1) example_trial = (.returned g1, calls) ∧
      calls.length = ContactGraph.size example_trial / 30 + 1 ∧
      (calls.length = spec_perturb_draws (ContactGraph.size example_trial) ↔
        ContactGraph.size example_trial % 30 ≠ 0) :=
  ⟨by decide, fun _ => (by decide : (1 : Nat) < 3), by unfold ContactGraph.alts_present; decide,
    perturb_draws_floor_plus_one [1, 2, 3] (fun _ => 1) example_trial (by decide)
      (fun _ => (by decide : (1 : Nat) < 3)) (by unfold ContactGraph.alts_present; decide)⟩

/-- C31 fails as stated: on a graph of 30 nodes the perturb phase returns after
two calls of `set_partition`, while `⌈30 / 30⌉` is 1. -/
theorem perturb_draws_counterexample :
    ContactGraph.size (example_plain 30) = 30 ∧
    (perturb (example_plain_ids 30) (fun _ => 0) (example_plain 30)).2 = [(0, -1), (0, -1)] ∧
    (perturb (example_plain_ids 30) (fun _ => 0) (example_plain 30)).2.length = 2 ∧
    (∃ g1, (perturb (example_plain_ids 30) (fun _ => 0) (example_plain 30)).1 = .returned g1) ∧
    spec_perturb_draws (ContactGraph.size (example_plain 30)) = 1 :=
  ⟨by decide, by decide, by decide, ⟨_, rfl⟩, by decide⟩

/-- C32: a local-maximize trial on node 1 of a bubble (1, 2) in contact with
node 3 (weights 1 and 10). The trial measures the score -11 for label -1 and
11 for label +1 and leaves label +1, but in the graph it leaves the score of
node 1 is -9, while label -1 scores 9 there: every call of `set_partition`
flipped the alt, so the state measured for +1 is not the state left. -/
theorem local_maximize_trial_misses_maximum :
    ((ContactGraph.insert_node ContactGraph.empty 1).andThen (fun g =>
      (ContactGraph.insert_node g 2).andThen (fun g =>
        (ContactGraph.insert_node g 3).andThen (fun g =>
          (ContactGraph.add_alt g 1 2).andThen (fun g =>
            (ContactGraph.try_insert_edge g 1 3 1).andThen (fun g =>
              (ContactGraph.try_insert_edge g 2 3 10).andThen (fun g =>
                ContactGraph.set_partition g 3 1)))))) = .returned example_trial) ∧
    ContactGraph.edge_count example_trial 1 = .ok 1 ∧
    ContactGraph.has_alt example_trial 1 = .ok true ∧
    (∃ g1, ContactGraph.set_partition example_trial 1 (-1) = .returned g1 ∧
      ContactGraph.compute_consistency_score g1 1 = .ok (-11) ∧
      ∃ g2, ContactGraph.set_partition g1 1 1 = .returned g2 ∧
        ContactGraph.compute_consistency_score g2 1 = .ok 11 ∧
        trial_loop 1 true [-1, 0, 1] example_trial (-(2 ^ 63)) 0 = .done g2 11 1 ∧
        ContactGraph.set_partition g2 1 1 = .returned example_trial_done) ∧
    local_maximize_trial example_trial 1 = .returned example_trial_done ∧
    ContactGraph.partition_of example_trial_done 1 = some 1 ∧
    ContactGraph.compute_consistency_score example_trial_done 1 = .ok (-9) ∧
    ∃ g3, ContactGraph.set_partition example_trial_done 1 (-1) = .returned g3 ∧
      ContactGraph.partition_of g3 1 = some (-1) ∧
      ContactGraph.compute_consistency_score g3 1 = .ok 9 :=
  ⟨by decide, by decide, by decide,
    ⟨_, rfl, by decide, _, rfl, by decide, by decide, by decide⟩,
    by decide, by decide, by decide, ⟨_, rfl, by decide, by decide⟩⟩

/-! ## C39: the score of a node against the total score -/

/-- C35: a record whose line does not end with a newline is not loaded. The
text with the header line and the line `a,b,5` yields the graph with nodes 1
and 2 and the edge of weight 5 when the line ends with a newline, and the
empty graph when it does not: the loader handles a record only when it reads
the newline. The empty text yields the empty graph. -/
theorem loader_drops_unterminated_line :
    MultiContactGraph.from_csv example_id_map decimal_stoi
        "name_a,name_b,weight\na,b,5\n".toList = .returned example_line ∧
    has_node example_line 1 = true ∧ has_node example_line 2 = true ∧
    map_find (edge 1 2) example_line.edge_weights = some 5 ∧
    MultiContactGraph.from_csv example_id_map decimal_stoi
        "name_a,name_b,weight\na,b,5".toList = .returned MultiContactGraph.empty ∧
    has_node MultiContactGraph.empty 1 = false ∧
    map_find (edge 1 2) MultiContactGraph.empty.edge_weights = none ∧
    MultiContactGraph.from_csv example_id_map decimal_stoi [] =
      .returned MultiContactGraph.empty :=
  ⟨by decide, by decide, by decide, by decide, by decide, by decide, by decide, by decide⟩

/-- C36: a line with a trailing comma loads without an error. The line
`a,b,5,` has four comma-separated fields, the last one empty, and the loader
returns the graph it returns for `a,b,5`; the error for too many delimiters is
thrown only when a further character follows the third comma, as in
`a,b,5,x`. -/
theorem loader_accepts_trailing_comma :
    MultiContactGraph.from_csv example_id_map decimal_stoi
        "name_a,name_b,weight\na,b,5,\n".toList = .returned example_line ∧
    MultiContactGraph.from_csv example_id_map decimal_stoi
        "name_a,name_b,weight\na,b,5,,,\n".toList = .returned example_line ∧
    MultiContactGraph.from_csv example_id_map decimal_stoi
        "name_a,name_b,weight\na,b,5,x\n".toList =
      .threw .too_many_delimiters MultiContactGraph.empty :=
  ⟨by decide, by decide, by decide⟩

/-! ## C16, C17: scores that leave the exact range of `double` -/

theorem Reachable.for_each {α : Type} (body : MultiContactGraph → α → Outcome)
    (hbody : ∀ g x g1, Reachable g → body g x = .returned g1 → Reachable g1) :
    ∀ (xs : List α) (g g1 : MultiContactGraph), Reachable g →
      gfase.for_each body xs g = .returned g1 → Reachable g1 := by
  intro xs
  induction xs with
  | nil =>
    intro g g1 hg h
    simp only [gfase.for_each, Outcome.returned.injEq] at h
    exact h ▸ hg
  | cons x xs ih =>
    intro g g1 hg h
    simp only [gfase.for_each] at h
    obtain ⟨g2, h2, h3⟩ := andThen_returned _ _ _ h
    exact ih g2 g1 (hbody g x g2 hg h2) h3

theorem bfs_loop_ref_cons (nodes : List (Int × MultiNode)) (id : Int) (fuel popped pushed : Nat)
    (v : Int) (d : Nat) (q : List (Int × Nat)) (c : alt_component_t) :
    bfs_loop_ref nodes id (fuel + 1) popped pushed ((v, d) :: q) c =
      match map_find v nodes with
      | none => .threw (.nonexistent_id_while_iterating id)
      | some node =>
        bfs_loop_ref nodes id fuel (popped + 1)
          (pushed + (enqueued_ref popped pushed node (placed c v d) v d).length)
          (q ++ enqueued_ref popped pushed node (placed c v d) v d) (placed c v d) := rfl

theorem bfs_loop_ref_nil (nodes : List (Int × MultiNode)) (id : Int) (fuel popped pushed : Nat)
    (c : alt_component_t) : bfs_loop_ref nodes id fuel popped pushed [] c = .ok c := by
  cases fuel <;> rfl

theorem emplace_alts_fst (stale : Option Nat) :
    ∀ (l : List Int) (front : Int × Nat) (index : Nat),
      (emplace_alts stale front index l).map Prod.fst = l := by
  intro l
  induction l with
  | nil => intro _ _; rfl
  | cons a l ih =>
    intro front index
    simp only [emplace_alts, List.map_cons, ih]

theorem emplace_alts_length (stale : Option Nat) (l : List Int) (front : Int × Nat)
    (index : Nat) : (emplace_alts stale front index l).length = l.length := by
  have h := congrArg List.length (emplace_alts_fst stale l front index)
  simpa using h

/-- When the storage of the popped entry stays untouched, every entry is
emplaced with the distance of the popped entry plus one. -/
theorem emplace_alts_none :
    ∀ (l : List Int) (front : Int × Nat) (index : Nat),
      emplace_alts none front index l = l.map (fun a => (a, front.2 + 1)) := by
  intro l
  induction l with
  | nil => intro _ _; rfl
  | cons a l ih =>
    intro front index
    simp only [emplace_alts, List.map_cons]
    rw [if_neg (by simp), ih]

/-- The entry that lands on the slot of the popped entry is read only by the
`emplace` calls after it. -/
theorem emplace_alts_short (s : Nat) :
    ∀ (l : List Int) (front : Int × Nat) (index : Nat), index + l.length ≤ s + 1 →
      emplace_alts (some s) front index l = l.map (fun a => (a, front.2 + 1)) := by
  intro l
  induction l with
  | nil => intro _ _ _; rfl
  | cons a l ih =>
    intro front index h
    simp only [List.length_cons] at h
    simp only [emplace_alts, List.map_cons]
    by_cases hs : s = index
    · have hl : l = [] := List.length_eq_zero.mp (by omega)
      subst hl
      rfl
    · rw [if_neg (by simpa using hs), ih front (index + 1) (by omega)]

theorem stale_index_ge (pushed : Nat) : pushed + 64 ≤ stale_index pushed := by
  unfold stale_index deque_block
  omega

/-- An iteration that emplaces at most 65 entries emplaces each of them with
the distance of the popped entry plus one. -/
theorem emplace_alts_small (popped pushed : Nat) (front : Int × Nat) (l : List Int)
    (h : l.length ≤ 65) :
    emplace_alts (stale_slot popped pushed) front pushed l =
      l.map (fun a => (a, front.2 + 1)) := by
  unfold stale_slot
  split_ifs
  · exact emplace_alts_short _ l front pushed (by have := stale_index_ge pushed; omega)
  · exact emplace_alts_none l front pushed

theorem potential_fst (nodes : List (Int × MultiNode)) (c : alt_component_t)
    (q q2 : List (Int × Nat)) (h : q.map Prod.fst = q2.map Prod.fst) :
    potential nodes c q = potential nodes c q2 := by
  unfold potential
  have e : ∀ l : List (Int × Nat), l.map (fun e => entry_weight nodes c e.1) =
      (l.map Prod.fst).map (entry_weight nodes c) := by
    intro l
    rw [List.map_map]
    rfl
  rw [e, e, h]

theorem enqueued_ref_fst (popped pushed : Nat) (node : MultiNode) (c : alt_component_t)
    (v : Int) (d : Nat) :
    (enqueued_ref popped pushed node c v d).map Prod.fst =
      (enqueued node c d).map Prod.fst := by
  unfold enqueued_ref enqueued
  rw [emplace_alts_fst, List.map_map]
  have hid : (Prod.fst ∘ fun alt_id : Int => (alt_id, d + 1)) = id := rfl
  rw [hid, List.map_id]

theorem mem_enqueued_ref (popped pushed : Nat) (node : MultiNode) (c : alt_component_t)
    (v : Int) (d : Nat) (e : Int × Nat) (h : e ∈ enqueued_ref popped pushed node c v d) :
    e.1 ∈ node.alts ∧ unseen c e.1 = true := by
  have h1 : e.1 ∈ (enqueued_ref popped pushed node c v d).map Prod.fst :=
    List.mem_map_of_mem Prod.fst h
  unfold enqueued_ref at h1
  rw [emplace_alts_fst] at h1
  exact List.mem_filter.mp h1

theorem potential_step_ref_lt (nodes : List (Int × MultiNode)) (c : alt_component_t)
    (v : Int) (d : Nat) (q : List (Int × Nat)) (node : MultiNode) (popped pushed : Nat)
    (hfind : map_find v nodes = some node) :
    potential nodes (placed c v d) (q ++ enqueued_ref popped pushed node (placed c v d) v d) <
      potential nodes c ((v, d) :: q) := by
  rw [potential_fst nodes (placed c v d) (q ++ enqueued_ref popped pushed node (placed c v d) v d)
    (q ++ enqueued node (placed c v d) d)
    (by rw [List.map_append, List.map_append, enqueued_ref_fst])]
  exact potential_step_lt nodes c v d q node hfind

/-- With more fuel than the potential the loop does not run dry. -/
theorem bfs_loop_ref_ne_out_of_fuel (nodes : List (Int × MultiNode)) (id : Int) :
    ∀ (fuel popped pushed : Nat) (q : List (Int × Nat)) (c : alt_component_t),
      potential nodes c q < fuel →
      bfs_loop_ref nodes id fuel popped pushed q c ≠ .out_of_fuel := by
  intro fuel
  induction fuel with
  | zero => intro _ _ q c h; omega
  | succ fuel ih =>
    intro popped pushed q c h
    match q with
    | [] => simp [bfs_loop_ref]
    | (v, d) :: q =>
      rw [bfs_loop_ref_cons]
      cases hfind : map_find v nodes with
      | none => simp
      | some node =>
        have := potential_step_ref_lt nodes c v d q node popped pushed hfind
        exact ih _ _ _ _ (by omega)

/-- The fuel granted by `get_alt_component_ref` is never used up. -/
theorem bfs_loop_ref_fuel_sufficient (nodes : List (Int × MultiNode)) (id : Int) :
    bfs_loop_ref nodes id (bfs_fuel nodes) 0 1 [(id, 0)] ([], []) ≠ .out_of_fuel :=
  bfs_loop_ref_ne_out_of_fuel nodes id _ _ _ _ _ (potential_initial nodes id)

/-- When every id in an alts set is a present node, the search does not throw. -/
theorem bfs_loop_ref_of_present (nodes : List (Int × MultiNode)) (id : Int)
    (halts : ∀ x n, map_find x nodes = some n → ∀ y ∈ n.alts, (map_find y nodes).isSome = true) :
    ∀ (fuel popped pushed : Nat) (q : List (Int × Nat)) (c : alt_component_t),
      (∀ e ∈ q, (map_find e.1 nodes).isSome = true) →
      ∀ err, bfs_loop_ref nodes id fuel popped pushed q c ≠ .threw err := by
  intro fuel
  induction fuel with
  | zero =>
    intro _ _ q c _ err
    cases q <;> simp [bfs_loop_ref]
  | succ fuel ih =>
    intro popped pushed q c hq err
    match q with
    | [] => simp [bfs_loop_ref]
    | (v, d) :: q =>
      rw [bfs_loop_ref_cons]
      have hv := hq (v, d) (by simp)
      cases hn : map_find v nodes with
      | none => simp [hn] at hv
      | some node =>
        simp only []
        apply ih
        intro e he
        rcases List.mem_append.mp he with h | h
        · exact hq e (List.mem_cons_of_mem _ h)
        · exact halts v node hn e.1 (mem_enqueued_ref _ _ _ _ _ _ e h).1

theorem result_ok_of_ends_ref {α : Type} (r : Result α) (h1 : r ≠ .out_of_fuel)
    (h2 : ∀ err, r ≠ .threw err) : ∃ v, r = .ok v := by
  cases r with
  | ok v => exact ⟨v, rfl⟩
  | threw e => exact absurd rfl (h2 e)
  | out_of_fuel => exact absurd rfl h1

theorem get_alt_component_ref_ok_iff (g : MultiContactGraph) (id : Int) (c : alt_component_t) :
    get_alt_component_ref g id false = .ok c ↔
      bfs_loop_ref g.nodes id (bfs_fuel g.nodes) 0 1 [(id, 0)] ([], []) = .ok c := by
  unfold get_alt_component_ref
  cases bfs_loop_ref g.nodes id (bfs_fuel g.nodes) 0 1 [(id, 0)] ([], []) <;> simp

/-- In a graph in which every id in every alts set is a present node, the
search from a present node returns a component. -/
theorem get_alt_component_ref_returns (g : MultiContactGraph) (id : Int)
    (halts : ∀ p ∈ g.nodes, ∀ y ∈ p.2.alts, (map_find y g.nodes).isSome = true)
    (hid : (map_find id g.nodes).isSome = true) :
    ∃ c, get_alt_component_ref g id false = .ok c := by
  obtain ⟨c, hc⟩ := result_ok_of_ends_ref _ (bfs_loop_ref_fuel_sufficient g.nodes id)
    (bfs_loop_ref_of_present g.nodes id
      (fun x n hx => halts (x, n) (mem_of_map_find x n g.nodes hx))
      (bfs_fuel g.nodes) 0 1 [(id, 0)] ([], [])
      (by intro e he; simp only [List.mem_singleton] at he; rw [he]; exact hid))
  exact ⟨c, (get_alt_component_ref_ok_iff g id c).mpr hc⟩

/-- The same with the alts read through `alts_of`. -/
theorem get_alt_component_ref_returns_of_alts (g : MultiContactGraph) (id : Int)
    (halts : ∀ x y, y ∈ alts_of g x → (map_find y g.nodes).isSome = true)
    (hid : (map_find id g.nodes).isSome = true) :
    ∃ c, get_alt_component_ref g id false = .ok c := by
  obtain ⟨c, hc⟩ := result_ok_of_ends_ref _ (bfs_loop_ref_fuel_sufficient g.nodes id)
    (bfs_loop_ref_of_present g.nodes id
      (fun x n hx y hy => halts x y (by unfold alts_of; rw [hx]; exact hy))
      (bfs_fuel g.nodes) 0 1 [(id, 0)] ([], [])
      (by intro e he; simp only [List.mem_singleton] at he; rw [he]; exact hid))
  exact ⟨c, (get_alt_component_ref_ok_iff g id c).mpr hc⟩

/-- Every id the search puts in a component was found in the node map. -/
theorem bfs_loop_ref_members_present (nodes : List (Int × MultiNode)) (id : Int) :
    ∀ (fuel popped pushed : Nat) (q : List (Int × Nat)) (c c1 : alt_component_t),
      (∀ x, (x ∈ c.1 ∨ x ∈ c.2) → (map_find x nodes).isSome = true) →
      bfs_loop_ref nodes id fuel popped pushed q c = .ok c1 →
      ∀ x, (x ∈ c1.1 ∨ x ∈ c1.2) → (map_find x nodes).isSome = true := by
  intro fuel
  induction fuel with
  | zero =>
    intro _ _ q c c1 hc h
    match q with
    | [] =>
      simp only [bfs_loop_ref, Result.ok.injEq] at h
      exact h ▸ hc
    | _ :: _ => simp [bfs_loop_ref] at h
  | succ fuel ih =>
    intro popped pushed q c c1 hc h
    match q with
    | [] =>
      simp only [bfs_loop_ref, Result.ok.injEq] at h
      exact h ▸ hc
    | (v, d) :: q =>
      rw [bfs_loop_ref_cons] at h
      cases hv : map_find v nodes with
      | none => simp [hv] at h
      | some node =>
        simp only [hv] at h
        refine ih _ _ _ _ c1 ?_ h
        intro x hx
        rcases (mem_placed c v x d).mp hx with rfl | hx
        · simp [hv]
        · exact hc x hx

/-- When no alts set has more than 65 members, the search with the entry read
through the references is the search with the entry held by value. -/
theorem bfs_loop_ref_eq_of_small (nodes : List (Int × MultiNode)) (id : Int)
    (hsmall : ∀ p ∈ nodes, p.2.alts.length ≤ 65) :
    ∀ (fuel popped pushed : Nat) (q : List (Int × Nat)) (c : alt_component_t),
      bfs_loop_ref nodes id fuel popped pushed q c = bfs_loop nodes id fuel q c := by
  intro fuel
  induction fuel with
  | zero => intro _ _ q c; cases q <;> rfl
  | succ fuel ih =>
    intro popped pushed q c
    match q with
    | [] => rfl
    | (v, d) :: q =>
      rw [bfs_loop_ref_cons, bfs_loop_cons]
      cases hn : map_find v nodes with
      | none => rfl
      | some node =>
        simp only []
        have he : enqueued_ref popped pushed node (placed c v d) v d =
            enqueued node (placed c v d) d := by
          unfold enqueued_ref enqueued
          exact emplace_alts_small popped pushed (v, d) _
            (le_trans (List.length_filter_le _ _)
              (hsmall (v, node) (mem_of_map_find v node nodes hn)))
        rw [he]
        exact ih _ _ _ _

/-- When no alts set has more than 65 members, `get_alt_component` as the
program runs it is `get_alt_component` with the popped entry held by value. -/
theorem get_alt_component_ref_eq_of_small (g : MultiContactGraph) (id : Int) (validate : Bool)
    (hsmall : ∀ p ∈ g.nodes, p.2.alts.length ≤ 65) :
    get_alt_component_ref g id validate = get_alt_component g id validate := by
  unfold get_alt_component_ref get_alt_component
  rw [bfs_loop_ref_eq_of_small g.nodes id hsmall]

/-- Every entry of the queue ends on the side of its distance, and the sides
only grow. -/
theorem bfs_loop_ref_sides (nodes : List (Int × MultiNode)) (id : Int) :
    ∀ (fuel popped pushed : Nat) (q : List (Int × Nat)) (c cf : alt_component_t),
      bfs_loop_ref nodes id fuel popped pushed q c = .ok cf →
      (∀ x, x ∈ c.1 → x ∈ cf.1) ∧ (∀ x, x ∈ c.2 → x ∈ cf.2) ∧
      ∀ e ∈ q, (e.2 % 2 = 0 → e.1 ∈ cf.1) ∧ (¬ e.2 % 2 = 0 → e.1 ∈ cf.2) := by
  intro fuel
  induction fuel with
  | zero =>
    intro _ _ q c cf h
    match q with
    | [] =>
      simp only [bfs_loop_ref, Result.ok.injEq] at h
      subst h
      exact ⟨fun _ hx => hx, fun _ hx => hx, fun e he => by simp at he⟩
    | _ :: _ => simp [bfs_loop_ref] at h
  | succ fuel ih =>
    intro popped pushed q c cf h
    match q with
    | [] =>
      simp only [bfs_loop_ref, Result.ok.injEq] at h
      subst h
      exact ⟨fun _ hx => hx, fun _ hx => hx, fun e he => by simp at he⟩
    | (v, d) :: q =>
      rw [bfs_loop_ref_cons] at h
      cases hv : map_find v nodes with
      | none => rw [hv] at h; simp at h
      | some node =>
        rw [hv] at h
        obtain ⟨h1, h2, h3⟩ := ih _ _ _ _ _ h
        obtain ⟨h4, h5⟩ := placed_subset c v d
        refine ⟨fun x hx => h1 x (h4 x hx), fun x hx => h2 x (h5 x hx), ?_⟩
        intro e he
        rcases List.mem_cons.mp he with rfl | he
        · constructor
          · intro hd
            exact h1 v ((mem_placed_first c v v d).mpr (Or.inl ⟨rfl, hd⟩))
          · intro hd
            exact h2 v ((mem_placed_second c v v d).mpr (Or.inl ⟨rfl, hd⟩))
        · exact h3 e (List.mem_append_left _ he)

theorem sorted_placed (c : alt_component_t) (v : Int) (d : Nat) (h1 : c.1.Sorted (· < ·))
    (h2 : c.2.Sorted (· < ·)) :
    (placed c v d).1.Sorted (· < ·) ∧ (placed c v d).2.Sorted (· < ·) := by
  unfold placed
  split_ifs
  · exact ⟨sorted_set_emplace v c.1 h1, h2⟩
  · exact ⟨h1, sorted_set_emplace v c.2 h2⟩

/-- A search that returns with some fuel returns the same component with any
fuel that it does not use up. -/
theorem bfs_loop_ref_ok_of_fuel (nodes : List (Int × MultiNode)) (id : Int) :
    ∀ (f1 f2 popped pushed : Nat) (q : List (Int × Nat)) (c cf : alt_component_t),
      bfs_loop_ref nodes id f1 popped pushed q c = .ok cf →
      bfs_loop_ref nodes id f2 popped pushed q c ≠ .out_of_fuel →
      bfs_loop_ref nodes id f2 popped pushed q c = .ok cf := by
  intro f1
  induction f1 with
  | zero =>
    intro f2 popped pushed q c cf h _
    match q with
    | [] =>
      rw [bfs_loop_ref_nil] at h ⊢
      exact h
    | _ :: _ => simp [bfs_loop_ref] at h
  | succ f1 ih =>
    intro f2 popped pushed q c cf h h2
    match q with
    | [] =>
      rw [bfs_loop_ref_nil] at h ⊢
      exact h
    | (v, d) :: q =>
      cases f2 with
      | zero => exact absurd rfl h2
      | succ f2 =>
        rw [bfs_loop_ref_cons] at h h2 ⊢
        cases hv : map_find v nodes with
        | none => rw [hv] at h; simp at h
        | some node =>
          rw [hv] at h h2
          exact ih _ _ _ _ _ _ h h2

/-- A queue of entries for nodes whose alts are all on a side already is
drained without a new entry: each node is put on the side of its distance. -/
theorem bfs_loop_ref_drain (nodes : List (Int × MultiNode)) (id : Int) :
    ∀ (q : List (Int × Nat)) (fuel popped pushed : Nat) (c : alt_component_t),
      q.length ≤ fuel →
      (∀ e ∈ q, ∃ n, map_find e.1 nodes = some n ∧ ∀ y ∈ n.alts, y ∈ c.1 ∨ y ∈ c.2) →
      bfs_loop_ref nodes id fuel popped pushed q c =
        .ok (q.foldl (fun c e => placed c e.1 e.2) c) := by
  intro q
  induction q with
  | nil =>
    intro fuel popped pushed c _ _
    rw [bfs_loop_ref_nil]
    rfl
  | cons e q ih =>
    intro fuel popped pushed c hlen hq
    obtain ⟨v, d⟩ := e
    cases fuel with
    | zero => simp at hlen
    | succ fuel =>
      obtain ⟨node, hnode, hseen⟩ := hq (v, d) (List.mem_cons_self _ _)
      have hnil : enqueued_ref popped pushed node (placed c v d) v d = [] := by
        unfold enqueued_ref
        have hf : node.alts.filter (fun alt_id => unseen (placed c v d) alt_id) = [] := by
          rw [List.filter_eq_nil_iff]
          intro y hy
          have hy1 := hseen y hy
          have hy2 : y ∈ (placed c v d).1 ∨ y ∈ (placed c v d).2 :=
            (mem_placed c v y d).mpr (Or.inr hy1)
          unfold unseen
          rcases hy2 with h | h <;> simp [h]
        rw [hf]
        rfl
      rw [bfs_loop_ref_cons, hnode]
      simp only [hnil, List.append_nil, List.length_nil, Nat.add_zero, List.foldl_cons]
      apply ih
      · simp only [List.length_cons] at hlen
        omega
      · intro e he
        obtain ⟨n, hn, hs⟩ := hq e (List.mem_cons_of_mem _ he)
        exact ⟨n, hn, fun y hy => (mem_placed c v y d).mpr (Or.inr (hs y hy))⟩

theorem mem_foldl_placed_first :
    ∀ (q : List (Int × Nat)) (c : alt_component_t) (x : Int),
      x ∈ (q.foldl (fun c e => placed c e.1 e.2) c).1 ↔
        x ∈ c.1 ∨ ∃ e ∈ q, e.1 = x ∧ e.2 % 2 = 0 := by
  intro q
  induction q with
  | nil => intro c x; simp
  | cons e q ih =>
    intro c x
    rw [List.foldl_cons, ih, mem_placed_first]
    constructor
    · rintro ((⟨h1, h2⟩ | h) | ⟨e2, he2, h⟩)
      · exact Or.inr ⟨e, List.mem_cons_self _ _, h1.symm, h2⟩
      · exact Or.inl h
      · exact Or.inr ⟨e2, List.mem_cons_of_mem _ he2, h⟩
    · rintro (h | ⟨e2, he2, h⟩)
      · exact Or.inl (Or.inr h)
      · rcases List.mem_cons.mp he2 with rfl | he2
        · exact Or.inl (Or.inl ⟨h.1.symm, h.2⟩)
        · exact Or.inr ⟨e2, he2, h⟩

theorem mem_foldl_placed_second :
    ∀ (q : List (Int × Nat)) (c : alt_component_t) (x : Int),
      x ∈ (q.foldl (fun c e => placed c e.1 e.2) c).2 ↔
        x ∈ c.2 ∨ ∃ e ∈ q, e.1 = x ∧ ¬ e.2 % 2 = 0 := by
  intro q
  induction q with
  | nil => intro c x; simp
  | cons e q ih =>
    intro c x
    rw [List.foldl_cons, ih, mem_placed_second]
    constructor
    · rintro ((⟨h1, h2⟩ | h) | ⟨e2, he2, h⟩)
      · exact Or.inr ⟨e, List.mem_cons_self _ _, h1.symm, h2⟩
      · exact Or.inl h
      · exact Or.inr ⟨e2, List.mem_cons_of_mem _ he2, h⟩
    · rintro (h | ⟨e2, he2, h⟩)
      · exact Or.inl (Or.inr h)
      · rcases List.mem_cons.mp he2 with rfl | he2
        · exact Or.inl (Or.inl ⟨h.1.symm, h.2⟩)
        · exact Or.inr ⟨e2, he2, h⟩

theorem sorted_foldl_placed :
    ∀ (q : List (Int × Nat)) (c : alt_component_t), c.1.Sorted (· < ·) → c.2.Sorted (· < ·) →
      (q.foldl (fun c e => placed c e.1 e.2) c).1.Sorted (· < ·) ∧
      (q.foldl (fun c e => placed c e.1 e.2) c).2.Sorted (· < ·) := by
  intro q
  induction q with
  | nil => intro c h1 h2; exact ⟨h1, h2⟩
  | cons e q ih =>
    intro c h1 h2
    rw [List.foldl_cons]
    exact ih _ (sorted_placed c e.1 e.2 h1 h2).1 (sorted_placed c e.1 e.2 h1 h2).2

/-- The search reads the alts sets of the nodes and nothing else. -/
theorem bfs_loop_ref_congr (nodes nodes2 : List (Int × MultiNode)) (id : Int)
    (h : ∀ x, (map_find x nodes2).map MultiNode.alts = (map_find x nodes).map MultiNode.alts) :
    ∀ (fuel popped pushed : Nat) (q : List (Int × Nat)) (c : alt_component_t),
      bfs_loop_ref nodes2 id fuel popped pushed q c =
        bfs_loop_ref nodes id fuel popped pushed q c := by
  intro fuel
  induction fuel with
  | zero => intro _ _ q c; cases q <;> rfl
  | succ fuel ih =>
    intro popped pushed q c
    match q with
    | [] => rfl
    | (v, d) :: q =>
      rw [bfs_loop_ref_cons, bfs_loop_ref_cons]
      have hv := h v
      cases h1 : map_find v nodes with
      | none =>
        rw [h1] at hv
        cases h2 : map_find v nodes2 with
        | none => rfl
        | some n2 => rw [h2] at hv; simp at hv
      | some n1 =>
        rw [h1] at hv
        cases h2 : map_find v nodes2 with
        | none => rw [h2] at hv; simp at hv
        | some n2 =>
          rw [h2] at hv
          have ha : n2.alts = n1.alts := by simpa using hv
          simp only []
          have he : enqueued_ref popped pushed n2 (placed c v d) v d =
              enqueued_ref popped pushed n1 (placed c v d) v d := by
            unfold enqueued_ref
            rw [ha]
          rw [he]
          exact ih _ _ _ _

theorem alts_of_links (g g2 : MultiContactGraph) (ha : ∀ x, alts_of g2 x = alts_of g x)
    (hp : ∀ x, (map_find x g2.nodes).isSome = (map_find x g.nodes).isSome) (x : Int) :
    (map_find x g2.nodes).map MultiNode.alts = (map_find x g.nodes).map MultiNode.alts := by
  have h1 := ha x
  have h2 := hp x
  unfold alts_of at h1
  cases e1 : map_find x g.nodes with
  | none =>
    rw [e1] at h2
    cases e2 : map_find x g2.nodes with
    | none => rfl
    | some n2 => rw [e2] at h2; simp at h2
  | some n1 =>
    rw [e1] at h1 h2
    cases e2 : map_find x g2.nodes with
    | none => rw [e2] at h2; simp at h2
    | some n2 =>
      rw [e2] at h1
      simp only [Option.map_some', Option.some.injEq]
      exact h1

/-- Two graphs with the same nodes and alts sets have the same components. -/
theorem get_alt_component_ref_congr (g g2 : MultiContactGraph)
    (ha : ∀ x, alts_of g2 x = alts_of g x)
    (hp : ∀ x, (map_find x g2.nodes).isSome = (map_find x g.nodes).isSome)
    (id : Int) (c : alt_component_t) (hc : get_alt_component_ref g id false = .ok c) :
    get_alt_component_ref g2 id false = .ok c := by
  rw [get_alt_component_ref_ok_iff] at hc ⊢
  have hsuff := bfs_loop_ref_fuel_sufficient g2.nodes id
  rw [bfs_loop_ref_congr g.nodes g2.nodes id (alts_of_links g g2 ha hp)] at hsuff ⊢
  exact bfs_loop_ref_ok_of_fuel g.nodes id _ _ _ _ _ _ _ hc hsuff

/-- The component found with some fuel is the component of
`get_alt_component_ref`. -/
theorem get_alt_component_ref_of_fuel (g : MultiContactGraph) (id : Int) (fuel : Nat)
    (c : alt_component_t)
    (h : bfs_loop_ref g.nodes id fuel 0 1 [(id, 0)] ([], []) = .ok c) :
    get_alt_component_ref g id false = .ok c :=
  (get_alt_component_ref_ok_iff g id c).mpr
    (bfs_loop_ref_ok_of_fuel g.nodes id _ _ _ _ _ _ _ h (bfs_loop_ref_fuel_sufficient g.nodes id))

/-! ### The two predicates -/

theorem search_until_ref_cons (nodes : List (Int × MultiNode)) (stop : Int → Nat → Bool)
    (fuel popped pushed : Nat) (v : Int) (d : Nat) (q : List (Int × Nat))
    (visited : List Int) :
    search_until_ref nodes stop (fuel + 1) popped pushed ((v, d) :: q) visited =
      match map_find v nodes with
      | none => .threw (.nonexistent_id_while_iterating_side v)
      | some node =>
        if stop v d = true then .ok true
        else
          search_until_ref nodes stop fuel (popped + 1)
            (pushed + (emplace_alts (stale_slot popped pushed) (v, d) pushed
              (node.alts.filter (fun alt_id =>
                !decide (alt_id ∈ set_emplace v visited)))).length)
            (q ++ emplace_alts (stale_slot popped pushed) (v, d) pushed
              (node.alts.filter (fun alt_id => !decide (alt_id ∈ set_emplace v visited))))
            (set_emplace v visited) := rfl

theorem of_same_component_side_loop_ref_eq (nodes : List (Int × MultiNode)) (id_b : Int) :
    ∀ (fuel popped pushed : Nat) (q : List (Int × Nat)) (visited : List Int),
      of_same_component_side_loop_ref nodes id_b fuel popped pushed q visited =
        search_until_ref nodes (fun x d => decide (d % 2 = 0 ∧ x = id_b)) fuel popped pushed q
          visited := by
  intro fuel
  induction fuel with
  | zero => intro _ _ q visited; cases q <;> rfl
  | succ fuel ih =>
    intro popped pushed q visited
    match q with
    | [] => rfl
    | (v, d) :: q =>
      rw [search_until_ref_cons]
      simp only [of_same_component_side_loop_ref, decide_eq_true_eq]
      cases map_find v nodes with
      | none => rfl
      | some node =>
        simp only []
        split_ifs
        · rfl
        · exact ih _ _ _ _

theorem of_same_component_loop_ref_eq (nodes : List (Int × MultiNode)) (id_b : Int) :
    ∀ (fuel popped pushed : Nat) (q : List (Int × Nat)) (visited : List Int),
      of_same_component_loop_ref nodes id_b fuel popped pushed q visited =
        search_until_ref nodes (fun x _ => decide (x = id_b)) fuel popped pushed q visited := by
  intro fuel
  induction fuel with
  | zero => intro _ _ q visited; cases q <;> rfl
  | succ fuel ih =>
    intro popped pushed q visited
    match q with
    | [] => rfl
    | (v, d) :: q =>
      rw [search_until_ref_cons]
      simp only [of_same_component_loop_ref, decide_eq_true_eq]
      cases map_find v nodes with
      | none => rfl
      | some node =>
        simp only []
        split_ifs
        · rfl
        · exact ih _ _ _ _

theorem enqueued_ref_eq_of_visited (popped pushed : Nat) (node : MultiNode)
    (c : alt_component_t) (visited : List Int) (v : Int) (d : Nat)
    (hvis : ∀ x, x ∈ visited ↔ (x ∈ c.1 ∨ x ∈ c.2)) :
    emplace_alts (stale_slot popped pushed) (v, d) pushed
        (node.alts.filter (fun alt_id => !decide (alt_id ∈ set_emplace v visited))) =
      enqueued_ref popped pushed node (placed c v d) v d := by
  unfold enqueued_ref
  congr 1
  apply List.filter_congr
  intro x _
  have h := mem_placed c v x d
  unfold unseen
  rw [Bool.eq_iff_iff]
  simp only [Bool.not_eq_true', decide_eq_false_iff_not, mem_set_emplace, hvis,
    Bool.or_eq_false_iff]
  tauto

/-- The predicate loops never use up the iterations of the search. -/
theorem search_until_ref_ne_out_of_fuel (nodes : List (Int × MultiNode))
    (stop : Int → Nat → Bool) :
    ∀ (fuel popped pushed : Nat) (q : List (Int × Nat)) (c : alt_component_t)
      (visited : List Int),
      (∀ x, x ∈ visited ↔ (x ∈ c.1 ∨ x ∈ c.2)) → potential nodes c q < fuel →
      search_until_ref nodes stop fuel popped pushed q visited ≠ .out_of_fuel := by
  intro fuel
  induction fuel with
  | zero => intro _ _ q c visited _ h; omega
  | succ fuel ih =>
    intro popped pushed q c visited hvis h
    match q with
    | [] => simp [search_until_ref]
    | (v, d) :: q =>
      rw [search_until_ref_cons]
      cases hfind : map_find v nodes with
      | none => simp
      | some node =>
        simp only []
        split_ifs
        · simp
        · rw [enqueued_ref_eq_of_visited popped pushed node c visited v d hvis]
          have := potential_step_ref_lt nodes c v d q node popped pushed hfind
          exact ih _ _ _ _ _ (visited_placed c visited v d hvis) (by omega)

/-- When the search returns the component `cf`, a predicate loop returns
`true` if it met an entry that satisfies `stop`, and every such entry makes
the target property `tgt` of the component true. -/
theorem search_until_ref_follows (nodes : List (Int × MultiNode)) (id : Int)
    (stop : Int → Nat → Bool) (tgt : alt_component_t → Prop)
    (hmono : ∀ c c1 : alt_component_t, (∀ x, x ∈ c.1 → x ∈ c1.1) →
      (∀ x, x ∈ c.2 → x ∈ c1.2) → tgt c → tgt c1)
    (hstop : ∀ c x d, stop x d = true → tgt (placed c x d))
    (hnot : ∀ c x d, ¬ stop x d = true → tgt (placed c x d) → tgt c) :
    ∀ (fuel popped pushed : Nat) (q : List (Int × Nat)) (c cf : alt_component_t)
      (visited : List Int),
      (∀ x, x ∈ visited ↔ (x ∈ c.1 ∨ x ∈ c.2)) →
      bfs_loop_ref nodes id fuel popped pushed q c = .ok cf →
      (search_until_ref nodes stop fuel popped pushed q visited = .ok true ∧ tgt cf) ∨
      (search_until_ref nodes stop fuel popped pushed q visited = .ok false ∧
        (tgt cf → tgt c)) := by
  intro fuel
  induction fuel with
  | zero =>
    intro _ _ q c cf visited _ h
    match q with
    | [] =>
      simp only [bfs_loop_ref, Result.ok.injEq] at h
      subst h
      exact Or.inr ⟨rfl, fun h => h⟩
    | _ :: _ => simp [bfs_loop_ref] at h
  | succ fuel ih =>
    intro popped pushed q c cf visited hvis h
    match q with
    | [] =>
      simp only [bfs_loop_ref, Result.ok.injEq] at h
      subst h
      exact Or.inr ⟨rfl, fun h => h⟩
    | (v, d) :: q =>
      rw [bfs_loop_ref_cons] at h
      rw [search_until_ref_cons]
      cases hv : map_find v nodes with
      | none => rw [hv] at h; simp at h
      | some node =>
        rw [hv] at h
        simp only at h ⊢
        obtain ⟨g1, g2, _⟩ := bfs_loop_ref_sides nodes id _ _ _ _ _ _ h
        by_cases hs : stop v d = true
        · rw [if_pos hs]
          exact Or.inl ⟨rfl, hmono _ _ g1 g2 (hstop c v d hs)⟩
        · rw [if_neg hs, enqueued_ref_eq_of_visited popped pushed node c visited v d hvis]
          rcases ih _ _ _ _ _ _ (visited_placed c visited v d hvis) h with ⟨h1, h2⟩ | ⟨h1, h2⟩
          · exact Or.inl ⟨h1, h2⟩
          · exact Or.inr ⟨h1, fun ht => hnot c v d hs (h2 ht)⟩

/-- On every graph on which `get_alt_component(a)` returns, the two predicates
return and agree with the component, all three as the program runs them. -/
theorem predicates_follow_component_ref (g : MultiContactGraph) (a b : Int)
    (c : alt_component_t) (hc : get_alt_component_ref g a false = .ok c) :
    of_same_component_side_ref g a b = .ok (decide (b ∈ c.1)) ∧
    of_same_component_ref g a b = .ok (decide (b ∈ c.1 ∨ b ∈ c.2)) := by
  rw [get_alt_component_ref_ok_iff] at hc
  constructor
  · unfold of_same_component_side_ref
    rw [of_same_component_side_loop_ref_eq]
    rcases search_until_ref_follows g.nodes a (fun x d => decide (d % 2 = 0 ∧ x = b))
        (fun c => b ∈ c.1) (fun _ _ h1 _ h => h1 b h)
        (fun c x d hs => by
          have hs1 : d % 2 = 0 ∧ x = b := by simpa using hs
          exact (mem_placed_side c x b d).mpr (Or.inr ⟨hs1.1, hs1.2.symm⟩))
        (fun c x d hs ht => by
          have hs1 : ¬ (d % 2 = 0 ∧ x = b) := by simpa using hs
          rcases (mem_placed_side c x b d).mp ht with h | ⟨h1, h2⟩
          · exact h
          · exact absurd ⟨h1, h2.symm⟩ hs1)
        _ _ _ _ _ _ [] (by simp) hc with ⟨h1, h2⟩ | ⟨h1, h2⟩
    · rw [h1]; simp [h2]
    · rw [h1]
      have : b ∉ c.1 := fun h => by simpa using h2 h
      simp [this]
  · unfold of_same_component_ref
    rw [of_same_component_loop_ref_eq]
    rcases search_until_ref_follows g.nodes a (fun x _ => decide (x = b))
        (fun c => b ∈ c.1 ∨ b ∈ c.2)
        (fun _ _ h1 h2 h => h.imp (h1 b) (h2 b))
        (fun c x d hs => by
          have hs1 : x = b := by simpa using hs
          exact (mem_placed c x b d).mpr (Or.inl hs1.symm))
        (fun c x d hs ht => by
          have hs1 : ¬ x = b := by simpa using hs
          rcases (mem_placed c x b d).mp ht with h | h
          · exact absurd h.symm hs1
          · exact h)
        _ _ _ _ _ _ [] (by simp) hc with ⟨h1, h2⟩ | ⟨h1, h2⟩
    · rw [h1]; simp [h2]
    · rw [h1]
      have : ¬ (b ∈ c.1 ∨ b ∈ c.2) := fun h => by simpa using h2 h
      simp [this]

/-! ## The search from node 0 of the 67 by 66 component -/

theorem mem_ids (lo : Int) (n : Nat) (x : Int) : x ∈ ids lo n ↔ lo ≤ x ∧ x < lo + n := by
  unfold ids
  simp only [List.mem_map, List.mem_range]
  constructor
  · rintro ⟨i, hi, rfl⟩
    omega
  · rintro ⟨h1, h2⟩
    exact ⟨(x - lo).toNat, by omega, by omega⟩

theorem ids_succ_append (lo : Int) (n : Nat) : ids lo (n + 1) = ids lo n ++ [lo + n] := by
  unfold ids
  rw [List.range_succ, List.map_append]
  rfl

theorem ids_succ_cons (lo : Int) (n : Nat) : ids lo (n + 1) = lo :: ids (lo + 1) n := by
  unfold ids
  rw [List.range_succ_eq_map]
  simp only [List.map_cons, List.map_map, Nat.cast_zero, add_zero]
  congr 1
  apply List.map_congr_left
  intro i _
  simp only [Function.comp]
  push_cast
  ring

theorem length_ids (lo : Int) (n : Nat) : (ids lo n).length = n := by
  unfold ids
  simp

theorem sorted_ids (lo : Int) (n : Nat) : (ids lo n).Sorted (· < ·) := by
  induction n with
  | zero => exact List.sorted_nil
  | succ n ih =>
    rw [ids_succ_append]
    rw [List.Sorted, List.pairwise_append]
    refine ⟨ih, List.pairwise_singleton _ _, ?_⟩
    intro a ha b hb
    rw [mem_ids] at ha
    rw [List.mem_singleton] at hb
    omega

theorem set_emplace_append_max :
    ∀ (l : List Int) (x : Int), (∀ y ∈ l, y < x) → set_emplace x l = l ++ [x] := by
  intro l
  induction l with
  | nil => intro x _; rfl
  | cons z zs ih =>
    intro x h
    have hz := h z (List.mem_cons_self _ _)
    unfold set_emplace
    rw [if_neg (by omega), if_neg (by omega), ih x (fun y hy => h y (List.mem_cons_of_mem _ hy))]
    rfl

theorem set_emplace_ids (lo : Int) (n : Nat) : set_emplace (lo + n) (ids lo n) = ids lo (n + 1) := by
  rw [ids_succ_append]
  apply set_emplace_append_max
  intro y hy
  rw [mem_ids] at hy
  exact hy.2

theorem wide_tail_succ (k : Nat) : wide_tail (k + 1) = wide_tail k ++ wide_batch k := by
  unfold wide_tail
  rw [List.range_succ, List.flatMap_append]
  simp [List.flatMap]

theorem wide_batch_fst (k : Nat) : (wide_batch k).map Prod.fst = ids 1 66 := by
  unfold wide_batch
  exact emplace_alts_fst _ _ _ _

theorem wide_batch_length (k : Nat) : (wide_batch k).length = 66 := by
  unfold wide_batch
  rw [emplace_alts_length, length_ids]

theorem wide_tail_length (k : Nat) : (wide_tail k).length = 66 * k := by
  induction k with
  | zero => rfl
  | succ k ih =>
    rw [wide_tail_succ, List.length_append, ih, wide_batch_length]
    ring

theorem wide_tail_fst (k : Nat) (e : Int × Nat) (he : e ∈ wide_tail k) : e.1 ∈ ids 1 66 := by
  unfold wide_tail at he
  obtain ⟨j, _, hj⟩ := List.mem_flatMap.mp he
  rw [← wide_batch_fst j]
  exact List.mem_map_of_mem Prod.fst hj

set_option maxRecDepth 100000 in
/-- The nodes of 67..132 are visited as the entries number 1 to 66 of the
queue. Each visit emplaces the nodes 1..66 with the distance 2, but for the
visit of node 129, the entry number 63: 4159 entries were emplaced before, the
entry number 4223, for node 65, lands on the slot of the popped entry, and
node 66 after it is emplaced with the distance 3. -/
theorem wide_batch_eq :
    ∀ k ∈ List.range 66, wide_batch k =
      if k = 62 then (ids 1 65).map (fun a => (a, 2)) ++ [(66, 3)]
      else (ids 1 66).map (fun a => (a, 2)) := by
  decide!

theorem wide_tail_even (x : Int) :
    (∃ e ∈ wide_tail 66, e.1 = x ∧ e.2 % 2 = 0) ↔ x ∈ ids 1 66 := by
  constructor
  · rintro ⟨e, he, rfl, _⟩
    exact wide_tail_fst 66 e he
  · intro hx
    refine ⟨(x, 2), ?_, rfl, by simp⟩
    unfold wide_tail
    refine List.mem_flatMap.mpr ⟨0, by simp, ?_⟩
    rw [wide_batch_eq 0 (by simp), if_neg (by decide)]
    exact List.mem_map.mpr ⟨x, hx, rfl⟩

theorem wide_tail_odd (x : Int) :
    (∃ e ∈ wide_tail 66, e.1 = x ∧ ¬ e.2 % 2 = 0) ↔ x = 66 := by
  constructor
  · rintro ⟨e, he, rfl, hodd⟩
    unfold wide_tail at he
    obtain ⟨j, hj, hej⟩ := List.mem_flatMap.mp he
    rw [wide_batch_eq j hj] at hej
    split_ifs at hej
    · rcases List.mem_append.mp hej with h | h
      · obtain ⟨a, _, rfl⟩ := List.mem_map.mp h
        exact absurd (by decide : (2 : Nat) % 2 = 0) hodd
      · rw [List.mem_singleton] at h
        rw [h]
    · obtain ⟨a, _, rfl⟩ := List.mem_map.mp hej
      exact absurd (by decide : (2 : Nat) % 2 = 0) hodd
  · rintro rfl
    refine ⟨(66, 3), ?_, rfl, by decide⟩
    unfold wide_tail
    refine List.mem_flatMap.mpr ⟨62, by simp, ?_⟩
    rw [wide_batch_eq 62 (by simp), if_pos rfl]
    simp

theorem wide_unseen_first (s : List Int) (hs : ∀ y ∈ s, 67 ≤ y) :
    (ids 0 67).filter (fun alt_id => unseen ([0], s) alt_id) = ids 1 66 := by
  have h1 : (ids 0 67).filter (fun alt_id => unseen ([0], s) alt_id) =
      (ids 0 67).filter (fun alt_id => !decide (alt_id = 0)) := by
    apply List.filter_congr
    intro x hx
    rw [mem_ids] at hx
    have hxs : x ∉ s := fun h => by have := hs x h; omega
    unfold unseen
    simp [hxs]
  have h01 : (0 : Int) + 1 = 1 := rfl
  rw [h1, ids_succ_cons, h01]
  rw [List.filter_cons_of_neg (by simp)]
  rw [List.filter_eq_self]
  intro a ha
  rw [mem_ids] at ha
  have : a ≠ 0 := by omega
  simpa using this

theorem wide_unseen_second :
    (ids 67 66).filter (fun alt_id => unseen ([0], []) alt_id) = ids 67 66 := by
  rw [List.filter_eq_self]
  intro a ha
  rw [mem_ids] at ha
  have : a ≠ 0 := by omega
  unfold unseen
  simpa using this

/-- The nodes of a store in which the nodes 0..66 have the alts 67..132 and
the nodes 67..132 the alts 0..66. -/
theorem wide_start (nodes : List (Int × MultiNode)) (id : Int) (fuel : Nat)
    (hA : ∀ k : Nat, k < 67 → ∃ n, map_find (k : Int) nodes = some n ∧ n.alts = ids 67 66) :
    bfs_loop_ref nodes id (fuel + 1) 0 1 [(0, 0)] ([], []) =
      bfs_loop_ref nodes id fuel 1 67 ((ids 67 66).map (fun b => (b, 1)) ++ wide_tail 0)
        ([0], ids 67 0) := by
  obtain ⟨n, hn, halts⟩ := hA 0 (by omega)
  simp only [Nat.cast_zero] at hn
  rw [bfs_loop_ref_cons, hn]
  simp only []
  have hp : placed ([], []) 0 0 = ([0], ids 67 0) := rfl
  have he : enqueued_ref 0 1 n ([0], ids 67 0) 0 0 = (ids 67 66).map (fun b => (b, 1)) := by
    unfold enqueued_ref
    rw [halts]
    have hs : stale_slot 0 1 = none := rfl
    have hi : ids 67 0 = [] := rfl
    rw [hs, hi, wide_unseen_second, emplace_alts_none]
  have ht : wide_tail 0 = [] := rfl
  rw [hp, he, List.length_map, length_ids, ht, List.append_nil, List.nil_append]

theorem wide_step (nodes : List (Int × MultiNode)) (id : Int) (fuel k : Nat) (hk : k < 66)
    (hB : ∀ k : Nat, k < 66 →
      ∃ n, map_find (67 + (k : Int)) nodes = some n ∧ n.alts = ids 0 67) :
    bfs_loop_ref nodes id (fuel + 1) (1 + k) (67 + 66 * k)
        ((ids (67 + (k : Int)) (66 - k)).map (fun b => (b, 1)) ++ wide_tail k)
        ([0], ids 67 k) =
      bfs_loop_ref nodes id fuel (1 + (k + 1)) (67 + 66 * (k + 1))
        ((ids (67 + ((k + 1 : Nat) : Int)) (66 - (k + 1))).map (fun b => (b, 1)) ++
          wide_tail (k + 1))
        ([0], ids 67 (k + 1)) := by
  obtain ⟨n, hn, halts⟩ := hB k hk
  have hq : ids (67 + (k : Int)) (66 - k) =
      (67 + (k : Int)) :: ids (67 + ((k + 1 : Nat) : Int)) (66 - (k + 1)) := by
    have e0 : (67 : Int) + ((k + 1 : Nat) : Int) = 67 + (k : Int) + 1 := by
      push_cast
      ring
    have e1 : 66 - k = (66 - (k + 1)) + 1 := by omega
    rw [e0, e1, ids_succ_cons]
  rw [hq]
  simp only [List.map_cons, List.cons_append]
  rw [bfs_loop_ref_cons, hn]
  simp only []
  have hp : placed ([0], ids 67 k) (67 + (k : Int)) 1 = ([0], ids 67 (k + 1)) := by
    unfold placed
    rw [if_neg (by decide)]
    simp only [set_emplace_ids]
  have he : enqueued_ref (1 + k) (67 + 66 * k) n ([0], ids 67 (k + 1)) (67 + (k : Int)) 1 =
      wide_batch k := by
    unfold enqueued_ref wide_batch
    rw [halts, wide_unseen_first (ids 67 (k + 1)) (fun y hy => ((mem_ids 67 _ y).mp hy).1)]
  rw [hp, he, wide_batch_length, wide_tail_succ, List.append_assoc]
  have e2 : 67 + 66 * k + 66 = 67 + 66 * (k + 1) := by omega
  have e3 : 1 + k + 1 = 1 + (k + 1) := by omega
  rw [e2, e3]

theorem wide_steps (nodes : List (Int × MultiNode)) (id : Int)
    (hB : ∀ k : Nat, k < 66 →
      ∃ n, map_find (67 + (k : Int)) nodes = some n ∧ n.alts = ids 0 67) :
    ∀ (k : Nat), k ≤ 66 → ∀ fuel : Nat,
      bfs_loop_ref nodes id (fuel + k) 1 67
          ((ids 67 66).map (fun b => (b, 1)) ++ wide_tail 0) ([0], ids 67 0) =
        bfs_loop_ref nodes id fuel (1 + k) (67 + 66 * k)
          ((ids (67 + (k : Int)) (66 - k)).map (fun b => (b, 1)) ++ wide_tail k)
          ([0], ids 67 k) := by
  intro k
  induction k with
  | zero =>
    intro _ fuel
    simp only [Nat.add_zero, Nat.mul_zero, Nat.sub_zero, Nat.cast_zero, add_zero]
  | succ k ih =>
    intro hk fuel
    have e : fuel + (k + 1) = (fuel + 1) + k := by omega
    rw [e, ih (by omega) (fuel + 1), wide_step nodes id fuel k (by omega) hB]

theorem wide_sides :
    (wide_tail 66).foldl (fun c e => placed c e.1 e.2) ([0], ids 67 66) =
      (ids 0 67, ids 66 67) := by
  obtain ⟨s1, s2⟩ := sorted_foldl_placed (wide_tail 66) ([0], ids 67 66)
    (List.sorted_singleton 0) (sorted_ids 67 66)
  apply Prod.ext
  · apply sorted_ext s1 (sorted_ids 0 67)
    intro x
    rw [mem_foldl_placed_first, wide_tail_even, mem_ids, mem_ids]
    simp only [List.mem_singleton]
    omega
  · apply sorted_ext s2 (sorted_ids 66 67)
    intro x
    rw [mem_foldl_placed_second, wide_tail_odd, mem_ids, mem_ids]
    omega

theorem wide_drain (nodes : List (Int × MultiNode)) (id : Int) (popped pushed : Nat)
    (hA : ∀ k : Nat, k < 67 → ∃ n, map_find (k : Int) nodes = some n ∧ n.alts = ids 67 66) :
    bfs_loop_ref nodes id (66 * 66) popped pushed (wide_tail 66) ([0], ids 67 66) =
      .ok (ids 0 67, ids 66 67) := by
  rw [bfs_loop_ref_drain nodes id (wide_tail 66) (66 * 66) popped pushed ([0], ids 67 66)
    (le_of_eq (wide_tail_length 66)), wide_sides]
  intro e he
  have h1 := (mem_ids 1 66 e.1).mp (wide_tail_fst 66 e he)
  obtain ⟨n, hn, halts⟩ := hA e.1.toNat (by omega)
  rw [Int.toNat_of_nonneg (by omega)] at hn
  refine ⟨n, hn, fun y hy => Or.inr ?_⟩
  rw [halts] at hy
  exact hy

/-- In a node store in which the nodes 0..66 have the alts 67..132 and the
nodes 67..132 the alts 0..66, the search from node 0 ends after 4423
iterations with the nodes 0..66 on the first side and the nodes 66..132 on the
second: node 66 is on both. -/
theorem wide_search (nodes : List (Int × MultiNode)) (id : Int)
    (hA : ∀ k : Nat, k < 67 → ∃ n, map_find (k : Int) nodes = some n ∧ n.alts = ids 67 66)
    (hB : ∀ k : Nat, k < 66 →
      ∃ n, map_find (67 + (k : Int)) nodes = some n ∧ n.alts = ids 0 67) :
    bfs_loop_ref nodes id (66 * 66 + 66 + 1) 0 1 [(0, 0)] ([], []) =
      .ok (ids 0 67, ids 66 67) := by
  have h1 := wide_start nodes id (66 * 66 + 66) hA
  have h2 := wide_steps nodes id hB 66 (le_refl _) (66 * 66)
  have h0 : ids (67 + ((66 : Nat) : Int)) (66 - 66) = [] := rfl
  have hq : (ids (67 + ((66 : Nat) : Int)) (66 - 66)).map (fun b => ((b, 1) : Int × Nat)) ++
      wide_tail 66 = wide_tail 66 := by
    rw [h0, List.map_nil, List.nil_append]
  rw [hq] at h2
  exact h1.trans (h2.trans (wide_drain nodes id _ _ hA))

set_option maxRecDepth 100000 in
theorem example_wide_first :
    ∀ k ∈ List.range 67,
      map_find (k : Int) example_wide.nodes = some (example_node [] (ids 67 66) 1) := by
  decide!

set_option maxRecDepth 100000 in
theorem example_wide_second :
    ∀ k ∈ List.range 66,
      map_find (67 + (k : Int)) example_wide.nodes = some (example_node [] (ids 0 67) (-1)) := by
  decide!

theorem map_find_append_some {K V : Type} [DecidableEq K] (k : K) (v : V) (m m2 : List (K × V))
    (h : map_find k m = some v) : map_find k (m ++ m2) = some v := by
  induction m with
  | nil => simp [map_find] at h
  | cons p ps ih =>
    obtain ⟨pk, pv⟩ := p
    simp only [map_find, List.cons_append] at h ⊢
    by_cases hk : pk = k
    · rw [if_pos hk] at h ⊢
      exact h
    · rw [if_neg hk] at h ⊢
      exact ih h

/-- The search from node 0 of `example_wide` as the program runs it: node 66
comes out on both sides. -/
theorem example_wide_component :
    get_alt_component_ref example_wide 0 false = .ok (ids 0 67, ids 66 67) :=
  get_alt_component_ref_of_fuel example_wide 0 _ _
    (wide_search example_wide.nodes 0
      (fun k hk => ⟨_, example_wide_first k (List.mem_range.mpr hk), rfl⟩)
      (fun k hk => ⟨_, example_wide_second k (List.mem_range.mpr hk), rfl⟩))

theorem example_wide_plus_component :
    get_alt_component_ref example_wide_plus 0 false = .ok (ids 0 67, ids 66 67) :=
  get_alt_component_ref_of_fuel example_wide_plus 0 _ _
    (wide_search example_wide_plus.nodes 0
      (fun k hk => ⟨_, map_find_append_some _ _ _ _
        (example_wide_first k (List.mem_range.mpr hk)), rfl⟩)
      (fun k hk => ⟨_, map_find_append_some _ _ _ _
        (example_wide_second k (List.mem_range.mpr hk)), rfl⟩))


/-! ## The linking loops of `add_alt` on sides that overlap -/

theorem for_each_append {α : Type} (body : MultiContactGraph → α → Outcome) :
    ∀ (xs ys : List α) (g : MultiContactGraph),
      for_each body (xs ++ ys) g = (for_each body xs g).andThen (for_each body ys) := by
  intro xs
  induction xs with
  | nil => intro ys g; rfl
  | cons x xs ih =>
    intro ys g
    show (body g x).andThen (for_each body (xs ++ ys)) =
      ((body g x).andThen (for_each body xs)).andThen (for_each body ys)
    cases body g x with
    | returned g1 => exact ih ys g1
    | threw e g1 => rfl
    | out_of_fuel => rfl

theorem for_each_singleton {α : Type} (body : MultiContactGraph → α → Outcome) (x : α)
    (g : MultiContactGraph) : for_each body [x] g = body g x := by
  show (body g x).andThen (for_each body []) = body g x
  cases body g x <;> rfl

theorem link_alts_keys (g g1 : MultiContactGraph) (a b : Int)
    (h : link_alts g a b = .returned g1) : g1.nodes.map Prod.fst = g.nodes.map Prod.fst := by
  unfold link_alts at h
  cases hb : map_find b g.nodes with
  | none => simp [hb] at h
  | some nb =>
    simp only [hb, Outcome.returned.injEq] at h
    subst h
    simp only [map_update_keys]

theorem LinkedAlts.of_no_links (g : MultiContactGraph) (R : Int → Int → Prop)
    (hR : ∀ x y, ¬ R x y) : LinkedAlts g g R where
  alts := by intro x y; simp [hR]
  sorted := fun h => h
  present := fun _ => rfl
  keys := rfl
  labels := by
    intro x ⟨y, hy⟩
    rcases hy with hy | hy
    · exact absurd hy (hR x y)
    · exact absurd hy (hR y x)
  others := fun _ _ => rfl

theorem LinkedAlts.of_iff {g g1 : MultiContactGraph} {R R1 : Int → Int → Prop}
    (h : LinkedAlts g g1 R) (hR : ∀ x y, R1 x y ↔ R x y) : LinkedAlts g g1 R1 := by
  have e : R1 = R := by funext x y; exact propext (hR x y)
  rw [e]; exact h

/-- Two rounds of linking compose, whatever the sides of the two relations. -/
theorem LinkedAlts.compose {g g1 g2 : MultiContactGraph} {R1 R2 : Int → Int → Prop}
    (h1 : LinkedAlts g g1 R1) (h2 : LinkedAlts g1 g2 R2) :
    LinkedAlts g g2 (fun x y => R1 x y ∨ R2 x y) where
  alts := by
    intro x y
    rw [h2.alts, h1.alts]
    tauto
  sorted := fun h => h2.sorted (h1.sorted h)
  present := fun x => (h2.present x).trans (h1.present x)
  keys := h2.keys.trans h1.keys
  labels := by
    intro x hx hp
    by_cases hx2 : ∃ y, R2 x y ∨ R2 y x
    · exact h2.labels x hx2 ((h1.present x).trans hp)
    · rw [h2.others x hx2]
      apply h1.labels x _ hp
      obtain ⟨y, hy⟩ := hx
      refine ⟨y, ?_⟩
      rcases hy with (h | h) | (h | h)
      · exact Or.inl h
      · exact absurd ⟨y, Or.inl h⟩ hx2
      · exact Or.inr h
      · exact absurd ⟨y, Or.inr h⟩ hx2
  others := by
    intro x hx
    rw [h2.others x (fun ⟨y, hy⟩ => hx ⟨y, by tauto⟩),
      h1.others x (fun ⟨y, hy⟩ => hx ⟨y, by tauto⟩)]

/-- One call of `link_alts` on two present nodes, which may be the same node:
the second node ends with the label `-1`, written last. -/
theorem link_alts_linked (g : MultiContactGraph) (a b : Int)
    (ha : (map_find a g.nodes).isSome = true) (hb : (map_find b g.nodes).isSome = true) :
    ∃ g1, link_alts g a b = .returned g1 ∧ LinkedAlts g g1 (fun x y => x = a ∧ y = b) ∧
      partition_of g1 b = some (-1) ∧ (a ≠ b → partition_of g1 a = some 1) := by
  obtain ⟨na, hna⟩ := Option.isSome_iff_exists.mp ha
  obtain ⟨nb, hnb⟩ := Option.isSome_iff_exists.mp hb
  obtain ⟨g1, h1, l⟩ := link_alts_effect g a b na nb hna hnb
  refine ⟨g1, h1, ⟨l.alts, l.sorted, l.present, link_alts_keys g g1 a b h1, ?_, ?_⟩, ?_, ?_⟩
  · intro x hx hp
    by_cases hxb : x = b
    · exact Or.inr (l.second x ⟨a, rfl, hxb⟩ hp)
    · left
      obtain ⟨y, hy⟩ := hx
      rcases hy with hy | hy
      · exact l.first x ⟨y, hy⟩ (fun ⟨z, hz⟩ => hxb hz.2) hp
      · exact absurd hy.2 hxb
  · intro x hx
    exact l.others x (fun ⟨y, hy⟩ => hx ⟨y, Or.inl hy⟩) (fun ⟨y, hy⟩ => hx ⟨y, Or.inr hy⟩)
  · exact l.second b ⟨a, rfl, rfl⟩ hb
  · intro hab
    exact l.first a ⟨b, rfl, rfl⟩ (fun ⟨z, hz⟩ => hab hz.2) ha

/-- The inner linking loop of `add_alt`, for a list that may hold `a`. -/
theorem link_inner_loop_alts (a : Int) :
    ∀ (xs : List Int) (g : MultiContactGraph), (map_find a g.nodes).isSome = true →
      (∀ x, x ∈ xs → (map_find x g.nodes).isSome = true) →
      ∃ g1, for_each (fun g2 id_b => link_alts g2 a id_b) xs g = .returned g1 ∧
        LinkedAlts g g1 (fun x y => x = a ∧ y ∈ xs) := by
  intro xs
  induction xs with
  | nil =>
    intro g _ _
    exact ⟨g, rfl, LinkedAlts.of_no_links g _ (by simp)⟩
  | cons b xs ih =>
    intro g ha hxs
    obtain ⟨g1, h1, l1, _, _⟩ := link_alts_linked g a b ha (hxs b (List.mem_cons_self _ _))
    obtain ⟨g2, h2, l2⟩ := ih g1 ((l1.present a).trans ha)
      (fun x hx => (l1.present x).trans (hxs x (List.mem_cons_of_mem _ hx)))
    refine ⟨g2, by simp [for_each, h1, Outcome.andThen, h2], ?_⟩
    refine (l1.compose l2).of_iff ?_
    intro x y
    simp only [List.mem_cons]
    tauto

/-- The two nested linking loops of `add_alt`, for sides that may overlap. -/
theorem link_outer_loop_alts (m1 : List Int) :
    ∀ (xs : List Int) (g : MultiContactGraph),
      (∀ x, x ∈ xs → (map_find x g.nodes).isSome = true) →
      (∀ x, x ∈ m1 → (map_find x g.nodes).isSome = true) →
      ∃ g1, for_each
          (fun g1 id_a =>
            match map_find id_a g1.nodes with
            | none => .threw .out_of_range g1
            | some _ => for_each (fun g2 id_b => link_alts g2 id_a id_b) m1 g1)
          xs g = .returned g1 ∧
        LinkedAlts g g1 (fun x y => x ∈ xs ∧ y ∈ m1) := by
  intro xs
  induction xs with
  | nil =>
    intro g _ _
    exact ⟨g, rfl, LinkedAlts.of_no_links g _ (by simp)⟩
  | cons a xs ih =>
    intro g hxs hm
    have ha := hxs a (List.mem_cons_self _ _)
    obtain ⟨na, hna⟩ := Option.isSome_iff_exists.mp ha
    obtain ⟨g1, h1, l1⟩ := link_inner_loop_alts a m1 g ha hm
    obtain ⟨g2, h2, l2⟩ := ih g1
      (fun x hx => (l1.present x).trans (hxs x (List.mem_cons_of_mem _ hx)))
      (fun x hx => (l1.present x).trans (hm x hx))
    refine ⟨g2, by simp [for_each, hna, h1, Outcome.andThen, h2], ?_⟩
    refine (l1.compose l2).of_iff ?_
    intro x y
    simp only [List.mem_cons]
    tauto

/-- The labels the nested loops leave at the last node of each side: the last
call of `link_alts` writes them. -/
theorem link_loops_last (m0 m1 : List Int) (a b : Int) (hab : a ≠ b) (g : MultiContactGraph)
    (h0 : ∀ x, x ∈ m0 ++ [a] → (map_find x g.nodes).isSome = true)
    (h1 : ∀ x, x ∈ m1 ++ [b] → (map_find x g.nodes).isSome = true) :
    ∃ g1, for_each
        (fun g1 id_a =>
          match map_find id_a g1.nodes with
          | none => .threw .out_of_range g1
          | some _ => for_each (fun g2 id_b => link_alts g2 id_a id_b) (m1 ++ [b]) g1)
        (m0 ++ [a]) g = .returned g1 ∧
      LinkedAlts g g1 (fun x y => x ∈ m0 ++ [a] ∧ y ∈ m1 ++ [b]) ∧
      partition_of g1 a = some 1 ∧ partition_of g1 b = some (-1) := by
  obtain ⟨gf, hf, lf⟩ := link_outer_loop_alts (m1 ++ [b]) (m0 ++ [a]) g h0 h1
  refine ⟨gf, hf, lf, ?_⟩
  obtain ⟨ga, hga, la⟩ := link_outer_loop_alts (m1 ++ [b]) m0 g
    (fun x hx => h0 x (List.mem_append_left _ hx)) h1
  have hpa : (map_find a ga.nodes).isSome = true :=
    (la.present a).trans (h0 a (by simp))
  obtain ⟨na, hna⟩ := Option.isSome_iff_exists.mp hpa
  obtain ⟨gb, hgb, lb⟩ := link_inner_loop_alts a m1 ga hpa
    (fun x hx => (la.present x).trans (h1 x (List.mem_append_left _ hx)))
  obtain ⟨gc, hgc, _, hlb, hla⟩ := link_alts_linked gb a b ((lb.present a).trans hpa)
    ((lb.present b).trans ((la.present b).trans (h1 b (by simp))))
  rw [for_each_append, hga] at hf
  simp only [Outcome.andThen] at hf
  rw [for_each_singleton] at hf
  simp only [hna] at hf
  rw [for_each_append, hgb] at hf
  simp only [Outcome.andThen] at hf
  rw [for_each_singleton, hgc] at hf
  simp only [Outcome.returned.injEq] at hf
  subst hf
  exact ⟨hla hab, hlb⟩

/-- The head of an ascending list is its least member. -/
theorem head_of_sorted (l : List Int) (m : Int) (hs : l.Sorted (· < ·)) (hm : m ∈ l)
    (hmin : ∀ y, y ∈ l → m ≤ y) : ∃ rest, l = m :: rest := by
  cases l with
  | nil => simp at hm
  | cons z rest =>
    refine ⟨rest, ?_⟩
    have hz := hmin z (List.mem_cons_self _ _)
    rcases List.mem_cons.mp hm with h | h
    · rw [h]
    · have := (List.sorted_cons.mp hs).1 m h
      omega

/-! ### The component of 67 and 66 nodes -/

set_option maxRecDepth 100000 in
theorem example_wide_plus_keys : example_wide_plus.nodes.map Prod.fst = ids 0 134 := by
  decide!

theorem example_wide_plus_present (x : Int) (h0 : 0 ≤ x) (h1 : x < 134) :
    (map_find x example_wide_plus.nodes).isSome = true := by
  cases h : map_find x example_wide_plus.nodes with
  | some _ => rfl
  | none =>
    rw [map_find_none_iff, example_wide_plus_keys, mem_ids] at h
    omega

theorem example_wide_node (x : Int) (n : MultiNode) (h : (x, n) ∈ example_wide.nodes) :
    (0 ≤ x ∧ x < 67 ∧ n.alts = ids 67 66) ∨ (67 ≤ x ∧ x < 133 ∧ n.alts = ids 0 67) := by
  unfold example_wide at h
  simp only [List.mem_append, List.mem_map, Prod.mk.injEq] at h
  rcases h with ⟨a, ha, rfl, rfl⟩ | ⟨b, hb, rfl, rfl⟩
  · have := (mem_ids 0 67 _).mp ha
    exact Or.inl ⟨by omega, by omega, rfl⟩
  · have := (mem_ids 67 66 _).mp hb
    exact Or.inr ⟨by omega, by omega, rfl⟩

theorem example_wide_alts (x y : Int) (h : y ∈ alts_of example_wide x) :
    (0 ≤ x ∧ x < 67 ∧ 67 ≤ y ∧ y < 133) ∨ (67 ≤ x ∧ x < 133 ∧ 0 ≤ y ∧ y < 67) := by
  unfold alts_of at h
  cases hx : map_find x example_wide.nodes with
  | none => simp [hx] at h
  | some n =>
    simp only [hx] at h
    rcases example_wide_node x n (mem_of_map_find x n _ hx) with ⟨h0, h1, ha⟩ | ⟨h0, h1, ha⟩
    · rw [ha, mem_ids] at h
      exact Or.inl ⟨h0, h1, by omega, by omega⟩
    · rw [ha, mem_ids] at h
      exact Or.inr ⟨h0, h1, by omega, by omega⟩

theorem example_wide_plus_node (x : Int) (n : MultiNode)
    (h : map_find x example_wide_plus.nodes = some n) :
    (0 ≤ x ∧ x < 67 ∧ n.alts = ids 67 66) ∨ (67 ≤ x ∧ x < 133 ∧ n.alts = ids 0 67) ∨
      (x = 133 ∧ n.alts = []) := by
  have hm := mem_of_map_find x n _ h
  unfold example_wide_plus at hm
  rcases List.mem_append.mp hm with hm | hm
  · rcases example_wide_node x n hm with h1 | h1
    · exact Or.inl h1
    · exact Or.inr (Or.inl h1)
  · simp only [List.mem_singleton, Prod.mk.injEq] at hm
    exact Or.inr (Or.inr ⟨hm.1, by rw [hm.2]; rfl⟩)

theorem example_wide_plus_alts (x y : Int) (h : y ∈ alts_of example_wide_plus x) :
    (0 ≤ x ∧ x < 67 ∧ 67 ≤ y ∧ y < 133) ∨ (67 ≤ x ∧ x < 133 ∧ 0 ≤ y ∧ y < 67) := by
  unfold alts_of at h
  cases hx : map_find x example_wide_plus.nodes with
  | none => simp [hx] at h
  | some n =>
    simp only [hx] at h
    rcases example_wide_plus_node x n hx with ⟨h0, h1, ha⟩ | ⟨h0, h1, ha⟩ | ⟨_, ha⟩
    · rw [ha, mem_ids] at h
      exact Or.inl ⟨h0, h1, by omega, by omega⟩
    · rw [ha, mem_ids] at h
      exact Or.inr ⟨h0, h1, by omega, by omega⟩
    · rw [ha] at h
      simp at h

theorem example_wide_plus_sorted (x : Int) : (alts_of example_wide_plus x).Sorted (· < ·) := by
  unfold alts_of
  cases hx : map_find x example_wide_plus.nodes with
  | none => exact List.sorted_nil
  | some n =>
    simp only []
    rcases example_wide_plus_node x n hx with ⟨_, _, ha⟩ | ⟨_, _, ha⟩ | ⟨_, ha⟩
    · rw [ha]; exact sorted_ids _ _
    · rw [ha]; exact sorted_ids _ _
    · rw [ha]; exact List.sorted_nil


/-! ### `add_alt(0, 133)` on the component of 67 and 66 nodes -/

set_option maxRecDepth 100000 in
theorem example_wide_plus_last :
    map_find (133 : Int) example_wide_plus.nodes = some (example_node [] [] 0) := by
  decide!

theorem example_wide_plus_zero :
    map_find (0 : Int) example_wide_plus.nodes = some (example_node [] (ids 67 66) 1) :=
  map_find_append_some _ _ _ _ (example_wide_first 0 (by decide))

/-- The component of the fresh node 133. -/
theorem example_wide_plus_single :
    get_alt_component_ref example_wide_plus 133 false = .ok ([133], []) := by
  apply get_alt_component_ref_of_fuel example_wide_plus 133 1
  rw [bfs_loop_ref_cons]
  simp only [example_wide_plus_last]
  rfl

set_option maxRecDepth 100000 in
theorem wide_compatible :
    components_are_compatible (ids 0 67, ids 66 67) ([133], []) = true := by
  decide!

set_option maxRecDepth 100000 in
theorem wide_merge :
    merge_components (ids 0 67, ids 66 67) ([133], []) =
      (ids 0 66 ++ [66], ids 66 67 ++ [133]) := by
  decide!

/-- The call `add_alt(a, b)` for two present nodes that are not alts of each
other and whose components are compatible is the run of the two nested
linking loops over the sides of the merged component. -/
theorem add_alt_ref_eq_loops (g : MultiContactGraph) (a b : Int) (na nb : MultiNode)
    (ca cb : alt_component_t) (m0 m1 : List Int)
    (ha : map_find a g.nodes = some na) (hb : map_find b g.nodes = some nb)
    (hab : a ≠ b) (hnot : b ∉ na.alts)
    (hca : get_alt_component_ref g a false = .ok ca)
    (hcb : get_alt_component_ref g b false = .ok cb)
    (hcomp : components_are_compatible ca cb = true)
    (hm : merge_components ca cb = (m0, m1)) :
    add_alt_ref false g a b =
      for_each
        (fun g1 id_a =>
          match map_find id_a g1.nodes with
          | none => .threw .out_of_range g1
          | some _ => for_each (fun g2 id_b => link_alts g2 id_a id_b) m1 g1)
        m0 g := by
  unfold add_alt_ref
  simp only [ha, hb, if_neg hab, if_neg hnot, hca, hcb]
  unfold add_alt_components
  simp only [hcomp, hm, if_true, Bool.false_eq_true, if_false, Outcome.andThen]
  try rfl

/-- The call `add_alt(0, 133)` on `example_wide_plus` as the program runs it:
it returns, and it links every node of 0..66 with every node of 66..133, node
66 with itself among them; the last call of `link_alts` is that of 66 and
133. -/
theorem wide_add_alt :
    ∃ g1, add_alt_ref false example_wide_plus 0 133 = .returned g1 ∧
      LinkedAlts example_wide_plus g1 (fun x y => x ∈ ids 0 67 ∧ y ∈ ids 66 68) ∧
      partition_of g1 66 = some 1 ∧ partition_of g1 133 = some (-1) := by
  have e0 : ids 0 67 = ids 0 66 ++ [66] := ids_succ_append 0 66
  have e1 : ids 66 68 = ids 66 67 ++ [133] := ids_succ_append 66 67
  obtain ⟨g1, hg1, l1, hpa, hpb⟩ := link_loops_last (ids 0 66) (ids 66 67) 66 133 (by decide)
    example_wide_plus
    (fun x hx => by
      rw [← e0, mem_ids] at hx
      exact example_wide_plus_present x (by omega) (by omega))
    (fun x hx => by
      rw [← e1, mem_ids] at hx
      exact example_wide_plus_present x (by omega) (by omega))
  have hnot : ¬ (133 : Int) ∈ (example_node [] (ids 67 66) 1).alts := by
    show ¬ (133 : Int) ∈ ids 67 66
    rw [mem_ids]
    omega
  exact ⟨g1,
    (add_alt_ref_eq_loops example_wide_plus 0 133 _ _ _ _ _ _ example_wide_plus_zero
      example_wide_plus_last (by decide) hnot example_wide_plus_component
      example_wide_plus_single wide_compatible wide_merge).trans hg1,
    l1.of_iff (fun x y => by rw [e0, e1]), hpa, hpb⟩

/-! ### The first two iterations of the search -/

theorem mem_enqueued_ref_of_clean (popped pushed : Nat) (node : MultiNode)
    (c : alt_component_t) (v : Int) (d : Nat) (hs : stale_slot popped pushed = none)
    (t : Int) (ht : t ∈ node.alts) (hu : unseen c t = true) :
    (t, d + 1) ∈ enqueued_ref popped pushed node c v d := by
  unfold enqueued_ref
  rw [hs, emplace_alts_none]
  exact List.mem_map.mpr ⟨t, List.mem_filter.mpr ⟨ht, hu⟩, rfl⟩

/-- The search from `a` visits the first alt `z` of `a` second, at distance 1,
and puts the alts of `z` other than `a` and `z` on the side of `a`. -/
theorem search_two_steps (g : MultiContactGraph) (a z t : Int) (na nz : MultiNode)
    (rest : List Int) (cf : alt_component_t)
    (ha : map_find a g.nodes = some na) (hz : map_find z g.nodes = some nz)
    (hhead : na.alts = z :: rest) (hza : z ≠ a) (ht : t ∈ nz.alts) (hta : t ≠ a) (htz : t ≠ z)
    (hc : get_alt_component_ref g a false = .ok cf) : t ∈ cf.1 ∧ z ∈ cf.2 := by
  rw [get_alt_component_ref_ok_iff] at hc
  have h2 : bfs_loop_ref g.nodes a (bfs_fuel g.nodes + 1 + 1) 0 1 [(a, 0)] ([], []) = .ok cf :=
    bfs_loop_ref_ok_of_fuel g.nodes a _ _ _ _ _ _ _ hc
      (bfs_loop_ref_ne_out_of_fuel g.nodes a _ _ _ _ _
        (Nat.lt_of_lt_of_le (potential_initial g.nodes a) (by omega)))
  rw [bfs_loop_ref_cons] at h2
  simp only [ha] at h2
  have hp0 : placed ([], []) a 0 = ([a], []) := rfl
  have he0 : enqueued_ref 0 1 na ([a], []) a 0 =
      (z, 1) :: (rest.filter (fun alt_id => unseen ([a], []) alt_id)).map
        (fun x => (x, 0 + 1)) := by
    unfold enqueued_ref
    have hs : stale_slot 0 1 = none := rfl
    have hu : unseen ([a], []) z = true := by simp [unseen, hza]
    rw [hs, emplace_alts_none, hhead, List.filter_cons_of_pos hu, List.map_cons]
  rw [hp0, he0, List.nil_append, bfs_loop_ref_cons] at h2
  simp only [hz] at h2
  have hp1 : placed ([a], []) z 1 = ([a], [z]) := rfl
  rw [hp1] at h2
  obtain ⟨_, hs2, hq⟩ := bfs_loop_ref_sides g.nodes a _ _ _ _ _ cf h2
  refine ⟨?_, hs2 z (by simp)⟩
  have hmem := mem_enqueued_ref_of_clean (0 + 1)
    (1 + ((z, 1) :: (rest.filter (fun alt_id => unseen ([a], []) alt_id)).map
      (fun x => (x, 0 + 1))).length) nz ([a], [z]) z 1
    (by simp [stale_slot, deque_block]) t ht (by simp [unseen, hta, htz])
  exact (hq (t, 1 + 1) (List.mem_append_right _ hmem)).1 (by norm_num)

/-! ### `set_partition` as the program runs it -/

theorem label_loop_keys (p : Int) (xs : List Int) (g g1 : MultiContactGraph)
    (h : for_each (fun g2 alt_id =>
      nodes_at g2 alt_id (fun n => { n with partition := p })) xs g = .returned g1) :
    g1.nodes.map Prod.fst = g.nodes.map Prod.fst :=
  for_each_invariant (fun g2 => g2.nodes.map Prod.fst = g.nodes.map Prod.fst) _ xs
    (fun ga gb x _ hP hb => by
      obtain ⟨rfl, _⟩ := nodes_at_returned ga gb x _ hb
      exact (map_update_keys x (fun n : MultiNode => { n with partition := p }) ga.nodes).trans
        hP)
    g g1 rfl h

/-- The call `set_partition(id, p)` for a node with alts and a label other
than 0, in terms of the component that `get_alt_component_ref` finds: every
node on the first side holds `p` afterwards, whether or not it is also on the
second side, because the first side is written last. -/
theorem set_partition_ref_spec (g : MultiContactGraph) (id p : Int) (n0 : MultiNode)
    (hid : map_find id g.nodes = some n0) (hne : n0.alts ≠ []) (hp : p ≠ 0)
    (c : alt_component_t) (hc : get_alt_component_ref g id false = .ok c) :
    ∃ g1, set_partition_ref g id p = .returned g1 ∧ same_links g g1 ∧
      g1.nodes.map Prod.fst = g.nodes.map Prod.fst ∧
      get_alt_component_ref g1 id false = .ok c ∧
      (∀ x, x ∈ c.1 → partition_of g1 x = some p) ∧
      (∀ x, x ∉ c.1 → x ∈ c.2 → partition_of g1 x = some (wrap 8 (p * -1))) ∧
      (∀ x, x ∉ c.1 → x ∉ c.2 → partition_of g1 x = partition_of g x) := by
  let f : MultiNode → MultiNode := fun n => { n with partition := p }
  let g1 : MultiContactGraph := { g with nodes := map_update id f g.nodes }
  have e1 : g1.nodes = map_update id f g.nodes := rfl
  have hs1 : same_links g g1 := same_links_update g id f (fun _ => rfl) (fun _ => rfl)
  have hk1 : g1.nodes.map Prod.fst = g.nodes.map Prod.fst := map_update_keys id f g.nodes
  have hpart1 : ∀ x, partition_of g1 x =
      if x = id then (partition_of g x).map (fun _ => p) else partition_of g x :=
    partition_of_update_const g g1 id p f e1 (fun _ => rfl)
  have hcg1 : get_alt_component_ref g1 id false = .ok c :=
    get_alt_component_ref_congr g g1 hs1.1 hs1.2.2.1 id c hc
  have hpres : ∀ x, (x ∈ c.1 ∨ x ∈ c.2) → (map_find x g1.nodes).isSome = true :=
    bfs_loop_ref_members_present g1.nodes id _ 0 1 [(id, 0)] ([], []) c (by simp)
      ((get_alt_component_ref_ok_iff g1 id c).mp hcg1)
  have hidc : id ∈ c.1 :=
    ((bfs_loop_ref_sides g1.nodes id _ 0 1 [(id, 0)] ([], []) c
      ((get_alt_component_ref_ok_iff g1 id c).mp hcg1)).2.2 (id, 0) (by simp)).1 rfl
  obtain ⟨g2, h2, hs2, _, hpart2⟩ := label_loop (wrap 8 (p * -1)) c.2 g1
    (fun x hx => hpres x (Or.inr hx))
  obtain ⟨g3, h3, hs3, _, hpart3⟩ := label_loop p c.1 g2
    (fun x hx => (hs2.2.2.1 x).trans (hpres x (Or.inl hx)))
  have hmap : ∀ (o : Option Int) (q : Int), o.isSome = true →
      o.map (fun _ => q) = some q := by
    intro o q ho
    obtain ⟨v, rfl⟩ := Option.isSome_iff_exists.mp ho
    rfl
  have hsl : same_links g g3 := same_links_trans hs1 (same_links_trans hs2 hs3)
  refine ⟨g3, ?_, hsl,
    ((label_loop_keys p c.1 g2 g3 h3).trans
      (label_loop_keys (wrap 8 (p * -1)) c.2 g1 g2 h2)).trans hk1,
    get_alt_component_ref_congr g g3 hsl.1 hsl.2.2.1 id c hc, ?_, ?_, ?_⟩
  · unfold set_partition_ref
    simp only [hid, (has_alt_iff n0).mpr hne, if_true, if_neg hp]
    rw [hcg1]
    simp only
    rw [h2]
    exact h3
  · intro x hx
    rw [hpart3, if_pos hx]
    exact hmap _ p ((partition_of_isSome g2 x).trans
      ((hs2.2.2.1 x).trans (hpres x (Or.inl hx))))
  · intro x hx1 hx2
    rw [hpart3, if_neg hx1, hpart2, if_pos hx2]
    exact hmap _ _ ((partition_of_isSome g1 x).trans (hpres x (Or.inr hx2)))
  · intro x hx1 hx2
    have hxid : x ≠ id := fun e => hx1 (e ▸ hidc)
    rw [hpart3, if_neg hx1, hpart2, if_neg hx2, hpart1, if_neg hxid]

/-- The call `set_partition(id, p)` returns for a present node when every id
in an alts set is a present node and `p` is not 0 for a node with alts; it
writes labels only. -/
theorem set_partition_ref_returns (g : MultiContactGraph) (id p : Int) (n0 : MultiNode)
    (halts : ∀ x y, y ∈ alts_of g x → (map_find y g.nodes).isSome = true)
    (hid : map_find id g.nodes = some n0) (hp : n0.alts ≠ [] → p ≠ 0) :
    ∃ g1, set_partition_ref g id p = .returned g1 ∧ same_links g g1 ∧
      g1.nodes.map Prod.fst = g.nodes.map Prod.fst := by
  by_cases hne : n0.alts = []
  · refine ⟨{ g with nodes := map_update id (fun n => { n with partition := p }) g.nodes },
      ?_, same_links_update g id _ (fun _ => rfl) (fun _ => rfl),
      map_update_keys id (fun n : MultiNode => { n with partition := p }) g.nodes⟩
    have hh : n0.has_alt = false := by
      cases h : n0.has_alt with
      | false => rfl
      | true => exact absurd hne ((has_alt_iff n0).mp h)
    unfold set_partition_ref
    simp only [hid, hh]
    rfl
  · obtain ⟨c, hc⟩ := get_alt_component_ref_returns_of_alts g id halts (by rw [hid]; rfl)
    obtain ⟨g1, h1, hs, hk, _⟩ := set_partition_ref_spec g id p n0 hid hne (hp hne) c hc
    exact ⟨g1, h1, hs, hk⟩


/-! ## What every graph the program builds keeps -/

theorem alts_symmetric_congr {g g1 : MultiContactGraph} (hs : alts_symmetric g)
    (h : ∀ x, alts_of g1 x = alts_of g x) : alts_symmetric g1 := by
  intro x y hxy
  rw [h] at hxy ⊢
  exact hs x y hxy

theorem alts_symmetric_emplace (g : MultiContactGraph) (id p : Int) (hs : alts_symmetric g) :
    alts_symmetric (raise_max_id
      { g with nodes := map_emplace id (MultiNode.mk_partition p) g.nodes } id) :=
  alts_symmetric_congr
    (alts_symmetric_congr hs (links_emplace g id (MultiNode.mk_partition p) rfl rfl).1)
    (same_links_raise_max_id _ id).1

theorem alts_symmetric_try_emplace (g : MultiContactGraph) (id p : Int)
    (hs : alts_symmetric g) :
    alts_symmetric (raise_max_id
      (if (map_find id g.nodes).isNone then
        { g with nodes := map_emplace id (MultiNode.mk_partition p) g.nodes }
       else g) id) := by
  split_ifs
  · exact alts_symmetric_emplace g id p hs
  · exact alts_symmetric_congr hs (same_links_raise_max_id _ id).1

theorem alts_after_try_insert_edge (g g1 : MultiContactGraph) (a b w : Int)
    (h : try_insert_edge g a b w = .returned g1) : ∀ x, alts_of g1 x = alts_of g x := by
  unfold try_insert_edge at h
  split_ifs at h
  cases hf : map_find (edge a b) g.edge_weights with
  | none =>
    simp only [hf] at h
    exact (insert_edge_effect g g1 a b w h).1
  | some _ =>
    simp only [hf, Outcome.returned.injEq] at h
    subst h
    exact fun _ => rfl

theorem alts_after_try_insert_edge2 (g g1 : MultiContactGraph) (a b : Int)
    (h : try_insert_edge2 g a b = .returned g1) : ∀ x, alts_of g1 x = alts_of g x := by
  unfold try_insert_edge2 at h
  split_ifs at h
  cases hf : map_find (edge a b) g.edge_weights with
  | none =>
    simp only [hf] at h
    exact (insert_edge_effect g g1 a b 0 h).1
  | some _ =>
    simp only [hf, Outcome.returned.injEq] at h
    subst h
    exact fun _ => rfl

theorem alts_after_increment_edge_weight (g g1 : MultiContactGraph) (a b v : Int)
    (h : increment_edge_weight g a b v = .returned g1) : ∀ x, alts_of g1 x = alts_of g x := by
  unfold increment_edge_weight at h
  split_ifs at h
  cases hf : map_find (edge a b) g.edge_weights with
  | none =>
    simp only [hf, Outcome.returned.injEq] at h
    subst h
    exact fun _ => rfl
  | some w =>
    simp only [hf, Outcome.returned.injEq] at h
    subst h
    exact fun _ => rfl

/-- A run of `remove_edge` calls keeps the alts sets and the nodes. -/
theorem remove_edges_keep_alts {α : Type} (f : α → Int × Int) (xs : List α)
    (g g1 : MultiContactGraph)
    (h : for_each (fun g2 x => remove_edge g2 (f x).1 (f x).2) xs g = .returned g1) :
    (∀ x, alts_of g1 x = alts_of g x) ∧
      ∀ x, (map_find x g1.nodes).isSome = (map_find x g.nodes).isSome :=
  for_each_invariant
    (fun g2 => (∀ x, alts_of g2 x = alts_of g x) ∧
      ∀ x, (map_find x g2.nodes).isSome = (map_find x g.nodes).isSome) _ xs
    (fun p q e _ hP hb => by
      obtain ⟨h1, h2, _⟩ := remove_edge_effect p q _ _ hb
      exact ⟨fun x => (h1 x).trans (hP.1 x), fun x => (h2 x).trans (hP.2 x)⟩)
    g g1 ⟨fun _ => rfl, fun _ => rfl⟩ h

theorem remove_component_edges_keep_alts :
    ∀ (l : List Int) (g g1 : MultiContactGraph), remove_component_edges l g = .returned g1 →
      (∀ x, alts_of g1 x = alts_of g x) ∧
        ∀ x, (map_find x g1.nodes).isSome = (map_find x g.nodes).isSome := by
  intro l
  induction l with
  | nil =>
    intro g g1 h
    simp only [remove_component_edges, Outcome.returned.injEq] at h
    subst h
    exact ⟨fun _ => rfl, fun _ => rfl⟩
  | cons a rest ih =>
    intro g g1 h
    unfold remove_component_edges at h
    obtain ⟨g2, h2, h3⟩ := andThen_returned _ _ _ h
    have e2 := remove_edges_keep_alts (fun id_b => (a, id_b)) rest g g2 h2
    have e3 := ih g2 g1 h3
    exact ⟨fun x => (e3.1 x).trans (e2.1 x), fun x => (e3.2 x).trans (e2.2 x)⟩

theorem present_of_symmetric {g : MultiContactGraph} (hs : alts_symmetric g) (x y : Int)
    (h : y ∈ alts_of g x) : (map_find y g.nodes).isSome = true := by
  obtain ⟨n, hn⟩ := has_node_of_mem_alts g y x (hs x y h)
  rw [hn]
  rfl

theorem get_alt_component_ref_members (g : MultiContactGraph) (id : Int)
    (c : alt_component_t) (hc : get_alt_component_ref g id false = .ok c) :
    ∀ x, (x ∈ c.1 ∨ x ∈ c.2) → (map_find x g.nodes).isSome = true :=
  bfs_loop_ref_members_present g.nodes id _ 0 1 [(id, 0)] ([], []) c (by simp)
    ((get_alt_component_ref_ok_iff g id c).mp hc)

theorem alts_symmetric_add_alt_ref (g g1 : MultiContactGraph) (flag : Bool) (a b : Int)
    (hs : alts_symmetric g) (h : add_alt_ref flag g a b = .returned g1) :
    alts_symmetric g1 := by
  unfold add_alt_ref at h
  cases hfa : map_find a g.nodes with
  | none => simp [hfa] at h
  | some na =>
    cases hfb : map_find b g.nodes with
    | none => simp [hfa, hfb] at h
    | some nb =>
      simp only [hfa, hfb] at h
      split_ifs at h with hab hnot
      · simp only [Outcome.returned.injEq] at h
        exact h ▸ hs
      · cases hca : get_alt_component_ref g a false with
        | threw e => simp [hca] at h
        | out_of_fuel => simp [hca] at h
        | ok ca =>
          cases hcb : get_alt_component_ref g b false with
          | threw e => simp [hca, hcb] at h
          | out_of_fuel => simp [hca, hcb] at h
          | ok cb =>
            simp only [hca, hcb] at h
            unfold add_alt_components at h
            by_cases hcomp : components_are_compatible ca cb = true
            swap
            · rw [if_neg hcomp] at h
              cases h
            rw [if_pos hcomp] at h
            obtain ⟨g2, h2, h3⟩ := andThen_returned _ _ _ h
            have e2 : (∀ x, alts_of g2 x = alts_of g x) ∧
                ∀ x, (map_find x g2.nodes).isSome = (map_find x g.nodes).isSome := by
              cases flag with
              | true => exact remove_component_edges_keep_alts _ g g2 h2
              | false =>
                simp only [Bool.false_eq_true, if_false, Outcome.returned.injEq] at h2
                subst h2
                exact ⟨fun _ => rfl, fun _ => rfl⟩
            have hma := get_alt_component_ref_members g a ca hca
            have hmb := get_alt_component_ref_members g b cb hcb
            obtain ⟨g3, h4, l⟩ := link_outer_loop_alts (merge_components ca cb).2
              (merge_components ca cb).1 g2
              (fun x hx => by
                rw [e2.2]
                rcases (mem_set_union _ _ x).mp hx with h | h
                · exact hma x (Or.inl h)
                · exact hmb x (Or.inr h))
              (fun x hx => by
                rw [e2.2]
                rcases (mem_set_union _ _ x).mp hx with h | h
                · exact hma x (Or.inr h)
                · exact hmb x (Or.inl h))
            have e3 : g3 = g1 := by
              have := h4.symm.trans h3
              simpa using this
            subst e3
            intro x y hxy
            rw [l.alts, e2.1] at hxy ⊢
            rcases hxy with h | h | h
            · exact Or.inl (hs x y h)
            · exact Or.inr (Or.inr h)
            · exact Or.inr (Or.inl h)

theorem same_links_set_partition_ref (g g1 : MultiContactGraph) (id p : Int)
    (h : set_partition_ref g id p = .returned g1) : same_links g g1 := by
  unfold set_partition_ref at h
  cases hf : map_find id g.nodes with
  | none => simp [hf] at h
  | some node =>
    simp only [hf] at h
    have h0 : same_links g
        { g with nodes := map_update id (fun n => { n with partition := p }) g.nodes } :=
      same_links_update g id _ (fun _ => rfl) (fun _ => rfl)
    split_ifs at h with h1 h2
    · cases hc : get_alt_component_ref
          { g with nodes := map_update id (fun n => { n with partition := p }) g.nodes }
          id false with
      | ok component =>
        simp only [hc] at h
        obtain ⟨g2, h3, h4⟩ := andThen_returned _ _ _ h
        exact same_links_trans h0 (same_links_trans
          (same_links_for_each_nodes_at _ _ _ _ h3 (fun _ => rfl) (fun _ => rfl))
          (same_links_for_each_nodes_at _ _ _ _ h4 (fun _ => rfl) (fun _ => rfl)))
      | threw e => simp [hc] at h
      | out_of_fuel => simp [hc] at h
    · simp only [Outcome.returned.injEq] at h
      exact h ▸ h0

theorem alts_symmetric_remove_node (g g1 : MultiContactGraph) (id : Int)
    (hs : alts_symmetric g) (h : remove_node g id = .returned g1) : alts_symmetric g1 := by
  unfold remove_node at h
  cases hv : for_each_node_neighbor g id with
  | threw e => simp [hv] at h
  | out_of_fuel => simp [hv] at h
  | ok visited =>
    simp only [hv] at h
    obtain ⟨ga, ha, hrest⟩ := andThen_returned _ _ _ h
    have hla := remove_edges_keep_alts (fun e : Int × Int => e) _ g ga ha
    cases hn : map_find id ga.nodes with
    | none => simp [hn] at hrest
    | some n =>
      simp only [hn] at hrest
      obtain ⟨gb, hb, hfin⟩ := andThen_returned _ _ _ hrest
      simp only [Outcome.returned.injEq] at hfin
      have hnalts : n.alts = alts_of g id := by
        rw [← hla.1 id]
        exact (alts_of_some ga id n hn).symm
      obtain ⟨gc, hc, halts, _, _, _⟩ := erase_alt_loop id n.alts ga
        (fun x hx => by
          rw [hla.2]
          exact present_of_symmetric hs id x (hnalts ▸ hx))
      have hgb : gc = gb := by
        cases hh : n.has_alt with
        | true =>
          rw [hh] at hb
          simp only [if_true] at hb
          have := hc.symm.trans hb
          simpa using this
        | false =>
          rw [hh] at hb
          simp only [Bool.false_eq_true, if_false, Outcome.returned.injEq] at hb
          have hnil : n.alts = [] := by
            unfold MultiNode.has_alt at hh
            simpa using hh
          rw [hnil] at hc
          simp only [for_each, Outcome.returned.injEq] at hc
          exact hc.symm.trans hb
      subst hgb
      have halts1 : ∀ x, alts_of g1 x = if x = id then [] else alts_of gc x := by
        intro x
        rw [← hfin]
        have e : alts_of
            (if id = ({ gc with nodes := map_erase id gc.nodes } : MultiContactGraph).max_id
              then rescan_max_id { gc with nodes := map_erase id gc.nodes }
              else { gc with nodes := map_erase id gc.nodes }) x =
            alts_of { gc with nodes := map_erase id gc.nodes } x := by
          unfold alts_of
          rw [(rescan_nodes { gc with nodes := map_erase id gc.nodes } id).1]
        rw [e]
        exact alts_of_erase_node gc _ id rfl x
      intro x y hxy
      rw [halts1] at hxy ⊢
      by_cases hx : x = id
      · rw [if_pos hx] at hxy
        simp at hxy
      · rw [if_neg hx, halts, hla.1] at hxy
        have hy : y ∈ alts_of g x ∧ y ≠ id := by
          split_ifs at hxy with hm
          · exact (mem_set_erase _ _ _).mp hxy
          · exact ⟨hxy, fun e => hm (hnalts ▸ hs x id (e ▸ hxy))⟩
        rw [if_neg hy.2, halts, hla.1]
        split_ifs
        · exact (mem_set_erase _ _ _).mpr ⟨hs x y hy.1, hx⟩
        · exact hs x y hy.1

/-- In every graph the program builds the alt relation goes both ways. -/
theorem Reachable_ref.alts_symmetric {g : MultiContactGraph} (h : Reachable_ref g) :
    alts_symmetric g := by
  induction h with
  | empty => intro x y hxy; simp [alts_of, MultiContactGraph.empty, map_find] at hxy
  | insert_node id _ h ih =>
    unfold gfase.insert_node at h
    simp only [Outcome.returned.injEq] at h
    exact h ▸ alts_symmetric_emplace _ id 0 ih
  | insert_node_partition id p _ h ih =>
    unfold gfase.insert_node_partition at h
    split_ifs at h
    simp only [Outcome.returned.injEq] at h
    exact h ▸ alts_symmetric_emplace _ id p ih
  | try_insert_node id _ h ih =>
    unfold gfase.try_insert_node at h
    simp only [Outcome.returned.injEq] at h
    exact h ▸ alts_symmetric_try_emplace _ id 0 ih
  | try_insert_node_partition id p _ h ih =>
    unfold gfase.try_insert_node_partition at h
    simp only [Outcome.returned.injEq] at h
    exact h ▸ alts_symmetric_try_emplace _ id p ih
  | try_insert_edge a b w _ h ih =>
    exact alts_symmetric_congr ih (alts_after_try_insert_edge _ _ a b w h)
  | try_insert_edge2 a b _ h ih =>
    exact alts_symmetric_congr ih (alts_after_try_insert_edge2 _ _ a b h)
  | increment_edge_weight a b v _ h ih =>
    exact alts_symmetric_congr ih (alts_after_increment_edge_weight _ _ a b v h)
  | increment_coverage id v _ h ih =>
    exact alts_symmetric_congr ih (same_links_increment_coverage _ _ id v h).1
  | set_node_coverage id v _ h ih =>
    exact alts_symmetric_congr ih (same_links_set_node_coverage _ _ id v h).1
  | set_node_length id v _ h ih =>
    exact alts_symmetric_congr ih (same_links_set_node_length _ _ id v h).1
  | remove_edge a b _ h ih =>
    exact alts_symmetric_congr ih (remove_edge_effect _ _ a b h).1
  | remove_node id _ h ih => exact alts_symmetric_remove_node _ _ id ih h
  | add_alt flag a b _ h ih => exact alts_symmetric_add_alt_ref _ _ flag a b ih h
  | set_partition id p _ h ih =>
    exact alts_symmetric_congr ih (same_links_set_partition_ref _ _ id p h).1

/-- In every graph the program builds an id in an alts set is a present
node. -/
theorem Reachable_ref.alts_present {g : MultiContactGraph} (h : Reachable_ref g) (x y : Int)
    (hy : y ∈ alts_of g x) : (map_find y g.nodes).isSome = true :=
  present_of_symmetric h.alts_symmetric x y hy

theorem example_nodes_reachable_ref : Reachable_ref example_nodes :=
  Reachable_ref.insert_node 4
    (Reachable_ref.insert_node 3
      (Reachable_ref.insert_node 2 (Reachable_ref.insert_node 1 Reachable_ref.empty rfl) rfl)
      rfl) rfl

theorem example_pair_reachable_ref : Reachable_ref example_pair :=
  Reachable_ref.add_alt true 1 2 example_nodes_reachable_ref (by decide)

theorem example_pairs_reachable_ref : Reachable_ref example_pairs :=
  Reachable_ref.add_alt true 3 4 example_pair_reachable_ref (by decide)

theorem example_merged_reachable_ref : Reachable_ref example_merged :=
  Reachable_ref.add_alt true 2 3 example_pairs_reachable_ref (by decide)


/-! ### The graph after `add_alt(0, 133)` -/

/-- After the call every id in an alts set is a present node. -/
theorem wide_linked_present (g1 : MultiContactGraph)
    (l : LinkedAlts example_wide_plus g1 (fun x y => x ∈ ids 0 67 ∧ y ∈ ids 66 68)) :
    ∀ x y, y ∈ alts_of g1 x → (map_find y g1.nodes).isSome = true := by
  intro x y hy
  rw [l.present]
  rcases (l.alts x y).mp hy with h | ⟨_, h⟩ | ⟨h, _⟩
  · rcases example_wide_plus_alts x y h with h | h <;>
      exact example_wide_plus_present y (by omega) (by omega)
  · rw [mem_ids] at h
    exact example_wide_plus_present y (by omega) (by omega)
  · rw [mem_ids] at h
    exact example_wide_plus_present y (by omega) (by omega)

/-- After the call the alts set of node 0 starts with node 66. -/
theorem wide_linked_head (g1 : MultiContactGraph)
    (l : LinkedAlts example_wide_plus g1 (fun x y => x ∈ ids 0 67 ∧ y ∈ ids 66 68)) :
    ∃ rest, alts_of g1 0 = 66 :: rest := by
  apply head_of_sorted _ _ (l.sorted example_wide_plus_sorted 0)
  · exact (l.alts 0 66).mpr (Or.inr (Or.inl
      ⟨(mem_ids 0 67 0).mpr (by omega), (mem_ids 66 68 66).mpr (by omega)⟩))
  · intro y hy
    rcases (l.alts 0 y).mp hy with h | ⟨_, h⟩ | ⟨_, h⟩
    · rcases example_wide_plus_alts 0 y h with h | h <;> omega
    · rw [mem_ids] at h
      omega
    · rw [mem_ids] at h
      omega

/-- After the call the alts set of node 133 starts with node 0. -/
theorem wide_linked_head_last (g1 : MultiContactGraph)
    (l : LinkedAlts example_wide_plus g1 (fun x y => x ∈ ids 0 67 ∧ y ∈ ids 66 68)) :
    ∃ rest, alts_of g1 133 = 0 :: rest := by
  apply head_of_sorted _ _ (l.sorted example_wide_plus_sorted 133)
  · exact (l.alts 133 0).mpr (Or.inr (Or.inr
      ⟨(mem_ids 0 67 0).mpr (by omega), (mem_ids 66 68 133).mpr (by omega)⟩))
  · intro y hy
    rcases (l.alts 133 y).mp hy with h | ⟨h, _⟩ | ⟨h, _⟩
    · rcases example_wide_plus_alts 133 y h with h | h <;> omega
    · rw [mem_ids] at h
      omega
    · rw [mem_ids] at h
      omega

/-- The record of a present node holds the alts set `alts_of` reads. -/
theorem node_of_present (g : MultiContactGraph) (x : Int)
    (h : (map_find x g.nodes).isSome = true) :
    ∃ n, map_find x g.nodes = some n ∧ n.alts = alts_of g x := by
  obtain ⟨n, hn⟩ := Option.isSome_iff_exists.mp h
  exact ⟨n, hn, by unfold alts_of; rw [hn]⟩

/-- A node store whose keys end with `k` ends with a record of `k`. -/
theorem split_last_key (k : Int) :
    ∀ (K : List Int) (l : List (Int × MultiNode)), l.map Prod.fst = K ++ [k] →
      ∃ init n, l = init ++ [(k, n)] ∧ init.map Prod.fst = K := by
  intro K
  induction K with
  | nil =>
    intro l h
    match l, h with
    | [(k1, n)], h =>
      simp only [List.map_cons, List.map_nil, List.nil_append, List.cons.injEq, and_true] at h
      exact ⟨[], n, by rw [h]; rfl, rfl⟩
  | cons x K ih =>
    intro l h
    match l, h with
    | p :: ps, h =>
      simp only [List.map_cons, List.cons_append, List.cons.injEq] at h
      obtain ⟨init, n, h1, h2⟩ := ih ps h.2
      exact ⟨p :: init, n, by rw [h1]; rfl, by simp [h.1, h2]⟩

/-- The loop of `get_alt_components` adds nothing once every node left is
visited. -/
theorem alt_components_loop_ref_visited (g : MultiContactGraph) :
    ∀ (rest : List (Int × MultiNode)) (visited : List Int) (found : List alt_component_t),
      (∀ p, p ∈ rest → p.1 ∈ visited) →
      alt_components_loop_ref g rest visited found = .ok found := by
  intro rest
  induction rest with
  | nil => intro _ _ _; rfl
  | cons p rest ih =>
    intro visited found h
    obtain ⟨n, m⟩ := p
    unfold alt_components_loop_ref
    rw [if_pos (h (n, m) (List.mem_cons_self _ _))]
    exact ih visited found (fun q hq => h q (List.mem_cons_of_mem _ hq))

/-- In `example_wide` a chain of alt relations from node 0 has even length
exactly when it ends in 0..66. -/
theorem example_wide_parity {x : Int} {n : Nat} (h : AltPath example_wide 0 x n) :
    n % 2 = 0 ↔ x < 67 := by
  induction h with
  | nil => simp
  | snoc _ hc ih =>
    rcases example_wide_alts _ _ hc with h | h <;> omega

set_option maxRecDepth 100000 in
theorem wide_component_invalid :
    assert_component_is_valid (ids 0 67, ids 66 67) = .threw .component_non_bipartite := by
  decide!

/-- The call with validation throws what `assert_component_is_valid` throws. -/
theorem get_alt_component_ref_validated (g : MultiContactGraph) (id : Int)
    (c : alt_component_t) (e : Error)
    (hc : bfs_loop_ref g.nodes id (bfs_fuel g.nodes) 0 1 [(id, 0)] ([], []) = .ok c)
    (hv : assert_component_is_valid c = .threw e) :
    get_alt_component_ref g id true = .threw e := by
  unfold get_alt_component_ref
  rw [hc]
  simp only [if_true, hv]

theorem example_wide_zero :
    map_find (0 : Int) example_wide.nodes = some (example_node [] (ids 67 66) 1) :=
  example_wide_first 0 (by decide)

/-! ### The claims that rest on the alt-component search -/

/-- C1: bipartiteness fails on the component of 67 and 66 nodes.
`get_alt_component(0)` on `example_wide` returns the sides 0..66 and 66..132:
node 66 is on both, so the intersection of the sides is not empty and the
call with validation throws; and 66 and its alt 67 are both on the second
side. -/
theorem alt_component_sides_overlap :
    has_node example_wide 0 = true ∧
    get_alt_component_ref example_wide 0 false = .ok (ids 0 67, ids 66 67) ∧
    (66 : Int) ∈ ids 0 67 ∧ (66 : Int) ∈ ids 66 67 ∧
    get_alt_component_ref example_wide 0 true = .threw .component_non_bipartite ∧
    (67 : Int) ∈ alts_of example_wide 66 ∧ (67 : Int) ∈ ids 66 67 := by
  refine ⟨?_, example_wide_component, (mem_ids 0 67 66).mpr (by omega),
    (mem_ids 66 67 66).mpr (by omega), ?_, ?_, (mem_ids 66 67 67).mpr (by omega)⟩
  · unfold has_node
    rw [example_wide_zero]
    rfl
  · exact get_alt_component_ref_validated example_wide 0 _ _
      ((get_alt_component_ref_ok_iff _ _ _).mp example_wide_component) wide_component_invalid
  · have h : alts_of example_wide 66 = ids 67 66 :=
      alts_of_some example_wide 66 _ (example_wide_first 66 (by decide))
    rw [h]
    exact (mem_ids 67 66 67).mpr (by omega)

/-- C19: the sides are not the parity classes on the component of 67 and 66
nodes. `get_alt_component(0)` on `example_wide` returns node 66 on the second
side, and no chain of alt relations of odd length joins node 0 to node 66. -/
theorem alt_component_side_without_odd_path :
    has_node example_wide 0 = true ∧
    get_alt_component_ref example_wide 0 false = .ok (ids 0 67, ids 66 67) ∧
    (66 : Int) ∈ ids 66 67 ∧ ¬ ∃ n, n % 2 = 1 ∧ AltPath example_wide 0 66 n := by
  refine ⟨?_, example_wide_component, (mem_ids 66 67 66).mpr (by omega), ?_⟩
  · unfold has_node
    rw [example_wide_zero]
    rfl
  · rintro ⟨n, hn, hp⟩
    have := (example_wide_parity hp).mpr (by omega)
    omega

/-- C20: the list of components has a node on both sides of an entry on the
component of 67 and 66 nodes. `get_alt_components()` on `example_wide` returns
the one entry with the sides 0..66 and 66..132, and node 66 is on both. -/
theorem alt_components_entry_overlaps :
    get_alt_components_ref example_wide = .ok [(ids 0 67, ids 66 67)] ∧
    (66 : Int) ∈ ids 0 67 ∧ (66 : Int) ∈ ids 66 67 := by
  refine ⟨?_, (mem_ids 0 67 66).mpr (by omega), (mem_ids 66 67 66).mpr (by omega)⟩
  have hn : example_wide.nodes = (0, example_node [] (ids 67 66) 1) ::
      ((ids 1 66).map (fun a => (a, example_node [] (ids 67 66) 1)) ++
        (ids 67 66).map (fun b => (b, example_node [] (ids 0 67) (-1)))) := by
    unfold example_wide
    rw [ids_succ_cons 0 66]
    rfl
  unfold get_alt_components_ref
  rw [hn]
  unfold alt_components_loop_ref
  rw [if_neg (List.not_mem_nil _)]
  simp only [example_wide_component]
  apply alt_components_loop_ref_visited
  intro p hp
  simp only [List.mem_append, List.mem_map] at hp
  rcases hp with ⟨a, ha, rfl⟩ | ⟨b, hb, rfl⟩
  · rw [mem_ids] at ha
    exact List.mem_append_left _ (List.mem_append_right _ ((mem_ids 0 67 a).mpr (by omega)))
  · rw [mem_ids] at hb
    exact List.mem_append_right _ ((mem_ids 66 67 b).mpr (by omega))

/-- C12: `set_partition` leaves a node of the second side with the label of
the first on the component of 67 and 66 nodes. `set_partition(0, 1)` on
`example_wide` returns; `get_alt_component(0)` is `(S0, S1)` with the sides
0..66 and 66..132 before and after the call; node 66 is a member of `S1` and
holds `+1` afterwards, not `-1`. -/
theorem set_partition_mislabels_second_side :
    ∃ g1, set_partition_ref example_wide 0 1 = .returned g1 ∧
      get_alt_component_ref example_wide 0 false = .ok (ids 0 67, ids 66 67) ∧
      get_alt_component_ref g1 0 false = .ok (ids 0 67, ids 66 67) ∧
      (66 : Int) ∈ ids 66 67 ∧ partition_of g1 66 = some 1 := by
  have hne : (example_node [] (ids 67 66) 1).alts ≠ [] := by
    show ids 67 66 ≠ []
    intro h
    have := congrArg List.length h
    rw [length_ids] at this
    simp at this
  obtain ⟨g1, h1, _, _, hc, hl, _⟩ := set_partition_ref_spec example_wide 0 1 _
    example_wide_zero hne (by decide) _ example_wide_component
  exact ⟨g1, h1, example_wide_component, hc, (mem_ids 66 67 66).mpr (by omega),
    hl 66 ((mem_ids 0 67 66).mpr (by omega))⟩

/-- C21: in every graph built from the empty graph by member functions that
returned, for a present node `a` and every id `b` (present or not),
`get_alt_component(a)` returns a pair `(Side0, Side1)`,
`of_same_component_side(a, b)` returns `true` exactly when `b` is in `Side0`,
and `of_same_component(a, b)` returns `true` exactly when `b` is in `Side0` or
in `Side1`. The three searches are the ones the program runs, with the popped
entry read through the references, and so are the calls that build the
graph. -/
theorem predicates_agree_with_search (g : MultiContactGraph) (hg : Reachable_ref g)
    (a b : Int) (ha : has_node g a = true) :
    ∃ c, get_alt_component_ref g a false = .ok c ∧
      of_same_component_side_ref g a b = .ok (decide (b ∈ c.1)) ∧
      of_same_component_ref g a b = .ok (decide (b ∈ c.1 ∨ b ∈ c.2)) := by
  obtain ⟨c, hc⟩ := get_alt_component_ref_returns_of_alts g a hg.alts_present ha
  exact ⟨c, hc, predicates_follow_component_ref g a b c hc⟩

theorem predicates_agree_with_search_witness :
    Reachable_ref example_merged ∧ has_node example_merged 1 = true ∧
    ∃ c, get_alt_component_ref example_merged 1 false = .ok c ∧
      of_same_component_side_ref example_merged 1 3 = .ok (decide ((3 : Int) ∈ c.1)) ∧
      of_same_component_ref example_merged 1 3 =
        .ok (decide ((3 : Int) ∈ c.1 ∨ (3 : Int) ∈ c.2)) :=
  ⟨example_merged_reachable_ref, by decide,
    predicates_agree_with_search example_merged example_merged_reachable_ref 1 3 (by decide)⟩

/-- C3: `add_alt` makes a node its own alt and gives a node of the second
merged side the label `+1` on the component of 67 and 66 nodes. On
`example_wide_plus` the nodes 0 and 133 are present, distinct and not alts;
their components are `A` with the sides 0..66 and 66..132 and `B` with the
sides 133 and nothing, so that `M0 = A0 ∪ B1` is 0..66 and `M1 = A1 ∪ B0` is
66..133; `add_alt(0, 133)` returns, and afterwards node 66, a member of both
`M0` and `M1`, is among its own alts and holds `+1`, not `-1`. -/
theorem add_alt_links_node_to_itself :
    ∃ g1, (133 : Int) ∉ alts_of example_wide_plus 0 ∧
      get_alt_component_ref example_wide_plus 0 false = .ok (ids 0 67, ids 66 67) ∧
      get_alt_component_ref example_wide_plus 133 false = .ok ([133], []) ∧
      merge_components (ids 0 67, ids 66 67) ([133], []) = (ids 0 67, ids 66 68) ∧
      add_alt_ref false example_wide_plus 0 133 = .returned g1 ∧
      (66 : Int) ∈ ids 0 67 ∧ (66 : Int) ∈ ids 66 68 ∧
      (66 : Int) ∈ alts_of g1 66 ∧ partition_of g1 66 = some 1 := by
  obtain ⟨g1, h1, l, h66, _⟩ := wide_add_alt
  have hm0 : (66 : Int) ∈ ids 0 67 := (mem_ids 0 67 66).mpr (by omega)
  have hm1 : (66 : Int) ∈ ids 66 68 := (mem_ids 66 68 66).mpr (by omega)
  refine ⟨g1, ?_, example_wide_plus_component, example_wide_plus_single, ?_, h1, hm0, hm1,
    (l.alts 66 66).mpr (Or.inr (Or.inl ⟨hm0, hm1⟩)), h66⟩
  · intro h
    rcases example_wide_plus_alts 0 133 h with h | h <;> omega
  · rw [wide_merge]
    exact congrArg₂ Prod.mk (ids_succ_append 0 66).symm (ids_succ_append 66 67).symm

/-- C4: the component after `add_alt` is not the merged pair on the component
of 67 and 66 nodes. On `example_wide_plus`, with `A` and `B` the components of
0 and 133 before the call, `add_alt(0, 133)` returns and `get_alt_component(0)`
afterwards returns a pair with node 133 on its first side, and node 133 is not
in `A0 ∪ B1`. -/
theorem add_alt_component_differs_from_merge :
    ∃ g1 c, (133 : Int) ∉ alts_of example_wide_plus 0 ∧
      get_alt_component_ref example_wide_plus 0 false = .ok (ids 0 67, ids 66 67) ∧
      get_alt_component_ref example_wide_plus 133 false = .ok ([133], []) ∧
      add_alt_ref false example_wide_plus 0 133 = .returned g1 ∧
      get_alt_component_ref g1 0 false = .ok c ∧
      (133 : Int) ∈ c.1 ∧
      (133 : Int) ∉ (merge_components (ids 0 67, ids 66 67) ([133], [])).1 ∧
      c ≠ merge_components (ids 0 67, ids 66 67) ([133], []) := by
  obtain ⟨g1, h1, l, _, _⟩ := wide_add_alt
  have hpres := wide_linked_present g1 l
  have hp : ∀ x, 0 ≤ x → x < 134 → (map_find x g1.nodes).isSome = true :=
    fun x h0 h1 => (l.present x).trans (example_wide_plus_present x h0 h1)
  obtain ⟨c, hc⟩ := get_alt_component_ref_returns_of_alts g1 0 hpres (hp 0 (by omega) (by omega))
  obtain ⟨n0, hn0, ha0⟩ := node_of_present g1 0 (hp 0 (by omega) (by omega))
  obtain ⟨n66, hn66, ha66⟩ := node_of_present g1 66 (hp 66 (by omega) (by omega))
  obtain ⟨rest, hrest⟩ := wide_linked_head g1 l
  have ht : (133 : Int) ∈ n66.alts := by
    rw [ha66]
    exact (l.alts 66 133).mpr (Or.inr (Or.inl
      ⟨(mem_ids 0 67 66).mpr (by omega), (mem_ids 66 68 133).mpr (by omega)⟩))
  have h133 := (search_two_steps g1 0 66 133 n0 n66 rest c hn0 hn66 (ha0.trans hrest)
    (by decide) ht (by decide) (by decide) hc).1
  have hnot : (133 : Int) ∉ (merge_components (ids 0 67, ids 66 67) ([133], [])).1 := by
    rw [wide_merge]
    intro h
    rcases List.mem_append.mp h with h | h
    · rw [mem_ids] at h
      omega
    · exact absurd (List.mem_singleton.mp h) (by decide)
  refine ⟨g1, c, ?_, example_wide_plus_component, example_wide_plus_single, h1, hc, h133,
    hnot, fun e => hnot (e ▸ h133)⟩
  intro h
  rcases example_wide_plus_alts 0 133 h with h | h <;> omega

/-- C29: `set_partitions` does not restore the labels on the graph that
`add_alt(0, 133)` leaves of `example_wide_plus`. With `g1` that graph, taken
for both `G1` and `G2`, and `P = g1.get_partitions()` in the order of the node
list, `g1.set_partitions(P)` returns a graph in which node 66 holds `-1`,
while it holds `+1` in `g1`. -/
theorem set_partitions_changes_a_label :
    ∃ g1 g3, add_alt_ref false example_wide_plus 0 133 = .returned g1 ∧
      set_partitions_ref g1 (get_partitions g1) = .returned g3 ∧
      partition_of g1 66 = some 1 ∧ partition_of g3 66 = some (-1) := by
  obtain ⟨g1, h1, l, h66, h133⟩ := wide_add_alt
  have hpres := wide_linked_present g1 l
  have hp : ∀ x, 0 ≤ x → x < 134 → (map_find x g1.nodes).isSome = true :=
    fun x h0 h1 => (l.present x).trans (example_wide_plus_present x h0 h1)
  have hkeys : g1.nodes.map Prod.fst = ids 0 133 ++ [133] :=
    (l.keys.trans example_wide_plus_keys).trans (ids_succ_append 0 133)
  have hnodup : (g1.nodes.map Prod.fst).Nodup := by
    rw [l.keys, example_wide_plus_keys]
    exact (sorted_ids 0 134).nodup
  obtain ⟨init, n, hsplit, hinit⟩ := split_last_key 133 _ _ hkeys
  have hfind : map_find 133 g1.nodes = some n :=
    map_find_of_mem_nodup 133 n g1.nodes hnodup (by rw [hsplit]; simp)
  have hn : n.partition = -1 := by
    unfold partition_of at h133
    rw [hfind] at h133
    simpa using h133
  have hP : get_partitions g1 =
      init.map (fun p => (p.1, p.2.partition)) ++ [(133, -1)] := by
    unfold get_partitions
    rw [hsplit, List.map_append, List.map_cons, List.map_nil, hn]
  have hlabel : ∀ x, 0 ≤ x → x < 134 →
      partition_of g1 x = some 1 ∨ partition_of g1 x = some (-1) := by
    intro x h0 h1
    apply l.labels x _ (example_wide_plus_present x h0 h1)
    by_cases hx : x < 67
    · exact ⟨66, Or.inl ⟨(mem_ids 0 67 x).mpr (by omega), (mem_ids 66 68 66).mpr (by omega)⟩⟩
    · exact ⟨0, Or.inr ⟨(mem_ids 0 67 0).mpr (by omega), (mem_ids 66 68 x).mpr (by omega)⟩⟩
  obtain ⟨g2, h2, hs2, hk2⟩ := for_each_returns
    (fun g2 => same_links g1 g2 ∧ g2.nodes.map Prod.fst = g1.nodes.map Prod.fst)
    (fun g2 (p : Int × Int) => set_partition_ref g2 p.1 p.2)
    (init.map (fun p => (p.1, p.2.partition)))
    (by
      intro ga e he hga
      obtain ⟨q, hq, rfl⟩ := List.mem_map.mp he
      have hqm : (q.1, q.2) ∈ g1.nodes := by rw [hsplit]; simp [hq]
      have hqf : map_find q.1 g1.nodes = some q.2 :=
        map_find_of_mem_nodup q.1 q.2 g1.nodes hnodup hqm
      have hqk : q.1 ∈ ids 0 134 := by
        rw [← example_wide_plus_keys, ← l.keys]
        exact List.mem_map_of_mem Prod.fst hqm
      rw [mem_ids] at hqk
      have hq0 : q.2.partition ≠ 0 := by
        have h := hlabel q.1 (by omega) (by omega)
        unfold partition_of at h
        rw [hqf] at h
        rcases h with h | h <;> simp at h <;> omega
      obtain ⟨na, hna, _⟩ := node_of_present ga q.1
        ((hga.1.2.2.1 q.1).trans (by rw [hqf]; rfl))
      obtain ⟨gb, hb, hsb, hkb⟩ := set_partition_ref_returns ga q.1 q.2.partition na
        (fun x y hy => (hga.1.2.2.1 y).trans (hpres x y (by rw [← hga.1.1 x]; exact hy)))
        hna (fun _ => hq0)
      exact ⟨gb, hb, same_links_trans hga.1 hsb, hkb.trans hga.2⟩)
    g1 ⟨same_links_refl g1, rfl⟩
  have hp2 : ∀ x, 0 ≤ x → x < 134 → (map_find x g2.nodes).isSome = true :=
    fun x h0 h1 => (hs2.2.2.1 x).trans (hp x h0 h1)
  obtain ⟨n133, hn133, ha133⟩ := node_of_present g2 133 (hp2 133 (by omega) (by omega))
  obtain ⟨n0, hn0, ha0⟩ := node_of_present g2 0 (hp2 0 (by omega) (by omega))
  obtain ⟨rest, hrest⟩ := wide_linked_head_last g1 l
  have hhead : n133.alts = 0 :: rest := by rw [ha133, hs2.1 133, hrest]
  have ht : (66 : Int) ∈ n0.alts := by
    rw [ha0, hs2.1 0]
    exact (l.alts 0 66).mpr (Or.inr (Or.inl
      ⟨(mem_ids 0 67 0).mpr (by omega), (mem_ids 66 68 66).mpr (by omega)⟩))
  obtain ⟨c, hc⟩ := get_alt_component_ref_returns_of_alts g2 133
    (fun x y hy => (hs2.2.2.1 y).trans (hpres x y (by rw [← hs2.1 x]; exact hy)))
    (hp2 133 (by omega) (by omega))
  have hside := (search_two_steps g2 133 0 66 n133 n0 rest c hn133 hn0 hhead
    (by decide) ht (by decide) (by decide) hc).1
  obtain ⟨g3, h3, _, _, _, hl, _⟩ := set_partition_ref_spec g2 133 (-1) n133 hn133
    (by rw [hhead]; simp) (by decide) c hc
  refine ⟨g1, g3, h1, ?_, h66, hl 66 hside⟩
  unfold set_partitions_ref
  rw [hP, for_each_append, h2]
  simp only [Outcome.andThen]
  rw [for_each_singleton]
  exact h3

end gfase
